import Mathlib

/-! # MemoryPool: a shallow embedding of the three-tier allocator

The development follows the C++ sources under `src/`:
`common/page.h`, `common/size_map.h`, `list/free_list.h`, `list/dynamic_free_list.h`,
`common/span.h`, `common/page_map.h`, `cache/system_alloc.h`, `cache/page_heap.h`,
`cache/central_cache.h`, `cache/thread_cache.h`.

Conventions.
* Addresses, page ids and counters are natural numbers; `SIZE_T = 2 ^ 64` is used
  explicitly wherever the source relies on (or can hit) unsigned wrap-around.
* The null pointer is the address `0`.
* A call that trips an `assert`, dereferences a null or dangling pointer, or reads past an
  array is a fault and is modelled by `none`.
* The table `size_classes` lives in `size_classes.h`, which is not part of the sources at
  hand; it is a parameter `sc : Nat → SizeClassInfo` of every function that reads it.
-/

namespace MemoryPool

/-- Number of values of a `size_t` (64-bit build). -/
def SIZE_T : Nat := 2 ^ 64

/-! ## `common/page.h` -/

/-- Constant `Page::SHIFT`. -/
def Page.SHIFT : Nat := 13

/-- Constant `Page::SIZE`, that is `1 << 13`. -/
def Page.SIZE : Nat := 1 <<< 13

/-- Constructor `Page(void* ptr)`: the page id of an address. -/
def Page.ofPtr (ptr : Nat) : Nat := ptr >>> Page.SHIFT

/-- Method `Page::start_addr` of the page with the given id. The shift is not reduced
modulo `SIZE_T`: the value is the one the source computes whenever it is below `SIZE_T`. -/
def Page.start_addr (id : Nat) : Nat := id <<< Page.SHIFT

/-! ## `common/size_map.h` -/

/-- One row `{size, pages, num_to_move, max_capacity}` of the table `size_classes`. -/
structure SizeClassInfo where
  size : Nat
  pages : Nat
  num_to_move : Nat
  max_capacity : Nat
deriving Repr, DecidableEq

/-- Constant `SizeMap::size_class_size`. -/
def SizeMap.size_class_size : Nat := 85

/-- Constant `SizeMap::max_move`. -/
def SizeMap.max_move : Nat := 128

/-- Constant `SizeMap::_max_size`. -/
def SizeMap._max_size : Nat := 262144

/-- Constant `SizeMap::_large_size`. -/
def SizeMap._large_size : Nat := 1024

/-- Constant `SizeMap::_large_size_alignment`. -/
def SizeMap._large_size_alignment : Nat := 128

/-- Constant `SizeMap::_n`, the length of the lookup array `_size_class`. -/
def SizeMap._n : Nat :=
  ((SizeMap._max_size + SizeMap._large_size_alignment - 1) >>> 7) + 121

/-- Function `SizeMap::align`: the bucket of a byte count; `none` when the assertion
`n <= _max_size` fires. -/
def SizeMap.align (n : Nat) : Option Nat :=
  if n ≤ SizeMap._large_size then some ((n + 7) >>> 3)
  else if n ≤ SizeMap._max_size then
    some ((n + SizeMap._large_size_alignment - 1 + (120 <<< 7)) >>> 7)
  else none

/-- Inner loop of the initialiser in `SizeMap::get_size_class`:
`for (mx = size_classes[i].size; j <= mx; j += sizeof(void*)) _size_class[align(j)] = i;`
run for at most `fuel` iterations. It returns the final `j` and array, `none` when
`align` faults or the fuel does not suffice. -/
def SizeMap.fill_class (i mx : Nat) : Nat → Nat → (Nat → Nat) → Option (Nat × (Nat → Nat))
  | 0, j, t => if j ≤ mx then none else some (j, t)
  | fuel + 1, j, t =>
    if j ≤ mx then
      match SizeMap.align j with
      | none => none
      | some b => SizeMap.fill_class i mx fuel (j + 8) (fun k => if k = b then i else t k)
    else some (j, t)

/-- Outer loop of the initialiser, over the class indices in `is` (in order), threading the
shared counter `j` and the array. The inner loop gets `mx / 8 + 1` iterations of fuel, which
covers every `j` from `0` to `mx` in steps of `8`. -/
def SizeMap.fill (sc : Nat → SizeClassInfo) :
    List Nat → Nat → (Nat → Nat) → Option (Nat × (Nat → Nat))
  | [], j, t => some (j, t)
  | i :: is, j, t =>
    match SizeMap.fill_class i (sc i).size ((sc i).size / 8 + 1) j t with
    | none => none
    | some (j1, t1) => SizeMap.fill sc is j1 t1

/-- The array `_size_class` after the one-time initialisation in `get_size_class`:
`for (i = 0, j = 0; i < size_class_size - 1; ++i) ...` on the zero-initialised static array. -/
def SizeMap.init_size_class (sc : Nat → SizeClassInfo) : Option (Nat → Nat) :=
  (SizeMap.fill sc (List.range (SizeMap.size_class_size - 1)) 0 (fun _ => 0)).map Prod.snd

/-- Function `SizeMap::get_size_class`: `_size_class[align(n)]` after initialisation. -/
def SizeMap.get_size_class (sc : Nat → SizeClassInfo) (n : Nat) : Option Nat :=
  match SizeMap.init_size_class sc with
  | none => none
  | some t =>
    match SizeMap.align n with
    | none => none
    | some b => some (t b)

/-- Function `SizeMap::size`. -/
def SizeMap.size (sc : Nat → SizeClassInfo) (size_class : Nat) : Nat := (sc size_class).size

/-- Function `SizeMap::num_to_move`. -/
def SizeMap.num_to_move (sc : Nat → SizeClassInfo) (size_class : Nat) : Nat :=
  (sc size_class).num_to_move

/-- Function `SizeMap::pages`. -/
def SizeMap.pages (sc : Nat → SizeClassInfo) (size_class : Nat) : Nat := (sc size_class).pages

/-- The requirements the specification puts on a size-class table, as far as the byte-size
lookup is concerned: row 0 is the unused all-zero row, sizes are strictly increasing over
`0..84`, sizes up to 1024 are multiples of 8, larger sizes are multiples of 128, and the last
size is `_max_size`. -/
def SizeMap.TableOk (sc : Nat → SizeClassInfo) : Prop :=
  (sc 0).size = 0 ∧
  (∀ i, i < 84 → (sc i).size < (sc (i + 1)).size) ∧
  (∀ i, i ≤ 84 → (sc i).size ≤ 1024 → (sc i).size % 8 = 0) ∧
  (∀ i, i ≤ 84 → 1024 < (sc i).size → (sc i).size % 128 = 0) ∧
  (sc 84).size = SizeMap._max_size

/-- A concrete table meeting `SizeMap.TableOk`: sizes `8 * i` for the classes `1..83` (one
page per span, 32 objects per batch) and `262144` bytes for class 84 (32 pages, batches
of 2). -/
def demoClasses (i : Nat) : SizeClassInfo :=
  if i = 0 then ⟨0, 0, 0, 0⟩
  else if i < 84 then ⟨8 * i, 1, 32, 2048⟩
  else ⟨262144, 32, 2, 128⟩

/-! ## Unsigned arithmetic -/

/-- Subtraction of `size_t` values: wraps around below zero. -/
def usub (a b : Nat) : Nat := if b ≤ a then a - b else a + SIZE_T - b

/-! ## `common/stats.h` -/

/-- Class `Stats`: four counters (relaxed atomics in the source). -/
structure Stats where
  _fetched : Nat
  _returned : Nat
  _allocated : Nat
  _deallocated : Nat
deriving Repr, DecidableEq

/-- Constructor `Stats()`. -/
def Stats.new : Stats := ⟨0, 0, 0, 0⟩

/-- Method `Stats::fetched_incr`. -/
def Stats.fetched_incr (s : Stats) (incr : Nat) : Stats := { s with _fetched := s._fetched + incr }

/-- Method `Stats::returned_incr`. -/
def Stats.returned_incr (s : Stats) (incr : Nat) : Stats :=
  { s with _returned := s._returned + incr }

/-- Method `Stats::allocated_incr`. -/
def Stats.allocated_incr (s : Stats) (incr : Nat) : Stats :=
  { s with _allocated := s._allocated + incr }

/-- Method `Stats::deallocated_incr`. -/
def Stats.deallocated_incr (s : Stats) (incr : Nat) : Stats :=
  { s with _deallocated := s._deallocated + incr }

/-! ## `list/free_list.h`

The singly linked list threaded through the free objects is represented by the sequence of
object addresses reached from the head `_list` by following the stored next pointers; the
head is null exactly when the sequence is empty. The link of a free object is a pointer
stored in its first eight bytes, so the sequence describes the chain of the source for
objects of at least eight bytes that are not null and do not overlap. -/

/-- Class `FreeList`: the chain reached from the head, and the counter `_n`. -/
structure FreeList where
  _list : List Nat
  _n : Nat
deriving Repr, DecidableEq

/-- Constructor `FreeList()`. -/
def FreeList.new : FreeList := ⟨[], 0⟩

/-- Method `FreeList::size`. -/
def FreeList.size (l : FreeList) : Nat := l._n

/-- Method `FreeList::empty`: `_list == nullptr`. -/
def FreeList.empty (l : FreeList) : Bool := l._list.isEmpty

/-- Method `FreeList::push`. -/
def FreeList.push (l : FreeList) (ptr : Nat) : FreeList :=
  { _list := ptr :: l._list, _n := l._n + 1 }

/-- Method `FreeList::pop`: the popped object and the list left; a fault on a null head. -/
def FreeList.pop (l : FreeList) : Option (Nat × FreeList) :=
  match l._list with
  | [] => none
  | p :: rest => some (p, { _list := rest, _n := usub l._n 1 })

/-- Method `FreeList::push_batch(batch, n)`. The loop bound `n - 1` wraps for `n = 0`, so the
loop then runs past the array: a fault, as is reading more entries than `batch` holds. -/
def FreeList.push_batch (l : FreeList) (batch : List Nat) (n : Nat) : Option FreeList :=
  if n = 0 then none
  else if batch.length < n then none
  else some { _list := batch.take n ++ l._list, _n := l._n + n }

/-- Method `FreeList::pop_batch(batch, n)`: the `n` objects written to `batch` and the list
left; walking past the end of the chain dereferences null. -/
def FreeList.pop_batch (l : FreeList) (n : Nat) : Option (List Nat × FreeList) :=
  if l._list.length < n then none
  else some (l._list.take n, { _list := l._list.drop n, _n := usub l._n n })

/-! ## `list/dynamic_free_list.h` -/

/-- Class `DynamicFreeList`. -/
structure DynamicFreeList extends FreeList where
  _low_water : Nat
  _max_length : Nat
  _length_overages : Nat
deriving Repr, DecidableEq

/-- Constructor `DynamicFreeList()`. -/
def DynamicFreeList.new : DynamicFreeList :=
  { toFreeList := FreeList.new, _low_water := 0, _max_length := 1, _length_overages := 0 }

/-- Method `DynamicFreeList::clear_low_water`. -/
def DynamicFreeList.clear_low_water (l : DynamicFreeList) : DynamicFreeList :=
  { l with _low_water := l.size }

/-- Method `DynamicFreeList::max_length_decr`. -/
def DynamicFreeList.max_length_decr (l : DynamicFreeList) (incr : Nat) : DynamicFreeList :=
  { l with _max_length := usub l._max_length incr }

/-- Method `DynamicFreeList::pop`. -/
def DynamicFreeList.pop (l : DynamicFreeList) : Option (Nat × DynamicFreeList) :=
  let l1 := if usub l.size 1 < l._low_water then l.clear_low_water else l
  match l1.toFreeList.pop with
  | none => none
  | some (p, f) => some (p, { l1 with toFreeList := f })

/-- Method `DynamicFreeList::pop_batch`. -/
def DynamicFreeList.pop_batch (l : DynamicFreeList) (n : Nat) :
    Option (List Nat × DynamicFreeList) :=
  match l.toFreeList.pop_batch n with
  | none => none
  | some (batch, f) =>
    let l1 : DynamicFreeList := { l with toFreeList := f }
    some (batch, if l1.size < l1._low_water then l1.clear_low_water else l1)

/-! ## `list/intrusive_list.h`

A list is represented by the sequence of the elements linked between the sentinel's `_next`
and the sentinel itself. An element is named by the pointer to it. -/

/-- Class `IntrusiveList<Span>` (`SpanList`). -/
abbrev SpanList := List Nat

/-- Method `IntrusiveList::empty`. -/
def SpanList.empty (l : SpanList) : Bool := l.isEmpty

/-- Method `IntrusiveList::size`. -/
def SpanList.size (l : SpanList) : Nat := l.length

/-- Method `IntrusiveList::first` (of a non-empty list). -/
def SpanList.first (l : SpanList) : Option Nat := l.head?

/-- Method `IntrusiveList::last` (of a non-empty list). -/
def SpanList.last (l : SpanList) : Option Nat := l.getLast?

/-- Method `IntrusiveList::prepend`: links the item right after the sentinel. -/
def SpanList.prepend (l : SpanList) (item : Nat) : SpanList := item :: l

/-- Method `IntrusiveList::append`: links the item right before the sentinel. -/
def SpanList.append (l : SpanList) (item : Nat) : SpanList := l ++ [item]

/-- Method `IntrusiveList::remove`: unlinks the item from the list it is linked in. -/
def SpanList.remove (l : SpanList) (item : Nat) : SpanList := l.erase item

/-! ## `common/span.h` -/

/-- Enumeration `Span::STATUS`. -/
inductive STATUS where
  | USING
  | IDLE
deriving Repr, DecidableEq

/-- Class `Span` (the list links of the base class `SpanList::Elem` are carried by the
`SpanList` the span is linked in). -/
structure Span where
  _first_page : Nat
  _num_pages : Nat
  _status : STATUS
  _list : FreeList
  _allocated : Nat
  _total : Nat
deriving Repr, DecidableEq

/-- Constructor `Span(void* ptr, size_t num_pages)`. -/
def Span.new (ptr num_pages : Nat) : Span :=
  { _first_page := Page.ofPtr ptr, _num_pages := num_pages, _status := STATUS.IDLE,
    _list := FreeList.new, _allocated := 0, _total := 0 }

/-- Method `Span::empty`: every object is handed out. -/
def Span.empty (s : Span) : Bool := s._allocated == s._total

/-- Method `Span::full`: no object is handed out. -/
def Span.full (s : Span) : Bool := s._allocated == 0

/-- Method `Span::start_addr`. -/
def Span.start_addr (s : Span) : Nat := Page.start_addr s._first_page

/-- Method `Span::end_addr`. Not reduced modulo `SIZE_T`: this is the value the source
computes for every span that ends below `2 ^ 64`. -/
def Span.end_addr (s : Span) : Nat := Page.start_addr (s._first_page + s._num_pages)

/-- Method `Span::page_addr`. -/
def Span.page_addr (s : Span) (n : Nat) : Nat := Page.start_addr (s._first_page + n)

/-- Method `Span::num_bytes`. -/
def Span.num_bytes (s : Span) : Nat := s._num_pages * Page.SIZE

/-- Method `Span::alloc(batch, n)`: the objects written to `batch` and the span afterwards. -/
def Span.alloc (s : Span) (n : Nat) : Option (List Nat × Span) :=
  let cnt := min n s._list.size
  match s._list.pop_batch cnt with
  | none => none
  | some (batch, l) => some (batch, { s with _list := l, _allocated := s._allocated + cnt })

/-- Method `Span::dealloc`. -/
def Span.dealloc (s : Span) (ptr : Nat) : Span :=
  { s with _list := s._list.push ptr, _allocated := usub s._allocated 1 }

/-- The loop of `Span::init_free_list`: `cnt` times `_list.push(start); start += size_obj`. -/
def Span.push_slots (size_obj : Nat) : Nat → Nat → FreeList → FreeList
  | 0, _, l => l
  | cnt + 1, start, l => Span.push_slots size_obj cnt (start + size_obj) (l.push start)

/-- Method `Span::init_free_list`; dividing by an object size of zero is a fault. -/
def Span.init_free_list (s : Span) (size_obj : Nat) : Option Span :=
  if size_obj = 0 then none
  else
    let total := (s.end_addr - s.start_addr) / size_obj
    some { s with _allocated := 0, _total := total,
                  _list := Span.push_slots size_obj total s.start_addr s._list }

/-! ## `common/page_map.h`

The map `_mp` from start addresses to spans is represented by the list of the registered
spans, each filed under its own start address. This is exact for the sources: a span is
inserted under `start_addr()`, and its first page is only ever changed (in
`PageHeap::dealloc`) after it has been erased. Accordingly a `Span*` is represented by the
start address under which the span is registered, and the `Span` object it points to is the
record stored in the map. The mutexes are not modelled: every function runs to completion. -/

/-- Class `PageMap`, that is its member `_mp`. -/
abbrev PageMap := List Span

/-- Method `PageMap::insert`: `_mp[s->start_addr()] = s`. -/
def PageMap.insert (m : PageMap) (s : Span) : PageMap :=
  s :: m.filter (fun t => decide (t.start_addr ≠ s.start_addr))

/-- Method `PageMap::erase`: `_mp.erase(s->start_addr())`. -/
def PageMap.erase (m : PageMap) (s : Span) : PageMap :=
  m.filter (fun t => decide (t.start_addr ≠ s.start_addr))

/-- The entry before `_mp.upper_bound(ptr)`: the span with the greatest start address that is
at most `ptr`; `none` when `upper_bound` is `begin()`. -/
def PageMap.floor : PageMap → Nat → Option Span
  | [], _ => none
  | s :: m, ptr =>
    match PageMap.floor m ptr with
    | none => if s.start_addr ≤ ptr then some s else none
    | some t => if s.start_addr ≤ ptr ∧ t.start_addr < s.start_addr then some s else some t

/-- Method `PageMap::find_span`. -/
def PageMap.find_span (m : PageMap) (ptr : Nat) : Option Span :=
  match PageMap.floor m ptr with
  | none => none
  | some s => if ptr ≥ s.end_addr then none else some s

/-- Method `PageMap::find_prev`. -/
def PageMap.find_prev (m : PageMap) (span : Span) : Option Span :=
  PageMap.find_span m (usub span.start_addr 1)

/-- Method `PageMap::find_next`. -/
def PageMap.find_next (m : PageMap) (span : Span) : Option Span :=
  PageMap.find_span m span.end_addr

/-- Dereference of a `Span*`: the registered span that starts at the address. -/
def PageMap.get (m : PageMap) (span : Nat) : Option Span :=
  m.find? (fun t => decide (t.start_addr = span))

/-- Write through a `Span*`: the registered span with the start address of `s` becomes `s`
(the start address itself is never written while a span is registered). -/
def PageMap.set (m : PageMap) (s : Span) : PageMap :=
  m.map (fun t => if t.start_addr = s.start_addr then s else t)

/-! ## `cache/system_alloc.h`

The operating system is an oracle: `mmap k` is the address returned by the `k`-th call of
`mmap` (`MAP_FAILED` on failure) and `mprotect k` tells whether the `k`-th call of `mprotect`
succeeds. The allocator state counts the calls made so far. -/

/-- Answers of the operating system, by call number. -/
structure OS where
  mmap : Nat → Nat
  mprotect : Nat → Bool

/-- Value `MAP_FAILED`, that is `(void*) -1`. -/
def MAP_FAILED : Nat := SIZE_T - 1

/-- Class `SystemAlloc`: the region `[first, second)`, the statistics, and the numbers of
`mmap` and `mprotect` calls made so far. -/
structure SystemAlloc where
  _region : Nat × Nat
  _stats : Stats
  mmap_calls : Nat
  mprotect_calls : Nat

/-- Constructor `SystemAlloc()` (value-initialised by `Singleton`). -/
def SystemAlloc.new : SystemAlloc :=
  { _region := (0, 0), _stats := Stats.new, mmap_calls := 0, mprotect_calls := 0 }

/-- Constant `SystemAlloc::min_system_alloc`, 2 MiB. -/
def SystemAlloc.min_system_alloc : Nat := 2 <<< 20

/-- Constant `SystemAlloc::min_mmap_alloc`, 1 GiB. -/
def SystemAlloc.min_mmap_alloc : Nat := 1 <<< 30

/-- Constant `SystemAlloc::max_mmap_alloc`, `2 ^ 46`. -/
def SystemAlloc.max_mmap_alloc : Nat := 1 <<< 46

/-- The 64-bit word `~(align - 1)`. -/
def SystemAlloc.mask (align : Nat) : Nat := SIZE_T - 1 - usub align 1

/-- Function `SystemAlloc::round_down`: `n & ~(align - 1)`. -/
def SystemAlloc.round_down (n align : Nat) : Nat := n &&& SystemAlloc.mask align

/-- Function `SystemAlloc::round_up`: `round_down(n + align - 1, align)`. -/
def SystemAlloc.round_up (n align : Nat) : Nat :=
  SystemAlloc.round_down ((n + usub align 1) % SIZE_T) align

/-- Function `SystemAlloc::mmap_align`: maps `n + align - 1` bytes and returns the first
address in the mapping that is a multiple of `align`; a failed mapping gives null, because
`MAP_FAILED` plus one byte wraps to zero. A zero `align` is a division by zero. -/
def SystemAlloc.mmap_align (os : OS) (sa : SystemAlloc) (_n align : Nat) (_flag : Bool) :
    Option (Nat × SystemAlloc) :=
  if align = 0 then none
  else
    let ptr := os.mmap sa.mmap_calls
    some ((ptr + (usub align (ptr % align)) % align) % SIZE_T,
          { sa with mmap_calls := sa.mmap_calls + 1 })

/-- Function `SystemAlloc::alloc_from_region`. -/
def SystemAlloc.alloc_from_region (os : OS) (sa : SystemAlloc) (n align : Nat) :
    (Nat × Nat) × SystemAlloc :=
  let start := sa._region.1
  let end_ := sa._region.2
  let res := (usub end_ n) &&& SystemAlloc.mask align
  if res < start then ((0, 0), sa)
  else
    let actual := usub end_ res
    if os.mprotect sa.mprotect_calls = false then
      ((0, 0), { sa with mprotect_calls := sa.mprotect_calls + 1 })
    else
      ((res, actual),
       { sa with _region := (start, res), _stats := sa._stats.allocated_incr actual,
                 mprotect_calls := sa.mprotect_calls + 1 })

/-- Function `SystemAlloc::alloc_from_new_region`. -/
def SystemAlloc.alloc_from_new_region (os : OS) (sa : SystemAlloc) (n align : Nat) :
    Option ((Nat × Nat) × SystemAlloc) :=
  match SystemAlloc.mmap_align os sa SystemAlloc.min_mmap_alloc SystemAlloc.min_mmap_alloc
      false with
  | none => none
  | some (ptr, sa1) =>
    if ptr = 0 then some ((0, 0), sa1)
    else
      let start := ptr
      let sa2 := { sa1 with _region := (start, (start + SystemAlloc.min_mmap_alloc) % SIZE_T) }
      some (SystemAlloc.alloc_from_region os sa2 n align)

/-- Function `SystemAlloc::alloc(n, align)`: the pair `(pointer, actual_bytes)` and the
allocator afterwards. The second statement of the source, `n = round_up(align,
min_system_alloc)`, is transcribed as written. -/
def SystemAlloc.alloc (os : OS) (sa : SystemAlloc) (_n align : Nat) :
    Option ((Nat × Nat) × SystemAlloc) :=
  let align := max align SystemAlloc.min_system_alloc
  let n := SystemAlloc.round_up align SystemAlloc.min_system_alloc
  if n > SystemAlloc.max_mmap_alloc ∨ align > SystemAlloc.max_mmap_alloc then some ((0, 0), sa)
  else if n > SystemAlloc.min_mmap_alloc ∨ align > SystemAlloc.min_mmap_alloc then
    match SystemAlloc.mmap_align os sa n align true with
    | none => none
    | some (ptr, sa1) =>
      if ptr ≠ 0 then some ((ptr, n), { sa1 with _stats := sa1._stats.allocated_incr n })
      else some ((0, 0), sa1)
  else
    if sa._region.1 ≠ 0 then
      match SystemAlloc.alloc_from_region os sa n align with
      | ((ptr, actual), sa1) =>
        if ptr ≠ 0 then some ((ptr, actual), sa1)
        else SystemAlloc.alloc_from_new_region os sa1 n align
    else SystemAlloc.alloc_from_new_region os sa n align

/-! ## `cache/page_heap.h`, `cache/central_cache.h`: the process-wide singletons -/

/-- Class `PageHeap`: the `_n + 1` span lists and the statistics. -/
structure PageHeap where
  _lists : Nat → SpanList
  _stats : Stats

/-- Class `CentralCache`: one span list per size class and the statistics. -/
structure CentralCache where
  _lists : Nat → SpanList
  _stats : Stats

/-- The singletons `SystemAlloc`, `PageMap`, `PageHeap` and `CentralCache`. -/
structure World where
  sa : SystemAlloc
  pm : PageMap
  ph : PageHeap
  cc : CentralCache

/-- The singletons right after construction. -/
def World.new : World :=
  { sa := SystemAlloc.new, pm := [],
    ph := { _lists := fun _ => [], _stats := Stats.new },
    cc := { _lists := fun _ => [], _stats := Stats.new } }

/-- Assignment to one element of an array of span lists. -/
def setList (lists : Nat → SpanList) (i : Nat) (l : SpanList) : Nat → SpanList :=
  fun k => if k = i then l else lists k

/-- Constant `PageHeap::_n`, that is `1 << (20 - Page::SHIFT)`. -/
def PageHeap._n : Nat := 1 <<< (20 - Page.SHIFT)

/-- Function `PageHeap::span_idx`. -/
def PageHeap.span_idx (span : Span) : Nat := usub (min span._num_pages (PageHeap._n + 1)) 1

/-- Function `PageHeap::add_to_list`; an index outside `_lists` is a fault. -/
def PageHeap.add_to_list (ph : PageHeap) (span : Span) : Option PageHeap :=
  let i := PageHeap.span_idx span
  if i ≤ PageHeap._n then
    some { ph with _lists := setList ph._lists i ((ph._lists i).prepend span.start_addr) }
  else none

/-- Function `PageHeap::remove_from_list`; an index outside `_lists` is a fault. -/
def PageHeap.remove_from_list (ph : PageHeap) (span : Span) : Option PageHeap :=
  let i := PageHeap.span_idx span
  if i ≤ PageHeap._n then
    some { ph with _lists := setList ph._lists i ((ph._lists i).remove span.start_addr) }
  else none

/-- Function `PageHeap::create_span`: returns the pointer to the new span. -/
def PageHeap.create_span (w : World) (ptr num_page : Nat) (status : STATUS) :
    Option (Nat × World) :=
  let span := Span.new ptr num_page
  let pm1 := PageMap.insert w.pm span
  if status = STATUS.IDLE then
    match PageHeap.add_to_list w.ph span with
    | none => none
    | some ph1 => some (span.start_addr, { w with pm := pm1, ph := ph1 })
  else
    some (span.start_addr,
          { w with pm := PageMap.set pm1 { span with _status := STATUS.USING } })

/-- Function `PageHeap::destroy_span`, applied to a registered span. -/
def PageHeap.destroy_span (w : World) (span : Span) : Option World :=
  let pm1 := PageMap.erase w.pm span
  match PageHeap.remove_from_list w.ph span with
  | none => none
  | some ph1 => some { w with pm := pm1, ph := ph1 }

/-- Function `PageHeap::carve`; a failed assertion or a dangling pointer is a fault. -/
def PageHeap.carve (w : World) (span n : Nat) : Option (Nat × World) :=
  match PageMap.get w.pm span with
  | none => none
  | some s =>
    if ¬ (s._num_pages ≥ n) then none
    else
      match PageHeap.remove_from_list w.ph s with
      | none => none
      | some ph1 =>
        if s._num_pages = n then
          some (span, { w with ph := ph1,
                               pm := PageMap.set w.pm { s with _status := STATUS.USING } })
        else
          let num_page := s._num_pages - n
          let s1 := { s with _num_pages := num_page }
          match PageHeap.add_to_list ph1 s1 with
          | none => none
          | some ph2 =>
            PageHeap.create_span { w with ph := ph2, pm := PageMap.set w.pm s1 }
              (s1.page_addr num_page) n STATUS.USING

/-- Function `PageHeap::fetch_from_system`: the pointer to the new span, or null. -/
def PageHeap.fetch_from_system (os : OS) (w : World) (n : Nat) : Option (Option Nat × World) :=
  match SystemAlloc.alloc os w.sa ((n * Page.SIZE) % SIZE_T) Page.SIZE with
  | none => none
  | some ((ptr, actual), sa1) =>
    if ptr = 0 then some (none, { w with sa := sa1 })
    else if actual % Page.SIZE ≠ 0 then none
    else
      let w1 := { w with sa := sa1,
                         ph := { w.ph with _stats := w.ph._stats.fetched_incr actual } }
      match PageHeap.create_span w1 ptr (actual / Page.SIZE) STATUS.IDLE with
      | none => none
      | some (span, w2) => some (some span, w2)

/-- Function `PageHeap::find_from_large`. -/
def PageHeap.find_from_large (ph : PageHeap) (_n : Nat) : Option Nat :=
  if (ph._lists PageHeap._n).empty then none else (ph._lists PageHeap._n).first

/-- The search loop of `PageHeap::alloc`, `for (i = n; i < _n; ++i)`, with `cnt` indices
left to visit starting at `i`. -/
def PageHeap.find_small (ph : PageHeap) : Nat → Nat → Option Nat
  | 0, _ => none
  | cnt + 1, i =>
    if ¬ (ph._lists i).empty then (ph._lists i).first
    else PageHeap.find_small ph cnt (i + 1)

/-- Function `PageHeap::alloc`: the pointer to the span handed out, or null. -/
def PageHeap.alloc (os : OS) (w : World) (n : Nat) : Option (Option Nat × World) :=
  let span := PageHeap.find_small w.ph (PageHeap._n - n) n
  let span := if span = none then PageHeap.find_from_large w.ph n else span
  let fetched : Option (Option Nat × World) :=
    if span = none then PageHeap.fetch_from_system os w n else some (span, w)
  match fetched with
  | none => none
  | some (none, w1) => some (none, w1)
  | some (some sp, w1) =>
    let w2 := { w1 with ph := { w1.ph with _stats := w1.ph._stats.allocated_incr n } }
    match PageHeap.carve w2 sp n with
    | none => none
    | some (res, w3) => some (some res, w3)

/-- The left-coalescing block of `PageHeap::dealloc`, for the span `span` that has just been
erased from the map: the span and the world afterwards. -/
def PageHeap.merge_prev (w : World) (span : Span) : Option (Span × World) :=
  match PageMap.find_prev w.pm span with
  | none => some (span, w)
  | some prev =>
    if prev._status = STATUS.IDLE then
      let span1 := { span with _first_page := prev._first_page,
                               _num_pages := span._num_pages + prev._num_pages }
      match PageHeap.destroy_span w prev with
      | none => none
      | some w1 => some (span1, w1)
    else some (span, w)

/-- The right-coalescing block of `PageHeap::dealloc`. -/
def PageHeap.merge_next (w : World) (span : Span) : Option (Span × World) :=
  match PageMap.find_next w.pm span with
  | none => some (span, w)
  | some next =>
    if next._status = STATUS.IDLE then
      let span1 := { span with _num_pages := span._num_pages + next._num_pages }
      match PageHeap.destroy_span w next with
      | none => none
      | some w1 => some (span1, w1)
    else some (span, w)

/-- Function `PageHeap::dealloc`; a failed assertion or a dangling pointer is a fault. -/
def PageHeap.dealloc (w : World) (span : Nat) : Option World :=
  match PageMap.get w.pm span with
  | none => none
  | some s0 =>
    if s0._status ≠ STATUS.USING then none
    else
      let ph0 := { w.ph with _stats := w.ph._stats.deallocated_incr s0._num_pages }
      let s1 := { s0 with _status := STATUS.IDLE }
      let w1 := { w with ph := ph0, pm := PageMap.erase w.pm s1 }
      match PageHeap.merge_prev w1 s1 with
      | none => none
      | some (s2, w2) =>
        match PageHeap.merge_next w2 s2 with
        | none => none
        | some (s3, w3) =>
          match PageHeap.add_to_list w3.ph s3 with
          | none => none
          | some ph4 => some { w3 with ph := ph4, pm := PageMap.insert w3.pm s3 }

/-! ## `cache/central_cache.h` -/

/-- Constant `CentralCache::_n`. -/
def CentralCache._n : Nat := SizeMap.size_class_size

/-- The `while` loop of `CentralCache::fetch_objects`, with `batch` the objects collected so
far (`total` is its length). An iteration either completes the request, or unlinks the first
span, or leaves the loop stuck for good; the fuel given by `fetch_objects` therefore runs out
only when the source loop does not terminate. -/
def CentralCache.fetch_objects_loop (size_class n : Nat) :
    Nat → World → List Nat → Option (List Nat × World)
  | 0, w, batch =>
    if ¬ (w.cc._lists size_class).empty ∧ batch.length ≠ n then none else some (batch, w)
  | fuel + 1, w, batch =>
    if ¬ (w.cc._lists size_class).empty ∧ batch.length ≠ n then
      match (w.cc._lists size_class).first with
      | none => none
      | some span =>
        match PageMap.get w.pm span with
        | none => none
        | some s =>
          match s.alloc (n - batch.length) with
          | none => none
          | some (objs, s1) =>
            let w1 := { w with pm := PageMap.set w.pm s1 }
            let lists1 := setList w1.cc._lists size_class ((w1.cc._lists size_class).remove span)
            let w2 := if s1.empty then { w1 with cc := { w1.cc with _lists := lists1 } } else w1
            CentralCache.fetch_objects_loop size_class n fuel w2 (batch ++ objs)
    else some (batch, w)

/-- Function `CentralCache::fetch_objects`: the objects written to `batch` (their number is
the return value) and the world afterwards. -/
def CentralCache.fetch_objects (w : World) (size_class n : Nat) : Option (List Nat × World) :=
  if ¬ (size_class > 0 ∧ size_class < SizeMap.size_class_size) then none
  else
    CentralCache.fetch_objects_loop size_class n ((w.cc._lists size_class).length + 1) w []

/-- The `while (temp < n)` loop of `CentralCache::fetch_from_page_heap`. Every span that is
fetched adds its object count to `temp`, so `n` iterations suffice whenever a span of the
class holds at least one object. -/
def CentralCache.fetch_spans_loop (os : OS) (sc : Nat → SizeClassInfo)
    (size_class n page_num : Nat) : Nat → World → Nat → Option World
  | 0, w, temp => if temp < n then none else some w
  | fuel + 1, w, temp =>
    if temp < n then
      match PageHeap.alloc os w page_num with
      | none => none
      | some (none, w1) => some w1
      | some (some span, w1) =>
        match PageMap.get w1.pm span with
        | none => none
        | some s =>
          match s.init_free_list (SizeMap.size sc size_class) with
          | none => none
          | some s1 =>
            let lists1 := setList w1.cc._lists size_class ((w1.cc._lists size_class).prepend span)
            let w2 : World :=
              { w1 with
                pm := PageMap.set w1.pm s1
                cc := { _stats := w1.cc._stats.fetched_incr s._num_pages, _lists := lists1 } }
            CentralCache.fetch_spans_loop os sc size_class n page_num fuel w2
              (temp + s1._total)
    else some w

/-- Function `CentralCache::fetch_from_page_heap`. -/
def CentralCache.fetch_from_page_heap (os : OS) (sc : Nat → SizeClassInfo) (w : World)
    (size_class n : Nat) : Option (List Nat × World) :=
  if ¬ (size_class > 0 ∧ size_class < SizeMap.size_class_size) then none
  else
    match CentralCache.fetch_spans_loop os sc size_class n (SizeMap.pages sc size_class) n w 0
      with
    | none => none
    | some w1 => CentralCache.fetch_objects w1 size_class n

/-- Function `CentralCache::alloc(size_class, batch, n)`: the objects written to `batch`
(their number is the return value) and the world afterwards. -/
def CentralCache.alloc (os : OS) (sc : Nat → SizeClassInfo) (w : World) (size_class n : Nat) :
    Option (List Nat × World) :=
  if ¬ (size_class > 0 ∧ size_class < SizeMap.size_class_size) then none
  else if n = 0 then some ([], w)
  else
    match CentralCache.fetch_objects w size_class n with
    | none => none
    | some (batch, w1) =>
      let more : Option (List Nat × World) :=
        if batch.length ≠ n then
          match CentralCache.fetch_from_page_heap os sc w1 size_class (n - batch.length) with
          | none => none
          | some (batch2, w2) => some (batch ++ batch2, w2)
        else some (batch, w1)
      match more with
      | none => none
      | some (res, w3) =>
        some (res, { w3 with cc := { w3.cc with
                                     _stats := w3.cc._stats.allocated_incr res.length } })

/-- Function `CentralCache::return_to_page_heap`, for a non-null span. -/
def CentralCache.return_to_page_heap (w : World) (size_class span : Nat) : Option World :=
  if ¬ (size_class > 0 ∧ size_class < SizeMap.size_class_size) then none
  else
    match PageMap.get w.pm span with
    | none => none
    | some s =>
      let lists1 := setList w.cc._lists size_class ((w.cc._lists size_class).remove span)
      let w1 : World :=
        { w with cc := { _stats := w.cc._stats.returned_incr s._num_pages, _lists := lists1 } }
      PageHeap.dealloc w1 span

/-- One iteration of the loop of `CentralCache::dealloc`, for the object `ptr`. -/
def CentralCache.dealloc_object (w : World) (size_class ptr : Nat) : Option World :=
  match PageMap.find_span w.pm ptr with
  | none => some w
  | some s =>
    let lists1 :=
      if s.empty then
        setList w.cc._lists size_class ((w.cc._lists size_class).prepend s.start_addr)
      else w.cc._lists
    let s1 := s.dealloc ptr
    let w1 : World :=
      { w with pm := PageMap.set w.pm s1
               cc := { _stats := w.cc._stats.deallocated_incr 1, _lists := lists1 } }
    if s1.full then CentralCache.return_to_page_heap w1 size_class s1.start_addr
    else some w1

/-- The loop of `CentralCache::dealloc` over the objects read from `batch`. -/
def CentralCache.dealloc_loop (size_class : Nat) : List Nat → World → Option World
  | [], w => some w
  | ptr :: rest, w =>
    match CentralCache.dealloc_object w size_class ptr with
    | none => none
    | some w1 => CentralCache.dealloc_loop size_class rest w1

/-- Function `CentralCache::dealloc(size_class, batch, n)`; reading more entries than
`batch` holds is a fault. -/
def CentralCache.dealloc (w : World) (size_class : Nat) (batch : List Nat) (n : Nat) :
    Option World :=
  if ¬ (size_class > 0 ∧ size_class < SizeMap.size_class_size) then none
  else if n = 0 then some w
  else if batch.length < n then none
  else CentralCache.dealloc_loop size_class (batch.take n) w

/-! ## `cache/thread_cache.h` -/

/-- Class `ThreadCache`. -/
structure ThreadCache where
  _lists : Nat → DynamicFreeList
  _total_bytes : Nat
  _stats : Stats

/-- Constructor `ThreadCache()`. -/
def ThreadCache.new : ThreadCache :=
  { _lists := fun _ => DynamicFreeList.new, _total_bytes := 0, _stats := Stats.new }

/-- Constant `ThreadCache::_max_list_objects`. -/
def ThreadCache._max_list_objects : Nat := 8192

/-- Constant `ThreadCache::_max_overages`. -/
def ThreadCache._max_overages : Nat := 3

/-- Assignment to one element of the array of per-class lists. -/
def ThreadCache.setList (tc : ThreadCache) (size_class : Nat) (l : DynamicFreeList) :
    ThreadCache :=
  { tc with _lists := fun k => if k = size_class then l else tc._lists k }

/-- Function `ThreadCache::fetch_from_central_cache`: the object returned (null is `0`), the
world and the thread cache afterwards. -/
def ThreadCache.fetch_from_central_cache (os : OS) (sc : Nat → SizeClassInfo) (w : World)
    (tc : ThreadCache) (size_class : Nat) : Option (Nat × World × ThreadCache) :=
  if ¬ (size_class > 0 ∧ size_class < SizeMap.size_class_size) then none
  else
    let list := tc._lists size_class
    if ¬ list.empty then none
    else
      let batch_size := SizeMap.num_to_move sc size_class
      if ¬ (batch_size ≤ SizeMap.max_move) then none
      else
        match CentralCache.alloc os sc w size_class batch_size with
        | none => none
        | some (batch, w1) =>
          let cnt := batch.length
          if cnt = 0 then some (0, w1, tc)
          else
            match list.toFreeList.push_batch (batch.drop 1) (usub cnt 1) with
            | none => none
            | some f =>
              let list1 : DynamicFreeList := { list with toFreeList := f }
              let list2 : DynamicFreeList :=
                if list1._max_length < batch_size then
                  { list1 with _max_length := list1._max_length + 1 }
                else
                  let temp := min (list1._max_length + batch_size) ThreadCache._max_list_objects
                  { list1 with _max_length := temp - temp % batch_size }
              let tc1 : ThreadCache :=
                { tc with _stats := tc._stats.fetched_incr cnt
                          _total_bytes := tc._total_bytes + SizeMap.size sc size_class * cnt }
              some (batch.headD 0, w1, tc1.setList size_class list2)

/-- Function `ThreadCache::alloc`: the object returned (null is `0`), the world and the
thread cache afterwards. -/
def ThreadCache.alloc (os : OS) (sc : Nat → SizeClassInfo) (w : World) (tc : ThreadCache)
    (size_class : Nat) : Option (Nat × World × ThreadCache) :=
  if ¬ (size_class > 0 ∧ size_class < SizeMap.size_class_size) then none
  else
    let got : Option (Nat × World × ThreadCache) :=
      if ¬ (tc._lists size_class).empty then
        match (tc._lists size_class).pop with
        | none => none
        | some (object, l) => some (object, w, tc.setList size_class l)
      else ThreadCache.fetch_from_central_cache os sc w tc size_class
    match got with
    | none => none
    | some (object, w1, tc1) =>
      if object ≠ 0 then
        some (object, w1,
              { tc1 with _total_bytes := usub tc1._total_bytes (SizeMap.size sc size_class)
                         _stats := tc1._stats.allocated_incr 1 })
      else some (object, w1, tc1)

/-- The `while (n >= batch_size)` loop of `ThreadCache::return_to_central_cache`; it does not
terminate for a batch size of zero, which exhausts any fuel. -/
def ThreadCache.return_batches (size_class batch_size : Nat) :
    Nat → World → DynamicFreeList → Nat → Option (World × DynamicFreeList × Nat)
  | 0, w, list, n => if n ≥ batch_size then none else some (w, list, n)
  | fuel + 1, w, list, n =>
    if n ≥ batch_size then
      match list.pop_batch batch_size with
      | none => none
      | some (batch, list1) =>
        match CentralCache.dealloc w size_class batch batch_size with
        | none => none
        | some w1 => ThreadCache.return_batches size_class batch_size fuel w1 list1
                       (n - batch_size)
    else some (w, list, n)

/-- Function `ThreadCache::return_to_central_cache`. -/
def ThreadCache.return_to_central_cache (sc : Nat → SizeClassInfo) (w : World)
    (tc : ThreadCache) (size_class n : Nat) : Option (World × ThreadCache) :=
  if ¬ (size_class > 0 ∧ size_class < SizeMap.size_class_size) then none
  else if n = 0 then some (w, tc)
  else
    let batch_size := SizeMap.num_to_move sc size_class
    if ¬ (batch_size ≤ SizeMap.max_move) then none
    else
      let list := tc._lists size_class
      let n := if list.size < n then list.size else n
      let tc1 : ThreadCache :=
        { tc with _total_bytes := usub tc._total_bytes (n * SizeMap.size sc size_class)
                  _stats := tc._stats.returned_incr n }
      match ThreadCache.return_batches size_class batch_size n w list n with
      | none => none
      | some (w1, list1, n1) =>
        if n1 > 0 then
          match list1.pop_batch n1 with
          | none => none
          | some (batch, list2) =>
            match CentralCache.dealloc w1 size_class batch n1 with
            | none => none
            | some w2 => some (w2, tc1.setList size_class list2)
        else some (w1, tc1.setList size_class list1)

/-- Function `ThreadCache::list_too_long`. -/
def ThreadCache.list_too_long (sc : Nat → SizeClassInfo) (w : World) (tc : ThreadCache)
    (size_class : Nat) : Option (World × ThreadCache) :=
  if ¬ (size_class > 0 ∧ size_class < SizeMap.size_class_size) then none
  else
    let batch_size := SizeMap.num_to_move sc size_class
    match ThreadCache.return_to_central_cache sc w tc size_class
        (min (tc._lists size_class).size batch_size) with
    | none => none
    | some (w1, tc1) =>
      let list := tc1._lists size_class
      if list._max_length < batch_size then
        some (w1, tc1.setList size_class { list with _max_length := list._max_length + 1 })
      else if list._max_length > batch_size then
        let list1 : DynamicFreeList :=
          { list with _length_overages := list._length_overages + 1 }
        if list1._length_overages > ThreadCache._max_overages then
          some (w1, tc1.setList size_class
                      { list1.max_length_decr batch_size with _length_overages := 0 })
        else some (w1, tc1.setList size_class list1)
      else some (w1, tc1)

/-- Function `ThreadCache::dealloc`. -/
def ThreadCache.dealloc (sc : Nat → SizeClassInfo) (w : World) (tc : ThreadCache)
    (size_class ptr : Nat) : Option (World × ThreadCache) :=
  if ¬ (size_class > 0 ∧ size_class < SizeMap.size_class_size) then none
  else if ptr = 0 then some (w, tc)
  else
    let list := tc._lists size_class
    let list1 : DynamicFreeList := { list with toFreeList := list.toFreeList.push ptr }
    let tc1 : ThreadCache :=
      { (tc.setList size_class list1) with
        _total_bytes := tc._total_bytes + SizeMap.size sc size_class
        _stats := tc._stats.deallocated_incr 1 }
    if list1.size > list1._max_length then ThreadCache.list_too_long sc w tc1 size_class
    else some (w, tc1)

/-! ## Sample environment -/

/-- An operating system that serves 60000 mappings before it runs out of address space:
the `k`-th mapping starts `k` times `2 ^ 31` bytes below `0x7f1234567000`, and every
`mprotect` succeeds. -/
def demoOS : OS :=
  { mmap := fun k => if k < 60000 then 0x7f1234567000 - k * 2 ^ 31 else MAP_FAILED
    mprotect := fun _ => true }

/-! ## Well-formedness of the Page Map -/

/-- The byte ranges of two spans do not overlap: one ends before the other starts. -/
def Span.disjoint (a b : Span) : Prop :=
  a.end_addr ≤ b.start_addr ∨ b.end_addr ≤ a.start_addr

instance : DecidableRel Span.disjoint :=
  fun a b => inferInstanceAs (Decidable (a.end_addr ≤ b.start_addr ∨ b.end_addr ≤ a.start_addr))

/-- The registered spans have at least one page each and pairwise disjoint byte ranges. -/
def PageMap.WF (m : PageMap) : Prop :=
  (∀ s ∈ m, 1 ≤ s._num_pages) ∧ (∀ a ∈ m, ∀ b ∈ m, a = b ∨ Span.disjoint a b)

/-- The address `p` lies in the byte range of the span. -/
def Span.contains (s : Span) (p : Nat) : Prop := s.start_addr ≤ p ∧ p < s.end_addr

/-- Three spans of 3, 5 and 248 pages that tile the pages 1000 to 1255. -/
def demoMap : PageMap :=
  [ { Span.new (1248 * 8192) 5 with _status := STATUS.USING },
    { Span.new (1253 * 8192) 3 with _status := STATUS.USING },
    Span.new (1000 * 8192) 248 ]

/-! ## Single-threaded call sequences -/

/-- As many as `k` successive calls `ThreadCache::alloc(size_class)` that each return a
non-null object; `none` when a call faults or returns null. -/
def ThreadCache.alloc_n (os : OS) (sc : Nat → SizeClassInfo) (size_class : Nat) :
    Nat → World → ThreadCache → Option (World × ThreadCache)
  | 0, w, tc => some (w, tc)
  | k + 1, w, tc =>
    match ThreadCache.alloc os sc w tc size_class with
    | none => none
    | some (object, w1, tc1) =>
      if object = 0 then none else ThreadCache.alloc_n os sc size_class k w1 tc1

/-- Scenario S1: on a fresh allocator, `alloc` of the 16-byte class (class 2 of
`demoClasses`), `dealloc` of the object, `alloc` again; the two objects returned. -/
def scenarioS1 : Option (Nat × Nat) :=
  match ThreadCache.alloc demoOS demoClasses World.new ThreadCache.new 2 with
  | none => none
  | some (p, w1, tc1) =>
    match ThreadCache.dealloc demoClasses w1 tc1 2 p with
    | none => none
    | some (w2, tc2) =>
      match ThreadCache.alloc demoOS demoClasses w2 tc2 2 with
      | none => none
      | some (q, _, _) => some (p, q)

/-- The same round trip in the state reached by one earlier `alloc` of the class: the object
allocated second is freed and the class is allocated once more; the objects returned by the
second and the third `alloc`. -/
def scenarioRoundTrip : Option (Nat × Nat) :=
  match ThreadCache.alloc demoOS demoClasses World.new ThreadCache.new 2 with
  | none => none
  | some (_, w1, tc1) =>
    match ThreadCache.alloc demoOS demoClasses w1 tc1 2 with
    | none => none
    | some (p, w2, tc2) =>
      match ThreadCache.dealloc demoClasses w2 tc2 2 p with
      | none => none
      | some (w3, tc3) =>
        match ThreadCache.alloc demoOS demoClasses w3 tc3 2 with
        | none => none
        | some (q, _, _) => some (p, q)

/-! ## Invariants of the Page Heap -/

/-- The contract of `mmap` for the mappings the allocator asks for (regions of
`2 ^ 31 - 1` bytes): a mapping that succeeds starts at a non-null, page-aligned address,
lies inside the address space, and does not overlap any other mapping. -/
def OS.Sane (os : OS) : Prop :=
  (∀ k, os.mmap k ≠ MAP_FAILED →
    0 < os.mmap k ∧ os.mmap k % 4096 = 0 ∧ os.mmap k + 2 ^ 31 ≤ SIZE_T) ∧
  (∀ j k, j ≠ k → os.mmap j ≠ MAP_FAILED → os.mmap k ≠ MAP_FAILED →
    os.mmap j + (2 ^ 31 - 1) ≤ os.mmap k ∨ os.mmap k + (2 ^ 31 - 1) ≤ os.mmap j)

/-- Start of the 1 GiB region inside the `k`-th mapping, as `mmap_align` computes it. -/
def OS.region (os : OS) (k : Nat) : Nat :=
  (os.mmap k + (usub (2 ^ 30) (os.mmap k % 2 ^ 30)) % 2 ^ 30) % SIZE_T

/-- Some registered IDLE span starts at `x` and belongs on list `i`. -/
def PageMap.idleAt (m : PageMap) (x i : Nat) : Prop :=
  ∃ s ∈ m, s.start_addr = x ∧ s._status = STATUS.IDLE ∧ PageHeap.span_idx s = i

/-- The span lists of the Page Heap hold exactly the registered IDLE spans, each once and on
the list that `span_idx` selects. -/
def PageHeap.ListsOk (lists : Nat → SpanList) (m : PageMap) : Prop :=
  (∀ i, (lists i).Nodup) ∧ (∀ i x, x ∈ lists i ↔ PageMap.idleAt m x i)

/-- The span lies in a mapped region, above the unused part if that region is the current
one. -/
def SpanInRegion (os : OS) (sa : SystemAlloc) (s : Span) : Prop :=
  ∃ k, k < sa.mmap_calls ∧ os.mmap k ≠ MAP_FAILED ∧
    os.region k ≤ s.start_addr ∧ s.end_addr ≤ os.region k + 2 ^ 30 ∧
    (sa._region.1 = os.region k → sa._region.2 ≤ s.start_addr)

/-- No registered IDLE span ends where another registered IDLE span starts, except possibly
the span that starts at `x`. -/
def PageMap.CoalescedExcept (m : PageMap) (x : Option Nat) : Prop :=
  ∀ a ∈ m, ∀ b ∈ m, a._status = STATUS.IDLE → b._status = STATUS.IDLE →
    a.end_addr = b.start_addr → some a.start_addr = x

/-- Coalescing maximality: no two registered IDLE spans are address-adjacent. -/
def PageMap.Coalesced (m : PageMap) : Prop :=
  ∀ a ∈ m, ∀ b ∈ m, a._status = STATUS.IDLE → b._status = STATUS.IDLE →
    a.end_addr ≠ b.start_addr

/-- The current region is either unset or the lower part of a mapped region, ending at a
2 MiB boundary. -/
def RegionOk (os : OS) (sa : SystemAlloc) : Prop :=
  sa._region = (0, 0) ∨
    ∃ k, k < sa.mmap_calls ∧ os.mmap k ≠ MAP_FAILED ∧ sa._region.1 = os.region k ∧
      sa._region.1 ≤ sa._region.2 ∧ sa._region.2 ≤ os.region k + 2 ^ 30 ∧
      sa._region.2 % 2 ^ 21 = 0

/-- The part of the Page Heap invariant that holds at every step: the map is well formed,
the lists match the IDLE spans, the current region is the unused lower part of a mapped
region and 2 MiB aligned, and every span lies in a mapped region, above the unused part if
that region is the current one. -/
structure HeapCore (os : OS) (w : World) : Prop where
  wf : PageMap.WF w.pm
  lists : PageHeap.ListsOk w.ph._lists w.pm
  region : RegionOk os w.sa
  inRegion : ∀ s ∈ w.pm, SpanInRegion os w.sa s

/-- The Page Heap invariant between calls. -/
structure HeapInv (os : OS) (w : World) : Prop where
  core : HeapCore os w
  coalesced : PageMap.Coalesced w.pm

/-- The registered IDLE span that holds the byte before `s`, as `PageHeap::dealloc` looks it
up after erasing `s` from the map. -/
def PageHeap.idle_prev (m : PageMap) (s : Span) : Option Span :=
  (PageMap.find_prev (PageMap.erase m s) s).filter (fun p => p._status == STATUS.IDLE)

/-- The registered IDLE span that holds the byte after `s`, as `PageHeap::dealloc` looks it
up after erasing `s` from the map. -/
def PageHeap.idle_next (m : PageMap) (s : Span) : Option Span :=
  (PageMap.find_next (PageMap.erase m s) s).filter (fun q => q._status == STATUS.IDLE)

/-- The span that `PageHeap::dealloc` builds from `s` and the neighbours it absorbs. -/
def PageHeap.merged (s : Span) (prev next : Option Span) : Span :=
  { s with _status := STATUS.IDLE
           _first_page := (prev.map (fun p => p._first_page)).getD s._first_page
           _num_pages := s._num_pages + (prev.map (fun p => p._num_pages)).getD 0 +
             (next.map (fun q => q._num_pages)).getD 0 }

/-- A call of the Page Heap interface. -/
inductive HeapCall where
  | alloc (n : Nat)
  | dealloc (span : Nat)

/-- One call on the Page Heap. The state is the world and the list of the spans that
`alloc` has returned and that have not been passed to `dealloc` since; `none` when the call
faults (`alloc` may return null, which is no fault). -/
def PageHeap.step (os : OS) (st : World × List Nat) : HeapCall → Option (World × List Nat)
  | HeapCall.alloc n =>
    match PageHeap.alloc os st.1 n with
    | none => none
    | some (none, w1) => some (w1, st.2)
    | some (some span, w1) => some (w1, span :: st.2)
  | HeapCall.dealloc span =>
    match PageHeap.dealloc st.1 span with
    | none => none
    | some w1 => some (w1, st.2.filter (fun x => decide (x ≠ span)))

/-- A sequence of calls on the Page Heap; `none` when a call faults. -/
def PageHeap.run (os : OS) :
    List HeapCall → World × List Nat → Option (World × List Nat)
  | [], st => some st
  | call :: calls, st =>
    match PageHeap.step os st call with
    | none => none
    | some st1 => PageHeap.run os calls st1

/-- The request of a call is for at least one page. -/
def HeapCall.valid : HeapCall → Prop
  | HeapCall.alloc n => 1 ≤ n
  | HeapCall.dealloc _ => True

/-- Scenario S3: `alloc(3)` then `alloc(5)` on a fresh Page Heap. -/
def callsS3 : List HeapCall := [HeapCall.alloc 3, HeapCall.alloc 5]

/-- The Page Heap after scenario S3, with the two spans returned. -/
def stateS3 : World × List Nat :=
  (PageHeap.run demoOS callsS3 (World.new, [])).getD (World.new, [])

/-- The rows of the table that the caches read, for the classes `1..84`: an object has at
least one byte, a span of the class holds at least one object, and a span has at most as
many pages as the longest small list of the Page Heap. -/
def SizeMap.ClassesOk (sc : Nat → SizeClassInfo) : Prop :=
  ∀ c, 0 < c → c < SizeMap.size_class_size →
    1 ≤ SizeMap.size sc c ∧ SizeMap.size sc c ≤ SizeMap.pages sc c * Page.SIZE ∧
    SizeMap.pages sc c ≤ PageHeap._n

/-- The address `p` is one of the `_total` object slots of the span, for objects of `sz`
bytes. -/
def Span.slot (s : Span) (sz p : Nat) : Prop :=
  ∃ i, i < s._total ∧ p = s.start_addr + i * sz

/-- A span of the Central Cache cut into objects of `sz` bytes: the slots fit into the span,
the free list holds distinct slots, its counter is its length, and `_allocated` counts the
slots that are not on the free list. -/
structure SpanOk (s : Span) (sz : Nat) : Prop where
  total_pos : 1 ≤ s._total
  fits : s._total * sz ≤ s._num_pages * Page.SIZE
  nodup : s._list._list.Nodup
  slots : ∀ p ∈ s._list._list, s.slot sz p
  size : s._list._n = s._list._list.length
  count : s._allocated + s._list._list.length = s._total

/-- The invariant of the Central Cache between calls. `cls` gives the size class of the
USING span registered at an address, `O p c` says that the object `p` has been handed out
for class `c` and has not come back. Every USING span is a span of its class, it is on the
list of the class exactly when it has a free object, and every object handed out is a slot
of a USING span of its class and is not on the free list of that span. -/
structure CentralInv (os : OS) (sc : Nat → SizeClassInfo) (w : World) (cls : Nat → Nat)
    (O : Nat → Nat → Prop) : Prop where
  heap : HeapInv os w
  cls_ok : ∀ s ∈ w.pm, s._status = STATUS.USING →
    0 < cls s.start_addr ∧ cls s.start_addr < SizeMap.size_class_size
  span_ok : ∀ s ∈ w.pm, s._status = STATUS.USING →
    SpanOk s (SizeMap.size sc (cls s.start_addr))
  lists_nodup : ∀ c, (w.cc._lists c).Nodup
  listed : ∀ c x, x ∈ w.cc._lists c ↔
    ∃ s ∈ w.pm, s.start_addr = x ∧ s._status = STATUS.USING ∧ cls x = c ∧
      s._allocated < s._total
  out_ok : ∀ p c, O p c →
    ∃ s ∈ w.pm, s._status = STATUS.USING ∧ cls s.start_addr = c ∧
      s.slot (SizeMap.size sc c) p ∧ p ∉ s._list._list

/-- A call of the Central Cache interface. -/
inductive CentralCall where
  | alloc (size_class n : Nat)
  | dealloc (size_class : Nat) (batch : List Nat) (n : Nat)

/-- One call on the Central Cache. The state is the world and the list of the objects
handed out and not yet returned, each with its class. `none` when the call faults, and when
`dealloc` is passed an object that is not handed out for the class, or one object twice. -/
def CentralCache.step (os : OS) (sc : Nat → SizeClassInfo) (st : World × List (Nat × Nat)) :
    CentralCall → Option (World × List (Nat × Nat))
  | CentralCall.alloc c n =>
    match CentralCache.alloc os sc st.1 c n with
    | none => none
    | some (batch, w1) => some (w1, batch.map (fun p => (p, c)) ++ st.2)
  | CentralCall.dealloc c batch n =>
    if (batch.take n).Nodup ∧ ∀ p ∈ batch.take n, (p, c) ∈ st.2 then
      match CentralCache.dealloc st.1 c batch n with
      | none => none
      | some w1 => some (w1, st.2.filter (fun e => decide (e.1 ∉ batch.take n)))
    else none

/-- A sequence of calls on the Central Cache. -/
def CentralCache.run (os : OS) (sc : Nat → SizeClassInfo) :
    List CentralCall → World × List (Nat × Nat) → Option (World × List (Nat × Nat))
  | [], st => some st
  | call :: calls, st =>
    match CentralCache.step os sc st call with
    | none => none
    | some st1 => CentralCache.run os sc calls st1

/-- A call of the Thread Cache interface. -/
inductive ThreadCall where
  | alloc (size_class : Nat)
  | dealloc (size_class ptr : Nat)

/-- One call on the Thread Cache of the one thread. The state is the world, the thread
cache and the list of the live objects (returned by `alloc`, not yet freed), each with its
class. `none` when the call faults, and when `dealloc` is passed an object that is not live
for the class. -/
def ThreadCache.step (os : OS) (sc : Nat → SizeClassInfo)
    (st : World × ThreadCache × List (Nat × Nat)) :
    ThreadCall → Option (World × ThreadCache × List (Nat × Nat))
  | ThreadCall.alloc c =>
    match ThreadCache.alloc os sc st.1 st.2.1 c with
    | none => none
    | some (p, w1, tc1) => some (w1, tc1, if p = 0 then st.2.2 else (p, c) :: st.2.2)
  | ThreadCall.dealloc c p =>
    if (p, c) ∈ st.2.2 then
      match ThreadCache.dealloc sc st.1 st.2.1 c p with
      | none => none
      | some (w1, tc1) => some (w1, tc1, st.2.2.filter (fun e => decide (e.1 ≠ p)))
    else none

/-- A sequence of calls on the Thread Cache. -/
def ThreadCache.run (os : OS) (sc : Nat → SizeClassInfo) :
    List ThreadCall → World × ThreadCache × List (Nat × Nat) →
      Option (World × ThreadCache × List (Nat × Nat))
  | [], st => some st
  | call :: calls, st =>
    match ThreadCache.step os sc st call with
    | none => none
    | some st1 => ThreadCache.run os sc calls st1

/-- The invariant of a cache of objects on top of the Central Cache, with `L c` the objects
cached for class `c` and `live` the objects in use: the objects handed out by the Central
Cache are the live ones and the cached ones; no object is live twice, cached twice for a
class, or both live and cached. -/
structure CacheInv (os : OS) (sc : Nat → SizeClassInfo) (w : World) (L : Nat → List Nat)
    (live : List (Nat × Nat)) (cls : Nat → Nat) : Prop where
  central : CentralInv os sc w cls (fun p c => (p, c) ∈ live ∨ p ∈ L c)
  live_nodup : (live.map Prod.fst).Nodup
  lists_nodup : ∀ c, (L c).Nodup
  apart : ∀ p c k, (p, c) ∈ live → p ∉ L k

/-- The invariant of the one thread cache: `CacheInv` for the chains of its lists. -/
def ThreadInv (os : OS) (sc : Nat → SizeClassInfo) (w : World) (tc : ThreadCache)
    (live : List (Nat × Nat)) (cls : Nat → Nat) : Prop :=
  CacheInv os sc w (fun c => (tc._lists c)._list) live cls

/-- A sequence of Central Cache calls: three objects of class 2, one object of class 84,
and the second object of class 2 given back. -/
def callsCentral : List CentralCall :=
  [CentralCall.alloc 2 3, CentralCall.alloc 84 1, CentralCall.dealloc 2 [139717433622496] 1]

/-- The world and the objects handed out after `callsCentral` on a fresh allocator. -/
def centralS : World × List (Nat × Nat) :=
  (CentralCache.run demoOS demoClasses callsCentral (World.new, [])).getD (World.new, [])

/-- A sequence of Thread Cache calls: two objects of class 2 and one of class 3 are
allocated, then the first one is freed. -/
def callsThread : List ThreadCall :=
  [ThreadCall.alloc 2, ThreadCall.alloc 2, ThreadCall.alloc 3,
    ThreadCall.dealloc 2 139717433622512]

/-- The world, the thread cache and the live objects after `callsThread` on a fresh
allocator. -/
def threadS : World × ThreadCache × List (Nat × Nat) :=
  (ThreadCache.run demoOS demoClasses callsThread (World.new, ThreadCache.new, [])).getD
    (World.new, ThreadCache.new, [])

/-! ## Destructors and `SystemAlloc::dealloc` -/

/-- Function `SystemAlloc::dealloc(ptr, n)`: the value returned and the allocator afterwards.
`advised` tells whether the `madvise` call that ends the retry loop succeeds (the loop
repeats the call while the answer is `EAGAIN`). -/
def SystemAlloc.dealloc (sa : SystemAlloc) (ptr n : Nat) (advised : Bool) :
    Bool × SystemAlloc :=
  let new_start := ptr
  let new_end := (new_start + n) % SIZE_T
  let new_start := SystemAlloc.round_up new_start Page.SIZE
  let new_end := SystemAlloc.round_down new_end Page.SIZE
  if new_end ≤ new_start then (false, sa)
  else (advised, { sa with _stats := sa._stats.deallocated_incr (new_end - new_start) })

/-- Function `PageHeap::return_to_system`, for a non-null span. The value returned by
`SystemAlloc::dealloc` is discarded by the source, so the answer of `madvise` does not
matter here. -/
def PageHeap.return_to_system (w : World) (span : Nat) : Option World :=
  match PageMap.get w.pm span with
  | none => none
  | some s =>
    let ph1 := { w.ph with _stats := w.ph._stats.returned_incr s.num_bytes }
    let start := s.start_addr
    let bytes := s.num_bytes
    match PageHeap.destroy_span { w with ph := ph1 } s with
    | none => none
    | some w1 => some { w1 with sa := (SystemAlloc.dealloc w1.sa start bytes true).2 }

/-- The loop `while (!list.empty()) return_to_system(list.first())` of `~PageHeap` for the
list with index `i`. Every iteration unlinks the first span of the list when that span
belongs on the list, so fuel equal to the length of the list runs out only when the source
loop does not terminate. -/
def PageHeap.drain_list (i : Nat) : Nat → World → Option World
  | 0, w => if (w.ph._lists i).empty then some w else none
  | fuel + 1, w =>
    if (w.ph._lists i).empty then some w
    else
      match (w.ph._lists i).first with
      | none => none
      | some span =>
        match PageHeap.return_to_system w span with
        | none => none
        | some w1 => PageHeap.drain_list i fuel w1

/-- The loop `for (i = 1; i <= _n; ++i)` of `~PageHeap`, with `cnt` indices left to visit
starting at `i`. -/
def PageHeap.destroy_loop : Nat → Nat → World → Option World
  | 0, _, w => some w
  | cnt + 1, i, w =>
    match PageHeap.drain_list i (w.ph._lists i).length w with
    | none => none
    | some w1 => PageHeap.destroy_loop cnt (i + 1) w1

/-- Destructor `PageHeap::~PageHeap`: the lists with the indices `1` to `_n` are drained. -/
def PageHeap.destroy (w : World) : Option World :=
  PageHeap.destroy_loop PageHeap._n 1 w

/-- The loop `for (i = 1; i < size_class_size; ++i)` of `~ThreadCache`, with `cnt` classes
left to visit starting at `i`. -/
def ThreadCache.destroy_loop (sc : Nat → SizeClassInfo) :
    Nat → Nat → World → ThreadCache → Option (World × ThreadCache)
  | 0, _, w, tc => some (w, tc)
  | cnt + 1, i, w, tc =>
    if (tc._lists i).empty then ThreadCache.destroy_loop sc cnt (i + 1) w tc
    else
      match ThreadCache.return_to_central_cache sc w tc i (tc._lists i).size with
      | none => none
      | some (w1, tc1) => ThreadCache.destroy_loop sc cnt (i + 1) w1 tc1

/-- Destructor `ThreadCache::~ThreadCache`. -/
def ThreadCache.destroy (sc : Nat → SizeClassInfo) (w : World) (tc : ThreadCache) :
    Option (World × ThreadCache) :=
  ThreadCache.destroy_loop sc (SizeMap.size_class_size - 1) 1 w tc

/-! ## The objects returned by a thread cache -/

/-- The counter of every list of the thread cache is the number of objects linked in it. -/
def ThreadCache.Counted (tc : ThreadCache) : Prop :=
  ∀ c, (tc._lists c)._n = (tc._lists c)._list.length

/-- The number of the addresses in `objs` that lie in the byte range of the span. -/
def Span.held (s : Span) (objs : List Nat) : Nat :=
  objs.countP (fun p => decide (s.start_addr ≤ p ∧ p < s.end_addr))

/-- A call on a span: `Span::alloc(dst, k)` or `Span::dealloc(ptr)`. -/
inductive SpanCall where
  | alloc (k : Nat)
  | dealloc (ptr : Nat)

/-- One call on a span. The state is the span and the objects that `Span::alloc` has handed
out and that have not been passed to `Span::dealloc` since; `none` when the call faults. -/
def Span.step (st : Span × List Nat) : SpanCall → Option (Span × List Nat)
  | SpanCall.alloc k =>
    match st.1.alloc k with
    | none => none
    | some (objs, s1) => some (s1, objs ++ st.2)
  | SpanCall.dealloc ptr => some (st.1.dealloc ptr, st.2.erase ptr)

/-- A sequence of calls on a span; `none` when a call faults. -/
def Span.run : List SpanCall → Span × List Nat → Option (Span × List Nat)
  | [], st => some st
  | call :: calls, st =>
    match Span.step st call with
    | none => none
    | some st1 => Span.run calls st1

/-- Every `dealloc` of the sequence returns an object that is handed out and not yet
returned at the time of the call. -/
def Span.Legal : List SpanCall → Span × List Nat → Prop
  | [], _ => True
  | SpanCall.alloc k :: calls, st =>
    ∀ st1, Span.step st (SpanCall.alloc k) = some st1 → Span.Legal calls st1
  | SpanCall.dealloc ptr :: calls, st =>
    ptr ∈ st.2 ∧ Span.Legal calls (st.1.dealloc ptr, st.2.erase ptr)

/-- The calls of the span scenario: three objects are taken, one is returned, five more are
asked for. -/
def callsSpan : List SpanCall :=
  [SpanCall.alloc 3, SpanCall.dealloc 86016, SpanCall.alloc 5]

/-! ## Scenarios for the destructors, the low-water mark and a short batch -/

/-- A free list of two objects whose low-water mark equals its size. -/
def lowWaterList : DynamicFreeList :=
  { toFreeList := { _list := [4096, 8192], _n := 2 }
    _low_water := 2, _max_length := 1, _length_overages := 0 }

/-- Two one-page spans are taken from a fresh Page Heap and the first one is given back: it
cannot be merged, as the span below it is in use and nothing is mapped above it. -/
def callsOnePage : List HeapCall :=
  [HeapCall.alloc 1, HeapCall.alloc 1, HeapCall.dealloc 139717433614336]

/-- The world after `callsOnePage`. -/
def heapOnePage : World :=
  ((PageHeap.run demoOS callsOnePage (World.new, [])).getD (World.new, [])).1

/-- An operating system with memory for one region only: the first `mmap` and the first
`mprotect` succeed, every later call fails. -/
def smallOS : OS :=
  { mmap := fun k => if k = 0 then 0x7f1234567000 else MAP_FAILED
    mprotect := fun k => decide (k = 0) }

/-- One object of class 1 and six objects of class 84 (32 pages each with `demoClasses`) are
allocated from a fresh thread cache; 31 pages of the only region are then left over. -/
def callsOneLeft : List ThreadCall :=
  [ThreadCall.alloc 1, ThreadCall.alloc 84, ThreadCall.alloc 84, ThreadCall.alloc 84,
   ThreadCall.alloc 84, ThreadCall.alloc 84, ThreadCall.alloc 84]

/-- The state after `callsOneLeft` with `smallOS`. -/
def stateOneLeft : World × ThreadCache × List (Nat × Nat) :=
  (ThreadCache.run smallOS demoClasses callsOneLeft (World.new, ThreadCache.new, [])).getD
    (World.new, ThreadCache.new, [])

/-! ## Scenarios for `PageHeap::carve` and the search of `PageHeap::alloc` -/

/-- One span of three pages is taken from a fresh Page Heap. -/
def callsCarve : List HeapCall := [HeapCall.alloc 3]

/-- The world after `callsCarve`: the 3-page span is in use, the other 253 pages of the
mapped 2 MiB form an IDLE span on the large list. -/
def heapCarve : World :=
  ((PageHeap.run demoOS callsCarve (World.new, [])).getD (World.new, [])).1

/-- The IDLE span of 253 pages in `heapCarve`. -/
def spanCarve : Span :=
  { _first_page := 17055350528, _num_pages := 253, _status := STATUS.IDLE,
    _list := FreeList.new, _allocated := 0, _total := 0 }

/-- One span of 128 pages is taken from a fresh Page Heap. -/
def callsHalf : List HeapCall := [HeapCall.alloc 128]

/-- The world after `callsHalf`: the upper 128 pages of the mapped 2 MiB are in use, the
lower 128 pages form an IDLE span on the list for 128 pages (index 127). -/
def heapHalf : World :=
  ((PageHeap.run demoOS callsHalf (World.new, [])).getD (World.new, [])).1

/-! ## The quota of a list of the thread cache -/

/-- The quota of a list is in range for the batch size `bs`: `max_length` lies between 1
and `_max_list_objects`, and it is a multiple of `bs` once it has reached `bs`. -/
def DynamicFreeList.QuotaOk (bs : Nat) (l : DynamicFreeList) : Prop :=
  1 ≤ l._max_length ∧ l._max_length ≤ ThreadCache._max_list_objects ∧
  (bs ≤ l._max_length → l._max_length % bs = 0)

/-- The ways in which one call changes the quota fields of a list, for the batch size `bs`:
not at all; slow start, `max_length` grows by one; a refill at or above the batch size,
`max_length` grows by `bs`, capped at `_max_list_objects` and rounded down to a multiple of
`bs`; an overflow above the batch size that is counted; an overflow above the batch size
that shrinks `max_length` by `bs` and resets the counter. -/
def DynamicFreeList.QuotaStep (bs : Nat) (l l1 : DynamicFreeList) : Prop :=
  (l1._max_length = l._max_length ∧ l1._length_overages = l._length_overages) ∨
  (l._max_length < bs ∧ l1._max_length = l._max_length + 1 ∧
    l1._length_overages = l._length_overages) ∨
  (bs ≤ l._max_length ∧
    l1._max_length = min (l._max_length + bs) ThreadCache._max_list_objects -
      min (l._max_length + bs) ThreadCache._max_list_objects % bs ∧
    l1._length_overages = l._length_overages) ∨
  (bs < l._max_length ∧ l._length_overages + 1 ≤ ThreadCache._max_overages ∧
    l1._max_length = l._max_length ∧ l1._length_overages = l._length_overages + 1) ∨
  (bs < l._max_length ∧ ThreadCache._max_overages < l._length_overages + 1 ∧
    l1._max_length = l._max_length - bs ∧ l1._length_overages = 0)

/-- As many as `k` calls of `ThreadCache::list_too_long(size_class)` in a row. -/
def ThreadCache.triggers (sc : Nat → SizeClassInfo) (size_class : Nat) :
    Nat → World → ThreadCache → Option (World × ThreadCache)
  | 0, w, tc => some (w, tc)
  | k + 1, w, tc =>
    match ThreadCache.list_too_long sc w tc size_class with
    | none => none
    | some (w1, tc1) => ThreadCache.triggers sc size_class k w1 tc1

/-- The quota fields and the size of the list of a class: `(max_length, length_overages,
size)`. -/
def ThreadCache.quota (tc : ThreadCache) (size_class : Nat) : Nat × Nat × Nat :=
  ((tc._lists size_class)._max_length, (tc._lists size_class)._length_overages,
    (tc._lists size_class).size)

/-- A table like `demoClasses`, with batches of six objects for the classes `1..83`. -/
def demoClasses6 (i : Nat) : SizeClassInfo :=
  if i = 0 then ⟨0, 0, 0, 0⟩
  else if i < 84 then ⟨8 * i, 1, 6, 2048⟩
  else ⟨262144, 32, 2, 128⟩

/-- The object that the `i`-th allocation of class 83 (664 bytes, twelve objects to a
one-page span) returns on a fresh allocator with `demoOS`, counting from 0: the spans are
carved from the top of the 256 pages mapped first, and the objects of a span are handed out
from its last slot downwards. -/
def objectAt (i : Nat) : Nat :=
  Page.start_addr (17055350528 + 255 - i / 12) + 664 * (11 - i % 12)

/-- The calls of the quota scenarios: `a` allocations of class 83, then the objects of the
first `d` allocations are freed in the order of their allocation. -/
def callsQuota (a d : Nat) : List ThreadCall :=
  List.replicate a (ThreadCall.alloc 83) ++
    (List.range d).map (fun i => ThreadCall.dealloc 83 (objectAt i))

/-- The state after `callsQuota a d` on a fresh allocator, with `demoOS` and
`demoClasses6`. -/
def stateQuota (a d : Nat) : World × ThreadCache × List (Nat × Nat) :=
  (ThreadCache.run demoOS demoClasses6 (callsQuota a d) (World.new, ThreadCache.new, [])).getD
    (World.new, ThreadCache.new, [])

/-! ## `list/intrusive_list.h`: the links of the elements

The sequence model `SpanList` of an intrusive list is justified against the pointer
structure of the source: every element (and the sentinel `_dummy` of every list) is an
`Elem` with a `_prev` and a `_next` pointer, stored at the address of the element. -/

/-- Class `IntrusiveList::Elem`: the two link pointers (null is `0`). -/
structure Elem where
  _prev : Nat
  _next : Nat
deriving Repr, DecidableEq

/-- Constructor `Elem()`. -/
def Elem.new : Elem := ⟨0, 0⟩

/-- The memory that holds the elements and the sentinels: the `Elem` at each address. -/
abbrev Links := Nat → Elem

/-- Assignment to the `Elem` at the address `a`. -/
def Links.set (m : Links) (a : Nat) (e : Elem) : Links := fun k => if k = a then e else m k

/-- Method `Elem::remove` of the element at `self`: the value returned and the memory
afterwards; a null `this`, `_prev` or `_next` is dereferenced, which is a fault. -/
def Elem.remove (m : Links) (self : Nat) : Option (Bool × Links) :=
  if self = 0 then none
  else
    let next := (m self)._next
    let prev := (m self)._prev
    if prev = 0 then none
    else
      let m1 := m.set prev { m prev with _next := next }
      if next = 0 then none
      else
        let m2 := m1.set next { m1 next with _prev := prev }
        some (decide (next = prev), m2)

/-- Method `Elem::prepend(item)` of the element at `self`: links `item` right before it. -/
def Elem.prepend (m : Links) (self item : Nat) : Option Links :=
  if self = 0 ∨ item = 0 then none
  else
    let prev := (m self)._prev
    let m1 := m.set item { m item with _prev := prev }
    let m2 := m1.set item { m1 item with _next := self }
    if prev = 0 then none
    else
      let m3 := m2.set prev { m2 prev with _next := item }
      some (m3.set self { m3 self with _prev := item })

/-- Method `Elem::append(item)` of the element at `self`: links `item` right after it. -/
def Elem.append (m : Links) (self item : Nat) : Option Links :=
  if self = 0 ∨ item = 0 then none
  else
    let next := (m self)._next
    let m1 := m.set item { m item with _next := next }
    let m2 := m1.set item { m1 item with _prev := self }
    if next = 0 then none
    else
      let m3 := m2.set next { m2 next with _prev := item }
      some (m3.set self { m3 self with _next := item })

/-- Constructor `IntrusiveList()` of the list whose sentinel `_dummy` is at the address
`dummy`. -/
def IntrusiveList.new (m : Links) (dummy : Nat) : Links := m.set dummy ⟨dummy, dummy⟩

/-- Method `IntrusiveList::empty`. -/
def IntrusiveList.empty (m : Links) (dummy : Nat) : Bool := decide ((m dummy)._next = dummy)

/-- The loop of `IntrusiveList::size`, at the element `e` with the count `sz`; following a
null pointer is a fault, as is running out of fuel. -/
def IntrusiveList.size_loop (m : Links) (dummy : Nat) : Nat → Nat → Nat → Option Nat
  | 0, e, sz => if e = dummy then some sz else none
  | fuel + 1, e, sz =>
    if e = dummy then some sz
    else if e = 0 then none
    else IntrusiveList.size_loop m dummy fuel (m e)._next (sz + 1)

/-- Method `IntrusiveList::size`, with fuel for the loop. -/
def IntrusiveList.size (m : Links) (dummy fuel : Nat) : Option Nat :=
  IntrusiveList.size_loop m dummy fuel (m dummy)._next 0

/-- Method `IntrusiveList::first`. -/
def IntrusiveList.first (m : Links) (dummy : Nat) : Nat := (m dummy)._next

/-- Method `IntrusiveList::last`. -/
def IntrusiveList.last (m : Links) (dummy : Nat) : Nat := (m dummy)._prev

/-- Method `IntrusiveList::prepend`: `_dummy.append(item)`. -/
def IntrusiveList.prepend (m : Links) (dummy item : Nat) : Option Links :=
  Elem.append m dummy item

/-- Method `IntrusiveList::append`: `_dummy.prepend(item)`. -/
def IntrusiveList.append (m : Links) (dummy item : Nat) : Option Links :=
  Elem.prepend m dummy item

/-- Method `IntrusiveList::remove`: `item->remove()`; the list itself is not consulted. -/
def IntrusiveList.remove (m : Links) (_dummy item : Nat) : Option (Bool × Links) :=
  Elem.remove m item

/-- The elements reached from `e` by following `_next` up to the sentinel, as a traversal
with the iterators `begin()` to `end()` visits them. -/
def IntrusiveList.elems (m : Links) (dummy : Nat) : Nat → Nat → Option (List Nat)
  | 0, e => if e = dummy then some [] else none
  | fuel + 1, e =>
    if e = dummy then some []
    else if e = 0 then none
    else (IntrusiveList.elems m dummy fuel (m e)._next).map (fun l => e :: l)

/-- The sequence of the elements of the list: those reached from the sentinel. -/
def IntrusiveList.toList (m : Links) (dummy fuel : Nat) : Option (List Nat) :=
  IntrusiveList.elems m dummy fuel (m dummy)._next

/-- The links lead from `a` through the elements `xs`, in order, to `b`: every `_next`
points to the successor and every `_prev` back to the predecessor. -/
def IntrusiveList.Path (m : Links) : Nat → List Nat → Nat → Prop
  | a, [], b => (m a)._next = b ∧ (m b)._prev = a
  | a, x :: xs, b => (m a)._next = x ∧ (m x)._prev = a ∧ IntrusiveList.Path m x xs b

/-- The list with the sentinel at `dummy` links exactly the elements `xs`, in this order:
the sentinel and the elements are distinct non-null addresses, and the links lead from the
sentinel through `xs` back to the sentinel. -/
def IntrusiveList.Linked (m : Links) (dummy : Nat) (xs : List Nat) : Prop :=
  (dummy :: xs).Nodup ∧ (∀ k ∈ dummy :: xs, k ≠ 0) ∧ IntrusiveList.Path m dummy xs dummy

/-- A memory in which the list with the sentinel at address 100 links the elements at the
addresses 8 and 16, in this order. -/
def demoLinks : Links := fun k =>
  if k = 100 then ⟨16, 8⟩
  else if k = 8 then ⟨100, 16⟩
  else if k = 16 then ⟨8, 100⟩
  else Elem.new

/-! ## The mutexes

The functions above run to completion; for the order in which the mutexes are taken the
sources are read once more, keeping of every function body only the `std::lock_guard`
scopes, the calls and the control flow around them (`Sync`). Every branch may be taken and
every loop may run any number of times, so the event sequences of a skeleton include those
of every run of the function. `SystemAlloc` has no mutex, and the operations on spans, span
lists and free lists take none. -/

/-- The mutexes of the allocator: `CentralCache::_locks[size_class]`, `PageHeap::_lock` and
`PageMap::_lock`. -/
inductive Mutex where
  | central (size_class : Nat)
  | pageHeap
  | pageMap
deriving Repr, DecidableEq

/-- The place of a mutex in the acquisition order of the specification: Central-Cache class
lock, then Page-Heap lock, then Page-Map lock. -/
def Mutex.rank : Mutex → Nat
  | Mutex.central _ => 0
  | Mutex.pageHeap => 1
  | Mutex.pageMap => 2

/-- The synchronisation skeleton of a function body: nothing that touches a mutex, one part
after another, either of two branches, a loop, or a `std::lock_guard` on a mutex that is
held for the rest of the block. -/
inductive Sync where
  | skip
  | seq (a b : Sync)
  | alt (a b : Sync)
  | loop (a : Sync)
  | guard (m : Mutex) (body : Sync)
deriving Repr

/-- A mutex operation of a thread. -/
inductive LockEvent where
  | acquire (m : Mutex)
  | release (m : Mutex)
deriving Repr, DecidableEq

/-- The sequences of mutex operations that the runs of a skeleton perform. -/
inductive Sync.Trace : Sync → List LockEvent → Prop
  | skip : Sync.Trace Sync.skip []
  | seq (a b : Sync) (s t : List LockEvent) :
      Sync.Trace a s → Sync.Trace b t → Sync.Trace (Sync.seq a b) (s ++ t)
  | altLeft (a b : Sync) (s : List LockEvent) : Sync.Trace a s → Sync.Trace (Sync.alt a b) s
  | altRight (a b : Sync) (t : List LockEvent) : Sync.Trace b t → Sync.Trace (Sync.alt a b) t
  | loopDone (a : Sync) : Sync.Trace (Sync.loop a) []
  | loopStep (a : Sync) (s t : List LockEvent) :
      Sync.Trace a s → Sync.Trace (Sync.loop a) t → Sync.Trace (Sync.loop a) (s ++ t)
  | guard (m : Mutex) (a : Sync) (s : List LockEvent) :
      Sync.Trace a s →
      Sync.Trace (Sync.guard m a) (LockEvent.acquire m :: s ++ [LockEvent.release m])

/-- A thread that holds the mutexes `held` performs the operations in order: the mutexes
held at the end, or `none` when a mutex is acquired while a mutex of the same or a later
place in the order is held, or a mutex is released that is not held. -/
def LockEvent.run : List Mutex → List LockEvent → Option (List Mutex)
  | held, [] => some held
  | held, LockEvent.acquire m :: es =>
    if ∀ h ∈ held, h.rank < m.rank then LockEvent.run (m :: held) es else none
  | held, LockEvent.release m :: es =>
    if m ∈ held then LockEvent.run (held.erase m) es else none

/-- Every `lock_guard` of the skeleton is on a mutex of rank at least `lo`, and the guards
inside its scope are on mutexes of a higher rank. -/
def Sync.ordered : Nat → Sync → Bool
  | _, Sync.skip => true
  | lo, Sync.seq a b => Sync.ordered lo a && Sync.ordered lo b
  | lo, Sync.alt a b => Sync.ordered lo a && Sync.ordered lo b
  | lo, Sync.loop a => Sync.ordered lo a
  | lo, Sync.guard m body => decide (lo ≤ m.rank) && Sync.ordered (m.rank + 1) body

/-- Skeleton of `PageMap::find_span`. -/
def Locks.PageMap.find_span : Sync := Sync.guard Mutex.pageMap Sync.skip

/-- Skeleton of `PageMap::find_prev`. -/
def Locks.PageMap.find_prev : Sync := Locks.PageMap.find_span

/-- Skeleton of `PageMap::find_next`. -/
def Locks.PageMap.find_next : Sync := Locks.PageMap.find_span

/-- Skeleton of `PageMap::insert`. -/
def Locks.PageMap.insert : Sync := Sync.guard Mutex.pageMap Sync.skip

/-- Skeleton of `PageMap::erase`. -/
def Locks.PageMap.erase : Sync := Sync.guard Mutex.pageMap Sync.skip

/-- Skeleton of `SystemAlloc::alloc`. -/
def Locks.SystemAlloc.alloc : Sync := Sync.skip

/-- Skeleton of `SystemAlloc::dealloc`. -/
def Locks.SystemAlloc.dealloc : Sync := Sync.skip

/-- Skeleton of `PageHeap::add_to_list`. -/
def Locks.PageHeap.add_to_list : Sync := Sync.skip

/-- Skeleton of `PageHeap::remove_from_list`. -/
def Locks.PageHeap.remove_from_list : Sync := Sync.skip

/-- Skeleton of `PageHeap::create_span`: `insert`, then `add_to_list` for an IDLE span. -/
def Locks.PageHeap.create_span : Sync :=
  Sync.seq Locks.PageMap.insert (Sync.alt Locks.PageHeap.add_to_list Sync.skip)

/-- Skeleton of `PageHeap::destroy_span`. -/
def Locks.PageHeap.destroy_span : Sync :=
  Sync.seq Locks.PageMap.erase Locks.PageHeap.remove_from_list

/-- Skeleton of `PageHeap::carve`. -/
def Locks.PageHeap.carve : Sync :=
  Sync.seq Locks.PageHeap.remove_from_list
    (Sync.alt Sync.skip (Sync.seq Locks.PageHeap.add_to_list Locks.PageHeap.create_span))

/-- Skeleton of `PageHeap::fetch_from_system`. -/
def Locks.PageHeap.fetch_from_system : Sync :=
  Sync.seq Locks.SystemAlloc.alloc (Sync.alt Sync.skip Locks.PageHeap.create_span)

/-- Skeleton of `PageHeap::return_to_system`. -/
def Locks.PageHeap.return_to_system : Sync :=
  Sync.alt Sync.skip (Sync.seq Locks.PageHeap.destroy_span Locks.SystemAlloc.dealloc)

/-- Skeleton of `PageHeap::find_from_large`. -/
def Locks.PageHeap.find_from_large : Sync := Sync.skip

/-- Skeleton of `PageHeap::alloc`: under `_lock`, the search loop, `find_from_large`,
`fetch_from_system` and `carve`. -/
def Locks.PageHeap.alloc : Sync :=
  Sync.guard Mutex.pageHeap
    (Sync.seq (Sync.loop Sync.skip)
      (Sync.seq (Sync.alt Locks.PageHeap.find_from_large Sync.skip)
        (Sync.seq (Sync.alt Locks.PageHeap.fetch_from_system Sync.skip)
          (Sync.alt Sync.skip Locks.PageHeap.carve))))

/-- Skeleton of `PageHeap::dealloc`: under `_lock`, `erase`, `find_prev`, `destroy_span` of
an IDLE neighbour, `find_next`, `destroy_span` again, `add_to_list` and `insert`. -/
def Locks.PageHeap.dealloc : Sync :=
  Sync.guard Mutex.pageHeap
    (Sync.seq Locks.PageMap.erase
      (Sync.seq Locks.PageMap.find_prev
        (Sync.seq (Sync.alt Locks.PageHeap.destroy_span Sync.skip)
          (Sync.seq Locks.PageMap.find_next
            (Sync.seq (Sync.alt Locks.PageHeap.destroy_span Sync.skip)
              (Sync.seq Locks.PageHeap.add_to_list Locks.PageMap.insert))))))

/-- Skeleton of `PageHeap::~PageHeap`. -/
def Locks.PageHeap.destroy : Sync :=
  Sync.loop (Sync.alt Sync.skip (Sync.loop Locks.PageHeap.return_to_system))

/-- Skeleton of `CentralCache::fetch_objects`. -/
def Locks.CentralCache.fetch_objects : Sync := Sync.loop Sync.skip

/-- Skeleton of `CentralCache::fetch_from_page_heap`. -/
def Locks.CentralCache.fetch_from_page_heap : Sync :=
  Sync.seq (Sync.loop Locks.PageHeap.alloc) Locks.CentralCache.fetch_objects

/-- Skeleton of `CentralCache::alloc`: nothing for `n == 0`, else under
`_locks[size_class]` `fetch_objects` and, if needed, `fetch_from_page_heap`. -/
def Locks.CentralCache.alloc (size_class : Nat) : Sync :=
  Sync.alt Sync.skip
    (Sync.guard (Mutex.central size_class)
      (Sync.seq Locks.CentralCache.fetch_objects
        (Sync.alt Locks.CentralCache.fetch_from_page_heap Sync.skip)))

/-- Skeleton of `CentralCache::return_to_page_heap`. -/
def Locks.CentralCache.return_to_page_heap : Sync := Sync.alt Sync.skip Locks.PageHeap.dealloc

/-- Skeleton of `CentralCache::dealloc`: nothing for `n == 0`, else under
`_locks[size_class]` a loop of `find_span` and, for a span that has become full,
`return_to_page_heap`. -/
def Locks.CentralCache.dealloc (size_class : Nat) : Sync :=
  Sync.alt Sync.skip
    (Sync.guard (Mutex.central size_class)
      (Sync.loop (Sync.seq Locks.PageMap.find_span
        (Sync.alt Sync.skip (Sync.alt Locks.CentralCache.return_to_page_heap Sync.skip)))))

/-- Skeleton of `ThreadCache::fetch_from_central_cache`. -/
def Locks.ThreadCache.fetch_from_central_cache (size_class : Nat) : Sync :=
  Locks.CentralCache.alloc size_class

/-- Skeleton of `ThreadCache::alloc`. -/
def Locks.ThreadCache.alloc (size_class : Nat) : Sync :=
  Sync.alt Sync.skip (Locks.ThreadCache.fetch_from_central_cache size_class)

/-- Skeleton of `ThreadCache::return_to_central_cache`. -/
def Locks.ThreadCache.return_to_central_cache (size_class : Nat) : Sync :=
  Sync.alt Sync.skip
    (Sync.seq (Sync.loop (Locks.CentralCache.dealloc size_class))
      (Sync.alt (Locks.CentralCache.dealloc size_class) Sync.skip))

/-- Skeleton of `ThreadCache::list_too_long`. -/
def Locks.ThreadCache.list_too_long (size_class : Nat) : Sync :=
  Locks.ThreadCache.return_to_central_cache size_class

/-- Skeleton of `ThreadCache::dealloc`. -/
def Locks.ThreadCache.dealloc (size_class : Nat) : Sync :=
  Sync.alt Sync.skip (Sync.alt (Locks.ThreadCache.list_too_long size_class) Sync.skip)

/-- Skeleton of `ThreadCache::~ThreadCache`: for the classes `i, ..., i + cnt - 1` in turn,
nothing for an empty list and `return_to_central_cache(i, ...)` otherwise. -/
def Locks.ThreadCache.destroy_loop : Nat → Nat → Sync
  | 0, _ => Sync.skip
  | cnt + 1, i =>
    Sync.seq (Sync.alt Sync.skip (Locks.ThreadCache.return_to_central_cache i))
      (Locks.ThreadCache.destroy_loop cnt (i + 1))

/-- Skeleton of `ThreadCache::~ThreadCache`. -/
def Locks.ThreadCache.destroy : Sync :=
  Locks.ThreadCache.destroy_loop (SizeMap.size_class_size - 1) 1

/-- The functions through which a thread enters the allocator, for the size class `c`: the
public functions of the Thread Cache, of the Central Cache and of the Page Heap, the
destructors of the Thread Cache and of the Page Heap, and the functions of the Page Map. -/
def Locks.entries (c : Nat) : List Sync :=
  [Locks.ThreadCache.alloc c, Locks.ThreadCache.dealloc c, Locks.ThreadCache.destroy,
   Locks.CentralCache.alloc c, Locks.CentralCache.dealloc c,
   Locks.PageHeap.alloc, Locks.PageHeap.dealloc, Locks.PageHeap.destroy,
   Locks.PageMap.find_span, Locks.PageMap.find_prev, Locks.PageMap.find_next,
   Locks.PageMap.insert, Locks.PageMap.erase]

/-- The skeleton of a thread that makes the given calls one after another. -/
def Locks.program : List Sync → Sync
  | [] => Sync.skip
  | call :: calls => Sync.seq call (Locks.program calls)

/-- A thread, as far as the mutexes are concerned: the mutexes it holds and the mutex
operations it has yet to perform. -/
structure LockThread where
  held : List Mutex
  todo : List LockEvent

/-- One step of a system of threads: some thread performs its next mutex operation. A
mutex can be acquired only while no thread holds it (a `std::mutex` is not recursive, so
this includes the acquiring thread); a release is always possible. -/
inductive Locks.Step : List LockThread → List LockThread → Prop
  | acquire (pre post : List LockThread) (held : List Mutex) (m : Mutex)
      (es : List LockEvent) :
      (∀ th ∈ pre ++ post, m ∉ th.held) → m ∉ held →
      Locks.Step (pre ++ ⟨held, LockEvent.acquire m :: es⟩ :: post)
        (pre ++ ⟨m :: held, es⟩ :: post)
  | release (pre post : List LockThread) (held : List Mutex) (m : Mutex)
      (es : List LockEvent) :
      Locks.Step (pre ++ ⟨held, LockEvent.release m :: es⟩ :: post)
        (pre ++ ⟨held.erase m, es⟩ :: post)

/-- A run of `ThreadCache::alloc(3)` that refills from the Central Cache, which asks the
Page Heap once; the Page Heap registers a span fetched from the system and the span it
carves off. -/
def demoTrace : List LockEvent :=
  [LockEvent.acquire (Mutex.central 3), LockEvent.acquire Mutex.pageHeap,
   LockEvent.acquire Mutex.pageMap, LockEvent.release Mutex.pageMap,
   LockEvent.acquire Mutex.pageMap, LockEvent.release Mutex.pageMap,
   LockEvent.release Mutex.pageHeap, LockEvent.release (Mutex.central 3)]

/-! ## Scenarios for a span object that the Page Heap hands out a second time -/

/-- A table like `demoClasses`, with spans of 256 pages (eight objects) for class 84. -/
def demoClasses256 (i : Nat) : SizeClassInfo :=
  if i = 0 then ⟨0, 0, 0, 0⟩
  else if i < 84 then ⟨8 * i, 1, 32, 2048⟩
  else ⟨262144, 256, 2, 128⟩

/-- Calls of the Central Cache: one object of class 83 is fetched and given back, so that
its span, all of whose objects are free again, returns to the Page Heap, where it absorbs
the 255 idle pages in front of it. -/
def callsReuse : List CentralCall :=
  [CentralCall.alloc 83 1, CentralCall.dealloc 83 [objectAt 0] 1]

/-- The world and the objects handed out after `callsReuse` on a fresh allocator. -/
def stateReuse : World × List (Nat × Nat) :=
  (CentralCache.run demoOS demoClasses callsReuse (World.new, [])).getD (World.new, [])

/-- The span object of `callsReuse` as `PageHeap::alloc(256)` hands it out afterwards: the
256 pages mapped first, and on its free list the twelve objects of class 83 from its time
as a one-page span. -/
def spanReuse : Span :=
  ⟨17055350528, 256, STATUS.USING, ⟨(List.range 12).map objectAt, 12⟩, 0, 12⟩

/-- The calls of `callsReuse`, then one object of class 84. -/
def callsStale1 : List CentralCall :=
  callsReuse ++ [CentralCall.alloc 84 1]

/-- The calls of `callsStale1`, then eight more objects of class 84. -/
def callsStale : List CentralCall :=
  callsStale1 ++ [CentralCall.alloc 84 8]

/-- The spans of a world, each with its start address, page count, `_allocated`, `_total`
and the size of its free list. -/
def World.counters (w : World) : List (Nat × Nat × Nat × Nat × Nat) :=
  w.pm.map (fun s => (s.start_addr, s._num_pages, s._allocated, s._total, s._list.size))

/-! # Theorems -/

/-! ## Size map -/

theorem align_eq_small (n : Nat) (h : n ≤ 1024) : SizeMap.align n = some ((n + 7) / 8) := by
  have : (n + 7) >>> 3 = (n + 7) / 8 := by rw [Nat.shiftRight_eq_div_pow]
  simp [SizeMap.align, SizeMap._large_size, h, this]

theorem align_eq_large (n : Nat) (h1 : 1024 < n) (h2 : n ≤ 262144) :
    SizeMap.align n = some ((n + 15487) / 128) := by
  have h3 : ¬ n ≤ 1024 := by omega
  simp only [SizeMap.align, SizeMap._large_size, SizeMap._max_size,
    SizeMap._large_size_alignment, h3, h2, if_true, if_false]
  rw [Nat.shiftRight_eq_div_pow]
  have : (120 <<< 7 : Nat) = 15360 := by decide
  rw [this]
  have : n + 128 - 1 + 15360 = n + 15487 := by omega
  rw [this]

theorem align_mono (a b x y : Nat) (hab : a ≤ b)
    (ha : SizeMap.align a = some x) (hb : SizeMap.align b = some y) : x ≤ y := by
  by_cases hb2 : b ≤ 262144
  · by_cases h1 : b ≤ 1024
    · rw [align_eq_small b h1] at hb
      rw [align_eq_small a (by omega)] at ha
      simp at ha hb; omega
    · rw [align_eq_large b (by omega) hb2] at hb
      by_cases h2 : a ≤ 1024
      · rw [align_eq_small a h2] at ha
        simp at ha hb; omega
      · rw [align_eq_large a (by omega) (by omega)] at ha
        simp at ha hb; omega
  · have h3 : ¬ b ≤ 1024 := by omega
    simp only [SizeMap.align, SizeMap._large_size, SizeMap._max_size, h3, hb2, if_false] at hb
    cases hb

/-- The inner initialiser loop only overwrites buckets of byte counts up to `mx`. -/
theorem fill_class_frame (i mx : Nat) :
    ∀ (fuel j : Nat) (t : Nat → Nat) (j1 : Nat) (t1 : Nat → Nat),
      SizeMap.fill_class i mx fuel j t = some (j1, t1) →
      ∀ k, (∀ m, m ≤ mx → SizeMap.align m ≠ some k) → t1 k = t k := by
  intro fuel
  induction fuel with
  | zero =>
    intro j t j1 t1 h k _
    simp only [SizeMap.fill_class] at h
    split at h
    · cases h
    · cases h; rfl
  | succ f ih =>
    intro j t j1 t1 h k hk
    simp only [SizeMap.fill_class] at h
    split at h
    · rename_i hj
      split at h
      · cases h
      · rename_i b hb
        rw [ih _ _ _ _ h k hk]
        have : k ≠ b := fun e => hk j hj (e ▸ hb)
        simp [this]
    · cases h; rfl

theorem fill_frame (sc : Nat → SizeClassInfo) :
    ∀ (cls : List Nat) (j : Nat) (t : Nat → Nat) (j1 : Nat) (t1 : Nat → Nat),
      SizeMap.fill sc cls j t = some (j1, t1) →
      ∀ k, (∀ i ∈ cls, ∀ m, m ≤ (sc i).size → SizeMap.align m ≠ some k) → t1 k = t k := by
  intro cls
  induction cls with
  | nil =>
    intro j t j1 t1 h k _
    simp only [SizeMap.fill] at h
    cases h; rfl
  | cons i cls ih =>
    intro j t j1 t1 h k hk
    simp only [SizeMap.fill] at h
    split at h
    · cases h
    · rename_i j2 t2 h2
      rw [ih _ _ _ _ h k (fun i' hi' => hk i' (List.mem_cons_of_mem _ hi'))]
      exact fill_class_frame i _ _ _ _ _ _ h2 k (hk i (List.mem_cons_self _ _))

/-- With fuel for every step from `j` to `mx` the inner loop finishes, provided `mx` is a
legal byte count. -/
theorem fill_class_some (i mx : Nat) (hmx : mx ≤ 262144) :
    ∀ (fuel j : Nat) (t : Nat → Nat), mx < j + 8 * fuel →
      (SizeMap.fill_class i mx fuel j t).isSome = true := by
  intro fuel
  induction fuel with
  | zero =>
    intro j t h
    have : ¬ j ≤ mx := by omega
    simp [SizeMap.fill_class, this]
  | succ f ih =>
    intro j t h
    simp only [SizeMap.fill_class]
    split
    · rename_i hj
      by_cases h1 : j ≤ 1024
      · rw [align_eq_small j h1]
        exact ih _ _ (by omega)
      · rw [align_eq_large j (by omega) (by omega)]
        exact ih _ _ (by omega)
    · rfl

theorem fill_some (sc : Nat → SizeClassInfo) :
    ∀ (cls : List Nat) (j : Nat) (t : Nat → Nat), (∀ i ∈ cls, (sc i).size ≤ 262144) →
      (SizeMap.fill sc cls j t).isSome = true := by
  intro cls
  induction cls with
  | nil => intro j t _; rfl
  | cons i cls ih =>
    intro j t h
    simp only [SizeMap.fill]
    have h1 := fill_class_some i (sc i).size (h i (List.mem_cons_self _ _))
      ((sc i).size / 8 + 1) j t (by omega)
    split
    · rename_i h2; rw [h2] at h1; cases h1
    · exact ih _ _ (fun i' hi' => h i' (List.mem_cons_of_mem _ hi'))

theorem tableOk_size_mono {sc : Nat → SizeClassInfo} (h : SizeMap.TableOk sc) :
    ∀ d i, i + d ≤ 84 → (sc i).size ≤ (sc (i + d)).size := by
  intro d
  induction d with
  | zero => intro i _; exact Nat.le_refl _
  | succ d ih =>
    intro i hi
    have h1 := ih i (by omega)
    have h2 := h.2.1 (i + d) (by omega)
    have : i + (d + 1) = i + d + 1 := by omega
    rw [this]; omega

theorem tableOk_size_le {sc : Nat → SizeClassInfo} (h : SizeMap.TableOk sc)
    (i j : Nat) (hij : i ≤ j) (hj : j ≤ 84) : (sc i).size ≤ (sc j).size := by
  have := tableOk_size_mono h (j - i) i (by omega)
  have e : i + (j - i) = j := by omega
  rwa [e] at this

/-- For every table that meets the specification's requirements, a byte count above the
size of class 83 (in particular `_max_size` itself) is mapped to index `0`: the initialiser
stops before the last class, so its buckets keep the zero the static array started with. -/
theorem get_size_class_above_83 (sc : Nat → SizeClassInfo) (h : SizeMap.TableOk sc)
    (n : Nat) (h1 : (sc 83).size < n) (h2 : n ≤ 262144) :
    SizeMap.get_size_class sc n = some 0 := by
  have h84 : (sc 84).size = 262144 := h.2.2.2.2
  have hle : ∀ i ∈ List.range (SizeMap.size_class_size - 1), (sc i).size ≤ (sc 83).size := by
    intro i hi
    simp [SizeMap.size_class_size] at hi
    exact tableOk_size_le h i 83 (by omega) (by omega)
  have h83 : (sc 83).size < 262144 := by
    have := h.2.1 83 (by omega); omega
  have hsome := fill_some sc (List.range (SizeMap.size_class_size - 1)) 0 (fun _ => 0)
    (fun i hi => by have := hle i hi; omega)
  unfold SizeMap.get_size_class SizeMap.init_size_class
  cases hf : SizeMap.fill sc (List.range (SizeMap.size_class_size - 1)) 0 (fun _ => 0) with
  | none => rw [hf] at hsome; cases hsome
  | some r =>
    obtain ⟨j1, t1⟩ := r
    simp only [Option.map_some']
    have key : ∀ b, SizeMap.align n = some b → t1 b = 0 := by
      intro b hb
      refine fill_frame sc _ _ _ _ _ hf b ?_
      intro i hi m hm hmb
      have hm83 : m ≤ (sc 83).size := le_trans hm (hle i hi)
      have hd8 : (sc 83).size ≤ 1024 → (sc 83).size % 8 = 0 := h.2.2.1 83 (by omega)
      have hd128 : 1024 < (sc 83).size → (sc 83).size % 128 = 0 := h.2.2.2.1 83 (by omega)
      -- the bucket of `n` lies strictly above the bucket of `(sc 83).size`
      have hs : ∃ x, SizeMap.align (sc 83).size = some x ∧ x < b := by
        by_cases c1 : (sc 83).size ≤ 1024
        · refine ⟨_, align_eq_small _ c1, ?_⟩
          by_cases c2 : n ≤ 1024
          · rw [align_eq_small n c2] at hb
            simp at hb; have := hd8 c1; omega
          · rw [align_eq_large n (by omega) h2] at hb
            simp at hb; omega
        · refine ⟨_, align_eq_large _ (by omega) (by omega), ?_⟩
          rw [align_eq_large n (by omega) h2] at hb
          simp at hb; have := hd128 (by omega); omega
      obtain ⟨x, hx, hxb⟩ := hs
      have := align_mono m (sc 83).size b x hm83 hmb hx
      omega
    by_cases c2 : n ≤ 1024
    · rw [align_eq_small n c2]
      simp only []
      rw [key _ (align_eq_small n c2)]
    · rw [align_eq_large n (by omega) h2]
      simp only []
      rw [key _ (align_eq_large n (by omega) h2)]

theorem demoClasses_tableOk : SizeMap.TableOk demoClasses := by
  refine ⟨by decide, ?_, ?_, ?_, by decide⟩
  · intro i hi
    simp only [demoClasses]
    by_cases h0 : i = 0
    · subst h0; simp
    · by_cases h1 : i + 1 < 84
      · have : i < 84 := by omega
        simp [h0, h1, this]
      · have : i < 84 := by omega
        simp [h0, h1, this]; omega
  · intro i _ hs
    simp only [demoClasses] at hs ⊢
    by_cases h0 : i = 0
    · subst h0; simp
    · by_cases h1 : i < 84
      · simp [h0, h1]
      · simp [h0, h1] at hs
  · intro i _ hs
    simp only [demoClasses] at hs ⊢
    by_cases h0 : i = 0
    · subst h0; simp at hs
    · by_cases h1 : i < 84
      · simp [h0, h1] at hs; omega
      · simp [h0, h1]

/-- C2 (code defect): on the table `demoClasses`, which meets every requirement of the
specification, `get_size_class 262144` answers index `0`, although the smallest class whose
object size reaches 262144 bytes is class 84; class 0 holds objects of 0 bytes. -/
theorem C2_get_size_class_skips_last_class :
    SizeMap.TableOk demoClasses ∧
    SizeMap.get_size_class demoClasses 262144 = some 0 ∧
    (demoClasses 0).size < 262144 ∧
    262144 ≤ (demoClasses 84).size ∧
    (∀ i, i < 84 → (demoClasses i).size < 262144) :=
  ⟨demoClasses_tableOk, by decide, by decide, by decide, by decide⟩

/-! ## Pages and spans -/

theorem page_start_addr_eq (id : Nat) : Page.start_addr id = id * 8192 := by
  simp [Page.start_addr, Page.SHIFT, Nat.shiftLeft_eq]

theorem page_ofPtr_eq (ptr : Nat) : Page.ofPtr ptr = ptr / 8192 := by
  simp [Page.ofPtr, Page.SHIFT, Nat.shiftRight_eq_div_pow]

theorem page_SIZE_eq : Page.SIZE = 8192 := by decide

theorem span_start_addr_eq (s : Span) : s.start_addr = s._first_page * 8192 := by
  simp [Span.start_addr, page_start_addr_eq]

theorem span_end_addr_eq (s : Span) : s.end_addr = s.start_addr + s._num_pages * 8192 := by
  simp [Span.end_addr, Span.start_addr, page_start_addr_eq]; ring

theorem span_start_lt_end (s : Span) (h : 1 ≤ s._num_pages) : s.start_addr < s.end_addr := by
  rw [span_end_addr_eq]; omega

theorem span_disjoint_symm {a b : Span} (h : Span.disjoint a b) : Span.disjoint b a := h.symm

/-! ## Page map lookup -/

theorem floor_mem : ∀ (m : PageMap) (p : Nat) (s : Span),
    PageMap.floor m p = some s → s ∈ m ∧ s.start_addr ≤ p := by
  intro m
  induction m with
  | nil => intro p s h; simp [PageMap.floor] at h
  | cons a m ih =>
    intro p s h
    simp only [PageMap.floor] at h
    cases hf : PageMap.floor m p with
    | none =>
      rw [hf] at h
      simp only at h
      split at h
      · rename_i ha
        cases h
        exact ⟨List.mem_cons_self _ _, ha⟩
      · cases h
    | some t =>
      rw [hf] at h
      simp only at h
      have ht := ih p t hf
      split at h
      · rename_i ha
        cases h
        exact ⟨List.mem_cons_self _ _, ha.1⟩
      · cases h
        exact ⟨List.mem_cons_of_mem _ ht.1, ht.2⟩

theorem floor_none : ∀ (m : PageMap) (p : Nat),
    PageMap.floor m p = none → ∀ t ∈ m, p < t.start_addr := by
  intro m
  induction m with
  | nil => intro p _ t ht; cases ht
  | cons a m ih =>
    intro p h t ht
    simp only [PageMap.floor] at h
    cases hf : PageMap.floor m p with
    | none =>
      rw [hf] at h
      simp only at h
      split at h
      · cases h
      · rename_i ha
        rcases List.mem_cons.1 ht with rfl | ht
        · omega
        · exact ih p hf t ht
    | some u =>
      rw [hf] at h
      simp only at h
      split at h <;> cases h

theorem floor_max : ∀ (m : PageMap) (p : Nat) (s : Span),
    PageMap.floor m p = some s → ∀ t ∈ m, t.start_addr ≤ p → t.start_addr ≤ s.start_addr := by
  intro m
  induction m with
  | nil => intro p s h; simp [PageMap.floor] at h
  | cons a m ih =>
    intro p s h t ht htp
    simp only [PageMap.floor] at h
    cases hf : PageMap.floor m p with
    | none =>
      rw [hf] at h
      simp only at h
      have hn := floor_none m p hf
      split at h
      · cases h
        rcases List.mem_cons.1 ht with rfl | ht
        · exact Nat.le_refl _
        · have := hn t ht; omega
      · cases h
    | some u =>
      rw [hf] at h
      simp only at h
      have hu := ih p u hf
      split at h
      · rename_i ha
        cases h
        rcases List.mem_cons.1 ht with rfl | ht
        · exact Nat.le_refl _
        · have := hu t ht htp; omega
      · rename_i ha
        cases h
        rcases List.mem_cons.1 ht with rfl | ht
        · have := (floor_mem m p s hf).2
          by_cases c : s.start_addr < t.start_addr
          · exact absurd ⟨htp, c⟩ ha
          · omega
        · exact hu t ht htp

theorem wf_eq_of_contains {m : PageMap} (h : PageMap.WF m) {s t : Span}
    (hs : s ∈ m) (ht : t ∈ m) {p : Nat} (hps : s.contains p) (hpt : t.contains p) : s = t := by
  rcases h.2 s hs t ht with heq | hd
  · exact heq
  · unfold Span.contains at hps hpt
    rcases hd with hd | hd <;> omega

/-- Under a well-formed map `find_span` finds exactly the registered span that contains the
address. -/
theorem find_span_eq_some_iff {m : PageMap} (h : PageMap.WF m) (p : Nat) (s : Span) :
    PageMap.find_span m p = some s ↔ s ∈ m ∧ s.contains p := by
  unfold PageMap.find_span
  constructor
  · intro hf
    cases hfl : PageMap.floor m p with
    | none => rw [hfl] at hf; cases hf
    | some t =>
      rw [hfl] at hf
      simp only at hf
      split at hf
      · cases hf
      · rename_i hlt
        have := floor_mem m p t hfl
        cases hf
        exact ⟨this.1, this.2, by omega⟩
  · rintro ⟨hs, hps⟩
    cases hfl : PageMap.floor m p with
    | none =>
      have := floor_none m p hfl s hs
      unfold Span.contains at hps; omega
    | some t =>
      simp only
      have htm := floor_mem m p t hfl
      have hmax := floor_max m p t hfl s hs hps.1
      have hts : t = s := by
        rcases h.2 t htm.1 s hs with heq | hd
        · exact heq
        · have ht1 := span_start_lt_end t (h.1 t htm.1)
          unfold Span.contains at hps
          rcases hd with hd | hd <;> omega
      subst hts
      have : ¬ p ≥ t.end_addr := by unfold Span.contains at hps; omega
      simp [this]

theorem find_span_eq_none_iff {m : PageMap} (h : PageMap.WF m) (p : Nat) :
    PageMap.find_span m p = none ↔ ∀ s ∈ m, ¬ s.contains p := by
  constructor
  · intro hf s hs hc
    have := (find_span_eq_some_iff h p s).2 ⟨hs, hc⟩
    rw [hf] at this; cases this
  · intro hall
    cases hf : PageMap.find_span m p with
    | none => rfl
    | some s =>
      have := (find_span_eq_some_iff h p s).1 hf
      exact absurd this.2 (hall s this.1)

theorem demoMap_wf : PageMap.WF demoMap := by
  unfold PageMap.WF
  decide

/-- C7 (Page-Map totality): for a map whose registered spans have pairwise disjoint,
non-empty byte ranges that end below `2 ^ 64` (so that `end_addr()` does not wrap), and for
an address `p` below `2 ^ 64`, `find_span p` returns the registered span that contains `p` if
there is one and null otherwise. In particular it returns `S` on all of `[start, end)` of a
registered `S`, and null at `start - 1` and at `end` unless another registered span contains
that address. The addresses compared are the `size_t` values of the source: reducing them
modulo `2 ^ 64` changes nothing. -/
theorem C7_find_span_total (m : PageMap) (h : PageMap.WF m)
    (hb : ∀ s ∈ m, s.end_addr < SIZE_T) (p : Nat) (hp : p < SIZE_T) :
    (∀ s ∈ m, s.start_addr ≤ p → p < s.end_addr → PageMap.find_span m p = some s) ∧
    ((∀ s ∈ m, ¬ (s.start_addr ≤ p ∧ p < s.end_addr)) → PageMap.find_span m p = none) ∧
    (∀ s ∈ m, p = s.end_addr → (∀ t ∈ m, ¬ (t.start_addr ≤ p ∧ p < t.end_addr)) →
      PageMap.find_span m p = none) ∧
    (∀ s ∈ m, p + 1 = s.start_addr → (∀ t ∈ m, ¬ (t.start_addr ≤ p ∧ p < t.end_addr)) →
      PageMap.find_span m p = none) ∧
    p % SIZE_T = p ∧
    (∀ s ∈ m, s.start_addr % SIZE_T = s.start_addr ∧ s.end_addr % SIZE_T = s.end_addr) :=
  ⟨fun s hs h1 h2 => (find_span_eq_some_iff h p s).2 ⟨hs, h1, h2⟩,
   fun hall => (find_span_eq_none_iff h p).2 hall,
   fun _ _ _ hall => (find_span_eq_none_iff h p).2 hall,
   fun _ _ _ hall => (find_span_eq_none_iff h p).2 hall,
   Nat.mod_eq_of_lt hp,
   fun s hs => ⟨Nat.mod_eq_of_lt (Nat.lt_trans (span_start_lt_end s (h.1 s hs)) (hb s hs)),
     Nat.mod_eq_of_lt (hb s hs)⟩⟩

/-- Witness for C7 on `demoMap`, at the first byte of the 3-page span. -/
theorem C7_find_span_total_witness :
    PageMap.WF demoMap ∧ (∀ s ∈ demoMap, s.end_addr < SIZE_T) ∧ 1253 * 8192 < SIZE_T ∧
    PageMap.find_span demoMap (1253 * 8192) =
      some { Span.new (1253 * 8192) 3 with _status := STATUS.USING } ∧
    PageMap.find_span demoMap (1256 * 8192) = none :=
  ⟨demoMap_wf, by decide, by decide,
   (C7_find_span_total demoMap demoMap_wf (by decide) (1253 * 8192) (by decide)).1 _
     (by simp [demoMap]) (by decide) (by decide),
   by decide⟩

set_option maxRecDepth 100000

/-- C3 (code defect): on a fresh Page Heap, with an operating system that maps every
request, `PageHeap::alloc(257)` falls through to the System Allocator, which hands back a
span of 256 pages (first page 17055350528); `carve` is then called with a span smaller than
the request, its assertion fails, and no span is returned. A second defect gives the same
failure: after `alloc(1)` the large list holds one span of 255 pages, which
`find_from_large` selects for `alloc(256)`. -/
theorem C3_alloc_selects_too_small_span :
    (PageHeap.fetch_from_system demoOS World.new 257).bind
        (fun r => r.1.bind (fun k => (PageMap.get r.2.pm k).map
          (fun s => (s._first_page, s._num_pages, s._status)))) =
      some (17055350528, 256, STATUS.IDLE) ∧
    (PageHeap.alloc demoOS World.new 257).isSome = false ∧
    ((PageHeap.alloc demoOS World.new 1).bind (fun r =>
        (PageHeap.find_from_large r.2.ph 256).bind (fun k =>
          (PageMap.get r.2.pm k).map (fun s => s._num_pages)))) = some 255 ∧
    ((PageHeap.alloc demoOS World.new 1).bind (fun r =>
        PageHeap.alloc demoOS r.2 256)).isSome = false := by
  refine ⟨by decide, by decide, by decide, by decide⟩

/-- C4 (code defect): a request for 3 MiB (3145728 bytes) with page alignment, on a fresh
System Allocator and an operating system that maps every request, returns a non-null
pointer together with `actual_bytes = 2097152`, which is less than the 3145728 bytes asked
for. The pointer is 2 MiB aligned and the byte count is a multiple of the page size. -/
theorem C4_alloc_returns_fewer_bytes :
    (SystemAlloc.alloc demoOS SystemAlloc.new 3145728 8192).map (fun r => r.1) =
      some (139717431525376, 2097152) ∧
    (2097152 : Nat) < 3145728 ∧
    139717431525376 % (2 * 1024 * 1024) = 0 ∧
    2097152 % Page.SIZE = 0 := by
  refine ⟨by decide, by decide, by decide, by decide⟩

/-! ## Thread cache: the fast path -/

theorem size_class_size_eq : SizeMap.size_class_size = 85 := rfl

/-- A thread-cache `alloc` on a non-empty list pops the head and touches nothing else. -/
theorem tc_alloc_pop (os : OS) (sc : Nat → SizeClassInfo) (w : World) (tc : ThreadCache)
    (c p : Nat) (rest : List Nat) (hc : 0 < c ∧ c < 85)
    (hl : (tc._lists c)._list = p :: rest) :
    ∃ tc1, ThreadCache.alloc os sc w tc c = some (p, w, tc1) ∧
      (tc1._lists c)._list = rest ∧
      (tc1._lists c)._max_length = (tc._lists c)._max_length := by
  have hne : (tc._lists c).empty = false := by simp [FreeList.empty, hl]
  have hpop : ∃ l1, (tc._lists c).pop = some (p, l1) ∧ l1._list = rest ∧
      l1._max_length = (tc._lists c)._max_length := by
    unfold DynamicFreeList.pop
    by_cases hlw : usub (tc._lists c).size 1 < (tc._lists c)._low_water
    · simp [hlw, DynamicFreeList.clear_low_water, FreeList.pop, hl]
    · simp [hlw, FreeList.pop, hl]
  obtain ⟨l1, hl1, hl1a, hl1b⟩ := hpop
  have hcc : c > 0 ∧ c < SizeMap.size_class_size := by rw [size_class_size_eq]; exact hc
  unfold ThreadCache.alloc
  simp only [hcc, not_true_eq_false, if_false, hne, Bool.false_eq_true, not_false_eq_true,
    if_true, hl1, and_self]
  by_cases hp : p = 0
  · rw [if_neg (by simp [hp])]
    exact ⟨_, rfl, by simp [ThreadCache.setList, hl1a], by simp [ThreadCache.setList, hl1b]⟩
  · rw [if_pos hp]
    exact ⟨_, rfl, by simp [ThreadCache.setList, hl1a], by simp [ThreadCache.setList, hl1b]⟩

/-- A thread-cache `dealloc` that keeps the list within its quota pushes the object and
touches nothing else. -/
theorem tc_dealloc_fit (sc : Nat → SizeClassInfo) (w : World) (tc : ThreadCache)
    (c p : Nat) (hc : 0 < c ∧ c < 85) (hp : p ≠ 0)
    (hfit : (tc._lists c).size + 1 ≤ (tc._lists c)._max_length) :
    ∃ tc1, ThreadCache.dealloc sc w tc c p = some (w, tc1) ∧
      (tc1._lists c)._list = p :: (tc._lists c)._list := by
  have hcc : c > 0 ∧ c < SizeMap.size_class_size := by rw [size_class_size_eq]; exact hc
  unfold ThreadCache.dealloc
  simp only [hcc, not_true_eq_false, if_false, hp, and_self]
  have hsz : ¬ (FreeList.push (tc._lists c).toFreeList p).size > (tc._lists c)._max_length := by
    simp only [FreeList.push, FreeList.size] at hfit ⊢
    omega
  simp only [FreeList.size] at hsz
  simp only [FreeList.size, hsz, if_false]
  refine ⟨_, rfl, ?_⟩
  simp [ThreadCache.setList, FreeList.push]

set_option maxRecDepth 100000 in
/-- C9 (counterexample): with the table `demoClasses` and an operating system that never
fails, in the state reached by one `alloc` of the 16-byte class, a second `alloc` returns
the non-null object 139717433622496; after `dealloc` of that object the next `alloc` of the
class returns 139717433622016, a different address. -/
theorem C9_round_trip_counterexample :
    scenarioRoundTrip = some (139717433622496, 139717433622016) ∧
    (139717433622496 : Nat) ≠ 0 ∧ (139717433622496 : Nat) ≠ 139717433622016 := by
  refine ⟨by decide, by decide, by decide⟩

set_option maxRecDepth 100000 in
/-- C9 (amended): for every size class `c` in `1..84`, every state of the singletons and of
the thread cache, and every non-null object `p`: if `dealloc(c, p)` keeps the list within
its quota (the size after the push does not exceed `max_length`, so `list_too_long` is not
run), then `dealloc` only pushes `p`, and the next `alloc(c)` on the same thread returns `p`
and leaves the singletons untouched. Scenario S1 (fresh allocator, `alloc` of the 16-byte
class, `dealloc`, `alloc`) returns the same address twice. -/
theorem C9_round_trip_within_quota (os : OS) (sc : Nat → SizeClassInfo) (w : World)
    (tc : ThreadCache) (c p : Nat) (hc : 0 < c ∧ c < 85) (hp : p ≠ 0)
    (hfit : (tc._lists c).size + 1 ≤ (tc._lists c)._max_length) :
    (∃ tc1 tc2, ThreadCache.dealloc sc w tc c p = some (w, tc1) ∧
      ThreadCache.alloc os sc w tc1 c = some (p, w, tc2)) ∧
    scenarioS1 = some (139717433622512, 139717433622512) := by
  refine ⟨?_, by decide⟩
  obtain ⟨tc1, h1, h2⟩ := tc_dealloc_fit sc w tc c p hc hp hfit
  obtain ⟨tc2, h3, _, _⟩ := tc_alloc_pop os sc w tc1 c p _ hc h2
  exact ⟨tc1, tc2, h1, h3⟩

/-- Witness for C9 (amended): a fresh thread cache (empty list, `max_length = 1`), class 2
and the object at address 4096. -/
theorem C9_round_trip_within_quota_witness :
    (∃ tc1 tc2, ThreadCache.dealloc demoClasses World.new ThreadCache.new 2 4096 =
        some (World.new, tc1) ∧
      ThreadCache.alloc demoOS demoClasses World.new tc1 2 = some (4096, World.new, tc2)) ∧
    scenarioS1 = some (139717433622512, 139717433622512) :=
  C9_round_trip_within_quota demoOS demoClasses World.new ThreadCache.new 2 4096
    (by decide) (by decide) (by decide)

/-! ## Central cache: size of a batch -/

theorem pop_batch_length (l : FreeList) (n : Nat) (batch : List Nat) (l1 : FreeList)
    (h : l.pop_batch n = some (batch, l1)) : batch.length = n ∧ l1._list = l._list.drop n := by
  unfold FreeList.pop_batch at h
  split at h
  · cases h
  · rename_i hlen
    cases h
    simp only [List.length_take, and_true]
    omega

theorem span_alloc_length (s : Span) (n : Nat) (objs : List Nat) (s1 : Span)
    (h : s.alloc n = some (objs, s1)) : objs.length ≤ n := by
  unfold Span.alloc at h
  simp only at h
  split at h
  · cases h
  · rename_i batch l hpop
    cases h
    have := (pop_batch_length _ _ _ _ hpop).1
    omega

theorem fetch_objects_loop_length (c n : Nat) :
    ∀ (fuel : Nat) (w : World) (batch res : List Nat) (w1 : World),
      CentralCache.fetch_objects_loop c n fuel w batch = some (res, w1) →
      batch.length ≤ n → res.length ≤ n := by
  intro fuel
  induction fuel with
  | zero =>
    intro w batch res w1 h hb
    simp only [CentralCache.fetch_objects_loop] at h
    split at h
    · cases h
    · cases h; exact hb
  | succ f ih =>
    intro w batch res w1 h hb
    simp only [CentralCache.fetch_objects_loop] at h
    split at h
    · split at h
      · cases h
      · split at h
        · cases h
        · split at h
          · cases h
          · rename_i objs s1 hal
            have := span_alloc_length _ _ _ _ hal
            refine ih _ _ _ _ h ?_
            simp only [List.length_append]
            omega
    · cases h; exact hb

theorem fetch_objects_length (w : World) (c n : Nat) (res : List Nat) (w1 : World)
    (h : CentralCache.fetch_objects w c n = some (res, w1)) : res.length ≤ n := by
  unfold CentralCache.fetch_objects at h
  split at h
  · cases h
  · exact fetch_objects_loop_length c n _ _ _ _ _ h (by simp)

theorem fetch_from_page_heap_length (os : OS) (sc : Nat → SizeClassInfo) (w : World)
    (c n : Nat) (res : List Nat) (w1 : World)
    (h : CentralCache.fetch_from_page_heap os sc w c n = some (res, w1)) : res.length ≤ n := by
  unfold CentralCache.fetch_from_page_heap at h
  split at h
  · cases h
  · split at h
    · cases h
    · exact fetch_objects_length _ _ _ _ _ h

/-- The Central Cache never hands out more objects than requested. -/
theorem cc_alloc_length (os : OS) (sc : Nat → SizeClassInfo) (w : World)
    (c n : Nat) (res : List Nat) (w1 : World)
    (h : CentralCache.alloc os sc w c n = some (res, w1)) : res.length ≤ n := by
  unfold CentralCache.alloc at h
  split at h
  · cases h
  · split at h
    · cases h; simp
    · split at h
      · cases h
      · rename_i batch w2 hfo
        have hb := fetch_objects_length _ _ _ _ _ hfo
        simp only at h
        split at h
        · cases h
        · rename_i r w3 hmore
          cases h
          split at hmore
          · split at hmore
            · cases hmore
            · rename_i batch2 w4 hfp
              cases hmore
              have := fetch_from_page_heap_length _ _ _ _ _ _ _ hfp
              simp only [List.length_append]
              omega
          · cases hmore; exact hb

/-! ## Thread cache: the refill path -/

/-- A thread-cache `alloc` on an empty list that returns an object has refilled the list
with fewer than `num_to_move` objects and has raised `max_length` by one, or to at least
`num_to_move`. -/
theorem tc_alloc_fetch (os : OS) (sc : Nat → SizeClassInfo) (w : World) (tc : ThreadCache)
    (c p : Nat) (w1 : World) (tc1 : ThreadCache)
    (hl : (tc._lists c)._list = [])
    (h : ThreadCache.alloc os sc w tc c = some (p, w1, tc1)) (hp : p ≠ 0) :
    (tc1._lists c)._list.length + 1 ≤ SizeMap.num_to_move sc c ∧
    min (SizeMap.num_to_move sc c) ((tc._lists c)._max_length + 1) ≤
      (tc1._lists c)._max_length := by
  have he : (tc._lists c).empty = true := by simp [FreeList.empty, hl]
  unfold ThreadCache.alloc at h
  split at h
  · cases h
  · simp only [he, not_true_eq_false, if_false] at h
    split at h
    · cases h
    · rename_i object w2 tc2 hf
      have hobj : object = p ∧ tc1._lists = tc2._lists := by
        split at h
        · cases h; exact ⟨rfl, rfl⟩
        · cases h; exact ⟨rfl, rfl⟩
      obtain ⟨rfl, hl12⟩ := hobj
      rw [hl12]
      clear h
      unfold ThreadCache.fetch_from_central_cache at hf
      split at hf
      · cases hf
      · simp only [he, not_true_eq_false, if_false] at hf
        split at hf
        · cases hf
        · rename_i hb
          split at hf
          · cases hf
          · rename_i batch w3 hcc
            have hlen := cc_alloc_length _ _ _ _ _ _ _ hcc
            split at hf
            · cases hf; exact absurd rfl hp
            · rename_i hcnt
              split at hf
              · cases hf
              · rename_i f hpush
                cases hf
                unfold FreeList.push_batch at hpush
                split at hpush
                · cases hpush
                · split at hpush
                  · cases hpush
                  · rename_i hn0 hlt
                    cases hpush
                    have hu : usub batch.length 1 = batch.length - 1 := by
                      unfold usub
                      have : 1 ≤ batch.length := Nat.pos_of_ne_zero hcnt
                      simp [this]
                    have hb1 : 1 ≤ SizeMap.num_to_move sc c := by omega
                    have hb2 : SizeMap.num_to_move sc c ≤ 128 := by
                      simpa [SizeMap.max_move] using hb
                    by_cases hml : (tc._lists c)._max_length < SizeMap.num_to_move sc c
                    · simp only [ThreadCache.setList, if_true, hl, List.append_nil,
                        List.length_take, List.length_drop, hu, hml]
                      omega
                    · simp only [ThreadCache.setList, if_true, hl, List.append_nil,
                        List.length_take, List.length_drop, hu, hml, if_false]
                      refine ⟨by omega, ?_⟩
                      have hmin : SizeMap.num_to_move sc c ≤
                          min ((tc._lists c)._max_length +
                            SizeMap.num_to_move sc c) ThreadCache._max_list_objects := by
                        simp only [ThreadCache._max_list_objects]
                        omega
                      generalize min ((tc._lists c)._max_length +
                        SizeMap.num_to_move sc c) ThreadCache._max_list_objects = T at *
                      generalize SizeMap.num_to_move sc c = B at *
                      have hdvd := Nat.mod_add_div T B
                      have hq : 1 ≤ T / B := (Nat.one_le_div_iff (by omega)).2 hmin
                      have : B ≤ B * (T / B) := Nat.le_mul_of_pos_right B (by omega)
                      omega

theorem tc_alloc_class (os : OS) (sc : Nat → SizeClassInfo) (w : World) (tc : ThreadCache)
    (c : Nat) (r : Nat × World × ThreadCache)
    (h : ThreadCache.alloc os sc w tc c = some r) : 0 < c ∧ c < 85 := by
  unfold ThreadCache.alloc at h
  split at h
  · cases h
  · rename_i hc
    rw [size_class_size_eq] at hc
    simpa using hc

/-- Bookkeeping for a run of successive allocations: with `j` objects handed out so far and
`f` refills so far, `j` plus the list length is at most `f` batches, and `max_length` has
grown by one per refill up to the batch size. The run keeps this for some number of
refills. -/
theorem alloc_n_refills (os : OS) (sc : Nat → SizeClassInfo) (c : Nat) :
    ∀ (k : Nat) (w : World) (tc : ThreadCache) (w1 : World) (tc1 : ThreadCache) (j f : Nat),
      ThreadCache.alloc_n os sc c k w tc = some (w1, tc1) →
      j + (tc._lists c)._list.length ≤ SizeMap.num_to_move sc c * f →
      min (SizeMap.num_to_move sc c) (1 + f) ≤ (tc._lists c)._max_length →
      ∃ f1, j + k + (tc1._lists c)._list.length ≤ SizeMap.num_to_move sc c * f1 ∧
        min (SizeMap.num_to_move sc c) (1 + f1) ≤ (tc1._lists c)._max_length := by
  intro k
  induction k with
  | zero =>
    intro w tc w1 tc1 j f h h1 h2
    simp only [ThreadCache.alloc_n] at h
    cases h
    exact ⟨f, by simpa using h1, h2⟩
  | succ k ih =>
    intro w tc w1 tc1 j f h h1 h2
    simp only [ThreadCache.alloc_n] at h
    split at h
    · cases h
    · rename_i object w2 tc2 hal
      split at h
      · cases h
      · rename_i hobj
        have hc := tc_alloc_class _ _ _ _ _ _ hal
        cases hl : (tc._lists c)._list with
        | nil =>
          obtain ⟨hlen, hml⟩ := tc_alloc_fetch os sc w tc c object w2 tc2 hl hal hobj
          rw [hl] at h1
          simp only [List.length_nil, Nat.add_zero] at h1
          obtain ⟨f1, hf1, hf2⟩ := ih w2 tc2 w1 tc1 (j + 1) (f + 1) h
            (by rw [Nat.mul_add]; omega) (by omega)
          exact ⟨f1, by omega, hf2⟩
        | cons p rest =>
          obtain ⟨tc3, h3, h4, h5⟩ := tc_alloc_pop os sc w tc c p rest hc hl
          rw [h3] at hal
          cases hal
          rw [hl] at h1
          simp only [List.length_cons] at h1
          obtain ⟨f1, hf1, hf2⟩ := ih _ _ w1 tc1 (j + 1) f h
            (by rw [h4]; omega) (by rw [h5]; exact h2)
          exact ⟨f1, by omega, hf2⟩

set_option maxRecDepth 100000 in
/-- C10 (counterexample): with the table `demoClasses`, whose class 2 has
`num_to_move = 32`, a fresh thread cache and an operating system that never fails, after 32
successive successful `alloc(2)` calls the list's `max_length` is 2, which is below the
batch size 32. -/
theorem C10_batch_monotonicity_counterexample :
    SizeMap.num_to_move demoClasses 2 = 32 ∧
    (ThreadCache.alloc_n demoOS demoClasses 2 32 World.new ThreadCache.new).map
      (fun r => (r.2._lists 2)._max_length) = some 2 := by
  refine ⟨by decide, by decide⟩

/-- C10 (amended): for every size class `c` with `b = num_to_move(c)`, starting from a list
as a fresh Thread Cache has it (empty, `max_length = 1`) and any state of the singletons,
after `k` successive successful `alloc(c)` calls with no `dealloc` in between the list's
`max_length` is at least `min(b, 1 + ceil(k / b))`; hence `max_length >= b` once
`k >= (b - 2) * b + 1`. -/
theorem C10_max_length_after_allocs (os : OS) (sc : Nat → SizeClassInfo) (c k : Nat)
    (w : World) (tc : ThreadCache) (w1 : World) (tc1 : ThreadCache)
    (hfresh : tc._lists c = DynamicFreeList.new)
    (hrun : ThreadCache.alloc_n os sc c k w tc = some (w1, tc1)) :
    min (SizeMap.num_to_move sc c)
        (1 + (k + SizeMap.num_to_move sc c - 1) / SizeMap.num_to_move sc c) ≤
      (tc1._lists c)._max_length ∧
    ((SizeMap.num_to_move sc c - 2) * SizeMap.num_to_move sc c + 1 ≤ k →
      SizeMap.num_to_move sc c ≤ (tc1._lists c)._max_length) := by
  obtain ⟨f1, hf1, hf2⟩ := alloc_n_refills os sc c k w tc w1 tc1 0 0 hrun
    (by rw [hfresh]; simp [DynamicFreeList.new, FreeList.new])
    (by rw [hfresh]; simp [DynamicFreeList.new])
  generalize SizeMap.num_to_move sc c = b at *
  generalize (tc1._lists c)._max_length = ml at *
  generalize (tc1._lists c)._list.length = len at *
  rcases Nat.eq_zero_or_pos b with hb | hb
  · subst hb
    simp
  · have hk : k ≤ b * f1 := by omega
    have hdiv : (k + b - 1) / b ≤ f1 := by
      have : (k + b - 1) / b < f1 + 1 := by
        rw [Nat.div_lt_iff_lt_mul hb, Nat.add_mul, Nat.mul_comm f1 b]
        omega
      omega
    have h1 : min b (1 + (k + b - 1) / b) ≤ ml := by omega
    refine ⟨h1, fun hge => ?_⟩
    have h2 : b - 1 ≤ (k + b - 1) / b := by
      rw [Nat.le_div_iff_mul_le hb]
      rcases Nat.lt_or_ge b 2 with hb2 | hb2
      · have : b = 1 := by omega
        subst this
        omega
      · obtain ⟨n, rfl⟩ : ∃ n, b = n + 2 := ⟨b - 2, by omega⟩
        simp only [Nat.add_sub_cancel] at hge
        have e : (n + 2 - 1) * (n + 2) = n * (n + 2) + (n + 2) := by
          have : n + 2 - 1 = n + 1 := by omega
          rw [this, Nat.add_mul, Nat.one_mul]
        rw [e]
        omega
    omega

set_option maxRecDepth 100000 in
/-- Witness for C10 (amended): 33 allocations of class 2 of `demoClasses` on a fresh
allocator. -/
theorem C10_max_length_after_allocs_witness :
    ∃ w1 tc1, ThreadCache.alloc_n demoOS demoClasses 2 33 World.new ThreadCache.new =
        some (w1, tc1) ∧
      min (SizeMap.num_to_move demoClasses 2)
          (1 + (33 + SizeMap.num_to_move demoClasses 2 - 1) /
            SizeMap.num_to_move demoClasses 2) ≤ (tc1._lists 2)._max_length := by
  cases h : ThreadCache.alloc_n demoOS demoClasses 2 33 World.new ThreadCache.new with
  | none =>
    have : (ThreadCache.alloc_n demoOS demoClasses 2 33 World.new ThreadCache.new).isSome
        = true := by decide
    rw [h] at this
    cases this
  | some r =>
    exact ⟨r.1, r.2, rfl,
      (C10_max_length_after_allocs demoOS demoClasses 2 33 World.new ThreadCache.new r.1 r.2
        rfl h).1⟩

/-! ## Arithmetic helpers -/

theorem usub_of_le (a b : Nat) (h : b ≤ a) : usub a b = a - b := by
  simp [usub, h]

theorem pageHeap_n_eq : PageHeap._n = 128 := by decide

theorem span_idx_eq (s : Span) (h : 1 ≤ s._num_pages) :
    PageHeap.span_idx s = min s._num_pages 129 - 1 := by
  unfold PageHeap.span_idx
  rw [pageHeap_n_eq, usub_of_le _ _ (by omega)]

theorem span_idx_le (s : Span) (h : 1 ≤ s._num_pages) : PageHeap.span_idx s ≤ PageHeap._n := by
  rw [span_idx_eq s h, pageHeap_n_eq]; omega

theorem page_ofPtr_start (id : Nat) : Page.ofPtr (Page.start_addr id) = id := by
  rw [page_ofPtr_eq, page_start_addr_eq]; omega

/-! ## Page map operations -/

theorem mem_erase (m : PageMap) (s t : Span) :
    t ∈ PageMap.erase m s ↔ t ∈ m ∧ t.start_addr ≠ s.start_addr := by
  simp [PageMap.erase, List.mem_filter]

theorem mem_insert (m : PageMap) (s t : Span) :
    t ∈ PageMap.insert m s ↔ t = s ∨ (t ∈ m ∧ t.start_addr ≠ s.start_addr) := by
  simp [PageMap.insert, List.mem_filter]

theorem mem_set (m : PageMap) (s t : Span) :
    t ∈ PageMap.set m s ↔
      (t = s ∧ ∃ u ∈ m, u.start_addr = s.start_addr) ∨ (t ∈ m ∧ t.start_addr ≠ s.start_addr) := by
  simp only [PageMap.set, List.mem_map]
  constructor
  · rintro ⟨u, hu, rfl⟩
    by_cases h : u.start_addr = s.start_addr
    · left; simp only [h, if_true]; exact ⟨trivial, u, hu, h⟩
    · right; simp only [h, if_false]; exact ⟨hu, h⟩
  · rintro (⟨rfl, u, hu, h⟩ | ⟨ht, h⟩)
    · exact ⟨u, hu, by simp [h]⟩
    · exact ⟨t, ht, by simp [h]⟩

theorem wf_start_inj {m : PageMap} (h : PageMap.WF m) {a b : Span} (ha : a ∈ m) (hb : b ∈ m)
    (hab : a.start_addr = b.start_addr) : a = b := by
  rcases h.2 a ha b hb with heq | hd
  · exact heq
  · have h1 := span_start_lt_end a (h.1 a ha)
    have h2 := span_start_lt_end b (h.1 b hb)
    rcases hd with hd | hd <;> omega

theorem get_eq_some_iff {m : PageMap} (h : PageMap.WF m) (k : Nat) (s : Span) :
    PageMap.get m k = some s ↔ s ∈ m ∧ s.start_addr = k := by
  unfold PageMap.get
  constructor
  · intro hf
    have h1 := List.mem_of_find?_eq_some hf
    have h2 := List.find?_some hf
    exact ⟨h1, by simpa using h2⟩
  · rintro ⟨hs, hk⟩
    cases hf : List.find? (fun t => decide (t.start_addr = k)) m with
    | none =>
      have := List.find?_eq_none.1 hf s hs
      simp [hk] at this
    | some t =>
      have h1 := List.mem_of_find?_eq_some hf
      have h2 := List.find?_some hf
      have : t.start_addr = k := by simpa using h2
      rw [wf_start_inj h h1 hs (by omega)]

theorem wf_erase {m : PageMap} (h : PageMap.WF m) (s : Span) : PageMap.WF (PageMap.erase m s) := by
  constructor
  · intro t ht; exact h.1 t ((mem_erase m s t).1 ht).1
  · intro a ha b hb
    exact h.2 a ((mem_erase m s a).1 ha).1 b ((mem_erase m s b).1 hb).1

theorem wf_insert {m : PageMap} (h : PageMap.WF m) (s : Span) (hs : 1 ≤ s._num_pages)
    (hd : ∀ t ∈ m, t.start_addr ≠ s.start_addr → Span.disjoint s t) :
    PageMap.WF (PageMap.insert m s) := by
  constructor
  · intro t ht
    rcases (mem_insert m s t).1 ht with rfl | ⟨ht, _⟩
    · exact hs
    · exact h.1 t ht
  · intro a ha b hb
    rcases (mem_insert m s a).1 ha with rfl | ⟨ha1, hna⟩
    · rcases (mem_insert m a b).1 hb with rfl | ⟨hb1, hnb⟩
      · left; rfl
      · right; exact hd b hb1 hnb
    · rcases (mem_insert m s b).1 hb with rfl | ⟨hb1, hnb⟩
      · right; exact span_disjoint_symm (hd a ha1 hna)
      · exact h.2 a ha1 b hb1

/-- Writing through a span pointer keeps the map well formed when the span keeps at least
one page and does not grow. -/
theorem wf_set {m : PageMap} (h : PageMap.WF m) (s0 s : Span) (hs0 : s0 ∈ m)
    (hst : s.start_addr = s0.start_addr) (hs : 1 ≤ s._num_pages)
    (hle : s._num_pages ≤ s0._num_pages) : PageMap.WF (PageMap.set m s) := by
  have hend : s.end_addr ≤ s0.end_addr := by
    rw [span_end_addr_eq, span_end_addr_eq, hst]
    have := Nat.mul_le_mul_right 8192 hle
    omega
  have key : ∀ t ∈ m, t.start_addr ≠ s.start_addr → Span.disjoint s t := by
    intro t ht hne
    rcases h.2 s0 hs0 t ht with heq | hd
    · subst heq; exact absurd hst.symm hne
    · rcases hd with hd | hd
      · left; omega
      · right; omega
  constructor
  · intro t ht
    rcases (mem_set m s t).1 ht with ⟨rfl, _⟩ | ⟨ht, _⟩
    · exact hs
    · exact h.1 t ht
  · intro a ha b hb
    rcases (mem_set m s a).1 ha with ⟨rfl, _⟩ | ⟨ha1, hna⟩
    · rcases (mem_set m a b).1 hb with ⟨rfl, _⟩ | ⟨hb1, hnb⟩
      · left; rfl
      · right; exact key b hb1 hnb
    · rcases (mem_set m s b).1 hb with ⟨rfl, _⟩ | ⟨hb1, hnb⟩
      · right; exact span_disjoint_symm (key a ha1 hna)
      · exact h.2 a ha1 b hb1

/-! ## Span lists -/

theorem setList_same (lists : Nat → SpanList) (i : Nat) (l : SpanList) :
    setList lists i l i = l := by
  simp [setList]

theorem setList_other (lists : Nat → SpanList) (i j : Nat) (l : SpanList) (h : j ≠ i) :
    setList lists i l j = lists j := by
  simp [setList, h]

/-! ## System allocator -/

/-- Masking a 64-bit word with `~(2 ^ 21 - 1)` rounds it down to a multiple of 2 MiB. -/
theorem land_mask21 (x : Nat) (hx : x < 2 ^ 64) :
    x &&& (2 ^ 64 - 2 ^ 21) = x - x % 2 ^ 21 := by
  have e1 : (2 ^ 64 - 2 ^ 21 : Nat) = 2 ^ 21 * (2 ^ 43 - 1) := by norm_num
  have e2 : x - x % 2 ^ 21 = 2 ^ 21 * (x >>> 21) := by
    rw [Nat.shiftRight_eq_div_pow]
    have := Nat.div_add_mod x (2 ^ 21)
    omega
  rw [e1, e2]
  apply Nat.eq_of_testBit_eq
  intro i
  rw [Nat.testBit_and, Nat.testBit_mul_pow_two, Nat.testBit_mul_pow_two,
    Nat.testBit_two_pow_sub_one, Nat.testBit_shiftRight]
  by_cases h1 : i ≥ 21
  · have e3 : 21 + (i - 21) = i := by omega
    rw [e3]
    by_cases h2 : i < 64
    · have : i - 21 < 43 := by omega
      simp [h1, this]
    · have hlt : x < 2 ^ i :=
        lt_of_lt_of_le hx (Nat.pow_le_pow_right (by omega) (by omega))
      simp [Nat.testBit_lt_two_pow hlt]
  · simp [h1]

theorem mask21_eq : SystemAlloc.mask (2 ^ 21) = 2 ^ 64 - 2 ^ 21 := by decide

theorem min_system_alloc_eq : SystemAlloc.min_system_alloc = 2 ^ 21 := by decide

theorem min_mmap_alloc_eq : SystemAlloc.min_mmap_alloc = 2 ^ 30 := by decide

/-- With page alignment the System Allocator always asks the region for 2 MiB, 2 MiB
aligned, whatever the byte count requested. -/
theorem sa_alloc_page (os : OS) (sa : SystemAlloc) (x : Nat) :
    SystemAlloc.alloc os sa x Page.SIZE =
      if sa._region.1 ≠ 0 then
        (if (SystemAlloc.alloc_from_region os sa (2 ^ 21) (2 ^ 21)).1.1 ≠ 0 then
          some (SystemAlloc.alloc_from_region os sa (2 ^ 21) (2 ^ 21))
        else SystemAlloc.alloc_from_new_region os
          (SystemAlloc.alloc_from_region os sa (2 ^ 21) (2 ^ 21)).2 (2 ^ 21) (2 ^ 21))
      else SystemAlloc.alloc_from_new_region os sa (2 ^ 21) (2 ^ 21) := by
  unfold SystemAlloc.alloc
  have h1 : max Page.SIZE SystemAlloc.min_system_alloc = 2 ^ 21 := by decide
  have h2 : SystemAlloc.round_up (2 ^ 21) SystemAlloc.min_system_alloc = 2 ^ 21 := by decide
  have h3 : ¬ ((2 : Nat) ^ 21 > SystemAlloc.max_mmap_alloc ∨
      (2 : Nat) ^ 21 > SystemAlloc.max_mmap_alloc) := by decide
  have h4 : ¬ ((2 : Nat) ^ 21 > SystemAlloc.min_mmap_alloc ∨
      (2 : Nat) ^ 21 > SystemAlloc.min_mmap_alloc) := by decide
  simp only [h1, h2, h3, h4, if_false]

theorem map_failed_eq : MAP_FAILED = 2 ^ 64 - 1 := by decide

/-- A mapping that succeeded contains its 1 GiB region, which starts at a non-null multiple
of 1 GiB. -/
theorem region_facts (os : OS) (h : OS.Sane os) (k : Nat) (hk : os.mmap k ≠ MAP_FAILED) :
    os.mmap k ≤ os.region k ∧ os.region k < os.mmap k + 2 ^ 30 ∧
    os.region k % 2 ^ 30 = 0 ∧ 0 < os.region k ∧ os.region k + 2 ^ 30 < 2 ^ 64 := by
  obtain ⟨h0, _, h2⟩ := h.1 k hk
  unfold OS.region
  have hu : usub (2 ^ 30) (os.mmap k % 2 ^ 30) = 2 ^ 30 - os.mmap k % 2 ^ 30 :=
    usub_of_le _ _ (by omega)
  rw [hu]
  unfold SIZE_T at h2 ⊢
  omega

theorem region_failed (os : OS) (k : Nat) (hk : os.mmap k = MAP_FAILED) : os.region k = 0 := by
  unfold OS.region
  rw [hk]
  decide

/-- Two regions from different mappings are separated by a gap. -/
theorem regions_separated (os : OS) (h : OS.Sane os) (j k : Nat) (hjk : j ≠ k)
    (hj : os.mmap j ≠ MAP_FAILED) (hk : os.mmap k ≠ MAP_FAILED) :
    os.region j + 2 ^ 30 < os.region k ∨ os.region k + 2 ^ 30 < os.region j := by
  have fj := region_facts os h j hj
  have fk := region_facts os h k hk
  obtain ⟨_, aj, _⟩ := h.1 j hj
  obtain ⟨_, ak, _⟩ := h.1 k hk
  rcases h.2 j k hjk hj hk with hd | hd
  · left; omega
  · right; omega

theorem regions_inj (os : OS) (h : OS.Sane os) (j k : Nat)
    (hj : os.mmap j ≠ MAP_FAILED) (hk : os.mmap k ≠ MAP_FAILED)
    (heq : os.region j = os.region k) : j = k := by
  by_contra hne
  rcases regions_separated os h j k hne hj hk with hd | hd <;> omega

theorem mmap_align_region (os : OS) (sa : SystemAlloc) (n : Nat) (flag : Bool) :
    SystemAlloc.mmap_align os sa n SystemAlloc.min_mmap_alloc flag =
      some (os.region sa.mmap_calls, { sa with mmap_calls := sa.mmap_calls + 1 }) := by
  unfold SystemAlloc.mmap_align
  rw [min_mmap_alloc_eq]
  simp [OS.region]

/-- Peeling 2 MiB from a region that ends on a 2 MiB boundary: either the attempt fails and
leaves the region alone, or it returns the top 2 MiB. -/
theorem alloc_from_region_spec (os : OS) (sa : SystemAlloc)
    (h1 : 2 ^ 21 ≤ sa._region.1) (h2 : sa._region.1 ≤ sa._region.2)
    (h3 : sa._region.2 < 2 ^ 64) (h4 : sa._region.2 % 2 ^ 21 = 0) :
    ∃ ptr actual sa1,
      SystemAlloc.alloc_from_region os sa (2 ^ 21) (2 ^ 21) = ((ptr, actual), sa1) ∧
      sa1.mmap_calls = sa.mmap_calls ∧
      ((ptr = 0 ∧ sa1._region = sa._region) ∨
        (ptr = sa._region.2 - 2 ^ 21 ∧ actual = 2 ^ 21 ∧
          sa._region.1 + 2 ^ 21 ≤ sa._region.2 ∧
          sa1._region = (sa._region.1, sa._region.2 - 2 ^ 21))) := by
  have hu : usub sa._region.2 (2 ^ 21) = sa._region.2 - 2 ^ 21 := usub_of_le _ _ (by omega)
  have hres : (sa._region.2 - 2 ^ 21) &&& SystemAlloc.mask (2 ^ 21) = sa._region.2 - 2 ^ 21 := by
    rw [mask21_eq, land_mask21 _ (by omega)]
    omega
  unfold SystemAlloc.alloc_from_region
  simp only [hu, hres]
  by_cases hlt : sa._region.2 - 2 ^ 21 < sa._region.1
  · rw [if_pos hlt]
    exact ⟨0, 0, sa, rfl, rfl, Or.inl ⟨rfl, rfl⟩⟩
  · by_cases hm : os.mprotect sa.mprotect_calls = false
    · rw [if_neg hlt, if_pos hm]
      exact ⟨0, 0, _, rfl, rfl, Or.inl ⟨rfl, rfl⟩⟩
    · have hu2 : usub sa._region.2 (sa._region.2 - 2 ^ 21) = 2 ^ 21 := by
        rw [usub_of_le _ _ (by omega)]; omega
      rw [if_neg hlt, if_neg hm, hu2]
      exact ⟨_, _, _, rfl, rfl, Or.inr ⟨rfl, rfl, by omega, rfl⟩⟩

/-- A new region: the mapping fails and nothing changes but the call count, or the region
becomes the gigabyte inside the new mapping and its top 2 MiB are tried. -/
theorem alloc_from_new_region_spec (os : OS) (hos : OS.Sane os) (sa : SystemAlloc) :
    ∃ ptr actual sa1,
      SystemAlloc.alloc_from_new_region os sa (2 ^ 21) (2 ^ 21) = some ((ptr, actual), sa1) ∧
      sa1.mmap_calls = sa.mmap_calls + 1 ∧
      ((ptr = 0 ∧ sa1._region = sa._region) ∨
        (os.mmap sa.mmap_calls ≠ MAP_FAILED ∧ sa1._region.1 = os.region sa.mmap_calls ∧
          ((ptr = 0 ∧ sa1._region.2 = os.region sa.mmap_calls + 2 ^ 30) ∨
           (ptr + 2 ^ 21 = os.region sa.mmap_calls + 2 ^ 30 ∧ actual = 2 ^ 21 ∧
             sa1._region.2 = ptr)))) := by
  unfold SystemAlloc.alloc_from_new_region
  rw [mmap_align_region]
  simp only
  by_cases hk : os.mmap sa.mmap_calls = MAP_FAILED
  · rw [if_pos (region_failed os _ hk)]
    exact ⟨0, 0, _, rfl, rfl, Or.inl ⟨rfl, rfl⟩⟩
  · obtain ⟨f1, f2, f3, f4, f5⟩ := region_facts os hos _ hk
    rw [if_neg (by omega)]
    have hmod : (os.region sa.mmap_calls + SystemAlloc.min_mmap_alloc) % SIZE_T =
        os.region sa.mmap_calls + 2 ^ 30 := by
      rw [min_mmap_alloc_eq]
      unfold SIZE_T
      omega
    rw [hmod]
    obtain ⟨ptr, actual, sa1, he, hc, hcase⟩ := alloc_from_region_spec os
      { sa with mmap_calls := sa.mmap_calls + 1,
                _region := (os.region sa.mmap_calls, os.region sa.mmap_calls + 2 ^ 30) }
      (by simp only; omega) (by simp only; omega) (by simp only; omega) (by simp only; omega)
    refine ⟨ptr, actual, sa1, by rw [he], hc, Or.inr ⟨hk, ?_⟩⟩
    rcases hcase with ⟨hp, hreg⟩ | ⟨hp, ha, hle, hreg⟩
    · simp only at hreg
      exact ⟨by rw [hreg], Or.inl ⟨hp, by rw [hreg]⟩⟩
    · simp only at hreg hp hle
      refine ⟨by rw [hreg], Or.inr ⟨?_, ha, ?_⟩⟩
      · rw [hp]; omega
      · rw [hreg, hp]

/-- What a page-aligned request to the System Allocator does to a well-formed region: the
region stays well formed; it is either the old region with a lower end or a region of a new
mapping; and a non-null result is the 2 MiB chunk right above the new end of the region. -/
theorem sa_alloc_spec (os : OS) (hos : OS.Sane os) (sa : SystemAlloc) (hr : RegionOk os sa)
    (x ptr actual : Nat) (sa1 : SystemAlloc)
    (h : SystemAlloc.alloc os sa x Page.SIZE = some ((ptr, actual), sa1)) :
    RegionOk os sa1 ∧ sa.mmap_calls ≤ sa1.mmap_calls ∧
    ((sa1._region.1 = sa._region.1 ∧ sa1._region.2 ≤ sa._region.2) ∨
      (∃ k, sa.mmap_calls ≤ k ∧ k < sa1.mmap_calls ∧ os.mmap k ≠ MAP_FAILED ∧
        sa1._region.1 = os.region k)) ∧
    (ptr ≠ 0 → actual = 2 ^ 21 ∧ sa1._region.2 = ptr ∧ ptr % 2 ^ 21 = 0 ∧
      ∃ k, k < sa1.mmap_calls ∧ os.mmap k ≠ MAP_FAILED ∧ sa1._region.1 = os.region k ∧
        os.region k ≤ ptr ∧ ptr + 2 ^ 21 ≤ os.region k + 2 ^ 30 ∧
        (sa1._region.1 = sa._region.1 → ptr + 2 ^ 21 ≤ sa._region.2)) := by
  -- the outcome of a fresh region, for an allocator `sb` that has the region of `sa`
  have fresh : ∀ sb : SystemAlloc, sb._region = sa._region → sb.mmap_calls = sa.mmap_calls →
      SystemAlloc.alloc_from_new_region os sb (2 ^ 21) (2 ^ 21) = some ((ptr, actual), sa1) →
      RegionOk os sa1 ∧ sa.mmap_calls ≤ sa1.mmap_calls ∧
      ((sa1._region.1 = sa._region.1 ∧ sa1._region.2 ≤ sa._region.2) ∨
        (∃ k, sa.mmap_calls ≤ k ∧ k < sa1.mmap_calls ∧ os.mmap k ≠ MAP_FAILED ∧
          sa1._region.1 = os.region k)) ∧
      (ptr ≠ 0 → actual = 2 ^ 21 ∧ sa1._region.2 = ptr ∧ ptr % 2 ^ 21 = 0 ∧
        ∃ k, k < sa1.mmap_calls ∧ os.mmap k ≠ MAP_FAILED ∧ sa1._region.1 = os.region k ∧
          os.region k ≤ ptr ∧ ptr + 2 ^ 21 ≤ os.region k + 2 ^ 30 ∧
          (sa1._region.1 = sa._region.1 → ptr + 2 ^ 21 ≤ sa._region.2)) := by
    intro sb hreg hcalls hnew
    obtain ⟨p2, a2, s2, he, hc, hcase⟩ := alloc_from_new_region_spec os hos sb
    rw [he] at hnew
    simp only [Option.some.injEq, Prod.mk.injEq] at hnew
    obtain ⟨⟨rfl, rfl⟩, rfl⟩ := hnew
    rw [hcalls] at hc hcase
    rcases hcase with ⟨hp, hreg2⟩ | ⟨hk, hr1, hcase2⟩
    · refine ⟨?_, by omega, Or.inl ⟨by rw [hreg2, hreg], by rw [hreg2, hreg]⟩,
        fun hne => absurd hp hne⟩
      rcases hr with h0 | ⟨k, hk1, hk2, hk3, hk4, hk5, hk6⟩
      · left; rw [hreg2, hreg, h0]
      · right
        refine ⟨k, by omega, hk2, ?_, ?_, ?_, ?_⟩ <;> rw [hreg2, hreg] <;> assumption
    · obtain ⟨f1, f2, f3, f4, f5⟩ := region_facts os hos _ hk
      have hnot : s2._region.1 = sa._region.1 → False := by
        intro heq
        rcases hr with h0 | ⟨k, hk1, hk2, hk3, _⟩
        · rw [h0] at heq; simp only at heq; omega
        · have := regions_inj os hos _ _ hk hk2 (by rw [← hr1, heq, hk3])
          omega
      rcases hcase2 with ⟨hp, hr2⟩ | ⟨hp, ha, hr2⟩
      · refine ⟨Or.inr ⟨_, by omega, hk, hr1, by omega, by omega, by omega⟩, by omega,
          Or.inr ⟨_, Nat.le_refl _, by omega, hk, hr1⟩, fun hne => absurd hp hne⟩
      · refine ⟨Or.inr ⟨_, by omega, hk, hr1, by omega, by omega, by omega⟩, by omega,
          Or.inr ⟨_, Nat.le_refl _, by omega, hk, hr1⟩, fun _ => ⟨ha, hr2, by omega,
            _, by omega, hk, hr1, by omega, by omega, fun heq => (hnot heq).elim⟩⟩
  rw [sa_alloc_page] at h
  by_cases h0 : sa._region.1 ≠ 0
  · rw [if_pos h0] at h
    rcases hr with hz | ⟨k, hk1, hk2, hk3, hk4, hk5, hk6⟩
    · rw [hz] at h0; exact absurd rfl h0
    · obtain ⟨f1, f2, f3, f4, f5⟩ := region_facts os hos _ hk2
      obtain ⟨p2, a2, s2, he, hc, hcase⟩ := alloc_from_region_spec os sa
        (by omega) hk4 (by omega) hk6
      rw [he] at h
      simp only at h
      by_cases hp2 : p2 ≠ 0
      · rw [if_pos hp2] at h
        simp only [Option.some.injEq, Prod.mk.injEq] at h
        obtain ⟨⟨rfl, rfl⟩, rfl⟩ := h
        rcases hcase with ⟨hp, _⟩ | ⟨hp, ha, hle, hreg⟩
        · exact absurd hp hp2
        · have e1 : s2._region.1 = sa._region.1 := by rw [hreg]
          have e2 : s2._region.2 = sa._region.2 - 2 ^ 21 := by rw [hreg]
          refine ⟨Or.inr ⟨k, by omega, hk2, by omega, by omega, by omega, by omega⟩,
            by omega, Or.inl ⟨e1, by omega⟩, fun _ => ⟨ha, by omega, by omega,
              k, by omega, hk2, by omega, by omega, by omega, fun _ => by omega⟩⟩
      · rw [if_neg hp2] at h
        rcases hcase with ⟨hp, hreg⟩ | ⟨hp, ha, hle, hreg⟩
        · exact fresh s2 hreg hc h
        · exfalso; apply hp2; omega
  · rw [if_neg h0] at h
    exact fresh sa rfl rfl h

/-! ## The span lists of the Page Heap -/

theorem idleAt_inj {m : PageMap} (h : PageMap.WF m) {x i j : Nat}
    (hi : PageMap.idleAt m x i) (hj : PageMap.idleAt m x j) : i = j := by
  obtain ⟨s, hs, hsx, _, hsi⟩ := hi
  obtain ⟨t, ht, htx, _, htj⟩ := hj
  have := wf_start_inj h hs ht (by omega)
  subst this
  omega

/-- Unlinking an IDLE span from its list matches a map that lost exactly that IDLE span. -/
theorem lists_remove {lists : Nat → SpanList} {m m1 : PageMap} (hl : PageHeap.ListsOk lists m)
    (hwf : PageMap.WF m) (s : Span) (hs : s ∈ m) (hidle : s._status = STATUS.IDLE)
    (hm1 : ∀ x i, PageMap.idleAt m1 x i ↔ PageMap.idleAt m x i ∧ x ≠ s.start_addr) :
    PageHeap.ListsOk (setList lists (PageHeap.span_idx s)
      ((lists (PageHeap.span_idx s)).remove s.start_addr)) m1 := by
  have hsi : PageMap.idleAt m s.start_addr (PageHeap.span_idx s) := ⟨s, hs, rfl, hidle, rfl⟩
  constructor
  · intro i
    by_cases hi : i = PageHeap.span_idx s
    · subst hi
      rw [setList_same]
      exact (hl.1 _).erase _
    · rw [setList_other _ _ _ _ hi]
      exact hl.1 i
  · intro i x
    rw [hm1]
    by_cases hi : i = PageHeap.span_idx s
    · subst hi
      rw [setList_same]
      unfold SpanList.remove
      rw [(hl.1 _).mem_erase_iff, hl.2]
      exact And.comm
    · rw [setList_other _ _ _ _ hi, hl.2]
      constructor
      · intro hx
        refine ⟨hx, fun hxs => ?_⟩
        subst hxs
        exact hi (idleAt_inj hwf hx hsi)
      · exact fun hx => hx.1

/-- Linking a new IDLE span at the head of its list matches a map that gained exactly that
IDLE span. -/
theorem lists_add {lists : Nat → SpanList} {m m1 : PageMap} (hl : PageHeap.ListsOk lists m)
    (s : Span) (hnew : ∀ i, ¬ PageMap.idleAt m s.start_addr i)
    (hm1 : ∀ x i, PageMap.idleAt m1 x i ↔
      PageMap.idleAt m x i ∨ (x = s.start_addr ∧ i = PageHeap.span_idx s)) :
    PageHeap.ListsOk (setList lists (PageHeap.span_idx s)
      ((lists (PageHeap.span_idx s)).prepend s.start_addr)) m1 := by
  constructor
  · intro i
    by_cases hi : i = PageHeap.span_idx s
    · subst hi
      rw [setList_same]
      unfold SpanList.prepend
      refine List.nodup_cons.2 ⟨?_, hl.1 _⟩
      rw [hl.2]
      exact hnew _
    · rw [setList_other _ _ _ _ hi]
      exact hl.1 i
  · intro i x
    rw [hm1]
    by_cases hi : i = PageHeap.span_idx s
    · subst hi
      rw [setList_same]
      unfold SpanList.prepend
      rw [List.mem_cons, hl.2]
      constructor
      · rintro (h | h)
        · exact Or.inr ⟨h, rfl⟩
        · exact Or.inl h
      · rintro (h | ⟨h, _⟩)
        · exact Or.inr h
        · exact Or.inl h
    · rw [setList_other _ _ _ _ hi, hl.2]
      constructor
      · exact fun h => Or.inl h
      · rintro (h | ⟨_, h⟩)
        · exact h
        · exact absurd h hi

theorem lists_congr {lists : Nat → SpanList} {m m1 : PageMap} (hl : PageHeap.ListsOk lists m)
    (hm1 : ∀ x i, PageMap.idleAt m1 x i ↔ PageMap.idleAt m x i) :
    PageHeap.ListsOk lists m1 :=
  ⟨hl.1, fun i x => by rw [hm1]; exact hl.2 i x⟩

theorem add_to_list_eq (ph : PageHeap) (s : Span) (h : 1 ≤ s._num_pages) :
    PageHeap.add_to_list ph s = some ⟨setList ph._lists (PageHeap.span_idx s)
      ((ph._lists (PageHeap.span_idx s)).prepend s.start_addr), ph._stats⟩ := by
  unfold PageHeap.add_to_list
  simp only [span_idx_le s h, if_true]

theorem remove_from_list_eq (ph : PageHeap) (s : Span) (h : 1 ≤ s._num_pages) :
    PageHeap.remove_from_list ph s = some ⟨setList ph._lists
      (PageHeap.span_idx s) ((ph._lists (PageHeap.span_idx s)).remove s.start_addr), ph._stats⟩ := by
  unfold PageHeap.remove_from_list
  simp only [span_idx_le s h, if_true]

/-! ## Spans inside regions -/

theorem inRegion_sub (os : OS) (sa : SystemAlloc) (t s : Span) (ht : SpanInRegion os sa t)
    (h1 : t.start_addr ≤ s.start_addr) (h2 : s.end_addr ≤ t.end_addr) :
    SpanInRegion os sa s := by
  obtain ⟨k, hk1, hk2, hk3, hk4, hk5⟩ := ht
  exact ⟨k, hk1, hk2, by omega, by omega, fun h => by have := hk5 h; omega⟩

/-- Two spans that touch lie in the same region. -/
theorem inRegion_adjacent (os : OS) (hos : OS.Sane os) (sa : SystemAlloc) (a b : Span)
    (ha : SpanInRegion os sa a) (hb : SpanInRegion os sa b)
    (ha1 : a.start_addr < a.end_addr) (hb1 : b.start_addr < b.end_addr)
    (hab : a.end_addr = b.start_addr) (s : Span)
    (h1 : s.start_addr = a.start_addr) (h2 : s.end_addr = b.end_addr) :
    SpanInRegion os sa s := by
  obtain ⟨j, hj1, hj2, hj3, hj4, hj5⟩ := ha
  obtain ⟨k, hk1, hk2, hk3, hk4, hk5⟩ := hb
  have hjk : j = k := by
    by_contra hne
    rcases regions_separated os hos j k hne hj2 hk2 with hd | hd <;> omega
  subst hjk
  exact ⟨j, hj1, hj2, by omega, by omega, fun h => by have := hj5 h; omega⟩

/-! ## Carving -/

theorem coalesced_of_except {m : PageMap} (h : PageMap.CoalescedExcept m none) :
    PageMap.Coalesced m := by
  intro a ha b hb hia hib hab
  have := h a ha b hb hia hib hab
  cases this

theorem except_of_coalesced {m : PageMap} (h : PageMap.Coalesced m) (x : Option Nat) :
    PageMap.CoalescedExcept m x := by
  intro a ha b hb hia hib hab
  exact absurd hab (h a ha b hb hia hib)

/-- The exact-size branch of `carve`: the span changes its status and leaves its list. -/
theorem carve_exact_inv (os : OS) (w : World) (hc : HeapCore os w) (s : Span)
    (hs : s ∈ w.pm) (hidle : s._status = STATUS.IDLE)
    (hco : PageMap.CoalescedExcept w.pm (some s.start_addr)) (stats : Stats) :
    HeapCore os { w with
      ph := ⟨setList w.ph._lists (PageHeap.span_idx s)
        ((w.ph._lists (PageHeap.span_idx s)).remove s.start_addr), stats⟩
      pm := PageMap.set w.pm { s with _status := STATUS.USING } } ∧
    PageMap.Coalesced (PageMap.set w.pm { s with _status := STATUS.USING }) ∧
    { s with _status := STATUS.USING } ∈ PageMap.set w.pm { s with _status := STATUS.USING } ∧
    (∀ t : Span, t._status = STATUS.USING →
      (t ∈ PageMap.set w.pm { s with _status := STATUS.USING } ↔
        t ∈ w.pm ∨ t = { s with _status := STATUS.USING })) := by
  have hmem := mem_set w.pm { s with _status := STATUS.USING }
  have hst : ({ s with _status := STATUS.USING } : Span).start_addr = s.start_addr := rfl
  have hidle_iff : ∀ x i, PageMap.idleAt (PageMap.set w.pm { s with _status := STATUS.USING }) x i ↔
      PageMap.idleAt w.pm x i ∧ x ≠ s.start_addr := by
    intro x i
    constructor
    · rintro ⟨t, ht, htx, hti, htidx⟩
      rcases (hmem t).1 ht with ⟨rfl, _⟩ | ⟨ht1, hne⟩
      · cases hti
      · exact ⟨⟨t, ht1, htx, hti, htidx⟩, by rw [← htx]; exact hne⟩
    · rintro ⟨⟨t, ht, htx, hti, htidx⟩, hne⟩
      exact ⟨t, (hmem t).2 (Or.inr ⟨ht, by rw [htx]; exact hne⟩), htx, hti, htidx⟩
  refine ⟨⟨?_, ?_, hc.region, ?_⟩, ?_, ?_, ?_⟩
  · exact wf_set hc.wf s _ hs rfl (hc.wf.1 s hs) (Nat.le_refl _)
  · exact lists_remove hc.lists hc.wf s hs hidle hidle_iff
  · intro t ht
    rcases (hmem t).1 ht with ⟨rfl, _⟩ | ⟨ht1, _⟩
    · exact inRegion_sub os w.sa s _ (hc.inRegion s hs) (Nat.le_refl _) (Nat.le_refl _)
    · exact hc.inRegion t ht1
  · intro a ha b hb hia hib hab
    rcases (hmem a).1 ha with ⟨rfl, _⟩ | ⟨ha1, hna⟩
    · cases hia
    · rcases (hmem b).1 hb with ⟨rfl, _⟩ | ⟨hb1, _⟩
      · cases hib
      · have := hco a ha1 b hb1 hia hib hab
        simp only [Option.some.injEq] at this
        exact hna this
  · exact (hmem _).2 (Or.inl ⟨rfl, s, hs, rfl⟩)
  · intro t htu
    constructor
    · intro ht
      rcases (hmem t).1 ht with ⟨rfl, _⟩ | ⟨ht1, _⟩
      · exact Or.inr rfl
      · exact Or.inl ht1
    · rintro (ht | rfl)
      · refine (hmem t).2 (Or.inr ⟨ht, fun heq => ?_⟩)
        have := wf_start_inj hc.wf ht hs heq
        subst this
        rw [hidle] at htu
        cases htu
      · exact (hmem _).2 (Or.inl ⟨rfl, s, hs, rfl⟩)

/-- The splitting branch of `carve`: the span keeps its first pages and stays IDLE, and a new
USING span is registered for its last `n` pages. -/
theorem carve_split_inv (os : OS) (w : World) (hc : HeapCore os w) (s : Span)
    (hs : s ∈ w.pm) (hidle : s._status = STATUS.IDLE) (n : Nat) (hn1 : 1 ≤ n)
    (hlt : n < s._num_pages)
    (hco : PageMap.CoalescedExcept w.pm (some s.start_addr)) (stats : Stats)
    (s1 u : Span) (hs1 : s1 = { s with _num_pages := s._num_pages - n })
    (hu : u = { Span.new (s1.page_addr (s._num_pages - n)) n with _status := STATUS.USING })
    (pm1 : PageMap)
    (hpm : pm1 = PageMap.set (PageMap.insert (PageMap.set w.pm s1)
      (Span.new (s1.page_addr (s._num_pages - n)) n)) u) :
    HeapCore os { w with
      ph := ⟨setList
        (setList w.ph._lists (PageHeap.span_idx s)
          ((w.ph._lists (PageHeap.span_idx s)).remove s.start_addr))
        (PageHeap.span_idx s1)
        ((setList w.ph._lists (PageHeap.span_idx s)
          ((w.ph._lists (PageHeap.span_idx s)).remove s.start_addr)
          (PageHeap.span_idx s1)).prepend s1.start_addr), stats⟩
      pm := pm1 } ∧ PageMap.Coalesced pm1 ∧ u ∈ pm1 ∧
    s.start_addr ≤ u.start_addr ∧ u.end_addr ≤ s.end_addr ∧
    (∀ t : Span, t._status = STATUS.USING → (t ∈ pm1 ↔ t ∈ w.pm ∨ t = u)) := by
  have hnp := hc.wf.1 s hs
  have hs1st : s1.start_addr = s.start_addr := by rw [hs1]; rfl
  have hs1np : s1._num_pages = s._num_pages - n := by rw [hs1]
  have hs1idle : s1._status = STATUS.IDLE := by rw [hs1]; exact hidle
  have hufp : u._first_page = s._first_page + (s._num_pages - n) := by
    rw [hu]
    show Page.ofPtr (Page.start_addr (s1._first_page + (s._num_pages - n))) = _
    rw [page_ofPtr_start, hs1]
  have hunp : u._num_pages = n := by rw [hu]; rfl
  have hust : u._status = STATUS.USING := by rw [hu]
  have hu0 : (Span.new (s1.page_addr (s._num_pages - n)) n).start_addr = u.start_addr := by
    rw [hu]; rfl
  have hs1e : s1.end_addr = u.start_addr := by
    rw [span_end_addr_eq, hs1st, hs1np, span_start_addr_eq u, hufp, span_start_addr_eq s]
    ring
  have hue : u.end_addr = s.end_addr := by
    rw [span_end_addr_eq, span_end_addr_eq, hunp, span_start_addr_eq u, hufp,
      span_start_addr_eq s]
    omega
  have hsse := span_start_lt_end s hnp
  have hus : s.start_addr < u.start_addr := by
    rw [← hs1e, span_end_addr_eq, hs1st, hs1np]; omega
  have hue2 : u.start_addr < u.end_addr := by
    rw [span_end_addr_eq u, hunp]; omega
  -- membership in the new map
  have hmem : ∀ t, t ∈ pm1 ↔ t = u ∨ t = s1 ∨ (t ∈ w.pm ∧ t ≠ s) := by
    intro t
    rw [hpm, mem_set]
    simp only [mem_insert, mem_set, hu0]
    constructor
    · rintro (⟨rfl, _⟩ | ⟨ht, hne⟩)
      · exact Or.inl rfl
      · rcases ht with rfl | ⟨⟨rfl, _⟩ | ⟨ht, hne2⟩, _⟩
        · exact absurd hu0 hne
        · exact Or.inr (Or.inl rfl)
        · refine Or.inr (Or.inr ⟨ht, fun heq => ?_⟩)
          subst heq
          exact hne2 hs1st.symm
    · rintro (rfl | rfl | ⟨ht, hne⟩)
      · exact Or.inl ⟨rfl, _, Or.inl rfl, hu0⟩
      · refine Or.inr ⟨Or.inr ⟨Or.inl ⟨rfl, s, hs, hs1st.symm⟩, by omega⟩, by omega⟩
      · have hd : Span.disjoint t s := by
          rcases hc.wf.2 t ht s hs with heq | hd
          · exact absurd heq hne
          · exact hd
        have ht1 := span_start_lt_end t (hc.wf.1 t ht)
        have hts : t.start_addr ≠ s.start_addr := by
          rcases hd with hd | hd <;> omega
        have htu : t.start_addr ≠ u.start_addr := by
          rcases hd with hd | hd <;> omega
        exact Or.inr ⟨Or.inr ⟨Or.inr ⟨ht, by rw [hs1st]; exact hts⟩, htu⟩, htu⟩
  have hold : ∀ t, t ∈ w.pm → t ≠ s →
      (t.end_addr ≤ s.start_addr ∨ s.end_addr ≤ t.start_addr) ∧ t.start_addr < t.end_addr := by
    intro t ht hne
    rcases hc.wf.2 t ht s hs with heq | hd
    · exact absurd heq hne
    · exact ⟨hd, span_start_lt_end t (hc.wf.1 t ht)⟩
  have hwf : PageMap.WF pm1 := by
    constructor
    · intro t ht
      rcases (hmem t).1 ht with rfl | rfl | ⟨ht1, _⟩
      · omega
      · omega
      · exact hc.wf.1 t ht1
    · intro a ha b hb
      rcases (hmem a).1 ha with rfl | rfl | ⟨ha1, hna⟩ <;>
        rcases (hmem b).1 hb with rfl | rfl | ⟨hb1, hnb⟩
      · left; rfl
      · right; right; omega
      · right
        have := hold b hb1 hnb
        rcases this.1 with hd | hd
        · right; omega
        · left; omega
      · right; left; omega
      · left; rfl
      · right
        have := hold b hb1 hnb
        rcases this.1 with hd | hd
        · right; omega
        · left; omega
      · right
        have := hold a ha1 hna
        rcases this.1 with hd | hd
        · left; omega
        · right; omega
      · right
        have := hold a ha1 hna
        rcases this.1 with hd | hd
        · left; omega
        · right; omega
      · exact hc.wf.2 a ha1 b hb1
  -- IDLE spans of the maps involved
  have hidle1 : ∀ x i, PageMap.idleAt (PageMap.erase w.pm s) x i ↔
      PageMap.idleAt w.pm x i ∧ x ≠ s.start_addr := by
    intro x i
    constructor
    · rintro ⟨t, ht, htx, hti, htidx⟩
      have := (mem_erase w.pm s t).1 ht
      exact ⟨⟨t, this.1, htx, hti, htidx⟩, by rw [← htx]; exact this.2⟩
    · rintro ⟨⟨t, ht, htx, hti, htidx⟩, hne⟩
      exact ⟨t, (mem_erase w.pm s t).2 ⟨ht, by rw [htx]; exact hne⟩, htx, hti, htidx⟩
  have hidle2 : ∀ x i, PageMap.idleAt pm1 x i ↔
      PageMap.idleAt (PageMap.erase w.pm s) x i ∨
        (x = s1.start_addr ∧ i = PageHeap.span_idx s1) := by
    intro x i
    constructor
    · rintro ⟨t, ht, htx, hti, htidx⟩
      rcases (hmem t).1 ht with rfl | rfl | ⟨ht1, hne⟩
      · rw [hust] at hti; cases hti
      · exact Or.inr ⟨htx.symm, htidx.symm⟩
      · have := (hold t ht1 hne)
        refine Or.inl ⟨t, (mem_erase w.pm s t).2 ⟨ht1, ?_⟩, htx, hti, htidx⟩
        rcases this.1 with hd | hd <;> omega
    · rintro (⟨t, ht, htx, hti, htidx⟩ | ⟨hx, hi⟩)
      · have := (mem_erase w.pm s t).1 ht
        refine ⟨t, (hmem t).2 (Or.inr (Or.inr ⟨this.1, fun heq => ?_⟩)), htx, hti, htidx⟩
        subst heq
        exact this.2 rfl
      · exact ⟨s1, (hmem s1).2 (Or.inr (Or.inl rfl)), hx.symm, hs1idle, hi.symm⟩
  refine ⟨⟨hwf, ?_, hc.region, ?_⟩, ?_, (hmem u).2 (Or.inl rfl), by omega, by omega, ?_⟩
  · refine lists_add (lists_remove hc.lists hc.wf s hs hidle hidle1) s1 ?_ hidle2
    rintro i ⟨t, ht, htx, _, _⟩
    exact ((mem_erase w.pm s t).1 ht).2 (by rw [htx, hs1st])
  · intro t ht
    rcases (hmem t).1 ht with rfl | rfl | ⟨ht1, _⟩
    · exact inRegion_sub os w.sa s _ (hc.inRegion s hs) (by omega) (by omega)
    · exact inRegion_sub os w.sa s _ (hc.inRegion s hs) (by omega) (by omega)
    · exact hc.inRegion t ht1
  · intro a ha b hb hia hib hab
    rcases (hmem a).1 ha with rfl | rfl | ⟨ha1, hna⟩
    · rw [hust] at hia; cases hia
    · -- the span after `s1` is the new USING span
      have hbu : b = u := wf_start_inj hwf hb ((hmem u).2 (Or.inl rfl)) (by omega)
      rw [hbu, hust] at hib
      cases hib
    · rcases (hmem b).1 hb with rfl | rfl | ⟨hb1, hnb⟩
      · rw [hust] at hib; cases hib
      · have := hco a ha1 s hs hia hidle (by omega)
        simp only [Option.some.injEq] at this
        exact hna (wf_start_inj hc.wf ha1 hs this)
      · have := hco a ha1 b hb1 hia hib hab
        simp only [Option.some.injEq] at this
        exact hna (wf_start_inj hc.wf ha1 hs this)
  · intro t htu
    constructor
    · intro ht
      rcases (hmem t).1 ht with rfl | rfl | ⟨ht1, _⟩
      · exact Or.inr rfl
      · rw [hs1idle] at htu; cases htu
      · exact Or.inl ht1
    · rintro (ht | rfl)
      · refine (hmem t).2 (Or.inr (Or.inr ⟨ht, fun heq => ?_⟩))
        subst heq
        rw [hidle] at htu
        cases htu
      · exact (hmem _).2 (Or.inl rfl)

/-- `carve` on a registered IDLE span, possibly the one exception to coalescing: the request
fits, the Page Heap invariant holds afterwards, and the span returned is a registered USING
span of `n` pages inside the old range; USING spans are otherwise untouched. -/
theorem carve_ok (os : OS) (w : World) (hc : HeapCore os w) (s : Span)
    (hs : s ∈ w.pm) (hidle : s._status = STATUS.IDLE) (n : Nat) (hn1 : 1 ≤ n)
    (hco : PageMap.CoalescedExcept w.pm (some s.start_addr)) (r : Nat) (w1 : World)
    (h : PageHeap.carve w s.start_addr n = some (r, w1)) :
    n ≤ s._num_pages ∧ HeapCore os w1 ∧ PageMap.Coalesced w1.pm ∧ w1.sa = w.sa ∧
    w1.cc = w.cc ∧
    ∃ u, u ∈ w1.pm ∧ u.start_addr = r ∧ u._status = STATUS.USING ∧ u._num_pages = n ∧
      s.start_addr ≤ u.start_addr ∧ u.end_addr ≤ s.end_addr ∧
      (s._num_pages ≠ n → u._list = FreeList.new ∧ u._allocated = 0 ∧ u._total = 0) ∧
      (∀ t : Span, t._status = STATUS.USING → (t ∈ w1.pm ↔ t ∈ w.pm ∨ t = u)) := by
  have hnp := hc.wf.1 s hs
  unfold PageHeap.carve at h
  rw [(get_eq_some_iff hc.wf _ s).2 ⟨hs, rfl⟩] at h
  simp only at h
  split at h
  · cases h
  · rename_i hge
    have hge1 : n ≤ s._num_pages := by simpa using hge
    rw [remove_from_list_eq _ _ hnp] at h
    simp only at h
    split at h
    · rename_i heq
      simp only [Option.some.injEq, Prod.mk.injEq] at h
      obtain ⟨rfl, rfl⟩ := h
      obtain ⟨h1, h2, h3, h4⟩ := carve_exact_inv os w hc s hs hidle hco w.ph._stats
      refine ⟨hge1, h1, h2, rfl, rfl, _, h3, rfl, rfl, heq, Nat.le_refl _, Nat.le_refl _,
        fun hne => absurd heq hne, h4⟩
    · rename_i hne
      have hlt : n < s._num_pages := by omega
      rw [add_to_list_eq _ _ (by simp only; omega)] at h
      simp only at h
      unfold PageHeap.create_span at h
      simp only [reduceCtorEq, if_false] at h
      simp only [Option.some.injEq, Prod.mk.injEq] at h
      obtain ⟨rfl, rfl⟩ := h
      obtain ⟨h1, h2, h3, h4, h5, h6⟩ := carve_split_inv os w hc s hs hidle n hn1 hlt hco
        w.ph._stats _ _ rfl rfl _ rfl
      exact ⟨hge1, h1, h2, rfl, rfl, _, h3, rfl, rfl, rfl, h4, h5,
        fun _ => ⟨rfl, rfl, rfl⟩, h6⟩

/-! ## Fetching from the system -/

/-- A span keeps its place in the regions when the System Allocator moves on. -/
theorem inRegion_mono (os : OS) (hos : OS.Sane os) (sa sa1 : SystemAlloc) (t : Span)
    (ht : SpanInRegion os sa t) (hcalls : sa.mmap_calls ≤ sa1.mmap_calls)
    (hreg : (sa1._region.1 = sa._region.1 ∧ sa1._region.2 ≤ sa._region.2) ∨
      (∃ k, sa.mmap_calls ≤ k ∧ k < sa1.mmap_calls ∧ os.mmap k ≠ MAP_FAILED ∧
        sa1._region.1 = os.region k)) :
    SpanInRegion os sa1 t := by
  obtain ⟨k, hk1, hk2, hk3, hk4, hk5⟩ := ht
  refine ⟨k, by omega, hk2, hk3, hk4, fun heq => ?_⟩
  rcases hreg with ⟨h1, h2⟩ | ⟨j, hj1, hj2, hj3, hj4⟩
  · have := hk5 (by rw [← h1]; exact heq)
    omega
  · have := regions_inj os hos j k hj3 hk2 (by rw [← hj4]; exact heq)
    omega

/-- A chunk fetched from the system lies apart from every registered span, and no registered
span ends where the chunk starts. -/
theorem chunk_apart (os : OS) (hos : OS.Sane os) (sa sa1 : SystemAlloc) (t : Span)
    (ht : SpanInRegion os sa t) (ht1 : t.start_addr < t.end_addr) (ptr : Nat)
    (hreg : (sa1._region.1 = sa._region.1 ∧ sa1._region.2 ≤ sa._region.2) ∨
      (∃ k, sa.mmap_calls ≤ k ∧ k < sa1.mmap_calls ∧ os.mmap k ≠ MAP_FAILED ∧
        sa1._region.1 = os.region k))
    (hchunk : ∃ k, k < sa1.mmap_calls ∧ os.mmap k ≠ MAP_FAILED ∧ sa1._region.1 = os.region k ∧
        os.region k ≤ ptr ∧ ptr + 2 ^ 21 ≤ os.region k + 2 ^ 30 ∧
        (sa1._region.1 = sa._region.1 → ptr + 2 ^ 21 ≤ sa._region.2)) :
    (ptr + 2 ^ 21 ≤ t.start_addr ∨ t.end_addr < ptr) := by
  obtain ⟨k, hk1, hk2, hk3, hk4, hk5⟩ := ht
  obtain ⟨j, hj1, hj2, hj3, hj4, hj5, hj6⟩ := hchunk
  by_cases hjk : j = k
  · subst hjk
    left
    rcases hreg with ⟨h1, h2⟩ | ⟨i, hi1, hi2, hi3, hi4⟩
    · have := hk5 (by rw [← h1, hj3])
      have := hj6 h1
      omega
    · have := regions_inj os hos i j hi3 hj2 (by rw [← hi4, hj3])
      omega
  · rcases regions_separated os hos j k hjk hj2 hk2 with hd | hd
    · left; omega
    · right; omega

theorem heapCore_stats (os : OS) (w : World) (h : HeapCore os w) (stats : Stats) :
    HeapCore os { w with ph := { w.ph with _stats := stats } } :=
  ⟨h.wf, h.lists, h.region, h.inRegion⟩

/-- `fetch_from_system` either fails and changes only the System Allocator, or registers a
fresh IDLE span of 256 pages, which may be adjacent to an IDLE span above it. -/
theorem fetch_ok (os : OS) (hos : OS.Sane os) (w : World) (hi : HeapInv os w) (n : Nat)
    (r : Option Nat) (w1 : World) (h : PageHeap.fetch_from_system os w n = some (r, w1)) :
    w1.cc = w.cc ∧ HeapCore os w1 ∧
    ((r = none ∧ w1.pm = w.pm) ∨
     (∃ s, r = some s.start_addr ∧ s ∈ w1.pm ∧ s._status = STATUS.IDLE ∧ s._num_pages = 256 ∧
        s._list = FreeList.new ∧ s._allocated = 0 ∧ s._total = 0 ∧
        PageMap.CoalescedExcept w1.pm (some s.start_addr) ∧
        (∀ t : Span, t._status = STATUS.USING → (t ∈ w1.pm ↔ t ∈ w.pm)))) := by
  unfold PageHeap.fetch_from_system at h
  split at h
  · cases h
  · rename_i ptr actual sa1 hsa
    obtain ⟨hr1, hcalls, hreg, hptr⟩ := sa_alloc_spec os hos w.sa hi.core.region _ ptr actual sa1 hsa
    have hmono : ∀ t ∈ w.pm, SpanInRegion os sa1 t := fun t ht =>
      inRegion_mono os hos w.sa sa1 t (hi.core.inRegion t ht) hcalls hreg
    split at h
    · rename_i hp0
      simp only [Option.some.injEq, Prod.mk.injEq] at h
      obtain ⟨rfl, rfl⟩ := h
      exact ⟨rfl, ⟨hi.core.wf, hi.core.lists, hr1, hmono⟩, Or.inl ⟨rfl, rfl⟩⟩
    · rename_i hp0
      obtain ⟨hact, hr2, hal, hchunk⟩ := hptr hp0
      subst hact
      have hpg : (2 ^ 21 : Nat) % Page.SIZE = 0 := by decide
      rw [if_neg (by rw [hpg]; simp)] at h
      have hdiv : (2 ^ 21 : Nat) / Page.SIZE = 256 := by decide
      rw [hdiv] at h
      unfold PageHeap.create_span at h
      simp only [if_true] at h
      have hnp0 : 1 ≤ (Span.new ptr 256)._num_pages := by simp [Span.new]
      rw [add_to_list_eq _ _ hnp0] at h
      simp only [Option.some.injEq, Prod.mk.injEq] at h
      obtain ⟨rfl, rfl⟩ := h
      -- the new span covers the chunk
      have hst : (Span.new ptr 256).start_addr = ptr := by
        rw [span_start_addr_eq]
        show Page.ofPtr ptr * 8192 = ptr
        rw [page_ofPtr_eq]
        omega
      have hen : (Span.new ptr 256).end_addr = ptr + 2 ^ 21 := by
        rw [span_end_addr_eq, hst]
        show ptr + 256 * 8192 = _
        norm_num
      have hap : ∀ t ∈ w.pm, ptr + 2 ^ 21 ≤ t.start_addr ∨ t.end_addr < ptr := fun t ht =>
        chunk_apart os hos w.sa sa1 t (hi.core.inRegion t ht)
          (span_start_lt_end t (hi.core.wf.1 t ht)) ptr hreg hchunk
      have hne : ∀ t ∈ w.pm, t.start_addr ≠ (Span.new ptr 256).start_addr := by
        intro t ht
        have := hap t ht
        have := span_start_lt_end t (hi.core.wf.1 t ht)
        rw [hst]
        omega
      have hmem : ∀ t, t ∈ PageMap.insert w.pm (Span.new ptr 256) ↔
          t = Span.new ptr 256 ∨ t ∈ w.pm := by
        intro t
        rw [mem_insert]
        constructor
        · rintro (h | ⟨h, _⟩)
          · exact Or.inl h
          · exact Or.inr h
        · rintro (h | h)
          · exact Or.inl h
          · exact Or.inr ⟨h, hne t h⟩
      refine ⟨rfl, ⟨?_, ?_, hr1, ?_⟩, Or.inr ⟨Span.new ptr 256, rfl, ?_, rfl, rfl, rfl, rfl, rfl,
        ?_, ?_⟩⟩
      · refine wf_insert hi.core.wf _ hnp0 (fun t ht _ => ?_)
        have := hap t ht
        rcases this with hd | hd
        · left; omega
        · right; omega
      · refine lists_add hi.core.lists (Span.new ptr 256) ?_ ?_
        · rintro i ⟨t, ht, htx, _, _⟩
          exact hne t ht htx
        · intro x i
          constructor
          · rintro ⟨t, ht, htx, hti, htidx⟩
            rcases (hmem t).1 ht with rfl | ht1
            · exact Or.inr ⟨htx.symm, htidx.symm⟩
            · exact Or.inl ⟨t, ht1, htx, hti, htidx⟩
          · rintro (⟨t, ht, htx, hti, htidx⟩ | ⟨hx, hidx⟩)
            · exact ⟨t, (hmem t).2 (Or.inr ht), htx, hti, htidx⟩
            · exact ⟨_, (hmem _).2 (Or.inl rfl), hx.symm, rfl, hidx.symm⟩
      · intro t ht
        rcases (hmem t).1 ht with rfl | ht1
        · obtain ⟨k, hk1, hk2, hk3, hk4, hk5, _⟩ := hchunk
          exact ⟨k, hk1, hk2, by omega, by omega, fun _ => by
            show sa1._region.2 ≤ _
            omega⟩
        · exact hmono t ht1
      · exact (hmem _).2 (Or.inl rfl)
      · intro a ha b hb hia hib hab
        rcases (hmem a).1 ha with rfl | ha1
        · rfl
        · exfalso
          rcases (hmem b).1 hb with rfl | hb1
          · have := hap a ha1
            have := span_start_lt_end a (hi.core.wf.1 a ha1)
            omega
          · exact hi.coalesced a ha1 b hb1 hia hib hab
      · intro t htu
        constructor
        · intro ht
          rcases (hmem t).1 ht with rfl | ht1
          · cases htu
          · exact ht1
        · exact fun ht => (hmem t).2 (Or.inr ht)

/-! ## `PageHeap::alloc` -/

theorem find_small_some (ph : PageHeap) :
    ∀ (cnt i sp : Nat), PageHeap.find_small ph cnt i = some sp →
      ∃ j, i ≤ j ∧ j < i + cnt ∧ sp ∈ ph._lists j := by
  intro cnt
  induction cnt with
  | zero => intro i sp h; simp [PageHeap.find_small] at h
  | succ cnt ih =>
    intro i sp h
    simp only [PageHeap.find_small] at h
    split at h
    · exact ⟨i, Nat.le_refl _, by omega, List.mem_of_mem_head? h⟩
    · obtain ⟨j, h1, h2, h3⟩ := ih _ _ h
      exact ⟨j, by omega, by omega, h3⟩

/-- The span that `PageHeap::alloc` finds on its lists is a registered IDLE span; one from
a small list has more pages than requested, one from the large list has more than 128. -/
theorem alloc_pick (w : World) (hl : PageHeap.ListsOk w.ph._lists w.pm)
    (hwf : PageMap.WF w.pm) (n sp : Nat)
    (h : (if PageHeap.find_small w.ph (PageHeap._n - n) n = none
          then PageHeap.find_from_large w.ph n
          else PageHeap.find_small w.ph (PageHeap._n - n) n) = some sp) :
    ∃ s, s ∈ w.pm ∧ s.start_addr = sp ∧ s._status = STATUS.IDLE ∧
      (n < s._num_pages ∨ 129 ≤ s._num_pages) := by
  have key : ∃ j, sp ∈ w.ph._lists j ∧ ((n ≤ j ∧ j < 128) ∨ j = 128) := by
    split at h
    · unfold PageHeap.find_from_large at h
      split at h
      · cases h
      · exact ⟨128, by rw [← pageHeap_n_eq]; exact List.mem_of_mem_head? h, Or.inr rfl⟩
    · obtain ⟨j, h1, h2, h3⟩ := find_small_some _ _ _ _ h
      rw [pageHeap_n_eq] at h2
      exact ⟨j, h3, Or.inl ⟨h1, by omega⟩⟩
  obtain ⟨j, hj, hcase⟩ := key
  obtain ⟨s, hs, hsx, hsi, hsidx⟩ := (hl.2 j sp).1 hj
  refine ⟨s, hs, hsx, hsi, ?_⟩
  have hnp := hwf.1 s hs
  rw [span_idx_eq s hnp] at hsidx
  rcases hcase with ⟨h1, h2⟩ | h1
  · left; omega
  · right; omega

/-- `PageHeap::alloc(n)` for `n >= 1`, when it returns: the invariant is kept, the Central
Cache is not touched, and a non-null result is a registered USING span of `n` pages (a new
span object when `n <= 128`); the other USING spans are untouched. -/
theorem alloc_ok (os : OS) (hos : OS.Sane os) (w : World) (hi : HeapInv os w) (n : Nat)
    (hn : 1 ≤ n) (r : Option Nat) (w1 : World) (h : PageHeap.alloc os w n = some (r, w1)) :
    HeapInv os w1 ∧ w1.cc = w.cc ∧
    ((r = none ∧ w1.pm = w.pm) ∨
     (∃ u, r = some u.start_addr ∧ u ∈ w1.pm ∧ u._status = STATUS.USING ∧ u._num_pages = n ∧
        (n ≤ 128 → u._list = FreeList.new ∧ u._allocated = 0 ∧ u._total = 0) ∧
        (∀ t : Span, t._status = STATUS.USING → (t ∈ w1.pm ↔ t ∈ w.pm ∨ t = u)))) := by
  -- carving a span `s` found in world `w0`
  have finish : ∀ (w0 : World) (s : Span), HeapCore os w0 → s ∈ w0.pm →
      s._status = STATUS.IDLE → PageMap.CoalescedExcept w0.pm (some s.start_addr) →
      (n ≤ 128 → s._num_pages ≠ n) → w0.cc = w.cc →
      (∀ t : Span, t._status = STATUS.USING → (t ∈ w0.pm ↔ t ∈ w.pm)) →
      ∀ res w3, PageHeap.carve
        { w0 with ph := { w0.ph with _stats := w0.ph._stats.allocated_incr n } }
        s.start_addr n = some (res, w3) →
      HeapInv os w3 ∧ w3.cc = w.cc ∧
      (∃ u, some res = some u.start_addr ∧ u ∈ w3.pm ∧ u._status = STATUS.USING ∧
        u._num_pages = n ∧
        (n ≤ 128 → u._list = FreeList.new ∧ u._allocated = 0 ∧ u._total = 0) ∧
        (∀ t : Span, t._status = STATUS.USING → (t ∈ w3.pm ↔ t ∈ w.pm ∨ t = u))) := by
    intro w0 s hc0 hs hidle hco hfresh hcc hframe res w3 hcarve
    obtain ⟨_, h2, h3, _, h5, u, hu1, hu2, hu3, hu4, _, _, hu7, hu8⟩ :=
      carve_ok os _ (heapCore_stats os w0 hc0 (w0.ph._stats.allocated_incr n)) s hs hidle n hn hco
        res w3 hcarve
    refine ⟨⟨h2, h3⟩, by rw [h5]; exact hcc, u, by rw [hu2], hu1, hu3, hu4,
      fun h128 => hu7 (hfresh h128), fun t ht => ?_⟩
    rw [hu8 t ht]
    show t ∈ w0.pm ∨ t = u ↔ _
    rw [hframe t ht]
  unfold PageHeap.alloc at h
  simp only at h
  generalize hpk : (if PageHeap.find_small w.ph (PageHeap._n - n) n = none
      then PageHeap.find_from_large w.ph n
      else PageHeap.find_small w.ph (PageHeap._n - n) n) = picked at h
  cases picked with
  | none =>
    simp only [if_true] at h
    cases hf : PageHeap.fetch_from_system os w n with
    | none => rw [hf] at h; cases h
    | some res =>
      obtain ⟨r0, w2⟩ := res
      rw [hf] at h
      obtain ⟨h1, h2, h3⟩ := fetch_ok os hos w hi n _ _ hf
      rcases h3 with ⟨hr, hpm⟩ | ⟨s, hr, hs, hidle, hnp, _, _, _, hco, hframe⟩
      · subst hr
        simp only [Option.some.injEq, Prod.mk.injEq] at h
        obtain ⟨rfl, rfl⟩ := h
        refine ⟨⟨h2, ?_⟩, h1, Or.inl ⟨rfl, hpm⟩⟩
        rw [hpm]; exact hi.coalesced
      · subst hr
        simp only at h
        split at h
        · cases h
        · rename_i res w3 hcarve
          simp only [Option.some.injEq, Prod.mk.injEq] at h
          obtain ⟨rfl, rfl⟩ := h
          obtain ⟨g1, g2, g3⟩ := finish w2 s h2 hs hidle hco (by omega) h1 hframe _ _ hcarve
          exact ⟨g1, g2, Or.inr g3⟩
  | some sp =>
    simp only [reduceCtorEq, if_false] at h
    obtain ⟨s, hs, hsx, hidle, hnp⟩ := alloc_pick w hi.core.lists hi.core.wf n sp hpk
    subst hsx
    split at h
    · cases h
    · rename_i res w3 hcarve
      simp only [Option.some.injEq, Prod.mk.injEq] at h
      obtain ⟨rfl, rfl⟩ := h
      obtain ⟨g1, g2, g3⟩ := finish w s hi.core hs hidle
        (except_of_coalesced hi.coalesced _) (by omega) rfl (fun _ _ => Iff.rfl) _ _ hcarve
      exact ⟨g1, g2, Or.inr g3⟩

/-! ## Coalescing -/

theorem idleAt_erase (m : PageMap) (s : Span) (x i : Nat) :
    PageMap.idleAt (PageMap.erase m s) x i ↔ PageMap.idleAt m x i ∧ x ≠ s.start_addr := by
  constructor
  · rintro ⟨t, ht, htx, hti, htidx⟩
    have := (mem_erase m s t).1 ht
    exact ⟨⟨t, this.1, htx, hti, htidx⟩, by rw [← htx]; exact this.2⟩
  · rintro ⟨⟨t, ht, htx, hti, htidx⟩, hne⟩
    exact ⟨t, (mem_erase m s t).2 ⟨ht, by rw [htx]; exact hne⟩, htx, hti, htidx⟩

/-- `destroy_span` of a registered IDLE span: the span leaves the map and its list. -/
theorem destroy_span_ok (w : World) (hwf : PageMap.WF w.pm)
    (hl : PageHeap.ListsOk w.ph._lists w.pm) (p : Span) (hp : p ∈ w.pm)
    (hidle : p._status = STATUS.IDLE) :
    ∃ w1, PageHeap.destroy_span w p = some w1 ∧ w1.sa = w.sa ∧ w1.cc = w.cc ∧
      w1.pm = PageMap.erase w.pm p ∧
      w1.ph._lists = setList w.ph._lists (PageHeap.span_idx p)
        ((w.ph._lists (PageHeap.span_idx p)).remove p.start_addr) ∧
      PageMap.WF w1.pm ∧ PageHeap.ListsOk w1.ph._lists w1.pm := by
  unfold PageHeap.destroy_span
  rw [remove_from_list_eq _ _ (hwf.1 p hp)]
  exact ⟨_, rfl, rfl, rfl, rfl, rfl, wf_erase hwf p,
    lists_remove hl hwf p hp hidle (idleAt_erase w.pm p)⟩

/-- The left-coalescing block: either no registered IDLE span ends where the span starts and
nothing changes, or the IDLE span `p` that ends there is absorbed and destroyed. -/
theorem merge_prev_ok (w : World) (cur : Span) (hwf : PageMap.WF w.pm)
    (hl : PageHeap.ListsOk w.ph._lists w.pm) (hnp : 1 ≤ cur._num_pages)
    (hpos : 0 < cur.start_addr) (hd : ∀ t ∈ w.pm, Span.disjoint cur t) :
    ∃ cur1 w1, PageHeap.merge_prev w cur = some (cur1, w1) ∧ w1.sa = w.sa ∧ w1.cc = w.cc ∧
      PageMap.WF w1.pm ∧ PageHeap.ListsOk w1.ph._lists w1.pm ∧
      (∀ t ∈ w1.pm, Span.disjoint cur1 t) ∧ 1 ≤ cur1._num_pages ∧
      cur1.end_addr = cur.end_addr ∧ cur1._status = cur._status ∧ cur1._list = cur._list ∧
      cur1._allocated = cur._allocated ∧ cur1._total = cur._total ∧
      ((cur1 = cur ∧ w1 = w ∧
          (∀ p, PageMap.find_prev w.pm cur = some p → p._status ≠ STATUS.IDLE) ∧
          (∀ a ∈ w.pm, a._status = STATUS.IDLE → a.end_addr ≠ cur.start_addr)) ∨
       (∃ p, p ∈ w.pm ∧ p._status = STATUS.IDLE ∧ p.end_addr = cur.start_addr ∧
          PageMap.find_prev w.pm cur = some p ∧
          cur1._first_page = p._first_page ∧
          cur1._num_pages = cur._num_pages + p._num_pages ∧
          w1.pm = PageMap.erase w.pm p ∧
          w1.ph._lists = setList w.ph._lists (PageHeap.span_idx p)
            ((w.ph._lists (PageHeap.span_idx p)).remove p.start_addr))) := by
  have hcur := span_start_lt_end cur hnp
  have hfp : PageMap.find_prev w.pm cur = PageMap.find_span w.pm (cur.start_addr - 1) := by
    unfold PageMap.find_prev
    rw [usub_of_le _ _ (by omega)]
  -- a registered span that holds the byte before `cur` ends where `cur` starts
  have hadj : ∀ p, p ∈ w.pm → p.contains (cur.start_addr - 1) → p.end_addr = cur.start_addr := by
    intro p hp hc
    unfold Span.contains at hc
    rcases hd p hp with h | h <;> omega
  have hnone : ∀ a ∈ w.pm, a.end_addr = cur.start_addr → a.contains (cur.start_addr - 1) := by
    intro a ha hae
    have := span_start_lt_end a (hwf.1 a ha)
    unfold Span.contains
    omega
  unfold PageHeap.merge_prev
  cases hf : PageMap.find_prev w.pm cur with
  | none =>
    refine ⟨cur, w, rfl, rfl, rfl, hwf, hl, hd, hnp, rfl, rfl, rfl, rfl, rfl,
      Or.inl ⟨rfl, rfl, fun p hp => (by cases hp), fun a ha _ hae => ?_⟩⟩
    rw [hfp] at hf
    exact (find_span_eq_none_iff hwf _).1 hf a ha (hnone a ha hae)
  | some p =>
    rw [hfp] at hf
    obtain ⟨hp, hpc⟩ := (find_span_eq_some_iff hwf _ p).1 hf
    have hpe := hadj p hp hpc
    simp only
    by_cases hidle : p._status = STATUS.IDLE
    · rw [if_pos hidle]
      obtain ⟨w1, hw1, h1, h2, h3, h4, h5, h6⟩ := destroy_span_ok w hwf hl p hp hidle
      rw [hw1]
      have hpnp := hwf.1 p hp
      have hp1 := span_start_lt_end p hpnp
      have hst : ({ cur with _first_page := p._first_page,
                             _num_pages := cur._num_pages + p._num_pages } : Span).start_addr
          = p.start_addr := rfl
      have hen : ({ cur with _first_page := p._first_page,
                             _num_pages := cur._num_pages + p._num_pages } : Span).end_addr
          = cur.end_addr := by
        rw [span_end_addr_eq, hst, span_end_addr_eq cur, ← hpe, span_end_addr_eq p]
        simp only
        ring
      refine ⟨_, w1, rfl, h1, h2, h5, h6, ?_, by simp only; omega, hen, rfl, rfl, rfl, rfl,
        Or.inr ⟨p, hp, hidle, hpe, rfl, rfl, rfl, h3, h4⟩⟩
      intro t ht
      rw [h3] at ht
      obtain ⟨ht1, htne⟩ := (mem_erase w.pm p t).1 ht
      have hdt := hd t ht1
      have hpt : Span.disjoint p t := by
        rcases hwf.2 p hp t ht1 with heq | h
        · subst heq; exact absurd rfl htne
        · exact h
      have ht2 := span_start_lt_end t (hwf.1 t ht1)
      unfold Span.disjoint at hdt hpt ⊢
      rw [hst, hen]
      rcases hdt with h | h <;> rcases hpt with h' | h' <;> omega
    · rw [if_neg hidle]
      refine ⟨cur, w, rfl, rfl, rfl, hwf, hl, hd, hnp, rfl, rfl, rfl, rfl, rfl,
        Or.inl ⟨rfl, rfl, fun q hq => ?_, fun a ha hai hae => ?_⟩⟩
      · cases hq
        exact hidle
      · have := wf_eq_of_contains hwf ha hp (hnone a ha hae) hpc
        subst this
        exact hidle hai

/-- The right-coalescing block: either no registered IDLE span starts where the span ends and
nothing changes, or the IDLE span `q` that starts there is absorbed and destroyed. -/
theorem merge_next_ok (w : World) (cur : Span) (hwf : PageMap.WF w.pm)
    (hl : PageHeap.ListsOk w.ph._lists w.pm) (hnp : 1 ≤ cur._num_pages)
    (hd : ∀ t ∈ w.pm, Span.disjoint cur t) :
    ∃ cur1 w1, PageHeap.merge_next w cur = some (cur1, w1) ∧ w1.sa = w.sa ∧ w1.cc = w.cc ∧
      PageMap.WF w1.pm ∧ PageHeap.ListsOk w1.ph._lists w1.pm ∧
      (∀ t ∈ w1.pm, Span.disjoint cur1 t) ∧ 1 ≤ cur1._num_pages ∧
      cur1._first_page = cur._first_page ∧ cur1._status = cur._status ∧
      cur1._list = cur._list ∧ cur1._allocated = cur._allocated ∧ cur1._total = cur._total ∧
      ((cur1 = cur ∧ w1 = w ∧
          (∀ q, PageMap.find_next w.pm cur = some q → q._status ≠ STATUS.IDLE) ∧
          (∀ b ∈ w.pm, b._status = STATUS.IDLE → b.start_addr ≠ cur.end_addr)) ∨
       (∃ q, q ∈ w.pm ∧ q._status = STATUS.IDLE ∧ q.start_addr = cur.end_addr ∧
          PageMap.find_next w.pm cur = some q ∧
          cur1._num_pages = cur._num_pages + q._num_pages ∧
          cur1.end_addr = q.end_addr ∧
          w1.pm = PageMap.erase w.pm q ∧
          w1.ph._lists = setList w.ph._lists (PageHeap.span_idx q)
            ((w.ph._lists (PageHeap.span_idx q)).remove q.start_addr))) := by
  have hcur := span_start_lt_end cur hnp
  have hfn : PageMap.find_next w.pm cur = PageMap.find_span w.pm cur.end_addr := rfl
  have hadj : ∀ q, q ∈ w.pm → q.contains cur.end_addr → q.start_addr = cur.end_addr := by
    intro q hq hc
    unfold Span.contains at hc
    rcases hd q hq with h | h <;> omega
  have hnone : ∀ b ∈ w.pm, b.start_addr = cur.end_addr → b.contains cur.end_addr := by
    intro b hb hbe
    have := span_start_lt_end b (hwf.1 b hb)
    unfold Span.contains
    omega
  unfold PageHeap.merge_next
  cases hf : PageMap.find_next w.pm cur with
  | none =>
    refine ⟨cur, w, rfl, rfl, rfl, hwf, hl, hd, hnp, rfl, rfl, rfl, rfl, rfl,
      Or.inl ⟨rfl, rfl, fun q hq => (by cases hq), fun b hb _ hbe => ?_⟩⟩
    rw [hfn] at hf
    exact (find_span_eq_none_iff hwf _).1 hf b hb (hnone b hb hbe)
  | some q =>
    rw [hfn] at hf
    obtain ⟨hq, hqc⟩ := (find_span_eq_some_iff hwf _ q).1 hf
    have hqs := hadj q hq hqc
    simp only
    by_cases hidle : q._status = STATUS.IDLE
    · rw [if_pos hidle]
      obtain ⟨w1, hw1, h1, h2, h3, h4, h5, h6⟩ := destroy_span_ok w hwf hl q hq hidle
      rw [hw1]
      have hqnp := hwf.1 q hq
      have hq1 := span_start_lt_end q hqnp
      have hst : ({ cur with _num_pages := cur._num_pages + q._num_pages } : Span).start_addr
          = cur.start_addr := rfl
      have hen : ({ cur with _num_pages := cur._num_pages + q._num_pages } : Span).end_addr
          = q.end_addr := by
        rw [span_end_addr_eq, hst, span_end_addr_eq q, hqs, span_end_addr_eq cur]
        simp only
        ring
      refine ⟨_, w1, rfl, h1, h2, h5, h6, ?_, by simp only; omega, rfl, rfl, rfl, rfl, rfl,
        Or.inr ⟨q, hq, hidle, hqs, rfl, rfl, hen, h3, h4⟩⟩
      intro t ht
      rw [h3] at ht
      obtain ⟨ht1, htne⟩ := (mem_erase w.pm q t).1 ht
      have hdt := hd t ht1
      have hqt : Span.disjoint q t := by
        rcases hwf.2 q hq t ht1 with heq | h
        · subst heq; exact absurd rfl htne
        · exact h
      have ht2 := span_start_lt_end t (hwf.1 t ht1)
      unfold Span.disjoint at hdt hqt ⊢
      rw [hst, hen]
      rcases hdt with h | h <;> rcases hqt with h' | h' <;> omega
    · rw [if_neg hidle]
      refine ⟨cur, w, rfl, rfl, rfl, hwf, hl, hd, hnp, rfl, rfl, rfl, rfl, rfl,
        Or.inl ⟨rfl, rfl, fun q1 hq1 => ?_, fun b hb hbi hbe => ?_⟩⟩
      · cases hq1
        exact hidle
      · have := wf_eq_of_contains hwf hb hq (hnone b hb hbe) hqc
        subst this
        exact hidle hbi

theorem span_ext (a b : Span) (h1 : a._first_page = b._first_page)
    (h2 : a._num_pages = b._num_pages) (h3 : a._status = b._status) (h4 : a._list = b._list)
    (h5 : a._allocated = b._allocated) (h6 : a._total = b._total) : a = b := by
  cases a; cases b
  simp only at h1 h2 h3 h4 h5 h6
  subst h1 h2 h3 h4 h5 h6
  rfl

theorem find_span_erase {m : PageMap} (hwf : PageMap.WF m) (p : Span) (x : Nat)
    (hp : ∀ t ∈ m, t.start_addr = p.start_addr → ¬ t.contains x) :
    PageMap.find_span (PageMap.erase m p) x = PageMap.find_span m x := by
  cases hf : PageMap.find_span m x with
  | none =>
    rw [find_span_eq_none_iff (wf_erase hwf p)]
    intro t ht
    exact (find_span_eq_none_iff hwf x).1 hf t ((mem_erase m p t).1 ht).1
  | some t =>
    obtain ⟨ht, htc⟩ := (find_span_eq_some_iff hwf x t).1 hf
    rw [find_span_eq_some_iff (wf_erase hwf p)]
    exact ⟨(mem_erase m p t).2 ⟨ht, fun heq => hp t ht heq htc⟩, htc⟩

theorem filter_idle_some (o : Option Span) (p : Span) (h : o = some p)
    (hi : p._status = STATUS.IDLE) :
    o.filter (fun p => p._status == STATUS.IDLE) = some p := by
  subst h
  simp [Option.filter, hi]

theorem filter_idle_none (o : Option Span)
    (h : ∀ p, o = some p → p._status ≠ STATUS.IDLE) :
    o.filter (fun p => p._status == STATUS.IDLE) = none := by
  cases o with
  | none => rfl
  | some p =>
    have := h p rfl
    simp [Option.filter, this]

/-- What `PageHeap::dealloc` does to a well-formed Page Heap when it is given a registered
USING span `s` that does not start at the null address. It returns; with `P` and `Q` the
IDLE neighbours found on the left and on the right, the map afterwards holds the merged span
in place of `s`, `P` and `Q`, and every other span as before; the lists match the map. -/
theorem dealloc_spec (w : World) (hwf : PageMap.WF w.pm)
    (hl : PageHeap.ListsOk w.ph._lists w.pm) (s : Span) (hs : s ∈ w.pm)
    (hu : s._status = STATUS.USING) (hpos : 0 < s.start_addr) :
    ∃ w1, PageHeap.dealloc w s.start_addr = some w1 ∧ w1.sa = w.sa ∧ w1.cc = w.cc ∧
      PageMap.WF w1.pm ∧ PageHeap.ListsOk w1.ph._lists w1.pm ∧
      (∀ p, PageHeap.idle_prev w.pm s = some p →
        p ∈ w.pm ∧ p._status = STATUS.IDLE ∧ p.end_addr = s.start_addr) ∧
      (PageHeap.idle_prev w.pm s = none →
        ∀ a ∈ w.pm, a._status = STATUS.IDLE → a.end_addr ≠ s.start_addr) ∧
      (∀ q, PageHeap.idle_next w.pm s = some q →
        q ∈ w.pm ∧ q._status = STATUS.IDLE ∧ q.start_addr = s.end_addr) ∧
      (PageHeap.idle_next w.pm s = none →
        ∀ b ∈ w.pm, b._status = STATUS.IDLE → b.start_addr ≠ s.end_addr) ∧
      (∀ t, t ∈ w1.pm ↔
        t = PageHeap.merged s (PageHeap.idle_prev w.pm s) (PageHeap.idle_next w.pm s) ∨
        (t ∈ w.pm ∧ t ≠ s ∧ some t ≠ PageHeap.idle_prev w.pm s ∧
          some t ≠ PageHeap.idle_next w.pm s)) := by
  have hnp := hwf.1 s hs
  have hse := span_start_lt_end s hnp
  -- the state after the span has been marked IDLE and erased
  have hwf0 : PageMap.WF (PageMap.erase w.pm s) := wf_erase hwf s
  have hl0 : PageHeap.ListsOk w.ph._lists (PageMap.erase w.pm s) := by
    refine lists_congr hl (fun x i => ?_)
    rw [idleAt_erase]
    constructor
    · exact fun h => h.1
    · rintro ⟨t, ht, htx, hti, htidx⟩
      refine ⟨⟨t, ht, htx, hti, htidx⟩, fun hx => ?_⟩
      have := wf_start_inj hwf ht hs (by omega)
      subst this
      rw [hu] at hti
      cases hti
  have hd0 : ∀ t ∈ PageMap.erase w.pm s,
      Span.disjoint ({ s with _status := STATUS.IDLE } : Span) t := by
    intro t ht
    obtain ⟨ht1, htne⟩ := (mem_erase w.pm s t).1 ht
    rcases hwf.2 s hs t ht1 with heq | h
    · subst heq; exact absurd rfl htne
    · exact h
  obtain ⟨c1, w1, e1, a1, a2, a3, a4, a5, a6, a7, a8, a9, a10, a11, acase⟩ :=
    merge_prev_ok
      { w with ph := { w.ph with _stats := w.ph._stats.deallocated_incr s._num_pages }
               pm := PageMap.erase w.pm ({ s with _status := STATUS.IDLE } : Span) }
      { s with _status := STATUS.IDLE } hwf0 hl0 hnp hpos hd0
  obtain ⟨c2, w2, e2, b1, b2, b3, b4, b5, b6, b7, b8, b9, b10, b11, bcase⟩ :=
    merge_next_ok w1 c1 a3 a4 a6 a5
  unfold PageHeap.dealloc
  rw [(get_eq_some_iff hwf _ s).2 ⟨hs, rfl⟩]
  simp only [hu, ne_eq, not_true_eq_false, if_false]
  rw [e1]
  simp only
  rw [e2]
  simp only
  rw [add_to_list_eq _ _ b6]
  -- the neighbours, in terms of the map before the call
  have hPQ : PageHeap.idle_prev w.pm s = PageHeap.idle_prev w.pm s ∧ True := ⟨rfl, trivial⟩
  have hprev : PageMap.find_prev (PageMap.erase w.pm s) ({ s with _status := STATUS.IDLE } : Span)
      = PageMap.find_prev (PageMap.erase w.pm s) s := rfl
  -- the right neighbour is looked up at the end of the span, which merging does not move
  have hnext : PageMap.find_next w1.pm c1 = PageMap.find_next (PageMap.erase w.pm s) s := by
    show PageMap.find_span w1.pm c1.end_addr = PageMap.find_span (PageMap.erase w.pm s) s.end_addr
    rw [a7]
    show PageMap.find_span w1.pm s.end_addr = _
    rcases acase with ⟨_, hw, _, _⟩ | ⟨p, hp, _, hpe, _, _, _, hpm, _⟩
    · subst hw; rfl
    · rw [hpm]
      refine find_span_erase hwf0 p _ (fun t ht hst hc => ?_)
      have := wf_start_inj hwf0 ht hp hst
      subst this
      unfold Span.contains at hc
      have : t.end_addr = s.start_addr := hpe
      omega
  have hc12 : c2.start_addr = c1.start_addr := by
    rw [span_start_addr_eq, span_start_addr_eq, b7]
  have hmerged_mem : ∀ t, t ∈ PageMap.insert w2.pm c2 ↔ t = c2 ∨ t ∈ w2.pm := by
    intro t
    rw [mem_insert]
    constructor
    · rintro (h | ⟨h, _⟩)
      · exact Or.inl h
      · exact Or.inr h
    · rintro (h | h)
      · exact Or.inl h
      · refine Or.inr ⟨h, fun heq => ?_⟩
        have := b5 t h
        have ht := span_start_lt_end t (b3.1 t h)
        have hc := span_start_lt_end c2 b6
        unfold Span.disjoint at this
        omega
  have hwf2 : PageMap.WF (PageMap.insert w2.pm c2) :=
    wf_insert b3 c2 b6 (fun t ht _ => b5 t ht)
  have hl2 : PageHeap.ListsOk
      (setList w2.ph._lists (PageHeap.span_idx c2)
        ((w2.ph._lists (PageHeap.span_idx c2)).prepend c2.start_addr))
      (PageMap.insert w2.pm c2) := by
    refine lists_add b4 c2 ?_ ?_
    · rintro i ⟨t, ht, htx, _, _⟩
      have := b5 t ht
      have ht1 := span_start_lt_end t (b3.1 t ht)
      have hc := span_start_lt_end c2 b6
      unfold Span.disjoint at this
      omega
    · intro x i
      constructor
      · rintro ⟨t, ht, htx, hti, htidx⟩
        rcases (hmerged_mem t).1 ht with rfl | ht1
        · exact Or.inr ⟨htx.symm, htidx.symm⟩
        · exact Or.inl ⟨t, ht1, htx, hti, htidx⟩
      · rintro (⟨t, ht, htx, hti, htidx⟩ | ⟨hx, hidx⟩)
        · exact ⟨t, (hmerged_mem t).2 (Or.inr ht), htx, hti, htidx⟩
        · exact ⟨c2, (hmerged_mem c2).2 (Or.inl rfl), hx.symm, by rw [b8, a8], hidx.symm⟩
  refine ⟨_, rfl, by rw [b1, a1], by rw [b2, a2], hwf2, hl2, ?_, ?_, ?_, ?_, ?_⟩
  · -- the left neighbour
    intro p hP
    rcases acase with ⟨_, _, hno, _⟩ | ⟨p1, hp1, hi1, hpe1, hf1, _⟩
    · unfold PageHeap.idle_prev at hP
      rw [filter_idle_none (PageMap.find_prev (PageMap.erase w.pm s) s)
        (fun q hq => hno q hq)] at hP
      cases hP
    · unfold PageHeap.idle_prev at hP
      rw [filter_idle_some (PageMap.find_prev (PageMap.erase w.pm s) s) p1 hf1 hi1] at hP
      cases hP
      exact ⟨((mem_erase w.pm s p).1 hp1).1, hi1, hpe1⟩
  · intro hP a ha hai hae
    rcases acase with ⟨_, _, _, hno⟩ | ⟨p1, hp1, hi1, hpe1, hf1, _⟩
    · refine hno a ((mem_erase w.pm s a).2 ⟨ha, fun heq => ?_⟩) hai hae
      have := wf_start_inj hwf ha hs heq
      subst this
      rw [hu] at hai
      cases hai
    · unfold PageHeap.idle_prev at hP
      rw [filter_idle_some (PageMap.find_prev (PageMap.erase w.pm s) s) p1 hf1 hi1] at hP
      cases hP
  · intro q hQ
    rcases bcase with ⟨_, _, hno, _⟩ | ⟨q1, hq1, hi1, hqs1, hf1, _⟩
    · unfold PageHeap.idle_next at hQ
      rw [filter_idle_none (PageMap.find_next (PageMap.erase w.pm s) s)
        (fun q hq => hno q (hnext.trans hq))] at hQ
      cases hQ
    · unfold PageHeap.idle_next at hQ
      rw [filter_idle_some (PageMap.find_next (PageMap.erase w.pm s) s) q1
        (hnext.symm.trans hf1) hi1] at hQ
      cases hQ
      have hq2 : q ∈ PageMap.erase w.pm s := by
        rcases acase with ⟨_, hw, _, _⟩ | ⟨_, _, _, _, _, _, _, hpm, _⟩
        · rw [hw] at hq1; exact hq1
        · rw [hpm] at hq1; exact ((mem_erase _ _ q).1 hq1).1
      exact ⟨((mem_erase w.pm s q).1 hq2).1, hi1, by rw [hqs1, a7]; rfl⟩
  · intro hQ b hb hbi hbe
    rcases bcase with ⟨_, hw2, _, hno⟩ | ⟨q1, hq1, hi1, hqs1, hf1, _⟩
    · have hb0 : b ∈ PageMap.erase w.pm s := by
        refine (mem_erase w.pm s b).2 ⟨hb, fun heq => ?_⟩
        have := wf_start_inj hwf hb hs heq
        subst this
        rw [hu] at hbi
        cases hbi
      have hb1 : b ∈ w1.pm := by
        rcases acase with ⟨_, hw, _, _⟩ | ⟨p, hp, _, hpe, _, _, _, hpm, _⟩
        · rw [hw]; exact hb0
        · rw [hpm]
          refine (mem_erase _ p b).2 ⟨hb0, fun heq => ?_⟩
          have := wf_start_inj hwf0 hb0 hp heq
          subst this
          have : b.end_addr = s.start_addr := hpe
          have := span_start_lt_end b (hwf.1 b hb)
          omega
      refine hno b hb1 hbi ?_
      rw [a7]
      exact hbe
    · unfold PageHeap.idle_next at hQ
      rw [filter_idle_some (PageMap.find_next (PageMap.erase w.pm s) s) q1
        (hnext.symm.trans hf1) hi1] at hQ
      cases hQ
  · intro t
    rw [hmerged_mem]
    have hmem0 : ∀ t, t ∈ PageMap.erase w.pm s ↔ t ∈ w.pm ∧ t ≠ s := by
      intro t
      rw [mem_erase]
      constructor
      · rintro ⟨h1, h2⟩
        exact ⟨h1, fun heq => h2 (by rw [heq])⟩
      · rintro ⟨h1, h2⟩
        exact ⟨h1, fun heq => h2 (wf_start_inj hwf h1 hs heq)⟩
    rcases acase with ⟨hc1, hw1, hnoP, _⟩ | ⟨p, hp, hip, hpe, hfp, hc1fp, hc1np, hpm1, _⟩
    · have hP : PageHeap.idle_prev w.pm s = none :=
        filter_idle_none (PageMap.find_prev (PageMap.erase w.pm s) s) (fun q hq => hnoP q hq)
      have hpm1 : w1.pm = PageMap.erase w.pm s := by rw [hw1]; rfl
      rcases bcase with ⟨hc2, hw2, hnoQ, _⟩ | ⟨q, hq, hiq, hqs, hfq, hc2np, _, hpm2, _⟩
      · have hQ : PageHeap.idle_next w.pm s = none :=
          filter_idle_none (PageMap.find_next (PageMap.erase w.pm s) s)
            (fun q hq => hnoQ q (hnext.trans hq))
        have hc : c2 = PageHeap.merged s (PageHeap.idle_prev w.pm s)
            (PageHeap.idle_next w.pm s) := by
          rw [hP, hQ, hc2, hc1]
          exact span_ext _ _ rfl rfl rfl rfl rfl rfl
        rw [hc, hw2, hpm1, hmem0, hP, hQ]
        simp
      · have hQ : PageHeap.idle_next w.pm s = some q :=
          filter_idle_some (PageMap.find_next (PageMap.erase w.pm s) s) q
            (hnext.symm.trans hfq) hiq
        have hc : c2 = PageHeap.merged s (PageHeap.idle_prev w.pm s)
            (PageHeap.idle_next w.pm s) := by
          rw [hP, hQ]
          refine span_ext _ _ (by rw [b7, hc1]; rfl) (by rw [hc2np, hc1]; rfl)
            (by rw [b8, hc1]; rfl) (by rw [b9, hc1]; rfl) (by rw [b10, hc1]; rfl)
            (by rw [b11, hc1]; rfl)
        rw [hc, hpm2, mem_erase, hpm1, hmem0, hP, hQ]
        rw [hpm1] at hq
        constructor
        · rintro (h | ⟨⟨h1, h2⟩, h3⟩)
          · exact Or.inl h
          · refine Or.inr ⟨h1, h2, by simp, fun heq => ?_⟩
            simp only [Option.some.injEq] at heq
            exact h3 (by rw [heq])
        · rintro (h | ⟨h1, h2, _, h4⟩)
          · exact Or.inl h
          · refine Or.inr ⟨⟨h1, h2⟩, fun heq => h4 ?_⟩
            rw [wf_start_inj hwf0 ((hmem0 t).2 ⟨h1, h2⟩) hq heq]
    · have hP : PageHeap.idle_prev w.pm s = some p :=
        filter_idle_some (PageMap.find_prev (PageMap.erase w.pm s) s) p hfp hip
      have hp0 : p ∈ PageMap.erase w.pm s := hp
      have hpm1a : w1.pm = PageMap.erase (PageMap.erase w.pm s) p := hpm1
      have hmem1 : ∀ t, t ∈ w1.pm ↔ t ∈ w.pm ∧ t ≠ s ∧ some t ≠ some p := by
        intro t
        rw [hpm1a, mem_erase, hmem0]
        constructor
        · rintro ⟨⟨h1, h2⟩, h3⟩
          refine ⟨h1, h2, fun heq => ?_⟩
          simp only [Option.some.injEq] at heq
          exact h3 (by rw [heq])
        · rintro ⟨h1, h2, h3⟩
          refine ⟨⟨h1, h2⟩, fun heq => h3 ?_⟩
          rw [wf_start_inj hwf0 ((hmem0 t).2 ⟨h1, h2⟩) hp0 heq]
      rcases bcase with ⟨hc2, hw2, hnoQ, _⟩ | ⟨q, hq, hiq, hqs, hfq, hc2np, _, hpm2, _⟩
      · have hQ : PageHeap.idle_next w.pm s = none :=
          filter_idle_none (PageMap.find_next (PageMap.erase w.pm s) s)
            (fun q hq => hnoQ q (hnext.trans hq))
        have hc : c2 = PageHeap.merged s (PageHeap.idle_prev w.pm s)
            (PageHeap.idle_next w.pm s) := by
          rw [hP, hQ, hc2]
          exact span_ext _ _ hc1fp hc1np a8 a9 a10 a11
        rw [hc, hw2, hmem1, hP, hQ]
        simp
      · have hQ : PageHeap.idle_next w.pm s = some q :=
          filter_idle_some (PageMap.find_next (PageMap.erase w.pm s) s) q
            (hnext.symm.trans hfq) hiq
        have hc : c2 = PageHeap.merged s (PageHeap.idle_prev w.pm s)
            (PageHeap.idle_next w.pm s) := by
          rw [hP, hQ]
          refine span_ext _ _ (by rw [b7, hc1fp]; rfl) (by rw [hc2np, hc1np]; rfl)
            (by rw [b8, a8]; rfl) (by rw [b9, a9]; rfl) (by rw [b10, a10]; rfl)
            (by rw [b11, a11]; rfl)
        rw [hc, hpm2, mem_erase, hmem1, hP, hQ]
        constructor
        · rintro (h | ⟨⟨h1, h2, h3⟩, h4⟩)
          · exact Or.inl h
          · refine Or.inr ⟨h1, h2, h3, fun heq => ?_⟩
            simp only [Option.some.injEq] at heq
            exact h4 (by rw [heq])
        · rintro (h | ⟨h1, h2, h3, h4⟩)
          · exact Or.inl h
          · refine Or.inr ⟨⟨h1, h2, h3⟩, fun heq => h4 ?_⟩
            rw [wf_start_inj a3 ((hmem1 t).2 ⟨h1, h2, h3⟩) hq heq]

/-! ## `PageHeap::dealloc` and the invariant -/

/-- The merged span starts where the absorbed left neighbour starts and ends where the
absorbed right neighbour ends. -/
theorem merged_range (s : Span) (P Q : Option Span)
    (hP : ∀ p, P = some p → p.end_addr = s.start_addr)
    (hQ : ∀ q, Q = some q → q.start_addr = s.end_addr) :
    (PageHeap.merged s P Q).start_addr = (P.map (fun p => p.start_addr)).getD s.start_addr ∧
    (PageHeap.merged s P Q).end_addr = (Q.map (fun q => q.end_addr)).getD s.end_addr := by
  have e1 : (PageHeap.merged s P Q)._first_page =
      (P.map (fun p => p._first_page)).getD s._first_page := rfl
  have e2 : (PageHeap.merged s P Q)._num_pages = s._num_pages +
      (P.map (fun p => p._num_pages)).getD 0 + (Q.map (fun q => q._num_pages)).getD 0 := rfl
  rw [span_end_addr_eq, span_start_addr_eq, e1, e2]
  clear e1 e2
  cases P with
  | none =>
    cases Q with
    | none =>
      simp only [Option.map, Option.getD, true_and, span_start_addr_eq, span_end_addr_eq]
      omega
    | some q =>
      have := hQ q rfl
      simp only [Option.map, Option.getD, true_and, span_start_addr_eq, span_end_addr_eq] at this ⊢
      omega
  | some p =>
    have hp := hP p rfl
    cases Q with
    | none =>
      simp only [Option.map, Option.getD, true_and, span_start_addr_eq, span_end_addr_eq] at hp ⊢
      omega
    | some q =>
      have := hQ q rfl
      simp only [Option.map, Option.getD, true_and, span_start_addr_eq,
        span_end_addr_eq] at hp this ⊢
      omega

theorem merged_status (s : Span) (P Q : Option Span) :
    (PageHeap.merged s P Q)._status = STATUS.IDLE := rfl

theorem inRegion_pos (os : OS) (hos : OS.Sane os) (sa : SystemAlloc) (s : Span)
    (h : SpanInRegion os sa s) : 0 < s.start_addr := by
  obtain ⟨k, _, hk2, hk3, _⟩ := h
  have := region_facts os hos k hk2
  omega

/-- Two spans that touch lie in the same region, so does every span between the start of
the first and the end of the second. -/
theorem inRegion_hull (os : OS) (hos : OS.Sane os) (sa : SystemAlloc) (a b : Span)
    (ha : SpanInRegion os sa a) (hb : SpanInRegion os sa b)
    (ha1 : a.start_addr < a.end_addr) (hb1 : b.start_addr < b.end_addr)
    (hab : a.end_addr = b.start_addr) (lo hi : Nat) (s : Span)
    (h1 : s.start_addr = lo) (h2 : s.end_addr = hi) (hlo : a.start_addr ≤ lo)
    (hhi : hi ≤ b.end_addr) : SpanInRegion os sa s := by
  obtain ⟨j, hj1, hj2, hj3, hj4, hj5⟩ := ha
  obtain ⟨k, hk1, hk2, hk3, hk4, hk5⟩ := hb
  have hjk : j = k := by
    by_contra hne
    rcases regions_separated os hos j k hne hj2 hk2 with hd | hd <;> omega
  subst hjk
  exact ⟨j, hj1, hj2, by omega, by omega, fun h => by have := hj5 h; omega⟩

theorem dealloc_pre (w : World) (hwf : PageMap.WF w.pm) (sp : Nat) (w1 : World)
    (h : PageHeap.dealloc w sp = some w1) :
    ∃ s, s ∈ w.pm ∧ s.start_addr = sp ∧ s._status = STATUS.USING := by
  unfold PageHeap.dealloc at h
  split at h
  · cases h
  · rename_i s0 hget
    split at h
    · cases h
    · rename_i hst
      obtain ⟨h1, h2⟩ := (get_eq_some_iff hwf sp s0).1 hget
      exact ⟨s0, h1, h2, by simpa using hst⟩

/-- `PageHeap::dealloc` of a registered USING span returns and keeps the Page Heap
invariant; the other USING spans are untouched, and the span itself is no longer USING. -/
theorem dealloc_ok (os : OS) (hos : OS.Sane os) (w : World) (hi : HeapInv os w) (s : Span)
    (hs : s ∈ w.pm) (hu : s._status = STATUS.USING) :
    ∃ w1, PageHeap.dealloc w s.start_addr = some w1 ∧ HeapInv os w1 ∧ w1.cc = w.cc ∧
      (∀ t : Span, t._status = STATUS.USING → (t ∈ w1.pm ↔ t ∈ w.pm ∧ t ≠ s)) := by
  have hpos := inRegion_pos os hos w.sa s (hi.core.inRegion s hs)
  obtain ⟨w1, h1, h2, h3, h4, h5, hP, hPn, hQ, hQn, hmem⟩ :=
    dealloc_spec w hi.core.wf hi.core.lists s hs hu hpos
  have hnp := hi.core.wf.1 s hs
  have hse := span_start_lt_end s hnp
  obtain ⟨hms, hme⟩ := merged_range s (PageHeap.idle_prev w.pm s) (PageHeap.idle_next w.pm s)
    (fun p hp => (hP p hp).2.2) (fun q hq => (hQ q hq).2.2)
  -- the range of the merged span, by cases on the neighbours
  have hreg : SpanInRegion os w.sa
      (PageHeap.merged s (PageHeap.idle_prev w.pm s) (PageHeap.idle_next w.pm s)) := by
    have hsr := hi.core.inRegion s hs
    cases hPv : PageHeap.idle_prev w.pm s with
    | none =>
      cases hQv : PageHeap.idle_next w.pm s with
      | none =>
        rw [hPv, hQv] at hms hme
        exact inRegion_sub os w.sa s _ hsr (by rw [hms]; simp) (by rw [hme]; simp)
      | some q =>
        rw [hPv, hQv] at hms hme
        obtain ⟨hq1, _, hq3⟩ := hQ q hQv
        exact inRegion_hull os hos w.sa s q hsr (hi.core.inRegion q hq1) hse
          (span_start_lt_end q (hi.core.wf.1 q hq1)) hq3.symm _ _ _ hms hme
          (by simp) (by simp)
    | some p =>
      obtain ⟨hp1, _, hp3⟩ := hP p hPv
      have hpr := hi.core.inRegion p hp1
      have hpe := span_start_lt_end p (hi.core.wf.1 p hp1)
      cases hQv : PageHeap.idle_next w.pm s with
      | none =>
        rw [hPv, hQv] at hms hme
        exact inRegion_hull os hos w.sa p s hpr hsr hpe hse hp3 _ _ _ hms hme
          (by simp) (by simp)
      | some q =>
        rw [hPv, hQv] at hms hme
        obtain ⟨hq1, _, hq3⟩ := hQ q hQv
        obtain ⟨hxs, hxe⟩ := merged_range s (some p) none (fun p1 hp1 => by
          cases hp1; exact hp3) (fun q1 hq1 => by cases hq1)
        have hX : SpanInRegion os w.sa (PageHeap.merged s (some p) none) :=
          inRegion_hull os hos w.sa p s hpr hsr hpe hse hp3 _ _ _ hxs hxe (by simp) (by simp)
        simp only [Option.map_some', Option.getD_some, Option.map_none', Option.getD_none]
          at hxs hxe hms hme
        exact inRegion_hull os hos w.sa _ q hX (hi.core.inRegion q hq1)
          (by rw [hxs, hxe]; omega) (span_start_lt_end q (hi.core.wf.1 q hq1))
          (by rw [hxe]; exact hq3.symm) _ _ _ hms hme (by rw [hxs]) (by omega)
  have hmnp : (PageHeap.merged s (PageHeap.idle_prev w.pm s)
      (PageHeap.idle_next w.pm s)).start_addr <
      (PageHeap.merged s (PageHeap.idle_prev w.pm s) (PageHeap.idle_next w.pm s)).end_addr :=
    span_start_lt_end _ (h4.1 _ ((hmem _).2 (Or.inl rfl)))
  -- old IDLE spans do not touch the merged span
  have hleft : ∀ a ∈ w.pm, a._status = STATUS.IDLE →
      some a ≠ PageHeap.idle_prev w.pm s →
      a.end_addr ≠ (PageHeap.merged s (PageHeap.idle_prev w.pm s)
        (PageHeap.idle_next w.pm s)).start_addr := by
    intro a ha hai hne
    rw [hms]
    cases hPv : PageHeap.idle_prev w.pm s with
    | none => exact hPn hPv a ha hai
    | some p =>
      obtain ⟨hp1, hp2, _⟩ := hP p hPv
      exact hi.coalesced a ha p hp1 hai hp2
  have hright : ∀ b ∈ w.pm, b._status = STATUS.IDLE →
      some b ≠ PageHeap.idle_next w.pm s →
      (PageHeap.merged s (PageHeap.idle_prev w.pm s)
        (PageHeap.idle_next w.pm s)).end_addr ≠ b.start_addr := by
    intro b hb hbi hne
    rw [hme]
    cases hQv : PageHeap.idle_next w.pm s with
    | none => exact fun h => hQn hQv b hb hbi h.symm
    | some q =>
      obtain ⟨hq1, hq2, _⟩ := hQ q hQv
      exact hi.coalesced q hq1 b hb hq2 hbi
  refine ⟨w1, h1, ⟨⟨h4, h5, by rw [h2]; exact hi.core.region, ?_⟩, ?_⟩, h3, ?_⟩
  · intro t ht
    rw [h2]
    rcases (hmem t).1 ht with rfl | ⟨ht1, _⟩
    · exact hreg
    · exact hi.core.inRegion t ht1
  · intro a ha b hb hai hbi hab
    rcases (hmem a).1 ha with rfl | ⟨ha1, _, _, ha4⟩
    · rcases (hmem b).1 hb with rfl | ⟨hb1, _, _, hb4⟩
      · omega
      · exact hright b hb1 hbi hb4 hab
    · rcases (hmem b).1 hb with rfl | ⟨hb1, _, _, _⟩
      · rename_i ha3
        exact hleft a ha1 hai ha3 hab
      · exact hi.coalesced a ha1 b hb1 hai hbi hab
  · intro t htu
    rw [hmem]
    constructor
    · rintro (rfl | ⟨h1, h2, _⟩)
      · rw [merged_status] at htu; cases htu
      · exact ⟨h1, h2⟩
    · rintro ⟨h1, h2⟩
      refine Or.inr ⟨h1, h2, fun heq => ?_, fun heq => ?_⟩
      · have := (hP t heq.symm).2.1
        rw [this] at htu; cases htu
      · have := (hQ t heq.symm).2.1
        rw [this] at htu; cases htu

/-! ## Sequences of Page Heap calls -/

theorem heapInv_new (os : OS) : HeapInv os World.new := by
  refine ⟨⟨⟨fun s hs => ?_, fun a ha => ?_⟩, ⟨fun i => List.nodup_nil, fun i x => ?_⟩,
    Or.inl rfl, fun s hs => ?_⟩, fun a ha => ?_⟩
  · cases hs
  · cases ha
  · constructor
    · intro h; cases h
    · rintro ⟨s, hs, _⟩; cases hs
  · cases hs
  · cases ha

theorem demoOS_sane : OS.Sane demoOS := by
  unfold OS.Sane demoOS MAP_FAILED SIZE_T
  refine ⟨fun k hk => ?_, fun j k hjk hj hk => ?_⟩
  · simp only at hk ⊢
    split at hk
    · rw [if_pos (by assumption)]
      omega
    · exact absurd rfl hk
  · simp only at hj hk ⊢
    split at hj
    · split at hk
      · rw [if_pos (by assumption), if_pos (by assumption)]
        omega
      · exact absurd rfl hk
    · exact absurd rfl hj

/-- Every run of valid calls from a state that satisfies the Page Heap invariant ends in
such a state, and the spans returned and not yet deallocated are registered USING spans. -/
theorem run_inv (os : OS) (hos : OS.Sane os) (calls : List HeapCall) :
    ∀ (st : World × List Nat), HeapInv os st.1 →
      (∀ x ∈ st.2, ∃ s ∈ st.1.pm, s.start_addr = x ∧ s._status = STATUS.USING) →
      (∀ c ∈ calls, HeapCall.valid c) →
      ∀ st1, PageHeap.run os calls st = some st1 →
        HeapInv os st1.1 ∧
        (∀ x ∈ st1.2, ∃ s ∈ st1.1.pm, s.start_addr = x ∧ s._status = STATUS.USING) := by
  induction calls with
  | nil =>
    intro st hi hl _ st1 h
    cases h
    exact ⟨hi, hl⟩
  | cons c cs ih =>
    intro st hi hl hv st1 h
    unfold PageHeap.run at h
    split at h
    · cases h
    · rename_i st2 hstep
      suffices hs : HeapInv os st2.1 ∧
          (∀ x ∈ st2.2, ∃ s ∈ st2.1.pm, s.start_addr = x ∧ s._status = STATUS.USING) from
        ih st2 hs.1 hs.2 (fun c hc => hv c (List.mem_cons_of_mem _ hc)) st1 h
      cases c with
      | alloc n =>
        have hn : 1 ≤ n := hv (HeapCall.alloc n) (List.mem_cons_self _ _)
        change (match PageHeap.alloc os st.1 n with
          | none => none
          | some (none, w1) => some (w1, st.2)
          | some (some span, w1) => some (w1, span :: st.2)) = some st2 at hstep
        cases ha : PageHeap.alloc os st.1 n with
        | none => rw [ha] at hstep; cases hstep
        | some r =>
          obtain ⟨r1, w1⟩ := r
          rw [ha] at hstep
          obtain ⟨hi1, _, hres⟩ := alloc_ok os hos st.1 hi n hn r1 w1 ha
          rcases hres with ⟨hnone, hpm⟩ | ⟨u, hxu, hu1, hu2, _, _, hframe⟩
          · subst hnone
            cases hstep
            refine ⟨hi1, fun x hx => ?_⟩
            obtain ⟨s, hs, hs1, hs2⟩ := hl x hx
            exact ⟨s, by rw [hpm]; exact hs, hs1, hs2⟩
          · subst hxu
            cases hstep
            refine ⟨hi1, fun x hx => ?_⟩
            rcases List.mem_cons.1 hx with rfl | hx1
            · exact ⟨u, hu1, rfl, hu2⟩
            · obtain ⟨s, hs, hs1, hs2⟩ := hl x hx1
              exact ⟨s, (hframe s hs2).2 (Or.inl hs), hs1, hs2⟩
      | dealloc sp =>
        change (match PageHeap.dealloc st.1 sp with
          | none => none
          | some w1 => some (w1, st.2.filter (fun x => decide (x ≠ sp)))) = some st2 at hstep
        cases hd : PageHeap.dealloc st.1 sp with
        | none => rw [hd] at hstep; cases hstep
        | some w2 =>
          rw [hd] at hstep
          cases hstep
          obtain ⟨s, hs, hsp, hu⟩ := dealloc_pre st.1 hi.core.wf sp w2 hd
          obtain ⟨w3, h3, hi3, _, hframe⟩ := dealloc_ok os hos st.1 hi s hs hu
          rw [hsp, hd] at h3
          cases h3
          refine ⟨hi3, fun x hx => ?_⟩
          obtain ⟨hx1, hx2⟩ := List.mem_filter.1 hx
          have hx3 : x ≠ sp := by simpa using hx2
          obtain ⟨t, ht, ht1, ht2⟩ := hl x hx1
          refine ⟨t, (hframe t ht2).2 ⟨ht, ?_⟩, ht1, ht2⟩
          rintro rfl
          exact hx3 (ht1.symm.trans hsp)

/-! ## Claims C5 and C6 -/

theorem getD_of_isSome {α : Type} (o : Option α) (d : α) (h : o.isSome = true) :
    o = some (o.getD d) := by
  cases o with
  | none => cases h
  | some x => rfl

set_option maxRecDepth 100000 in
theorem run_callsS3 : PageHeap.run demoOS callsS3 (World.new, []) = some stateS3 :=
  getD_of_isSome _ _ (by decide)

set_option maxRecDepth 100000 in
theorem stateS3_live : stateS3.2 = [139717433556992, 139717433597952] := by decide

theorem callsS3_valid : ∀ c ∈ callsS3, HeapCall.valid c := by
  intro c hc
  simp only [callsS3, List.mem_cons, List.mem_singleton, List.not_mem_nil, or_false] at hc
  rcases hc with rfl | rfl <;> simp [HeapCall.valid]

/-- C5: for an operating system whose successful mappings are non-null, 4096-aligned and
pairwise disjoint, and every finite sequence of `PageHeap::alloc(n)` (with `n ≥ 1`) and
`PageHeap::dealloc(span)` calls that runs from the empty Page Heap without tripping an
assertion: in the state reached no two registered IDLE spans are address-adjacent; every
span returned by `alloc` and not deallocated since is a registered USING span; and
`dealloc` of any registered USING span returns (so a `dealloc` as the claim describes never
trips the assertion) and again leaves no two registered IDLE spans adjacent. -/
theorem C5_coalescing_maximality (os : OS) (hos : OS.Sane os) (calls : List HeapCall)
    (hv : ∀ c ∈ calls, HeapCall.valid c) (w : World) (live : List Nat)
    (h : PageHeap.run os calls (World.new, []) = some (w, live)) :
    PageMap.Coalesced w.pm ∧
    (∀ x ∈ live, ∃ s ∈ w.pm, s.start_addr = x ∧ s._status = STATUS.USING) ∧
    ∀ s ∈ w.pm, s._status = STATUS.USING →
      ∃ w1, PageHeap.dealloc w s.start_addr = some w1 ∧ PageMap.Coalesced w1.pm := by
  obtain ⟨hi, hl⟩ := run_inv os hos calls (World.new, []) (heapInv_new os)
    (fun x hx => by cases hx) hv (w, live) h
  refine ⟨hi.coalesced, hl, fun s hs hu => ?_⟩
  obtain ⟨w1, h1, hi1, _⟩ := dealloc_ok os hos w hi s hs hu
  exact ⟨w1, h1, hi1.coalesced⟩

/-- Witness for C5: the calls of scenario S3 (`alloc(3)`, `alloc(5)` on a fresh Page Heap),
after which two USING spans and one IDLE span are registered. -/
theorem C5_coalescing_maximality_witness :
    PageMap.Coalesced stateS3.1.pm ∧
    (∀ x ∈ stateS3.2, ∃ s ∈ stateS3.1.pm, s.start_addr = x ∧ s._status = STATUS.USING) ∧
    ∀ s ∈ stateS3.1.pm, s._status = STATUS.USING →
      ∃ w1, PageHeap.dealloc stateS3.1 s.start_addr = some w1 ∧ PageMap.Coalesced w1.pm :=
  C5_coalescing_maximality demoOS demoOS_sane callsS3 callsS3_valid stateS3.1 stateS3.2
    run_callsS3

theorem slot_contains (s : Span) (sz : Nat)
    (hfit : s._total * sz ≤ s._num_pages * Page.SIZE) (p : Nat) (hp : s.slot sz p) :
    s.start_addr ≤ p ∧ p + sz ≤ s.end_addr := by
  obtain ⟨i, hi, rfl⟩ := hp
  rw [span_end_addr_eq]
  rw [page_SIZE_eq] at hfit
  have h1 : (i + 1) * sz ≤ s._total * sz := Nat.mul_le_mul_right sz hi
  rw [Nat.add_mul, Nat.one_mul] at h1
  omega

theorem slot_inj (s : Span) (sz : Nat) (hsz : 1 ≤ sz) (i j : Nat)
    (h : s.start_addr + i * sz = s.start_addr + j * sz) : i = j := by
  have h1 : i * sz = j * sz := by omega
  exact Nat.eq_of_mul_eq_mul_right (by omega) h1

/-- Distinct slots of one span are at least one object apart. -/
theorem slot_apart (s : Span) (sz : Nat) (p q : Nat) (hp : s.slot sz p) (hq : s.slot sz q)
    (hpq : p ≠ q) : p + sz ≤ q ∨ q + sz ≤ p := by
  obtain ⟨i, _, rfl⟩ := hp
  obtain ⟨j, _, rfl⟩ := hq
  rcases Nat.lt_trichotomy i j with h | h | h
  · left
    have h1 : (i + 1) * sz ≤ j * sz := Nat.mul_le_mul_right sz h
    rw [Nat.add_mul, Nat.one_mul] at h1
    omega
  · exact absurd (by rw [h]) hpq
  · right
    have h1 : (j + 1) * sz ≤ i * sz := Nat.mul_le_mul_right sz h
    rw [Nat.add_mul, Nat.one_mul] at h1
    omega

/-- Pigeonhole on the slots of a span: a list of distinct slots that misses one slot is
shorter than `_total`. -/
theorem slots_short (s : Span) (sz : Nat) (hsz : 1 ≤ sz) (l : List Nat) (hnd : l.Nodup)
    (hsl : ∀ x ∈ l, s.slot sz x) (p : Nat) (hp : s.slot sz p) (hpl : p ∉ l) :
    l.length < s._total := by
  obtain ⟨ip, hip, rfl⟩ := hp
  have hf : ∀ i, (s.start_addr + i * sz - s.start_addr) / sz = i := by
    intro i
    rw [Nat.add_sub_cancel_left]
    exact Nat.mul_div_cancel i (by omega)
  have hinj : ∀ x ∈ l, ∀ y ∈ l,
      (x - s.start_addr) / sz = (y - s.start_addr) / sz → x = y := by
    intro x hx y hy hxy
    obtain ⟨i, _, rfl⟩ := hsl x hx
    obtain ⟨j, _, rfl⟩ := hsl y hy
    rw [hf, hf] at hxy
    rw [hxy]
  have hnd1 : (l.map (fun x => (x - s.start_addr) / sz)).Nodup := List.Nodup.map_on hinj hnd
  have hsub : (l.map (fun x => (x - s.start_addr) / sz)).toFinset ⊆
      (Finset.range s._total).erase ip := by
    intro y hy
    rw [List.mem_toFinset, List.mem_map] at hy
    obtain ⟨x, hx, rfl⟩ := hy
    obtain ⟨i, hi, rfl⟩ := hsl x hx
    rw [hf, Finset.mem_erase, Finset.mem_range]
    refine ⟨?_, hi⟩
    rintro rfl
    exact hpl hx
  have hcard := Finset.card_le_card hsub
  rw [List.toFinset_card_of_nodup hnd1, List.length_map,
    Finset.card_erase_of_mem (Finset.mem_range.2 hip), Finset.card_range] at hcard
  omega

/-- A list of `_total` distinct slots holds every slot. -/
theorem slots_full (s : Span) (sz : Nat) (hsz : 1 ≤ sz) (l : List Nat) (hnd : l.Nodup)
    (hsl : ∀ x ∈ l, s.slot sz x) (hlen : l.length = s._total) (p : Nat) (hp : s.slot sz p) :
    p ∈ l := by
  by_contra hpl
  have := slots_short s sz hsz l hnd hsl p hp hpl
  omega

/-- The free list after the loop of `Span::init_free_list`. -/
theorem push_slots_eq (sz : Nat) : ∀ (cnt start : Nat) (l : FreeList),
    (Span.push_slots sz cnt start l)._list =
      ((List.range cnt).map (fun i => start + i * sz)).reverse ++ l._list ∧
    (Span.push_slots sz cnt start l)._n = l._n + cnt := by
  intro cnt
  induction cnt with
  | zero => intro start l; simp [Span.push_slots]
  | succ k ih =>
    intro start l
    obtain ⟨h1, h2⟩ := ih (start + sz) (l.push start)
    unfold Span.push_slots
    rw [h1, h2]
    constructor
    · rw [List.range_succ_eq_map, List.map_cons, List.reverse_cons, List.map_map,
        List.append_assoc]
      simp only [FreeList.push, List.singleton_append, Nat.zero_mul, Nat.add_zero]
      congr 2
      apply List.map_congr_left
      intro i _
      simp only [Function.comp, Nat.succ_eq_add_one, Nat.add_mul, Nat.one_mul]
      omega
    · simp only [FreeList.push]
      omega

/-- `Span::init_free_list` on a span fresh from the Page Heap. -/
theorem init_free_list_ok (u : Span) (sz : Nat) (hsz : 1 ≤ sz)
    (hfit : sz ≤ u._num_pages * Page.SIZE) (hl : u._list = FreeList.new) :
    ∃ s1, u.init_free_list sz = some s1 ∧ SpanOk s1 sz ∧ s1._allocated = 0 ∧
      s1._first_page = u._first_page ∧ s1._num_pages = u._num_pages ∧
      s1._status = u._status := by
  have hbytes : u.end_addr - u.start_addr = u._num_pages * Page.SIZE := by
    rw [span_end_addr_eq, page_SIZE_eq]; omega
  unfold Span.init_free_list
  rw [if_neg (by omega)]
  refine ⟨_, rfl, ?_, rfl, rfl, rfl, rfl⟩
  obtain ⟨h1, h2⟩ := push_slots_eq sz ((u.end_addr - u.start_addr) / sz) u.start_addr u._list
  have hmem : ∀ p, p ∈ (Span.push_slots sz ((u.end_addr - u.start_addr) / sz) u.start_addr
      u._list)._list ↔ ∃ i, i < (u.end_addr - u.start_addr) / sz ∧ p = u.start_addr + i * sz := by
    intro p
    rw [h1, hl]
    simp only [FreeList.new, List.append_nil, List.mem_reverse, List.mem_map, List.mem_range]
    constructor
    · rintro ⟨i, hi, rfl⟩; exact ⟨i, hi, rfl⟩
    · rintro ⟨i, hi, rfl⟩; exact ⟨i, hi, rfl⟩
  have hlen : (Span.push_slots sz ((u.end_addr - u.start_addr) / sz) u.start_addr
      u._list)._list.length = (u.end_addr - u.start_addr) / sz := by
    rw [h1, hl]
    simp [FreeList.new]
  constructor
  · show 1 ≤ (u.end_addr - u.start_addr) / sz
    rw [hbytes]
    exact (Nat.one_le_div_iff (by omega)).2 hfit
  · show (u.end_addr - u.start_addr) / sz * sz ≤ u._num_pages * Page.SIZE
    rw [hbytes]
    exact Nat.div_mul_le_self _ _
  · show (Span.push_slots sz ((u.end_addr - u.start_addr) / sz) u.start_addr
      u._list)._list.Nodup
    rw [h1, hl]
    simp only [FreeList.new, List.append_nil, List.nodup_reverse]
    refine List.Nodup.map_on ?_ (List.nodup_range _)
    intro i _ j _ hij
    exact slot_inj u sz hsz i j hij
  · intro p hp
    exact (hmem p).1 hp
  · show (Span.push_slots sz ((u.end_addr - u.start_addr) / sz) u.start_addr u._list)._n = _
    rw [h2, hlen, hl]
    simp [FreeList.new]
  · show 0 + _ = (u.end_addr - u.start_addr) / sz
    rw [hlen]
    omega

/-- `Span::alloc` on a span of the Central Cache: it returns, the objects are the first
`min k size` entries of the free list. -/
theorem span_alloc_ok (s : Span) (sz : Nat) (hok : SpanOk s sz) (k : Nat) :
    ∃ objs s1, s.alloc k = some (objs, s1) ∧ SpanOk s1 sz ∧
      s1._first_page = s._first_page ∧ s1._num_pages = s._num_pages ∧
      s1._status = s._status ∧ s1._total = s._total ∧
      s1._allocated = s._allocated + objs.length ∧
      objs.length = min k s._list._list.length ∧ objs.Nodup ∧
      (∀ p ∈ objs, s.slot sz p ∧ p ∈ s._list._list ∧ p ∉ s1._list._list) ∧
      (∀ p ∈ s1._list._list, p ∈ s._list._list) := by
  have hsize := hok.size
  have hcnt : min k s._list.size = min k s._list._list.length := by
    unfold FreeList.size; rw [hsize]
  have hsplit : s._list._list.take (min k s._list._list.length) ++
      s._list._list.drop (min k s._list._list.length) = s._list._list :=
    List.take_append_drop _ _
  have hnd := hok.nodup
  rw [← hsplit] at hnd
  have hlen : (s._list._list.take (min k s._list._list.length)).length =
      min k s._list._list.length := by
    rw [List.length_take]; omega
  unfold Span.alloc
  simp only [hcnt]
  unfold FreeList.pop_batch
  rw [if_neg (by omega)]
  refine ⟨_, _, rfl, ?_, rfl, rfl, rfl, rfl, ?_, hlen, (List.nodup_append.1 hnd).1, ?_, ?_⟩
  · constructor
    · exact hok.total_pos
    · exact hok.fits
    · exact (List.nodup_append.1 hnd).2.1
    · intro p hp
      obtain ⟨i, hi, h⟩ := hok.slots p (List.mem_of_mem_drop hp)
      exact ⟨i, hi, h⟩
    · show usub s._list._n _ = (s._list._list.drop _).length
      rw [usub_of_le _ _ (by omega), List.length_drop]
      omega
    · show s._allocated + _ + (s._list._list.drop _).length = s._total
      have := hok.count
      rw [List.length_drop]
      omega
  · show s._allocated + _ = s._allocated + _
    rw [hlen]
  · intro p hp
    refine ⟨hok.slots p (List.mem_of_mem_take hp), List.mem_of_mem_take hp, ?_⟩
    intro hp2
    exact (List.nodup_append.1 hnd).2.2 hp hp2
  · intro p hp
    exact List.mem_of_mem_drop hp

/-- `Span::dealloc` of a slot that is not on the free list. -/
theorem span_dealloc_ok (s : Span) (sz : Nat) (hsz : 1 ≤ sz) (hok : SpanOk s sz) (p : Nat)
    (hp : s.slot sz p) (hpl : p ∉ s._list._list) :
    SpanOk (s.dealloc p) sz ∧ (s.dealloc p)._allocated + 1 = s._allocated ∧
      (s.dealloc p)._first_page = s._first_page ∧
      (s.dealloc p)._num_pages = s._num_pages ∧ (s.dealloc p)._status = s._status ∧
      (s.dealloc p)._total = s._total ∧ (s.dealloc p)._list._list = p :: s._list._list := by
  have hshort := slots_short s sz hsz s._list._list hok.nodup hok.slots p hp hpl
  have hcount := hok.count
  have hal : (s.dealloc p)._allocated = s._allocated - 1 := by
    show usub s._allocated 1 = _
    exact usub_of_le _ _ (by omega)
  refine ⟨?_, by rw [hal]; omega, rfl, rfl, rfl, rfl, rfl⟩
  constructor
  · exact hok.total_pos
  · exact hok.fits
  · show (p :: s._list._list).Nodup
    exact List.nodup_cons.2 ⟨hpl, hok.nodup⟩
  · intro q hq
    have hq1 : q ∈ p :: s._list._list := hq
    rcases List.mem_cons.1 hq1 with rfl | h
    · obtain ⟨i, hi, h⟩ := hp
      exact ⟨i, hi, h⟩
    · obtain ⟨i, hi, h⟩ := hok.slots q h
      exact ⟨i, hi, h⟩
  · show s._list._n + 1 = (p :: s._list._list).length
    rw [hok.size]; rfl
  · show (s.dealloc p)._allocated + (p :: s._list._list).length = s._total
    rw [hal, List.length_cons]
    omega

/-! ## The Central Cache invariant: general facts -/

theorem heapInv_congr (os : OS) (w w1 : World) (hi : HeapInv os w) (hsa : w1.sa = w.sa)
    (hpm : w1.pm = w.pm) (hph : w1.ph._lists = w.ph._lists) : HeapInv os w1 := by
  refine ⟨⟨?_, ?_, ?_, ?_⟩, ?_⟩
  · rw [hpm]; exact hi.core.wf
  · rw [hpm, hph]; exact hi.core.lists
  · rw [hsa]; exact hi.core.region
  · rw [hpm, hsa]; exact hi.core.inRegion
  · rw [hpm]; exact hi.coalesced

theorem mem_set_iff {m : PageMap} (hwf : PageMap.WF m) (s s1 : Span) (hs : s ∈ m)
    (hst : s1.start_addr = s.start_addr) (t : Span) :
    t ∈ PageMap.set m s1 ↔ t = s1 ∨ (t ∈ m ∧ t ≠ s) := by
  rw [mem_set]
  constructor
  · rintro (⟨rfl, _⟩ | ⟨h1, h2⟩)
    · exact Or.inl rfl
    · refine Or.inr ⟨h1, ?_⟩
      rintro rfl
      exact h2 hst.symm
  · rintro (rfl | ⟨h1, h2⟩)
    · exact Or.inl ⟨rfl, s, hs, hst.symm⟩
    · refine Or.inr ⟨h1, fun h => h2 ?_⟩
      exact wf_start_inj hwf h1 hs (h.trans hst)

/-- Writing the free list and the counters of a registered USING span keeps the Page Heap
invariant. -/
theorem heapInv_set (os : OS) (w w1 : World) (hi : HeapInv os w) (s s1 : Span) (hs : s ∈ w.pm)
    (hu : s._status = STATUS.USING) (h1 : s1._first_page = s._first_page)
    (h2 : s1._num_pages = s._num_pages) (h3 : s1._status = s._status)
    (hsa : w1.sa = w.sa) (hpm : w1.pm = PageMap.set w.pm s1)
    (hph : w1.ph._lists = w.ph._lists) : HeapInv os w1 := by
  have hst : s1.start_addr = s.start_addr := by
    rw [span_start_addr_eq, span_start_addr_eq, h1]
  have hen : s1.end_addr = s.end_addr := by
    rw [span_end_addr_eq, span_end_addr_eq, hst, h2]
  have hmem := mem_set_iff hi.core.wf s s1 hs hst
  have hidle : ∀ t, t._status = STATUS.IDLE → (t ∈ PageMap.set w.pm s1 ↔ t ∈ w.pm) := by
    intro t ht
    rw [hmem]
    constructor
    · rintro (rfl | ⟨h, _⟩)
      · rw [h3, hu] at ht; cases ht
      · exact h
    · intro h
      refine Or.inr ⟨h, ?_⟩
      rintro rfl
      rw [hu] at ht; cases ht
  refine ⟨⟨?_, ?_, ?_, ?_⟩, ?_⟩
  · rw [hpm]
    exact wf_set hi.core.wf s s1 hs hst (by rw [h2]; exact hi.core.wf.1 s hs) (by rw [h2])
  · rw [hpm, hph]
    refine lists_congr hi.core.lists ?_
    intro x i
    constructor
    · rintro ⟨t, ht, ht1, ht2, ht3⟩
      exact ⟨t, (hidle t ht2).1 ht, ht1, ht2, ht3⟩
    · rintro ⟨t, ht, ht1, ht2, ht3⟩
      exact ⟨t, (hidle t ht2).2 ht, ht1, ht2, ht3⟩
  · rw [hsa]; exact hi.core.region
  · rw [hpm, hsa]
    intro t ht
    rcases (hmem t).1 ht with rfl | ⟨h, _⟩
    · exact inRegion_sub os w.sa s t (hi.core.inRegion s hs) (by rw [hst]) (by rw [hen])
    · exact hi.core.inRegion t h
  · rw [hpm]
    intro a ha b hb hai hbi
    exact hi.coalesced a ((hidle a hai).1 ha) b ((hidle b hbi).1 hb) hai hbi

theorem centralInv_congr (os : OS) (sc : Nat → SizeClassInfo) (w w1 : World)
    (cls : Nat → Nat) (O O1 : Nat → Nat → Prop) (h : CentralInv os sc w cls O)
    (hi : HeapInv os w1) (hpm : w1.pm = w.pm) (hcc : w1.cc._lists = w.cc._lists)
    (hO : ∀ p c, O1 p c → O p c) : CentralInv os sc w1 cls O1 := by
  refine ⟨hi, ?_, ?_, ?_, ?_, ?_⟩
  · rw [hpm]; exact h.cls_ok
  · rw [hpm]; exact h.span_ok
  · rw [hcc]; exact h.lists_nodup
  · rw [hpm, hcc]; exact h.listed
  · rw [hpm]; exact fun p c hp => h.out_ok p c (hO p c hp)

/-- The span that holds an object handed out: `find_span` returns it. -/
theorem out_find (os : OS) (sc : Nat → SizeClassInfo) (hsc : SizeMap.ClassesOk sc) (w : World)
    (cls : Nat → Nat) (O : Nat → Nat → Prop) (h : CentralInv os sc w cls O) (p c : Nat)
    (hp : O p c) :
    ∃ s, PageMap.find_span w.pm p = some s ∧ s ∈ w.pm ∧ s._status = STATUS.USING ∧
      cls s.start_addr = c ∧ s.slot (SizeMap.size sc c) p ∧ p ∉ s._list._list ∧
      s.start_addr ≤ p ∧ p + SizeMap.size sc c ≤ s.end_addr ∧ 1 ≤ SizeMap.size sc c ∧
      0 < c ∧ c < SizeMap.size_class_size := by
  obtain ⟨s, hs, hu, hc, hslot, hnl⟩ := h.out_ok p c hp
  have hcls := h.cls_ok s hs hu
  rw [hc] at hcls
  have hsz := (hsc c hcls.1 hcls.2).1
  have hok := h.span_ok s hs hu
  rw [hc] at hok
  obtain ⟨hlo, hhi⟩ := slot_contains s _ hok.fits p hslot
  refine ⟨s, ?_, hs, hu, hc, hslot, hnl, hlo, hhi, hsz, hcls.1, hcls.2⟩
  exact (find_span_eq_some_iff h.heap.core.wf p s).2 ⟨hs, ⟨hlo, by omega⟩⟩

/-- An object on the free list of a USING span is not handed out. -/
theorem free_not_out (os : OS) (sc : Nat → SizeClassInfo) (hsc : SizeMap.ClassesOk sc)
    (w : World) (cls : Nat → Nat) (O : Nat → Nat → Prop) (h : CentralInv os sc w cls O)
    (s : Span) (hs : s ∈ w.pm) (hu : s._status = STATUS.USING) (p : Nat)
    (hp : p ∈ s._list._list) (c : Nat) : ¬ O p c := by
  intro hO
  obtain ⟨t, _, ht, _, _, _, hnl, hlo, hhi, hsz, _, _⟩ := out_find os sc hsc w cls O h p c hO
  have hcls := h.cls_ok s hs hu
  have hok := h.span_ok s hs hu
  obtain ⟨hlo1, hhi1⟩ := slot_contains s _ hok.fits p (hok.slots p hp)
  have hsz1 := (hsc _ hcls.1 hcls.2).1
  have : s = t := wf_eq_of_contains h.heap.core.wf hs ht ⟨hlo1, by omega⟩ ⟨hlo, by omega⟩
  subst this
  exact hnl hp

/-! ## `CentralCache::fetch_objects` -/

theorem span_empty_iff (s : Span) : s.empty = true ↔ s._allocated = s._total := by
  unfold Span.empty
  exact beq_iff_eq

theorem span_full_iff (s : Span) : s.full = true ↔ s._allocated = 0 := by
  unfold Span.full
  exact beq_iff_eq

/-- One iteration of the loop of `fetch_objects`: objects are taken from the free list of a
USING span, and the span is unlinked when it has no object left. -/
theorem central_take (os : OS) (sc : Nat → SizeClassInfo) (hsc : SizeMap.ClassesOk sc)
    (w w2 : World) (cls : Nat → Nat) (O : Nat → Nat → Prop) (h : CentralInv os sc w cls O)
    (c : Nat) (s : Span) (hs : s ∈ w.pm) (hu : s._status = STATUS.USING)
    (hc : cls s.start_addr = c) (k : Nat) (objs : List Nat) (s1 : Span)
    (hal : s.alloc k = some (objs, s1)) (hsa : w2.sa = w.sa)
    (hph : w2.ph._lists = w.ph._lists) (hpm : w2.pm = PageMap.set w.pm s1)
    (hcc : w2.cc._lists = if s1.empty then
      setList w.cc._lists c ((w.cc._lists c).remove s.start_addr) else w.cc._lists) :
    CentralInv os sc w2 cls (fun p k => O p k ∨ (p ∈ objs ∧ k = c)) ∧ objs.Nodup ∧
      (∀ p ∈ objs, ∀ k, ¬ O p k) := by
  have hok := h.span_ok s hs hu
  rw [hc] at hok
  obtain ⟨objs0, s0, hal0, hok1, h1, h2, h3, h4, h5, _, hnd, hobjs, hsub⟩ :=
    span_alloc_ok s _ hok k
  rw [hal] at hal0
  cases hal0
  have hst : s1.start_addr = s.start_addr := by
    rw [span_start_addr_eq, span_start_addr_eq, h1]
  have hwf := h.heap.core.wf
  have hmem := mem_set_iff hwf s s1 hs hst
  have hu1 : s1._status = STATUS.USING := by rw [h3, hu]
  have hcount1 := hok1.count
  refine ⟨⟨?_, ?_, ?_, ?_, ?_, ?_⟩, hnd, ?_⟩
  · exact heapInv_set os w w2 h.heap s s1 hs hu h1 h2 h3 hsa hpm hph
  · rw [hpm]
    intro t ht htu
    rcases (hmem t).1 ht with rfl | ⟨ht1, _⟩
    · rw [hst]; exact h.cls_ok s hs hu
    · exact h.cls_ok t ht1 htu
  · rw [hpm]
    intro t ht htu
    rcases (hmem t).1 ht with rfl | ⟨ht1, _⟩
    · rw [hst, hc]; exact hok1
    · exact h.span_ok t ht1 htu
  · intro k1
    rw [hcc]
    split
    · by_cases hk : k1 = c
      · subst hk
        rw [setList_same]
        exact (h.lists_nodup k1).erase _
      · rw [setList_other _ _ _ _ hk]
        exact h.lists_nodup k1
    · exact h.lists_nodup k1
  · intro k1 x
    rw [hcc, hpm]
    by_cases he : s1.empty = true
    · rw [if_pos he]
      have he1 := (span_empty_iff s1).1 he
      constructor
      · intro hx
        have hx1 : x ∈ w.cc._lists k1 ∧ (k1 = c → x ≠ s.start_addr) := by
          by_cases hk : k1 = c
          · subst hk
            rw [setList_same] at hx
            have := ((h.lists_nodup k1).mem_erase_iff).1 hx
            exact ⟨this.2, fun _ => this.1⟩
          · rw [setList_other _ _ _ _ hk] at hx
            exact ⟨hx, fun hk1 => absurd hk1 hk⟩
        obtain ⟨t, ht, ht1, ht2, ht3, ht4⟩ := (h.listed k1 x).1 hx1.1
        refine ⟨t, (hmem t).2 (Or.inr ⟨ht, ?_⟩), ht1, ht2, ht3, ht4⟩
        rintro rfl
        rw [ht1] at hc
        exact hx1.2 (ht3.symm.trans hc) ht1.symm
      · rintro ⟨t, ht, ht1, ht2, ht3, ht4⟩
        rcases (hmem t).1 ht with rfl | ⟨ht5, ht6⟩
        · omega
        · have hx := (h.listed k1 x).2 ⟨t, ht5, ht1, ht2, ht3, ht4⟩
          by_cases hk : k1 = c
          · subst hk
            rw [setList_same]
            refine ((h.lists_nodup k1).mem_erase_iff).2 ⟨?_, hx⟩
            intro hxs
            exact ht6 (wf_start_inj hwf ht5 hs (ht1.trans hxs))
          · rw [setList_other _ _ _ _ hk]
            exact hx
    · rw [if_neg he]
      have he1 : s1._allocated ≠ s1._total := fun hh => he ((span_empty_iff s1).2 hh)
      constructor
      · intro hx
        obtain ⟨t, ht, ht1, ht2, ht3, ht4⟩ := (h.listed k1 x).1 hx
        by_cases hts : t = s
        · subst hts
          exact ⟨s1, (hmem s1).2 (Or.inl rfl), hst.trans ht1, hu1, ht3, by omega⟩
        · exact ⟨t, (hmem t).2 (Or.inr ⟨ht, hts⟩), ht1, ht2, ht3, ht4⟩
      · rintro ⟨t, ht, ht1, ht2, ht3, ht4⟩
        rcases (hmem t).1 ht with rfl | ⟨ht5, _⟩
        · exact (h.listed k1 x).2 ⟨s, hs, hst.symm.trans ht1, hu, ht3, by omega⟩
        · exact (h.listed k1 x).2 ⟨t, ht5, ht1, ht2, ht3, ht4⟩
  · rw [hpm]
    rintro p k1 (hp | ⟨hp, rfl⟩)
    · obtain ⟨t, ht, ht1, ht2, ht3, ht4⟩ := h.out_ok p k1 hp
      by_cases hts : t = s
      · subst hts
        refine ⟨s1, (hmem s1).2 (Or.inl rfl), hu1, by rw [hst]; exact ht2, ?_,
          fun hin => ht4 (hsub p hin)⟩
        obtain ⟨i, hi, hpi⟩ := ht3
        exact ⟨i, by rw [h4]; exact hi, by rw [hst]; exact hpi⟩
      · exact ⟨t, (hmem t).2 (Or.inr ⟨ht, hts⟩), ht1, ht2, ht3, ht4⟩
    · obtain ⟨⟨i, hi, hpi⟩, _, hp3⟩ := hobjs p hp
      exact ⟨s1, (hmem s1).2 (Or.inl rfl), hu1, by rw [hst]; exact hc,
        ⟨i, by rw [h4]; exact hi, by rw [hst]; exact hpi⟩, hp3⟩
  · intro p hp k1
    exact free_not_out os sc hsc w cls O h s hs hu p (hobjs p hp).2.1 k1

/-- The loop of `fetch_objects` keeps the invariant; the objects it collects are distinct
and were not handed out before. -/
theorem fetch_objects_loop_ok (os : OS) (sc : Nat → SizeClassInfo)
    (hsc : SizeMap.ClassesOk sc) (cls : Nat → Nat) (c n : Nat) :
    ∀ (fuel : Nat) (w : World) (batch : List Nat) (O : Nat → Nat → Prop),
      CentralInv os sc w cls O → ∀ res w1,
      CentralCache.fetch_objects_loop c n fuel w batch = some (res, w1) →
      ∃ objs, res = batch ++ objs ∧ objs.Nodup ∧ (∀ p ∈ objs, ∀ k, ¬ O p k) ∧
        CentralInv os sc w1 cls (fun p k => O p k ∨ (p ∈ objs ∧ k = c)) := by
  intro fuel
  induction fuel with
  | zero =>
    intro w batch O h res w1 hr
    unfold CentralCache.fetch_objects_loop at hr
    split at hr
    · cases hr
    · cases hr
      refine ⟨[], by simp, List.nodup_nil, fun p hp => (by cases hp), ?_⟩
      refine centralInv_congr os sc w w cls O _ h h.heap rfl rfl ?_
      rintro p k (hp | ⟨hp, _⟩)
      · exact hp
      · cases hp
  | succ fuel ih =>
    intro w batch O h res w1 hr
    unfold CentralCache.fetch_objects_loop at hr
    split at hr
    · cases hfirst : (w.cc._lists c).first with
      | none => rw [hfirst] at hr; cases hr
      | some x =>
        rw [hfirst] at hr
        have hx : x ∈ w.cc._lists c := List.mem_of_mem_head? hfirst
        obtain ⟨s, hs, hs1, hs2, hs3, _⟩ := (h.listed c x).1 hx
        subst hs1
        have hget : PageMap.get w.pm s.start_addr = some s :=
          (get_eq_some_iff h.heap.core.wf _ s).2 ⟨hs, rfl⟩
        simp only [hget] at hr
        cases hal : s.alloc (n - batch.length) with
        | none => rw [hal] at hr; cases hr
        | some r =>
          obtain ⟨objs1, s1⟩ := r
          rw [hal] at hr
          simp only at hr
          generalize hw2 : (ite (s1.empty = true) _ _ : World) = w2 at hr
          have f1 : w2.sa = w.sa := by rw [← hw2]; split <;> rfl
          have f2 : w2.ph._lists = w.ph._lists := by rw [← hw2]; split <;> rfl
          have f3 : w2.pm = PageMap.set w.pm s1 := by rw [← hw2]; split <;> rfl
          have f4 : w2.cc._lists = if s1.empty then
              setList w.cc._lists c ((w.cc._lists c).remove s.start_addr)
              else w.cc._lists := by
            rw [← hw2]; split <;> rfl
          obtain ⟨hinv2, hnd1, hfresh1⟩ := central_take os sc hsc w w2 cls O h c s hs hs2 hs3
            (n - batch.length) objs1 s1 hal f1 f2 f3 f4
          obtain ⟨objs2, hres, hnd2, hfresh2, hinv⟩ := ih w2 (batch ++ objs1) _ hinv2 res w1 hr
          refine ⟨objs1 ++ objs2, by rw [hres, List.append_assoc], ?_, ?_, ?_⟩
          · refine List.nodup_append.2 ⟨hnd1, hnd2, ?_⟩
            intro p hp1 hp2
            exact hfresh2 p hp2 c (Or.inr ⟨hp1, rfl⟩)
          · intro p hp k
            rcases List.mem_append.1 hp with hp1 | hp2
            · exact hfresh1 p hp1 k
            · exact fun hO => hfresh2 p hp2 k (Or.inl hO)
          · refine centralInv_congr os sc w1 w1 cls _ _ hinv hinv.heap rfl rfl ?_
            rintro p k (hp | ⟨hp, rfl⟩)
            · exact Or.inl (Or.inl hp)
            · rcases List.mem_append.1 hp with hp1 | hp2
              · exact Or.inl (Or.inr ⟨hp1, rfl⟩)
              · exact Or.inr ⟨hp2, rfl⟩
    · cases hr
      refine ⟨[], by simp, List.nodup_nil, fun p hp => (by cases hp), ?_⟩
      refine centralInv_congr os sc w w cls O _ h h.heap rfl rfl ?_
      rintro p k (hp | ⟨hp, _⟩)
      · exact hp
      · cases hp

/-! ## `CentralCache::fetch_from_page_heap` and `CentralCache::alloc` -/

theorem fetch_objects_ok (os : OS) (sc : Nat → SizeClassInfo) (hsc : SizeMap.ClassesOk sc)
    (cls : Nat → Nat) (c n : Nat) (w : World) (O : Nat → Nat → Prop)
    (h : CentralInv os sc w cls O) (res : List Nat) (w1 : World)
    (hr : CentralCache.fetch_objects w c n = some (res, w1)) :
    res.Nodup ∧ (∀ p ∈ res, ∀ k, ¬ O p k) ∧
      CentralInv os sc w1 cls (fun p k => O p k ∨ (p ∈ res ∧ k = c)) := by
  unfold CentralCache.fetch_objects at hr
  split at hr
  · cases hr
  · obtain ⟨objs, hres, hnd, hfresh, hinv⟩ :=
      fetch_objects_loop_ok os sc hsc cls c n _ w [] O h res w1 hr
    rw [List.nil_append] at hres
    subst hres
    exact ⟨hnd, hfresh, hinv⟩

/-- One iteration of the loop of `fetch_from_page_heap` in which the Page Heap returns a
span: the span is cut into objects of the class and linked into the list of the class. -/
theorem central_add_span (os : OS) (hos : OS.Sane os) (sc : Nat → SizeClassInfo)
    (hsc : SizeMap.ClassesOk sc) (w : World) (cls : Nat → Nat) (O : Nat → Nat → Prop)
    (h : CentralInv os sc w cls O) (c : Nat) (hc : 0 < c ∧ c < SizeMap.size_class_size)
    (x : Nat) (w1 : World)
    (ha : PageHeap.alloc os w (SizeMap.pages sc c) = some (some x, w1)) :
    ∃ u s1, PageMap.get w1.pm x = some u ∧
      u.init_free_list (SizeMap.size sc c) = some s1 ∧
      ∀ w2 : World, w2.sa = w1.sa → w2.ph._lists = w1.ph._lists →
        w2.pm = PageMap.set w1.pm s1 →
        w2.cc._lists = setList w1.cc._lists c ((w1.cc._lists c).prepend x) →
        CentralInv os sc w2 (fun a => if a = x then c else cls a) O := by
  obtain ⟨hsz, hfit, hpg⟩ := hsc c hc.1 hc.2
  have hpg1 : 1 ≤ SizeMap.pages sc c := by
    rw [page_SIZE_eq] at hfit
    omega
  obtain ⟨hi1, hcc1, hres⟩ := alloc_ok os hos w h.heap _ hpg1 (some x) w1 ha
  rcases hres with ⟨hnone, _⟩ | ⟨u, hxu, hu1, hu2, hu3, hu4, hframe⟩
  · cases hnone
  cases hxu
  rw [pageHeap_n_eq] at hpg
  obtain ⟨hul, hua, hut⟩ := hu4 hpg
  have hwf1 := hi1.core.wf
  have hunew : u ∉ w.pm := by
    intro hin
    have := (h.span_ok u hin hu2).total_pos
    omega
  obtain ⟨s1, hinit, hok1, hs1a, hs1f, hs1n, hs1s⟩ :=
    init_free_list_ok u (SizeMap.size sc c) hsz (by rw [hu3]; exact hfit) hul
  have hst : s1.start_addr = u.start_addr := by
    rw [span_start_addr_eq, span_start_addr_eq, hs1f]
  have hmem := mem_set_iff hwf1 u s1 hu1 hst
  have hs1u : s1._status = STATUS.USING := by rw [hs1s, hu2]
  -- the USING spans registered before the call
  have hold : ∀ t, t ∈ w.pm → t._status = STATUS.USING →
      t ∈ PageMap.set w1.pm s1 ∧ t.start_addr ≠ u.start_addr := by
    intro t ht htu
    have ht1 : t ∈ w1.pm := (hframe t htu).2 (Or.inl ht)
    have hne : t ≠ u := by rintro rfl; exact hunew ht
    exact ⟨(hmem t).2 (Or.inr ⟨ht1, hne⟩), fun hs => hne (wf_start_inj hwf1 ht1 hu1 hs)⟩
  have hback : ∀ t, t ∈ PageMap.set w1.pm s1 → t._status = STATUS.USING →
      t = s1 ∨ (t ∈ w.pm ∧ t.start_addr ≠ u.start_addr) := by
    intro t ht htu
    rcases (hmem t).1 ht with rfl | ⟨ht1, hne⟩
    · exact Or.inl rfl
    · rcases (hframe t htu).1 ht1 with h1 | h1
      · exact Or.inr ⟨h1, (hold t h1 htu).2⟩
      · exact absurd h1 hne
  have hxl : ∀ k, u.start_addr ∉ w.cc._lists k := by
    intro k hin
    obtain ⟨t, ht, ht1, ht2, _⟩ := (h.listed k _).1 hin
    exact (hold t ht ht2).2 ht1
  refine ⟨u, s1, (get_eq_some_iff hwf1 _ u).2 ⟨hu1, rfl⟩, hinit, ?_⟩
  intro w2 f1 f2 f3 f4
  rw [hcc1] at f4
  refine ⟨?_, ?_, ?_, ?_, ?_, ?_⟩
  · exact heapInv_set os w1 w2 hi1 u s1 hu1 hu2 hs1f hs1n hs1s f1 f3 f2
  · rw [f3]
    intro t ht htu
    show 0 < (if t.start_addr = u.start_addr then c else cls t.start_addr) ∧ _
    rcases hback t ht htu with rfl | ⟨ht1, hne⟩
    · rw [if_pos hst]; exact hc
    · rw [if_neg hne]; exact h.cls_ok t ht1 htu
  · rw [f3]
    intro t ht htu
    show SpanOk t (SizeMap.size sc (if t.start_addr = u.start_addr then c else cls t.start_addr))
    rcases hback t ht htu with rfl | ⟨ht1, hne⟩
    · rw [if_pos hst]; exact hok1
    · rw [if_neg hne]; exact h.span_ok t ht1 htu
  · intro k
    rw [f4]
    by_cases hk : k = c
    · subst hk
      rw [setList_same]
      exact List.nodup_cons.2 ⟨hxl k, h.lists_nodup k⟩
    · rw [setList_other _ _ _ _ hk]
      exact h.lists_nodup k
  · intro k y
    rw [f4, f3]
    show _ ↔ ∃ s ∈ PageMap.set w1.pm s1, s.start_addr = y ∧ s._status = STATUS.USING ∧
      (if y = u.start_addr then c else cls y) = k ∧ s._allocated < s._total
    constructor
    · intro hy
      have hy1 : (y = u.start_addr ∧ k = c) ∨ y ∈ w.cc._lists k := by
        by_cases hk : k = c
        · subst hk
          rw [setList_same] at hy
          rcases List.mem_cons.1 hy with h1 | h1
          · exact Or.inl ⟨h1, rfl⟩
          · exact Or.inr h1
        · rw [setList_other _ _ _ _ hk] at hy
          exact Or.inr hy
      rcases hy1 with ⟨rfl, rfl⟩ | hy1
      · refine ⟨s1, (hmem s1).2 (Or.inl rfl), hst, hs1u, by rw [if_pos rfl], ?_⟩
        have := hok1.total_pos
        omega
      · obtain ⟨t, ht, ht1, ht2, ht3, ht4⟩ := (h.listed k y).1 hy1
        obtain ⟨ht5, ht6⟩ := hold t ht ht2
        rw [ht1] at ht6
        exact ⟨t, ht5, ht1, ht2, by rw [if_neg ht6]; exact ht3, ht4⟩
    · rintro ⟨t, ht, ht1, ht2, ht3, ht4⟩
      rcases hback t ht ht2 with rfl | ⟨ht5, ht6⟩
      · rw [hst] at ht1
        subst ht1
        rw [if_pos rfl] at ht3
        subst ht3
        rw [setList_same]
        exact List.mem_cons_self _ _
      · rw [ht1] at ht6
        rw [if_neg ht6] at ht3
        have hy := (h.listed k y).2 ⟨t, ht5, ht1, ht2, ht3, ht4⟩
        by_cases hk : k = c
        · subst hk
          rw [setList_same]
          exact List.mem_cons_of_mem _ hy
        · rw [setList_other _ _ _ _ hk]
          exact hy
  · rw [f3]
    intro p k hp
    obtain ⟨t, ht, ht1, ht2, ht3, ht4⟩ := h.out_ok p k hp
    obtain ⟨ht5, ht6⟩ := hold t ht ht1
    refine ⟨t, ht5, ht1, ?_, ht3, ht4⟩
    show (if t.start_addr = u.start_addr then c else cls t.start_addr) = k
    rw [if_neg ht6]
    exact ht2

theorem fetch_spans_loop_ok (os : OS) (hos : OS.Sane os) (sc : Nat → SizeClassInfo)
    (hsc : SizeMap.ClassesOk sc) (O : Nat → Nat → Prop) (c n : Nat)
    (hc : 0 < c ∧ c < SizeMap.size_class_size) :
    ∀ (fuel : Nat) (w : World) (temp : Nat) (cls : Nat → Nat),
      CentralInv os sc w cls O → ∀ w1,
      CentralCache.fetch_spans_loop os sc c n (SizeMap.pages sc c) fuel w temp = some w1 →
      ∃ cls1, CentralInv os sc w1 cls1 O := by
  intro fuel
  induction fuel with
  | zero =>
    intro w temp cls h w1 hr
    unfold CentralCache.fetch_spans_loop at hr
    split at hr
    · cases hr
    · cases hr; exact ⟨cls, h⟩
  | succ fuel ih =>
    intro w temp cls h w1 hr
    unfold CentralCache.fetch_spans_loop at hr
    split at hr
    · cases ha : PageHeap.alloc os w (SizeMap.pages sc c) with
      | none => rw [ha] at hr; cases hr
      | some r =>
        obtain ⟨r1, wa⟩ := r
        rw [ha] at hr
        cases r1 with
        | none =>
          simp only at hr
          cases hr
          have hpg1 : 1 ≤ SizeMap.pages sc c := by
            have := hsc c hc.1 hc.2
            rw [page_SIZE_eq] at this
            omega
          obtain ⟨hi1, hcc1, hres⟩ := alloc_ok os hos w h.heap _ hpg1 none _ ha
          rcases hres with ⟨_, hpm⟩ | ⟨u, hxu, _⟩
          · exact ⟨cls, centralInv_congr os sc w _ cls O O h hi1 hpm (by rw [hcc1])
              (fun p k hp => hp)⟩
          · cases hxu
        | some x =>
          simp only at hr
          obtain ⟨u, s1, hget, hinit, hnext⟩ := central_add_span os hos sc hsc w cls O h c hc x
            wa ha
          simp only [hget, hinit] at hr
          refine ih _ _ _ (hnext _ ?_ ?_ ?_ ?_) w1 hr <;> rfl
    · cases hr; exact ⟨cls, h⟩

theorem fetch_from_page_heap_ok (os : OS) (hos : OS.Sane os) (sc : Nat → SizeClassInfo)
    (hsc : SizeMap.ClassesOk sc) (cls : Nat → Nat) (c n : Nat) (w : World)
    (O : Nat → Nat → Prop) (h : CentralInv os sc w cls O) (res : List Nat) (w1 : World)
    (hr : CentralCache.fetch_from_page_heap os sc w c n = some (res, w1)) :
    ∃ cls1, res.Nodup ∧ (∀ p ∈ res, ∀ k, ¬ O p k) ∧
      CentralInv os sc w1 cls1 (fun p k => O p k ∨ (p ∈ res ∧ k = c)) := by
  unfold CentralCache.fetch_from_page_heap at hr
  split at hr
  · cases hr
  · rename_i hc
    have hc1 : 0 < c ∧ c < SizeMap.size_class_size := by
      by_contra hcon
      exact hc hcon
    split at hr
    · cases hr
    · rename_i wa hloop
      obtain ⟨cls1, h1⟩ := fetch_spans_loop_ok os hos sc hsc O c n hc1 n w 0 cls h wa hloop
      exact ⟨cls1, fetch_objects_ok os sc hsc cls1 c n wa O h1 res w1 hr⟩

/-- `CentralCache::alloc` keeps the invariant: the objects it returns are distinct, were
not handed out before, and are handed out for the class afterwards. -/
theorem central_alloc_ok (os : OS) (hos : OS.Sane os) (sc : Nat → SizeClassInfo)
    (hsc : SizeMap.ClassesOk sc) (cls : Nat → Nat) (c n : Nat) (w : World)
    (O : Nat → Nat → Prop) (h : CentralInv os sc w cls O) (res : List Nat) (w1 : World)
    (hr : CentralCache.alloc os sc w c n = some (res, w1)) :
    ∃ cls1, res.Nodup ∧ (∀ p ∈ res, ∀ k, ¬ O p k) ∧
      CentralInv os sc w1 cls1 (fun p k => O p k ∨ (p ∈ res ∧ k = c)) := by
  unfold CentralCache.alloc at hr
  split at hr
  · cases hr
  split at hr
  · cases hr
    refine ⟨cls, List.nodup_nil, fun p hp => (by cases hp), ?_⟩
    refine centralInv_congr os sc w w cls O _ h h.heap rfl rfl ?_
    rintro p k (hp | ⟨hp, _⟩)
    · exact hp
    · cases hp
  · cases hf : CentralCache.fetch_objects w c n with
    | none => rw [hf] at hr; cases hr
    | some r =>
      obtain ⟨batch, wa⟩ := r
      rw [hf] at hr
      simp only at hr
      obtain ⟨hnd, hfresh, hinv⟩ := fetch_objects_ok os sc hsc cls c n w O h batch wa hf
      by_cases hlen : batch.length ≠ n
      · rw [if_pos hlen] at hr
        cases hg : CentralCache.fetch_from_page_heap os sc wa c (n - batch.length) with
        | none => rw [hg] at hr; cases hr
        | some r2 =>
          obtain ⟨batch2, wb⟩ := r2
          rw [hg] at hr
          simp only [Option.some.injEq, Prod.mk.injEq] at hr
          obtain ⟨hr1, hr2⟩ := hr
          obtain ⟨cls1, hnd2, hfresh2, hinv2⟩ :=
            fetch_from_page_heap_ok os hos sc hsc cls c _ wa _ hinv batch2 wb hg
          subst hr1
          subst hr2
          refine ⟨cls1, ?_, ?_, ?_⟩
          · refine List.nodup_append.2 ⟨hnd, hnd2, ?_⟩
            intro p hp1 hp2
            exact hfresh2 p hp2 c (Or.inr ⟨hp1, rfl⟩)
          · intro p hp k
            rcases List.mem_append.1 hp with hp1 | hp2
            · exact hfresh p hp1 k
            · exact fun hO => hfresh2 p hp2 k (Or.inl hO)
          · refine centralInv_congr os sc wb _ cls1 _ _ hinv2
              (heapInv_congr os wb _ hinv2.heap rfl rfl rfl) rfl rfl ?_
            rintro p k (hp | ⟨hp, rfl⟩)
            · exact Or.inl (Or.inl hp)
            · rcases List.mem_append.1 hp with hp1 | hp2
              · exact Or.inl (Or.inr ⟨hp1, rfl⟩)
              · exact Or.inr ⟨hp2, rfl⟩
      · rw [if_neg hlen] at hr
        simp only [Option.some.injEq, Prod.mk.injEq] at hr
        obtain ⟨hr1, hr2⟩ := hr
        subst hr1
        subst hr2
        exact ⟨cls, hnd, hfresh, centralInv_congr os sc wa _ cls _ _ hinv
          (heapInv_congr os wa _ hinv.heap rfl rfl rfl) rfl rfl (fun p k hp => hp)⟩

/-! ## `CentralCache::dealloc` -/

/-- `CentralCache::return_to_page_heap` of a USING span with no object handed out. -/
theorem central_release (os : OS) (hos : OS.Sane os) (sc : Nat → SizeClassInfo)
    (hsc : SizeMap.ClassesOk sc) (w : World) (cls : Nat → Nat) (O : Nat → Nat → Prop)
    (h : CentralInv os sc w cls O) (s : Span) (hs : s ∈ w.pm)
    (hu : s._status = STATUS.USING) (hfull : s._allocated = 0) :
    ∃ w1, CentralCache.return_to_page_heap w (cls s.start_addr) s.start_addr = some w1 ∧
      CentralInv os sc w1 cls O := by
  have hcls := h.cls_ok s hs hu
  have hok := h.span_ok s hs hu
  have hsz := (hsc _ hcls.1 hcls.2).1
  have hwf := h.heap.core.wf
  unfold CentralCache.return_to_page_heap
  rw [if_neg (by simp only [not_not]; exact hcls)]
  rw [(get_eq_some_iff hwf _ s).2 ⟨hs, rfl⟩]
  simp only
  generalize hw0 : ({ sa := w.sa, pm := w.pm, ph := w.ph, cc := _ } : World) = w0
  have f1 : w0.sa = w.sa := by rw [← hw0]
  have f2 : w0.pm = w.pm := by rw [← hw0]
  have f3 : w0.ph._lists = w.ph._lists := by rw [← hw0]
  have f4 : w0.cc._lists = setList w.cc._lists (cls s.start_addr)
      ((w.cc._lists (cls s.start_addr)).remove s.start_addr) := by rw [← hw0]
  have hi0 : HeapInv os w0 := heapInv_congr os w w0 h.heap f1 f2 f3
  obtain ⟨w1, hd, hi1, hcc1, hframe⟩ := dealloc_ok os hos w0 hi0 s (by rw [f2]; exact hs) hu
  rw [f2] at hframe
  refine ⟨w1, hd, hi1, ?_, ?_, ?_, ?_, ?_⟩
  · intro t ht htu
    exact h.cls_ok t ((hframe t htu).1 ht).1 htu
  · intro t ht htu
    exact h.span_ok t ((hframe t htu).1 ht).1 htu
  · intro k
    rw [hcc1, f4]
    by_cases hk : k = cls s.start_addr
    · subst hk
      rw [setList_same]
      exact (h.lists_nodup _).erase _
    · rw [setList_other _ _ _ _ hk]
      exact h.lists_nodup k
  · intro k x
    rw [hcc1, f4]
    constructor
    · intro hx
      have hx1 : x ∈ w.cc._lists k ∧ (k = cls s.start_addr → x ≠ s.start_addr) := by
        by_cases hk : k = cls s.start_addr
        · subst hk
          rw [setList_same] at hx
          have := ((h.lists_nodup _).mem_erase_iff).1 hx
          exact ⟨this.2, fun _ => this.1⟩
        · rw [setList_other _ _ _ _ hk] at hx
          exact ⟨hx, fun hk1 => absurd hk1 hk⟩
      obtain ⟨t, ht, ht1, ht2, ht3, ht4⟩ := (h.listed k x).1 hx1.1
      refine ⟨t, (hframe t ht2).2 ⟨ht, ?_⟩, ht1, ht2, ht3, ht4⟩
      rintro rfl
      rw [← ht1] at ht3
      exact hx1.2 ht3.symm ht1.symm
    · rintro ⟨t, ht, ht1, ht2, ht3, ht4⟩
      obtain ⟨ht5, ht6⟩ := (hframe t ht2).1 ht
      have hx := (h.listed k x).2 ⟨t, ht5, ht1, ht2, ht3, ht4⟩
      by_cases hk : k = cls s.start_addr
      · subst hk
        rw [setList_same]
        refine ((h.lists_nodup _).mem_erase_iff).2 ⟨?_, hx⟩
        intro hxs
        exact ht6 (wf_start_inj hwf ht5 hs (ht1.trans hxs))
      · rw [setList_other _ _ _ _ hk]
        exact hx
  · intro p k hp
    obtain ⟨t, ht, ht1, ht2, ht3, ht4⟩ := h.out_ok p k hp
    refine ⟨t, (hframe t ht1).2 ⟨ht, ?_⟩, ht1, ht2, ht3, ht4⟩
    rintro rfl
    rw [ht2] at hok hsz
    have hcount := hok.count
    exact ht4 (slots_full t _ hsz _ hok.nodup hok.slots (by omega) p ht3)

/-- The first half of one iteration of `CentralCache::dealloc`: the object goes back on the
free list of its span, and the span is linked again if it had no free object. -/
theorem central_put (os : OS) (sc : Nat → SizeClassInfo) (hsc : SizeMap.ClassesOk sc)
    (w w1 : World) (cls : Nat → Nat) (O : Nat → Nat → Prop) (h : CentralInv os sc w cls O)
    (s : Span) (hs : s ∈ w.pm) (hu : s._status = STATUS.USING) (p : Nat)
    (hslot : s.slot (SizeMap.size sc (cls s.start_addr)) p) (hnl : p ∉ s._list._list)
    (f1 : w1.sa = w.sa) (f2 : w1.ph._lists = w.ph._lists)
    (f3 : w1.pm = PageMap.set w.pm (s.dealloc p))
    (f4 : w1.cc._lists = if s.empty then
      setList w.cc._lists (cls s.start_addr)
        ((w.cc._lists (cls s.start_addr)).prepend s.start_addr) else w.cc._lists) :
    CentralInv os sc w1 cls (fun q k => O q k ∧ q ≠ p) ∧ s.dealloc p ∈ w1.pm ∧
      (s.dealloc p).start_addr = s.start_addr := by
  have hcls := h.cls_ok s hs hu
  have hok := h.span_ok s hs hu
  have hsz := (hsc _ hcls.1 hcls.2).1
  have hwf := h.heap.core.wf
  obtain ⟨hok1, hal, h1, h2, h3, h4, h5⟩ := span_dealloc_ok s _ hsz hok p hslot hnl
  have hst : (s.dealloc p).start_addr = s.start_addr := by
    rw [span_start_addr_eq, span_start_addr_eq, h1]
  have hmem := mem_set_iff hwf s (s.dealloc p) hs hst
  have hu1 : (s.dealloc p)._status = STATUS.USING := by rw [h3, hu]
  have hcount := hok.count
  have hnotl : s._allocated = s._total → ∀ k, s.start_addr ∉ w.cc._lists k := by
    intro he k hin
    obtain ⟨t, ht, ht1, ht2, _, ht4⟩ := (h.listed k _).1 hin
    have := wf_start_inj hwf ht hs ht1
    subst this
    omega
  refine ⟨⟨?_, ?_, ?_, ?_, ?_, ?_⟩, by rw [f3]; exact (hmem _).2 (Or.inl rfl), hst⟩
  · exact heapInv_set os w w1 h.heap s _ hs hu h1 h2 h3 f1 f3 f2
  · rw [f3]
    intro t ht htu
    rcases (hmem t).1 ht with rfl | ⟨ht1, _⟩
    · rw [hst]; exact hcls
    · exact h.cls_ok t ht1 htu
  · rw [f3]
    intro t ht htu
    rcases (hmem t).1 ht with rfl | ⟨ht1, _⟩
    · rw [hst]; exact hok1
    · exact h.span_ok t ht1 htu
  · intro k
    rw [f4]
    by_cases he : s.empty = true
    · rw [if_pos he]
      by_cases hk : k = cls s.start_addr
      · subst hk
        rw [setList_same]
        exact List.nodup_cons.2 ⟨hnotl ((span_empty_iff s).1 he) _, h.lists_nodup _⟩
      · rw [setList_other _ _ _ _ hk]
        exact h.lists_nodup k
    · rw [if_neg he]
      exact h.lists_nodup k
  · intro k x
    rw [f4, f3]
    by_cases he : s.empty = true
    · rw [if_pos he]
      have he1 := (span_empty_iff s).1 he
      constructor
      · intro hx
        have hx1 : (x = s.start_addr ∧ k = cls s.start_addr) ∨ x ∈ w.cc._lists k := by
          by_cases hk : k = cls s.start_addr
          · subst hk
            rw [setList_same] at hx
            rcases List.mem_cons.1 hx with h6 | h6
            · exact Or.inl ⟨h6, rfl⟩
            · exact Or.inr h6
          · rw [setList_other _ _ _ _ hk] at hx
            exact Or.inr hx
        rcases hx1 with ⟨rfl, rfl⟩ | hx1
        · exact ⟨_, (hmem _).2 (Or.inl rfl), hst, hu1, rfl, by rw [h4]; omega⟩
        · obtain ⟨t, ht, ht1, ht2, ht3, ht4⟩ := (h.listed k x).1 hx1
          refine ⟨t, (hmem t).2 (Or.inr ⟨ht, ?_⟩), ht1, ht2, ht3, ht4⟩
          rintro rfl
          omega
      · rintro ⟨t, ht, ht1, ht2, ht3, ht4⟩
        rcases (hmem t).1 ht with rfl | ⟨ht5, _⟩
        · rw [hst] at ht1
          subst ht1
          subst ht3
          rw [setList_same]
          exact List.mem_cons_self _ _
        · have hx := (h.listed k x).2 ⟨t, ht5, ht1, ht2, ht3, ht4⟩
          by_cases hk : k = cls s.start_addr
          · subst hk
            rw [setList_same]
            exact List.mem_cons_of_mem _ hx
          · rw [setList_other _ _ _ _ hk]
            exact hx
    · rw [if_neg he]
      have he1 : s._allocated ≠ s._total := fun hh => he ((span_empty_iff s).2 hh)
      constructor
      · intro hx
        obtain ⟨t, ht, ht1, ht2, ht3, ht4⟩ := (h.listed k x).1 hx
        by_cases hts : t = s
        · subst hts
          exact ⟨_, (hmem _).2 (Or.inl rfl), hst.trans ht1, hu1, ht3, by rw [h4]; omega⟩
        · exact ⟨t, (hmem t).2 (Or.inr ⟨ht, hts⟩), ht1, ht2, ht3, ht4⟩
      · rintro ⟨t, ht, ht1, ht2, ht3, ht4⟩
        rcases (hmem t).1 ht with rfl | ⟨ht5, _⟩
        · exact (h.listed k x).2 ⟨s, hs, hst.symm.trans ht1, hu, ht3, by omega⟩
        · exact (h.listed k x).2 ⟨t, ht5, ht1, ht2, ht3, ht4⟩
  · rw [f3]
    rintro q k ⟨hq, hqp⟩
    obtain ⟨t, ht, ht1, ht2, ht3, ht4⟩ := h.out_ok q k hq
    by_cases hts : t = s
    · subst hts
      refine ⟨_, (hmem _).2 (Or.inl rfl), hu1, by rw [hst]; exact ht2, ?_, ?_⟩
      · obtain ⟨i, hi, hqi⟩ := ht3
        exact ⟨i, by rw [h4]; exact hi, by rw [hst]; exact hqi⟩
      · rw [h5]
        intro hin
        rcases List.mem_cons.1 hin with h6 | h6
        · exact hqp h6
        · exact ht4 h6
    · exact ⟨t, (hmem t).2 (Or.inr ⟨ht, hts⟩), ht1, ht2, ht3, ht4⟩

/-- One iteration of the loop of `CentralCache::dealloc` for an object handed out for the
class: it returns, and the object is no longer handed out. -/
theorem central_give_back (os : OS) (hos : OS.Sane os) (sc : Nat → SizeClassInfo)
    (hsc : SizeMap.ClassesOk sc) (w : World) (cls : Nat → Nat) (O : Nat → Nat → Prop)
    (h : CentralInv os sc w cls O) (p c : Nat) (hp : O p c) :
    ∃ w1, CentralCache.dealloc_object w c p = some w1 ∧
      CentralInv os sc w1 cls (fun q k => O q k ∧ q ≠ p) := by
  obtain ⟨s, hfind, hs, hu, hc, hslot, hnl, _⟩ := out_find os sc hsc w cls O h p c hp
  subst hc
  unfold CentralCache.dealloc_object
  rw [hfind]
  simp only
  generalize hw1 : World.mk w.sa (PageMap.set w.pm (s.dealloc p)) w.ph _ = w1
  have f1 : w1.sa = w.sa := by rw [← hw1]
  have f2 : w1.ph._lists = w.ph._lists := by rw [← hw1]
  have f3 : w1.pm = PageMap.set w.pm (s.dealloc p) := by rw [← hw1]
  have f4 : w1.cc._lists = if s.empty then
      setList w.cc._lists (cls s.start_addr)
        ((w.cc._lists (cls s.start_addr)).prepend s.start_addr) else w.cc._lists := by
    rw [← hw1]
  obtain ⟨hinv, hmem1, hst⟩ := central_put os sc hsc w w1 cls O h s hs hu p hslot hnl
    f1 f2 f3 f4
  by_cases hfull : (s.dealloc p).full = true
  · rw [if_pos hfull]
    have hu1 : (s.dealloc p)._status = STATUS.USING := hu
    have := central_release os hos sc hsc w1 cls _ hinv _ hmem1 hu1
      ((span_full_iff _).1 hfull)
    rw [hst] at this
    rw [hst]
    exact this
  · rw [if_neg hfull]
    exact ⟨w1, rfl, hinv⟩

/-- The loop of `CentralCache::dealloc` over distinct objects handed out for the class. -/
theorem central_dealloc_loop_ok (os : OS) (hos : OS.Sane os) (sc : Nat → SizeClassInfo)
    (hsc : SizeMap.ClassesOk sc) (cls : Nat → Nat) (c : Nat) :
    ∀ (batch : List Nat) (w : World) (O : Nat → Nat → Prop), CentralInv os sc w cls O →
      (∀ p ∈ batch, O p c) → batch.Nodup →
      ∃ w1, CentralCache.dealloc_loop c batch w = some w1 ∧
        CentralInv os sc w1 cls (fun q k => O q k ∧ q ∉ batch) := by
  intro batch
  induction batch with
  | nil =>
    intro w O h _ _
    exact ⟨w, rfl, centralInv_congr os sc w w cls O _ h h.heap rfl rfl (fun q k hq => hq.1)⟩
  | cons p rest ih =>
    intro w O h hin hnd
    obtain ⟨w1, hd, hinv⟩ := central_give_back os hos sc hsc w cls O h p c
      (hin p (List.mem_cons_self _ _))
    obtain ⟨hprest, hndrest⟩ := List.nodup_cons.1 hnd
    obtain ⟨w2, hd2, hinv2⟩ := ih w1 _ hinv (fun q hq => ⟨hin q (List.mem_cons_of_mem _ hq),
      fun hqp => hprest (hqp ▸ hq)⟩) hndrest
    refine ⟨w2, ?_, ?_⟩
    · unfold CentralCache.dealloc_loop
      rw [hd]
      exact hd2
    · refine centralInv_congr os sc w2 w2 cls _ _ hinv2 hinv2.heap rfl rfl ?_
      rintro q k ⟨hq, hqn⟩
      exact ⟨⟨hq, fun hqp => hqn (hqp ▸ List.mem_cons_self _ _)⟩,
        fun hqr => hqn (List.mem_cons_of_mem _ hqr)⟩

/-- `CentralCache::dealloc` of distinct objects handed out for the class keeps the
invariant. -/
theorem central_dealloc_ok (os : OS) (hos : OS.Sane os) (sc : Nat → SizeClassInfo)
    (hsc : SizeMap.ClassesOk sc) (cls : Nat → Nat) (c : Nat) (batch : List Nat) (n : Nat)
    (w : World) (O : Nat → Nat → Prop) (h : CentralInv os sc w cls O)
    (hin : ∀ p ∈ batch.take n, O p c) (hnd : (batch.take n).Nodup) (w1 : World)
    (hr : CentralCache.dealloc w c batch n = some w1) :
    CentralInv os sc w1 cls (fun q k => O q k ∧ q ∉ batch.take n) := by
  unfold CentralCache.dealloc at hr
  split at hr
  · cases hr
  split at hr
  · rename_i hn
    cases hr
    subst hn
    exact centralInv_congr os sc w w cls O _ h h.heap rfl rfl (fun q k hq => hq.1)
  split at hr
  · cases hr
  · obtain ⟨w2, hd, hinv⟩ := central_dealloc_loop_ok os hos sc hsc cls c _ w O h hin hnd
    rw [hd] at hr
    cases hr
    exact hinv

/-- `CentralCache::dealloc` returns when the class is valid and the batch holds `n` distinct
objects handed out for the class. -/
theorem central_dealloc_returns (os : OS) (hos : OS.Sane os) (sc : Nat → SizeClassInfo)
    (hsc : SizeMap.ClassesOk sc) (cls : Nat → Nat) (c : Nat)
    (hc : 0 < c ∧ c < SizeMap.size_class_size) (batch : List Nat) (n : Nat)
    (hn : n ≤ batch.length) (w : World) (O : Nat → Nat → Prop)
    (h : CentralInv os sc w cls O) (hin : ∀ p ∈ batch.take n, O p c)
    (hnd : (batch.take n).Nodup) :
    ∃ w1, CentralCache.dealloc w c batch n = some w1 := by
  unfold CentralCache.dealloc
  rw [if_neg (by simp only [not_not]; exact hc)]
  by_cases h0 : n = 0
  · rw [if_pos h0]; exact ⟨w, rfl⟩
  · rw [if_neg h0, if_neg (by omega)]
    obtain ⟨w2, hd, _⟩ := central_dealloc_loop_ok os hos sc hsc cls c _ w O h hin hnd
    exact ⟨w2, hd⟩

/-! ## A cache of objects on top of the Central Cache -/

/-- An object is handed out for one class only. -/
theorem class_unique (os : OS) (sc : Nat → SizeClassInfo) (hsc : SizeMap.ClassesOk sc)
    (w : World) (cls : Nat → Nat) (O : Nat → Nat → Prop) (h : CentralInv os sc w cls O)
    (p c k : Nat) (hc : O p c) (hk : O p k) : c = k := by
  obtain ⟨s, _, hs, _, hsc1, _, _, hlo, hhi, hsz, _, _⟩ := out_find os sc hsc w cls O h p c hc
  obtain ⟨t, _, ht, _, htc1, _, _, hlo1, hhi1, hsz1, _, _⟩ :=
    out_find os sc hsc w cls O h p k hk
  have : s = t := wf_eq_of_contains h.heap.core.wf hs ht ⟨hlo, by omega⟩ ⟨hlo1, by omega⟩
  subst this
  rw [← hsc1, ← htc1]

theorem cacheInv_drop (os : OS) (sc : Nat → SizeClassInfo) (w : World) (L : Nat → List Nat)
    (live : List (Nat × Nat)) (cls : Nat → Nat) (e : Nat × Nat)
    (h : CacheInv os sc w L (e :: live) cls) : CacheInv os sc w L live cls := by
  refine ⟨?_, ?_, h.lists_nodup, fun p c k hp => h.apart p c k (List.mem_cons_of_mem _ hp)⟩
  · refine centralInv_congr os sc w w cls _ _ h.central h.central.heap rfl rfl ?_
    rintro p k (hp | hp)
    · exact Or.inl (List.mem_cons_of_mem _ hp)
    · exact Or.inr hp
  · have := h.live_nodup
    rw [List.map_cons] at this
    exact (List.nodup_cons.1 this).2

/-- An object moves from the cache to the live objects. -/
theorem cache_pop (os : OS) (sc : Nat → SizeClassInfo) (hsc : SizeMap.ClassesOk sc)
    (w : World) (L L1 : Nat → List Nat) (live : List (Nat × Nat)) (cls : Nat → Nat)
    (h : CacheInv os sc w L live cls) (c p : Nat) (rest : List Nat)
    (hLc : L c = p :: rest) (h1 : L1 c = rest) (h2 : ∀ k, k ≠ c → L1 k = L k) :
    CacheInv os sc w L1 ((p, c) :: live) cls := by
  have hpc : p ∈ L c := by rw [hLc]; exact List.mem_cons_self _ _
  have hnd := h.lists_nodup c
  rw [hLc] at hnd
  obtain ⟨hprest, hndrest⟩ := List.nodup_cons.1 hnd
  have hsub : ∀ q k, q ∈ L1 k → q ∈ L k := by
    intro q k hq
    by_cases hk : k = c
    · subst hk
      rw [h1] at hq
      rw [hLc]
      exact List.mem_cons_of_mem _ hq
    · rw [h2 k hk] at hq
      exact hq
  refine ⟨?_, ?_, ?_, ?_⟩
  · refine centralInv_congr os sc w w cls _ _ h.central h.central.heap rfl rfl ?_
    rintro q k (hq | hq)
    · rcases List.mem_cons.1 hq with heq | hq1
      · cases heq
        exact Or.inr hpc
      · exact Or.inl hq1
    · exact Or.inr (hsub q k hq)
  · rw [List.map_cons]
    refine List.nodup_cons.2 ⟨?_, h.live_nodup⟩
    intro hin
    obtain ⟨e, he, hep⟩ := List.mem_map.1 hin
    obtain ⟨q, k⟩ := e
    cases hep
    exact h.apart _ k c he hpc
  · intro k
    by_cases hk : k = c
    · subst hk; rw [h1]; exact hndrest
    · rw [h2 k hk]; exact h.lists_nodup k
  · intro q k1 k2 hq hin
    rcases List.mem_cons.1 hq with heq | hq1
    · rw [(Prod.mk.inj heq).1] at hin
      by_cases hk : k2 = c
      · subst hk
        rw [h1] at hin
        exact hprest hin
      · rw [h2 k2 hk] at hin
        exact hk (class_unique os sc hsc w cls _ h.central p k2 c (Or.inr hin) (Or.inr hpc))
    · exact h.apart q k1 k2 hq1 (hsub q k2 hin)

/-- A batch from the Central Cache: the first object becomes live, the others are cached. -/
theorem cache_fetch (os : OS) (sc : Nat → SizeClassInfo)
    (w w1 : World) (L L1 : Nat → List Nat) (live : List (Nat × Nat)) (cls cls1 : Nat → Nat)
    (h : CacheInv os sc w L live cls) (c p : Nat) (rest : List Nat)
    (hcen : CentralInv os sc w1 cls1
      (fun q k => ((q, k) ∈ live ∨ q ∈ L k) ∨ (q ∈ p :: rest ∧ k = c)))
    (hnd : (p :: rest).Nodup)
    (hfresh : ∀ q ∈ p :: rest, ∀ k, ¬ ((q, k) ∈ live ∨ q ∈ L k))
    (hLc : L c = []) (h1 : L1 c = rest) (h2 : ∀ k, k ≠ c → L1 k = L k) :
    CacheInv os sc w1 L1 ((p, c) :: live) cls1 := by
  obtain ⟨hprest, hndrest⟩ := List.nodup_cons.1 hnd
  refine ⟨?_, ?_, ?_, ?_⟩
  · refine centralInv_congr os sc w1 w1 cls1 _ _ hcen hcen.heap rfl rfl ?_
    rintro q k (hq | hq)
    · rcases List.mem_cons.1 hq with heq | hq1
      · cases heq
        exact Or.inr ⟨List.mem_cons_self _ _, rfl⟩
      · exact Or.inl (Or.inl hq1)
    · by_cases hk : k = c
      · subst hk
        rw [h1] at hq
        exact Or.inr ⟨List.mem_cons_of_mem _ hq, rfl⟩
      · rw [h2 k hk] at hq
        exact Or.inl (Or.inr hq)
  · rw [List.map_cons]
    refine List.nodup_cons.2 ⟨?_, h.live_nodup⟩
    intro hin
    obtain ⟨e, he, hep⟩ := List.mem_map.1 hin
    obtain ⟨q, k⟩ := e
    cases hep
    exact hfresh _ (List.mem_cons_self _ _) k (Or.inl he)
  · intro k
    by_cases hk : k = c
    · subst hk; rw [h1]; exact hndrest
    · rw [h2 k hk]; exact h.lists_nodup k
  · intro q k1 k2 hq hin
    rcases List.mem_cons.1 hq with heq | hq1
    · rw [(Prod.mk.inj heq).1] at hin
      by_cases hk : k2 = c
      · subst hk
        rw [h1] at hin
        exact hprest hin
      · rw [h2 k2 hk] at hin
        exact hfresh _ (List.mem_cons_self _ _) k2 (Or.inr hin)
    · by_cases hk : k2 = c
      · subst hk
        rw [h1] at hin
        exact hfresh q (List.mem_cons_of_mem _ hin) k1 (Or.inl hq1)
      · rw [h2 k2 hk] at hin
        exact h.apart q k1 k2 hq1 hin

/-- A live object is pushed on the cache. -/
theorem cache_push (os : OS) (sc : Nat → SizeClassInfo)
    (w : World) (L L1 : Nat → List Nat) (live : List (Nat × Nat)) (cls : Nat → Nat)
    (h : CacheInv os sc w L live cls) (c p : Nat) (hp : (p, c) ∈ live)
    (h1 : L1 c = p :: L c) (h2 : ∀ k, k ≠ c → L1 k = L k) :
    CacheInv os sc w L1 (live.filter (fun e => decide (e.1 ≠ p))) cls := by
  have hfil : ∀ e, e ∈ live.filter (fun e => decide (e.1 ≠ p)) ↔ e ∈ live ∧ e.1 ≠ p := by
    intro e
    rw [List.mem_filter]
    simp
  refine ⟨?_, ?_, ?_, ?_⟩
  · refine centralInv_congr os sc w w cls _ _ h.central h.central.heap rfl rfl ?_
    rintro q k (hq | hq)
    · exact Or.inl ((hfil _).1 hq).1
    · by_cases hk : k = c
      · subst hk
        rw [h1] at hq
        rcases List.mem_cons.1 hq with heq | hq1
        · subst heq; exact Or.inl hp
        · exact Or.inr hq1
      · rw [h2 k hk] at hq
        exact Or.inr hq
  · exact h.live_nodup.sublist (List.Sublist.map _ (List.filter_sublist _))
  · intro k
    by_cases hk : k = c
    · subst hk
      rw [h1]
      exact List.nodup_cons.2 ⟨h.apart p k k hp, h.lists_nodup k⟩
    · rw [h2 k hk]; exact h.lists_nodup k
  · intro q k1 k2 hq hin
    obtain ⟨hq1, hq2⟩ := (hfil _).1 hq
    by_cases hk : k2 = c
    · subst hk
      rw [h1] at hin
      rcases List.mem_cons.1 hin with heq | hin1
      · exact hq2 heq
      · exact h.apart q k1 k2 hq1 hin1
    · rw [h2 k2 hk] at hin
      exact h.apart q k1 k2 hq1 hin

/-- The first objects of a cached list go back to the Central Cache. -/
theorem cache_return (os : OS) (sc : Nat → SizeClassInfo) (hsc : SizeMap.ClassesOk sc)
    (w w1 : World) (L L1 : Nat → List Nat) (live : List (Nat × Nat)) (cls : Nat → Nat)
    (h : CacheInv os sc w L live cls) (c : Nat) (batch rest : List Nat)
    (hLc : L c = batch ++ rest)
    (hcen : CentralInv os sc w1 cls
      (fun q k => ((q, k) ∈ live ∨ q ∈ L k) ∧ q ∉ batch))
    (h1 : L1 c = rest) (h2 : ∀ k, k ≠ c → L1 k = L k) :
    CacheInv os sc w1 L1 live cls := by
  have hnd := h.lists_nodup c
  rw [hLc] at hnd
  obtain ⟨_, hndrest, hdisj⟩ := List.nodup_append.1 hnd
  have hbL : ∀ q, q ∈ batch → q ∈ L c := by
    intro q hq; rw [hLc]; exact List.mem_append_left _ hq
  have hsub : ∀ q k, q ∈ L1 k → q ∈ L k ∧ q ∉ batch := by
    intro q k hq
    by_cases hk : k = c
    · subst hk
      rw [h1] at hq
      exact ⟨by rw [hLc]; exact List.mem_append_right _ hq, fun hb => hdisj hb hq⟩
    · rw [h2 k hk] at hq
      refine ⟨hq, fun hb => hk ?_⟩
      exact class_unique os sc hsc w cls _ h.central q k c (Or.inr hq) (Or.inr (hbL q hb))
  refine ⟨?_, h.live_nodup, ?_, ?_⟩
  · refine centralInv_congr os sc w1 w1 cls _ _ hcen hcen.heap rfl rfl ?_
    rintro q k (hq | hq)
    · exact ⟨Or.inl hq, fun hb => h.apart q k c hq (hbL q hb)⟩
    · exact ⟨Or.inr (hsub q k hq).1, (hsub q k hq).2⟩
  · intro k
    by_cases hk : k = c
    · subst hk; rw [h1]; exact hndrest
    · rw [h2 k hk]; exact h.lists_nodup k
  · intro q k1 k2 hq hin
    exact h.apart q k1 k2 hq (hsub q k2 hin).1

/-! ## The Thread Cache -/

theorem dyn_pop (l : DynamicFreeList) (p : Nat) (l2 : DynamicFreeList)
    (h : l.pop = some (p, l2)) : l._list = p :: l2._list := by
  unfold DynamicFreeList.pop at h
  simp only at h
  have hl : ∀ l1 : DynamicFreeList, l1._list = l._list →
      (match l1.toFreeList.pop with
        | none => none
        | some (p, f) => some (p, { l1 with toFreeList := f })) = some (p, l2) →
      l._list = p :: l2._list := by
    intro l1 h1 h2
    unfold FreeList.pop at h2
    rw [h1] at h2
    cases hls : l._list with
    | nil => rw [hls] at h2; cases h2
    | cons a rest =>
      rw [hls] at h2
      simp only [Option.some.injEq, Prod.mk.injEq] at h2
      obtain ⟨h3, h4⟩ := h2
      subst h3
      rw [← h4]
  by_cases hc : usub l.size 1 < l._low_water
  · simp only [if_pos hc] at h
    exact hl l.clear_low_water rfl h
  · simp only [if_neg hc] at h
    exact hl l rfl h

theorem dyn_pop_batch (l : DynamicFreeList) (k : Nat) (batch : List Nat)
    (l2 : DynamicFreeList) (h : l.pop_batch k = some (batch, l2)) :
    k ≤ l._list.length ∧ batch = l._list.take k ∧ l2._list = l._list.drop k := by
  unfold DynamicFreeList.pop_batch at h
  unfold FreeList.pop_batch at h
  by_cases hk : l._list.length < k
  · rw [if_pos hk] at h; cases h
  · rw [if_neg hk] at h
    simp only [Option.some.injEq, Prod.mk.injEq] at h
    obtain ⟨h1, h2⟩ := h
    refine ⟨by omega, h1.symm, ?_⟩
    rw [← h2]
    split <;> rfl

theorem setList_list (tc : ThreadCache) (c : Nat) (l : DynamicFreeList) (k : Nat) :
    ((tc.setList c l)._lists k)._list = if k = c then l._list else (tc._lists k)._list := by
  unfold ThreadCache.setList
  simp only
  split <;> rfl

theorem cacheInv_congr (os : OS) (sc : Nat → SizeClassInfo) (w : World)
    (L L1 : Nat → List Nat) (live : List (Nat × Nat)) (cls : Nat → Nat)
    (h : CacheInv os sc w L live cls) (hL : ∀ k, L1 k = L k) :
    CacheInv os sc w L1 live cls := by
  have : L1 = L := funext hL
  rw [this]
  exact h

/-- Dropping live objects from the record keeps the invariant. -/
theorem cacheInv_sublive (os : OS) (sc : Nat → SizeClassInfo) (w : World)
    (L : Nat → List Nat) (live live1 : List (Nat × Nat)) (cls : Nat → Nat)
    (h : CacheInv os sc w L live cls) (hsub : List.Sublist live1 live) :
    CacheInv os sc w L live1 cls := by
  refine ⟨?_, h.live_nodup.sublist (List.Sublist.map _ hsub), h.lists_nodup,
    fun p c k hp => h.apart p c k (hsub.subset hp)⟩
  refine centralInv_congr os sc w w cls _ _ h.central h.central.heap rfl rfl ?_
  rintro p k (hp | hp)
  · exact Or.inl (hsub.subset hp)
  · exact Or.inr hp

theorem return_batches_ok (os : OS) (hos : OS.Sane os) (sc : Nat → SizeClassInfo)
    (hsc : SizeMap.ClassesOk sc) (cls : Nat → Nat) (live : List (Nat × Nat)) (c bs : Nat) :
    ∀ (fuel : Nat) (w : World) (L : Nat → List Nat) (list : DynamicFreeList) (n : Nat),
      CacheInv os sc w L live cls → L c = list._list → ∀ w1 list1 n1,
      ThreadCache.return_batches c bs fuel w list n = some (w1, list1, n1) →
      ∃ L1, CacheInv os sc w1 L1 live cls ∧ L1 c = list1._list ∧ ∀ k, k ≠ c → L1 k = L k := by
  intro fuel
  induction fuel with
  | zero =>
    intro w L list n h hL w1 list1 n1 hr
    unfold ThreadCache.return_batches at hr
    split at hr
    · cases hr
    · cases hr
      exact ⟨L, h, hL, fun k _ => rfl⟩
  | succ fuel ih =>
    intro w L list n h hL w1 list1 n1 hr
    unfold ThreadCache.return_batches at hr
    split at hr
    · cases hpb : list.pop_batch bs with
      | none => rw [hpb] at hr; cases hr
      | some r =>
        obtain ⟨batch, lst1⟩ := r
        rw [hpb] at hr
        simp only at hr
        obtain ⟨hk, hb, hl1⟩ := dyn_pop_batch list bs batch lst1 hpb
        cases hd : CentralCache.dealloc w c batch bs with
        | none => rw [hd] at hr; cases hr
        | some wA =>
          rw [hd] at hr
          simp only at hr
          have hlen : batch.length = bs := by rw [hb, List.length_take]; omega
          have hbt : batch.take bs = batch := List.take_of_length_le (by omega)
          have hsplit : L c = batch ++ lst1._list := by
            rw [hL, hb, hl1]; exact (List.take_append_drop _ _).symm
          have hndc := h.lists_nodup c
          rw [hsplit] at hndc
          have hcen := central_dealloc_ok os hos sc hsc cls c batch bs w _ h.central
            (by rw [hbt]; intro p hp; exact Or.inr (by rw [hsplit]; exact List.mem_append_left _ hp))
            (by rw [hbt]; exact (List.nodup_append.1 hndc).1) wA hd
          rw [hbt] at hcen
          have hnext := cache_return os sc hsc w wA L
            (fun k => if k = c then lst1._list else L k) live cls h c batch lst1._list hsplit
            hcen (by simp) (fun k hk => by simp [hk])
          obtain ⟨L2, hinv2, hL2c, hL2⟩ := ih wA _ lst1 (n - bs) hnext (by simp) w1 list1 n1 hr
          refine ⟨L2, hinv2, hL2c, fun k hk => ?_⟩
          rw [hL2 k hk]
          simp [hk]
    · cases hr
      exact ⟨L, h, hL, fun k _ => rfl⟩

/-- Objects popped from a cached list and passed to `CentralCache::dealloc`. -/
theorem pop_return (os : OS) (hos : OS.Sane os) (sc : Nat → SizeClassInfo)
    (hsc : SizeMap.ClassesOk sc) (cls : Nat → Nat) (live : List (Nat × Nat)) (c : Nat)
    (w : World) (L : Nat → List Nat) (list : DynamicFreeList)
    (h : CacheInv os sc w L live cls) (hL : L c = list._list) (k : Nat) (batch : List Nat)
    (lst1 : DynamicFreeList) (hpb : list.pop_batch k = some (batch, lst1)) (wA : World)
    (hd : CentralCache.dealloc w c batch k = some wA) :
    CacheInv os sc wA (fun j => if j = c then lst1._list else L j) live cls := by
  obtain ⟨hk, hb, hl1⟩ := dyn_pop_batch list k batch lst1 hpb
  have hlen : batch.length = k := by rw [hb, List.length_take]; omega
  have hbt : batch.take k = batch := List.take_of_length_le (by omega)
  have hsplit : L c = batch ++ lst1._list := by
    rw [hL, hb, hl1]; exact (List.take_append_drop _ _).symm
  have hndc := h.lists_nodup c
  rw [hsplit] at hndc
  have hcen := central_dealloc_ok os hos sc hsc cls c batch k w _ h.central
    (by rw [hbt]; intro p hp; exact Or.inr (by rw [hsplit]; exact List.mem_append_left _ hp))
    (by rw [hbt]; exact (List.nodup_append.1 hndc).1) wA hd
  rw [hbt] at hcen
  exact cache_return os sc hsc w wA L _ live cls h c batch lst1._list hsplit
    hcen (by simp) (fun j hj => by simp [hj])

theorem threadInv_of_cache (os : OS) (sc : Nat → SizeClassInfo) (w : World)
    (tc tcX : ThreadCache) (hX : tcX._lists = tc._lists) (L1 : Nat → List Nat)
    (live : List (Nat × Nat)) (cls : Nat → Nat) (hinv : CacheInv os sc w L1 live cls)
    (c : Nat) (l : DynamicFreeList) (h1 : L1 c = l._list)
    (h2 : ∀ k, k ≠ c → L1 k = (tc._lists k)._list) :
    ThreadInv os sc w (tcX.setList c l) live cls := by
  unfold ThreadInv
  refine cacheInv_congr os sc w L1 _ live cls hinv ?_
  intro k
  rw [setList_list, hX]
  by_cases hk : k = c
  · rw [if_pos hk, hk, h1]
  · rw [if_neg hk, h2 k hk]

theorem threadInv_same (os : OS) (sc : Nat → SizeClassInfo) (w : World)
    (tc tcX : ThreadCache) (hX : tcX._lists = tc._lists)
    (live : List (Nat × Nat)) (cls : Nat → Nat) (hinv : ThreadInv os sc w tc live cls) :
    ThreadInv os sc w tcX live cls := by
  unfold ThreadInv at hinv ⊢
  rw [hX]
  exact hinv

/-- `ThreadCache::return_to_central_cache` keeps the invariant. -/
theorem return_to_central_ok (os : OS) (hos : OS.Sane os) (sc : Nat → SizeClassInfo)
    (hsc : SizeMap.ClassesOk sc) (cls : Nat → Nat) (live : List (Nat × Nat)) (c n : Nat)
    (w : World) (tc : ThreadCache) (h : ThreadInv os sc w tc live cls) (w1 : World)
    (tc1 : ThreadCache)
    (hr : ThreadCache.return_to_central_cache sc w tc c n = some (w1, tc1)) :
    ThreadInv os sc w1 tc1 live cls := by
  unfold ThreadCache.return_to_central_cache at hr
  split at hr
  · cases hr
  split at hr
  · cases hr; exact h
  simp only at hr
  split at hr
  · cases hr
  generalize hn2 : (if (tc._lists c).size < n then (tc._lists c).size else n) = n2 at hr
  cases hrb : ThreadCache.return_batches c (SizeMap.num_to_move sc c) n2 w (tc._lists c) n2 with
  | none => rw [hrb] at hr; cases hr
  | some r =>
    obtain ⟨wA, listA, nA⟩ := r
    rw [hrb] at hr
    simp only at hr
    obtain ⟨LA, hinvA, hLAc, hLA⟩ := return_batches_ok os hos sc hsc cls live c _ n2 w _
      (tc._lists c) n2 h rfl wA listA nA hrb
    by_cases hnA : nA > 0
    · rw [if_pos hnA] at hr
      cases hpb : listA.pop_batch nA with
      | none => rw [hpb] at hr; cases hr
      | some r2 =>
        obtain ⟨batch, list2⟩ := r2
        rw [hpb] at hr
        simp only at hr
        cases hd : CentralCache.dealloc wA c batch nA with
        | none => rw [hd] at hr; cases hr
        | some wB =>
          rw [hd] at hr
          simp only [Option.some.injEq, Prod.mk.injEq] at hr
          obtain ⟨hr1, hr2⟩ := hr
          subst hr1
          subst hr2
          have hB := pop_return os hos sc hsc cls live c wA LA listA hinvA hLAc nA batch
            list2 hpb _ hd
          exact threadInv_of_cache os sc _ tc _ rfl _ live cls hB c list2 (by simp)
            (fun k hk => by simp only [if_neg hk]; exact hLA k hk)
    · rw [if_neg hnA] at hr
      simp only [Option.some.injEq, Prod.mk.injEq] at hr
      obtain ⟨hr1, hr2⟩ := hr
      subst hr1
      subst hr2
      exact threadInv_of_cache os sc _ tc _ rfl _ live cls hinvA c listA hLAc hLA

/-- `ThreadCache::list_too_long` keeps the invariant. -/
theorem list_too_long_ok (os : OS) (hos : OS.Sane os) (sc : Nat → SizeClassInfo)
    (hsc : SizeMap.ClassesOk sc) (cls : Nat → Nat) (live : List (Nat × Nat)) (c : Nat)
    (w : World) (tc : ThreadCache) (h : ThreadInv os sc w tc live cls) (w1 : World)
    (tc1 : ThreadCache) (hr : ThreadCache.list_too_long sc w tc c = some (w1, tc1)) :
    ThreadInv os sc w1 tc1 live cls := by
  unfold ThreadCache.list_too_long at hr
  split at hr
  · cases hr
  simp only at hr
  cases hrc : ThreadCache.return_to_central_cache sc w tc c
      (min (tc._lists c).size (SizeMap.num_to_move sc c)) with
  | none => rw [hrc] at hr; cases hr
  | some r =>
    obtain ⟨wA, tcA⟩ := r
    rw [hrc] at hr
    simp only at hr
    have hA := return_to_central_ok os hos sc hsc cls live c _ w tc h wA tcA hrc
    have hset : ∀ l : DynamicFreeList, l._list = (tcA._lists c)._list →
        ThreadInv os sc wA (tcA.setList c l) live cls := by
      intro l hl
      exact threadInv_of_cache os sc wA tcA tcA rfl _ live cls hA c l hl.symm (fun k _ => rfl)
    split at hr
    · simp only [Option.some.injEq, Prod.mk.injEq] at hr
      obtain ⟨hr1, hr2⟩ := hr
      subst hr1
      subst hr2
      exact hset _ rfl
    · split at hr
      · split at hr
        · simp only [Option.some.injEq, Prod.mk.injEq] at hr
          obtain ⟨hr1, hr2⟩ := hr
          subst hr1
          subst hr2
          exact hset _ rfl
        · simp only [Option.some.injEq, Prod.mk.injEq] at hr
          obtain ⟨hr1, hr2⟩ := hr
          subst hr1
          subst hr2
          exact hset _ rfl
      · simp only [Option.some.injEq, Prod.mk.injEq] at hr
        obtain ⟨hr1, hr2⟩ := hr
        subst hr1
        subst hr2
        exact hA

/-! ## `ThreadCache::alloc` and `ThreadCache::dealloc` -/

/-- `ThreadCache::dealloc` of a live object keeps the invariant; the object is no longer
live. -/
theorem thread_dealloc_ok (os : OS) (hos : OS.Sane os) (sc : Nat → SizeClassInfo)
    (hsc : SizeMap.ClassesOk sc) (cls : Nat → Nat) (live : List (Nat × Nat)) (c p : Nat)
    (w : World) (tc : ThreadCache) (h : ThreadInv os sc w tc live cls)
    (hp : (p, c) ∈ live) (w1 : World) (tc1 : ThreadCache)
    (hr : ThreadCache.dealloc sc w tc c p = some (w1, tc1)) :
    ThreadInv os sc w1 tc1 (live.filter (fun e => decide (e.1 ≠ p))) cls := by
  unfold ThreadCache.dealloc at hr
  split at hr
  · cases hr
  split at hr
  · cases hr
    exact cacheInv_sublive os sc _ _ live _ cls h (List.filter_sublist _)
  simp only at hr
  have hpush : ∀ tcX : ThreadCache, tcX._lists = tc._lists → ∀ l : DynamicFreeList,
      l._list = p :: (tc._lists c)._list →
      ThreadInv os sc w (tcX.setList c l) (live.filter (fun e => decide (e.1 ≠ p))) cls := by
    intro tcX hX l hl
    unfold ThreadInv
    refine cache_push os sc w _ _ live cls h c p hp ?_ ?_
    · simp only [setList_list, if_pos]
      exact hl
    · intro k hk
      simp only [setList_list, if_neg hk, hX]
  split at hr
  · refine list_too_long_ok os hos sc hsc cls _ c w _ ?_ w1 tc1 hr
    exact threadInv_same os sc w (tc.setList c _) _ rfl _ cls (hpush tc rfl _ rfl)
  · cases hr
    exact threadInv_same os sc w (tc.setList c _) _ rfl _ cls (hpush tc rfl _ rfl)

/-- `ThreadCache::fetch_from_central_cache` keeps the invariant: either the object returned
becomes live, or it is null and nothing was fetched. -/
theorem thread_fetch_ok (os : OS) (hos : OS.Sane os) (sc : Nat → SizeClassInfo)
    (hsc : SizeMap.ClassesOk sc) (cls : Nat → Nat) (live : List (Nat × Nat)) (c : Nat)
    (w : World) (tc : ThreadCache) (h : ThreadInv os sc w tc live cls) (p : Nat) (w1 : World)
    (tc1 : ThreadCache)
    (hr : ThreadCache.fetch_from_central_cache os sc w tc c = some (p, w1, tc1)) :
    ∃ cls1, ThreadInv os sc w1 tc1 ((p, c) :: live) cls1 ∨
      (p = 0 ∧ ThreadInv os sc w1 tc1 live cls1) := by
  unfold ThreadCache.fetch_from_central_cache at hr
  split at hr
  · cases hr
  simp only at hr
  split at hr
  · cases hr
  rename_i hempty
  split at hr
  · cases hr
  have hLc : (tc._lists c)._list = [] := by
    have : (tc._lists c).empty = true := by
      by_contra hcon
      exact hempty hcon
    unfold FreeList.empty at this
    exact List.isEmpty_iff.1 this
  cases ha : CentralCache.alloc os sc w c (SizeMap.num_to_move sc c) with
  | none => rw [ha] at hr; cases hr
  | some r =>
    obtain ⟨batch, wA⟩ := r
    rw [ha] at hr
    simp only at hr
    obtain ⟨cls1, hnd, hfresh, hcen⟩ := central_alloc_ok os hos sc hsc cls c _ w _ h.central
      batch wA ha
    refine ⟨cls1, ?_⟩
    cases batch with
    | nil =>
      simp only [List.length_nil, if_true, Option.some.injEq, Prod.mk.injEq] at hr
      obtain ⟨hr1, hr2, hr3⟩ := hr
      subst hr1
      subst hr2
      subst hr3
      refine Or.inr ⟨rfl, ?_, h.live_nodup, h.lists_nodup, h.apart⟩
      refine centralInv_congr os sc wA wA cls1 _ _ hcen hcen.heap rfl rfl ?_
      exact fun q k hq => Or.inl hq
    | cons p0 rest =>
      left
      simp only [List.length_cons, Nat.add_one_ne_zero, if_false, List.drop_succ_cons,
        List.drop_zero, List.headD_cons] at hr
      rw [usub_of_le _ _ (by omega)] at hr
      unfold FreeList.push_batch at hr
      by_cases hrest : rest.length + 1 - 1 = 0
      · rw [if_pos hrest] at hr
        cases hr
      · rw [if_neg hrest, if_neg (by omega)] at hr
        simp only [Option.some.injEq, Prod.mk.injEq] at hr
        obtain ⟨hr1, hr2, hr3⟩ := hr
        subst hr1
        subst hr2
        subst hr3
        unfold ThreadInv
        refine cache_fetch os sc w wA _ _ live cls cls1 h c p0 rest hcen hnd hfresh hLc ?_ ?_
        · simp only [setList_list, if_pos]
          have htake : rest.take (rest.length + 1 - 1) = rest :=
            List.take_of_length_le (by omega)
          split
          · show rest.take (rest.length + 1 - 1) ++ (tc._lists c)._list = rest
            rw [htake, hLc, List.append_nil]
          · show rest.take (rest.length + 1 - 1) ++ (tc._lists c)._list = rest
            rw [htake, hLc, List.append_nil]
        · intro k hk
          simp only [setList_list, if_neg hk]

/-- `ThreadCache::alloc` keeps the invariant; a non-null object returned becomes live. -/
theorem thread_alloc_ok (os : OS) (hos : OS.Sane os) (sc : Nat → SizeClassInfo)
    (hsc : SizeMap.ClassesOk sc) (cls : Nat → Nat) (live : List (Nat × Nat)) (c : Nat)
    (w : World) (tc : ThreadCache) (h : ThreadInv os sc w tc live cls) (p : Nat) (w1 : World)
    (tc1 : ThreadCache) (hr : ThreadCache.alloc os sc w tc c = some (p, w1, tc1)) :
    ∃ cls1, ThreadInv os sc w1 tc1 (if p = 0 then live else (p, c) :: live) cls1 := by
  unfold ThreadCache.alloc at hr
  split at hr
  · cases hr
  simp only at hr
  -- the object, the world and the thread cache before the counters are updated
  have hgot : ∀ (tc0 : ThreadCache) (cls1 : Nat → Nat),
      (ThreadInv os sc w1 tc0 ((p, c) :: live) cls1 ∨
        (p = 0 ∧ ThreadInv os sc w1 tc0 live cls1)) →
      tc1._lists = tc0._lists →
      ∃ cls1, ThreadInv os sc w1 tc1 (if p = 0 then live else (p, c) :: live) cls1 := by
    intro tc0 cls1 hcase hl
    refine ⟨cls1, threadInv_same os sc w1 tc0 tc1 hl _ cls1 ?_⟩
    by_cases hp0 : p = 0
    · rw [if_pos hp0]
      rcases hcase with h1 | ⟨_, h1⟩
      · exact cacheInv_drop os sc w1 _ live cls1 _ h1
      · exact h1
    · rw [if_neg hp0]
      rcases hcase with h1 | ⟨h0, _⟩
      · exact h1
      · exact absurd h0 hp0
  by_cases hempty : ¬ (tc._lists c).empty = true
  · rw [if_pos hempty] at hr
    cases hpop : (tc._lists c).pop with
    | none => rw [hpop] at hr; cases hr
    | some r =>
      obtain ⟨q, l2⟩ := r
      rw [hpop] at hr
      simp only at hr
      have hl := dyn_pop _ q l2 hpop
      have hinv : ThreadInv os sc w (tc.setList c l2) ((q, c) :: live) cls := by
        unfold ThreadInv
        refine cache_pop os sc hsc w _ _ live cls h c q l2._list hl ?_ ?_
        · simp only [setList_list, if_pos]
        · intro k hk
          simp only [setList_list, if_neg hk]
      split at hr
      · simp only [Option.some.injEq, Prod.mk.injEq] at hr
        obtain ⟨hr1, hr2, hr3⟩ := hr
        subst hr1
        subst hr2
        subst hr3
        exact hgot (tc.setList c l2) cls (Or.inl hinv) rfl
      · simp only [Option.some.injEq, Prod.mk.injEq] at hr
        obtain ⟨hr1, hr2, hr3⟩ := hr
        subst hr1
        subst hr2
        subst hr3
        exact hgot (tc.setList c l2) cls (Or.inl hinv) rfl
  · rw [if_neg hempty] at hr
    cases hf : ThreadCache.fetch_from_central_cache os sc w tc c with
    | none => rw [hf] at hr; cases hr
    | some r =>
      obtain ⟨q, wA, tcA⟩ := r
      rw [hf] at hr
      simp only at hr
      obtain ⟨cls1, hcase⟩ := thread_fetch_ok os hos sc hsc cls live c w tc h q wA tcA hf
      split at hr
      · simp only [Option.some.injEq, Prod.mk.injEq] at hr
        obtain ⟨hr1, hr2, hr3⟩ := hr
        subst hr1
        subst hr2
        subst hr3
        exact hgot tcA cls1 hcase rfl
      · simp only [Option.some.injEq, Prod.mk.injEq] at hr
        obtain ⟨hr1, hr2, hr3⟩ := hr
        subst hr1
        subst hr2
        subst hr3
        exact hgot tcA cls1 hcase rfl

/-! ## Sequences of Central Cache and Thread Cache calls -/

theorem centralInv_new (os : OS) (sc : Nat → SizeClassInfo) (cls : Nat → Nat)
    (O : Nat → Nat → Prop) (hO : ∀ p c, ¬ O p c) : CentralInv os sc World.new cls O := by
  refine ⟨heapInv_new os, ?_, ?_, ?_, ?_, ?_⟩
  · intro s hs; cases hs
  · intro s hs; cases hs
  · intro c; exact List.nodup_nil
  · intro c x
    constructor
    · intro h; cases h
    · rintro ⟨s, hs, _⟩; cases hs
  · intro p c hp
    exact absurd hp (hO p c)

theorem threadInv_new (os : OS) (sc : Nat → SizeClassInfo) (cls : Nat → Nat) :
    ThreadInv os sc World.new ThreadCache.new [] cls := by
  refine ⟨centralInv_new os sc cls _ ?_, List.nodup_nil, fun c => List.nodup_nil, ?_⟩
  · rintro p c (h | h)
    · cases h
    · cases h
  · intro p c k h; cases h

/-- Every run of Central Cache calls keeps the invariant, for the objects on record. -/
theorem central_run_inv (os : OS) (hos : OS.Sane os) (sc : Nat → SizeClassInfo)
    (hsc : SizeMap.ClassesOk sc) (calls : List CentralCall) :
    ∀ (st : World × List (Nat × Nat)) (cls : Nat → Nat),
      CentralInv os sc st.1 cls (fun p c => (p, c) ∈ st.2) →
      ∀ st1, CentralCache.run os sc calls st = some st1 →
      ∃ cls1, CentralInv os sc st1.1 cls1 (fun p c => (p, c) ∈ st1.2) := by
  induction calls with
  | nil =>
    intro st cls h st1 hr
    cases hr
    exact ⟨cls, h⟩
  | cons call calls ih =>
    intro st cls h st1 hr
    unfold CentralCache.run at hr
    split at hr
    · cases hr
    · rename_i st2 hstep
      suffices hs : ∃ cls2, CentralInv os sc st2.1 cls2 (fun p c => (p, c) ∈ st2.2) by
        obtain ⟨cls2, h2⟩ := hs
        exact ih st2 cls2 h2 st1 hr
      cases call with
      | alloc c n =>
        change (match CentralCache.alloc os sc st.1 c n with
          | none => none
          | some (batch, w1) => some (w1, batch.map (fun p => (p, c)) ++ st.2)) = some st2
          at hstep
        cases ha : CentralCache.alloc os sc st.1 c n with
        | none => rw [ha] at hstep; cases hstep
        | some r =>
          obtain ⟨batch, w1⟩ := r
          rw [ha] at hstep
          cases hstep
          obtain ⟨cls1, _, _, hinv⟩ := central_alloc_ok os hos sc hsc cls c n st.1 _ h batch
            w1 ha
          refine ⟨cls1, centralInv_congr os sc w1 w1 cls1 _ _ hinv hinv.heap rfl rfl ?_⟩
          intro p k hp
          rcases List.mem_append.1 hp with hp1 | hp2
          · obtain ⟨q, hq, heq⟩ := List.mem_map.1 hp1
            cases heq
            exact Or.inr ⟨hq, rfl⟩
          · exact Or.inl hp2
      | dealloc c batch n =>
        change (if (batch.take n).Nodup ∧ ∀ p ∈ batch.take n, (p, c) ∈ st.2 then
          match CentralCache.dealloc st.1 c batch n with
          | none => none
          | some w1 => some (w1, st.2.filter (fun e => decide (e.1 ∉ batch.take n)))
          else none) = some st2 at hstep
        split at hstep
        · rename_i hvalid
          cases hd : CentralCache.dealloc st.1 c batch n with
          | none => rw [hd] at hstep; cases hstep
          | some w1 =>
            rw [hd] at hstep
            cases hstep
            have hinv := central_dealloc_ok os hos sc hsc cls c batch n st.1 _ h hvalid.2
              hvalid.1 w1 hd
            refine ⟨cls, centralInv_congr os sc w1 w1 cls _ _ hinv hinv.heap rfl rfl ?_⟩
            intro p k hp
            have := List.mem_filter.1 hp
            exact ⟨this.1, by simpa using this.2⟩
        · cases hstep

/-- Every run of Thread Cache calls keeps the invariant, for the live objects on record. -/
theorem thread_run_inv (os : OS) (hos : OS.Sane os) (sc : Nat → SizeClassInfo)
    (hsc : SizeMap.ClassesOk sc) (calls : List ThreadCall) :
    ∀ (st : World × ThreadCache × List (Nat × Nat)) (cls : Nat → Nat),
      ThreadInv os sc st.1 st.2.1 st.2.2 cls →
      ∀ st1, ThreadCache.run os sc calls st = some st1 →
      ∃ cls1, ThreadInv os sc st1.1 st1.2.1 st1.2.2 cls1 := by
  induction calls with
  | nil =>
    intro st cls h st1 hr
    cases hr
    exact ⟨cls, h⟩
  | cons call calls ih =>
    intro st cls h st1 hr
    unfold ThreadCache.run at hr
    split at hr
    · cases hr
    · rename_i st2 hstep
      suffices hs : ∃ cls2, ThreadInv os sc st2.1 st2.2.1 st2.2.2 cls2 by
        obtain ⟨cls2, h2⟩ := hs
        exact ih st2 cls2 h2 st1 hr
      cases call with
      | alloc c =>
        change (match ThreadCache.alloc os sc st.1 st.2.1 c with
          | none => none
          | some (p, w1, tc1) => some (w1, tc1, if p = 0 then st.2.2 else (p, c) :: st.2.2)) =
          some st2 at hstep
        cases ha : ThreadCache.alloc os sc st.1 st.2.1 c with
        | none => rw [ha] at hstep; cases hstep
        | some r =>
          obtain ⟨p, w1, tc1⟩ := r
          rw [ha] at hstep
          cases hstep
          exact thread_alloc_ok os hos sc hsc cls st.2.2 c st.1 st.2.1 h p w1 tc1 ha
      | dealloc c p =>
        change (if (p, c) ∈ st.2.2 then
          match ThreadCache.dealloc sc st.1 st.2.1 c p with
          | none => none
          | some (w1, tc1) => some (w1, tc1, st.2.2.filter (fun e => decide (e.1 ≠ p)))
          else none) = some st2 at hstep
        split at hstep
        · rename_i hvalid
          cases hd : ThreadCache.dealloc sc st.1 st.2.1 c p with
          | none => rw [hd] at hstep; cases hstep
          | some r =>
            obtain ⟨w1, tc1⟩ := r
            rw [hd] at hstep
            cases hstep
            exact ⟨cls, thread_dealloc_ok os hos sc hsc cls st.2.2 c p st.1 st.2.1 h hvalid
              w1 tc1 hd⟩
        · cases hstep

theorem out_pos (os : OS) (hos : OS.Sane os) (sc : Nat → SizeClassInfo)
    (hsc : SizeMap.ClassesOk sc)
    (w : World) (cls : Nat → Nat) (O : Nat → Nat → Prop) (h : CentralInv os sc w cls O)
    (p c : Nat) (hp : O p c) : p ≠ 0 := by
  obtain ⟨s, _, hs, _, _, _, _, hlo, _⟩ := out_find os sc hsc w cls O h p c hp
  have := inRegion_pos os hos w.sa s (h.heap.core.inRegion s hs)
  omega

theorem demoClasses_classesOk : SizeMap.ClassesOk demoClasses := by
  intro c h0 h1
  unfold SizeMap.size SizeMap.pages demoClasses
  rw [if_neg (by omega)]
  rw [page_SIZE_eq, pageHeap_n_eq]
  rw [size_class_size_eq] at h1
  by_cases h84 : c < 84
  · rw [if_pos h84]
    simp only
    omega
  · rw [if_neg h84]
    simp only
    omega

/-! ## Claims C1 and C8 -/

set_option maxRecDepth 1000000 in
theorem threadS_live : threadS.2.2 = [(139717433614304, 3), (139717433622496, 2)] := by
  decide

set_option maxRecDepth 1000000

/-! ## The loop of `CentralCache::dealloc` and objects unknown to the Page Map -/

theorem dealloc_loop_append (c : Nat) (pre post : List Nat) (w : World) :
    CentralCache.dealloc_loop c (pre ++ post) w =
      (CentralCache.dealloc_loop c pre w).bind (CentralCache.dealloc_loop c post) := by
  induction pre generalizing w with
  | nil => rfl
  | cons p pre ih =>
    simp only [List.cons_append, CentralCache.dealloc_loop]
    cases CentralCache.dealloc_object w c p with
    | none => rfl
    | some w1 => exact ih w1

theorem dealloc_object_miss (c p : Nat) (w : World) (h : PageMap.find_span w.pm p = none) :
    CentralCache.dealloc_object w c p = some w := by
  simp only [CentralCache.dealloc_object, h]

theorem dealloc_loop_skip (c : Nat) (pre post : List Nat) (p : Nat) (w : World)
    (hmiss : ∀ w1, CentralCache.dealloc_loop c pre w = some w1 →
      PageMap.find_span w1.pm p = none) :
    CentralCache.dealloc_loop c (pre ++ p :: post) w =
      CentralCache.dealloc_loop c (pre ++ post) w := by
  rw [dealloc_loop_append, dealloc_loop_append]
  cases h : CentralCache.dealloc_loop c pre w with
  | none => rfl
  | some w1 =>
    simp only [Option.some_bind, CentralCache.dealloc_loop, dealloc_object_miss c p w1 (hmiss w1 h)]

/-- C13: an object `p` of the batch for which `PageMap::find_span` answers null when the
loop of `CentralCache::dealloc` reaches it (that is, in the state left by the objects `pre`
in front of it) is skipped: processing the batch `pre ++ p :: post` faults exactly when
processing `pre ++ post` does, and otherwise both end in the same state of the whole system
(span lists of every class, every registered span with its free list and its counters, the
statistics of the Central Cache and of the Page Heap). -/
theorem C13_dealloc_skips_unknown_object (c : Nat) (pre post : List Nat) (p : Nat) (w : World)
    (hmiss : ∀ w1, CentralCache.dealloc_loop c pre w = some w1 →
      PageMap.find_span w1.pm p = none) :
    CentralCache.dealloc w c (pre ++ p :: post) (pre.length + 1 + post.length) =
      CentralCache.dealloc w c (pre ++ post) (pre.length + post.length) := by
  unfold CentralCache.dealloc
  by_cases hc : ¬ (c > 0 ∧ c < SizeMap.size_class_size)
  · rw [if_pos hc, if_pos hc]
  · rw [if_neg hc, if_neg hc, if_neg (by omega)]
    have e1 : (pre ++ p :: post).take (pre.length + 1 + post.length) = pre ++ p :: post := by
      apply List.take_of_length_le
      simp only [List.length_append, List.length_cons]
      omega
    have e2 : (pre ++ post).take (pre.length + post.length) = pre ++ post := by
      apply List.take_of_length_le
      simp only [List.length_append]
      omega
    have l1 : ¬ (pre ++ p :: post).length < pre.length + 1 + post.length := by
      simp only [List.length_append, List.length_cons]
      omega
    have l2 : ¬ (pre ++ post).length < pre.length + post.length := by
      simp only [List.length_append]
      omega
    rw [if_neg l1, if_neg l2, e1, e2, dealloc_loop_skip c pre post p w hmiss]
    by_cases h0 : pre.length + post.length = 0
    · rw [if_pos h0]
      have hp : pre = [] := List.length_eq_zero.mp (by omega)
      have hq : post = [] := List.length_eq_zero.mp (by omega)
      subst hp
      subst hq
      rfl
    · rw [if_neg h0]

/-- Witness for C13 in the state `centralS`: between the two outstanding objects of class 2
the batch holds the address 4096, which lies in no span. -/
theorem C13_dealloc_skips_unknown_object_witness :
    CentralCache.dealloc centralS.1 2 ([139717433622512] ++ 4096 :: [139717433622480])
        ([139717433622512].length + 1 + [139717433622480].length) =
      CentralCache.dealloc centralS.1 2 ([139717433622512] ++ [139717433622480])
        ([139717433622512].length + [139717433622480].length) :=
  C13_dealloc_skips_unknown_object 2 [139717433622512] [139717433622480] 4096 centralS.1
    (fun w1 h => by
      have e : (CentralCache.dealloc_loop 2 [139717433622512] centralS.1).map
          (fun w => PageMap.find_span w.pm 4096) = some none := by decide
      rw [h] at e
      exact Option.some.inj e)

/-! ## `FreeList::push_batch` with an empty batch -/

theorem push_batch_pos (l : FreeList) (arr : List Nat) (k : Nat) (hk : 1 ≤ k)
    (hlen : arr.length = k) :
    FreeList.push_batch l arr k = some { _list := arr ++ l._list, _n := l._n + k } := by
  unfold FreeList.push_batch
  rw [if_neg (by omega), if_neg (by omega), List.take_of_length_le (by omega)]

theorem push_pop_batch (l : FreeList) (arr : List Nat) (k : Nat) (hlen : arr.length = k) :
    FreeList.pop_batch { _list := arr ++ l._list, _n := l._n + k } k = some (arr, l) := by
  unfold FreeList.pop_batch
  have h1 : ¬ (arr ++ l._list).length < k := by
    simp only [List.length_append]
    omega
  have h2 : usub (l._n + k) k = l._n := by
    unfold usub
    rw [if_pos (by omega)]
    omega
  simp only [h1, if_false, h2]
  rw [← hlen, List.take_left, List.drop_left]

theorem push_pop (l : FreeList) (p : Nat) : (l.push p).pop = some (p, l) := by
  unfold FreeList.push FreeList.pop
  have h2 : usub (l._n + 1) 1 = l._n := by
    unfold usub
    rw [if_pos (by omega)]
    omega
  simp only [h2]

/-- C16 (code defect): `FreeList::push_batch(arr, 0)` does not leave the list unchanged. Its
loop bound `n - 1` wraps around and `batch[n - 1]` is `batch[-1]`, so the call runs past the
array for every list and every array: a fault. For `k >= 1` objects the call does yield
`arr[0], ..., arr[k-1]` followed by the old contents with the size raised by `k`, a following
`pop_batch(out, k)` gives `arr` back and restores the list, and `push(p)` followed by `pop()`
returns `p` and restores the list. -/
theorem C16_push_batch_of_nothing_faults (l : FreeList) (arr : List Nat) (p : Nat) :
    FreeList.push_batch l [] 0 = none ∧
    FreeList.push_batch l arr 0 = none ∧
    (∀ k, 1 ≤ k → arr.length = k →
      ∃ l1, FreeList.push_batch l arr k = some l1 ∧ l1._list = arr ++ l._list ∧
        l1.size = l.size + k ∧ l1.pop_batch k = some (arr, l)) ∧
    (l.push p).pop = some (p, l) := by
  refine ⟨rfl, rfl, fun k hk hlen => ⟨_, push_batch_pos l arr k hk hlen, rfl, rfl,
    push_pop_batch l arr k hlen⟩, push_pop l p⟩

/-! ## The low-water mark of `DynamicFreeList` -/

/-- After `DynamicFreeList::pop_batch(out, k)` with `k` at most the size, the low-water mark
is the new size if that is below the old mark, and the old mark otherwise. -/
theorem dyn_pop_batch_low_water (l : DynamicFreeList) (k : Nat) (hk : k ≤ l._list.length)
    (hn : k ≤ l._n) :
    ∃ l1, l.pop_batch k = some (l._list.take k, l1) ∧ l1.size = l._n - k ∧
      l1._low_water = (if l._n - k < l._low_water then l._n - k else l._low_water) ∧
      l1._low_water ≤ l1.size := by
  have hu : usub l._n k = l._n - k := by
    unfold usub
    rw [if_pos hn]
  unfold DynamicFreeList.pop_batch FreeList.pop_batch
  rw [if_neg (by omega)]
  simp only [FreeList.size, hu]
  by_cases hc : l._n - k < l._low_water
  · simp only [if_pos hc, DynamicFreeList.clear_low_water, FreeList.size]
    exact ⟨_, rfl, rfl, rfl, le_refl _⟩
  · simp only [if_neg hc]
    exact ⟨_, rfl, rfl, rfl, by simp only [FreeList.size]; omega⟩

/-- C17 (code defect): `DynamicFreeList::pop` compares the size after the pop with the
low-water mark but stores the size before the pop: whenever the new size `size() - 1` is
below the old low-water mark, the mark becomes the old size, which is one above the size of
the list after the call; otherwise the mark is unchanged. -/
theorem C17_pop_stores_old_size (l l1 : DynamicFreeList) (p : Nat) (hn : 1 ≤ l._n)
    (hpop : l.pop = some (p, l1)) :
    l1.size = l._n - 1 ∧
    l1._low_water = (if l._n - 1 < l._low_water then l._n else l._low_water) ∧
    (l._n - 1 < l._low_water → l1._low_water = l1.size + 1 ∧ ¬ l1._low_water ≤ l1.size) := by
  have hu : usub l._n 1 = l._n - 1 := by
    unfold usub
    rw [if_pos hn]
  unfold DynamicFreeList.pop at hpop
  simp only [FreeList.size, hu] at hpop
  by_cases hc : l._n - 1 < l._low_water
  · simp only [if_pos hc, DynamicFreeList.clear_low_water, FreeList.pop, FreeList.size] at hpop
    cases hl : l._list with
    | nil => simp only [hl, reduceCtorEq] at hpop
    | cons a rest =>
      simp only [hl, Option.some.injEq, Prod.mk.injEq] at hpop
      obtain ⟨_, rfl⟩ := hpop
      simp only [FreeList.size, hu, if_pos hc]
      refine ⟨trivial, trivial, fun _ => ⟨by omega, by omega⟩⟩
  · simp only [if_neg hc, FreeList.pop] at hpop
    cases hl : l._list with
    | nil => simp only [hl, reduceCtorEq] at hpop
    | cons a rest =>
      simp only [hl, Option.some.injEq, Prod.mk.injEq] at hpop
      obtain ⟨_, rfl⟩ := hpop
      simp only [FreeList.size, hu, if_neg hc]
      refine ⟨trivial, trivial, fun h => absurd h hc⟩

/-- Witness for C17: a list of two objects with low-water mark 2; after `pop` the list holds
one object and the mark is still 2. -/
theorem C17_pop_stores_old_size_witness :
    ∃ l1, lowWaterList.pop = some (4096, l1) ∧ l1._list = [8192] ∧
      l1.size = 2 - 1 ∧
      l1._low_water = (if 2 - 1 < 2 then 2 else 2) ∧
      (2 - 1 < 2 → l1._low_water = l1.size + 1 ∧ ¬ l1._low_water ≤ l1.size) :=
  ⟨_, rfl, rfl,
    C17_pop_stores_old_size lowWaterList _ 4096 (by decide) rfl⟩

set_option maxRecDepth 1000000

/-! ## The size limit of `SystemAlloc::alloc` -/

/-- An alignment above `max_mmap_alloc` is rejected: `(null, 0)`, nothing mapped, region
unchanged. -/
theorem alloc_rejects_large_align (os : OS) (sa : SystemAlloc) (n align : Nat)
    (h : align > SystemAlloc.max_mmap_alloc) :
    SystemAlloc.alloc os sa n align = some ((0, 0), sa) := by
  unfold SystemAlloc.alloc
  have h1 : max align SystemAlloc.min_system_alloc > SystemAlloc.max_mmap_alloc :=
    lt_of_lt_of_le h (le_max_left _ _)
  simp only [h1, or_true, if_true]

/-- C20 (code defect): the byte count `n` of a request never reaches the limit check of
`SystemAlloc::alloc`, because the second statement overwrites it with
`round_up(align, min_system_alloc)`: the outcome of every call is the same for all `n`. A
request for `2 ^ 46 + 1` bytes with page alignment, on a fresh allocator and an operating
system that maps every request, is therefore not rejected: it makes one `mmap` call, sets
the region and returns a non-null pointer with 2097152 bytes. -/
theorem C20_alloc_accepts_oversized_request :
    (∀ (os : OS) (sa : SystemAlloc) (n m align : Nat),
      SystemAlloc.alloc os sa n align = SystemAlloc.alloc os sa m align) ∧
    SystemAlloc.max_mmap_alloc = 2 ^ 46 ∧
    (SystemAlloc.alloc demoOS SystemAlloc.new (2 ^ 46 + 1) 8192).map
        (fun r => (r.1, r.2.mmap_calls, r.2._region)) =
      some ((139717431525376, 2097152), 1, (139716359880704, 139717431525376)) ∧
    SystemAlloc.new._region = (0, 0) ∧ SystemAlloc.new.mmap_calls = 0 := by
  refine ⟨fun _ _ _ _ _ => rfl, by decide, by decide, rfl, rfl⟩

/-! ## `PageHeap::~PageHeap` -/

/-- C19 (code defect): the loop of `~PageHeap` starts at the list index 1, but the spans of
one page are kept on the list with index `span_idx = 0`. After two one-page spans were
taken from a fresh Page Heap and the first was given back, that span is IDLE on list 0;
destroying the Page Heap returns the 254-page span of the large list to the System
Allocator (2080768 bytes) and leaves the one-page span registered in the Page Map, IDLE and
on its list. -/
theorem C19_destroy_keeps_one_page_spans :
    (PageHeap.run demoOS callsOnePage (World.new, [])).map (fun st => st.2) =
      some [139717433606144] ∧
    heapOnePage.pm.map (fun s => (s.start_addr, s._num_pages, s._status)) =
      [(139717433614336, 1, STATUS.IDLE), (139717433606144, 1, STATUS.USING),
       (139717431525376, 254, STATUS.IDLE)] ∧
    heapOnePage.ph._lists 0 = [139717433614336] ∧
    heapOnePage.ph._lists 128 = [139717431525376] ∧
    (PageHeap.destroy heapOnePage).map
        (fun w => (w.pm.map (fun s => (s.start_addr, s._num_pages, s._status)),
                   w.ph._lists 0, w.ph._lists 128, w.sa._stats._deallocated)) =
      some ([(139717433614336, 1, STATUS.IDLE), (139717433606144, 1, STATUS.USING)],
            [139717433614336], [], 2080768) := by
  refine ⟨by decide, by decide, by decide, by decide, by decide⟩

/-! ## `ThreadCache::alloc` and the batch fetched from the Central Cache -/

/-- The result of `DynamicFreeList::pop` on a list with head `p`. -/
theorem dyn_pop_some (l : DynamicFreeList) (p : Nat) (rest : List Nat)
    (hlist : l._list = p :: rest) (hn : 1 ≤ l._n) :
    ∃ l1, l.pop = some (p, l1) ∧ l1._list = rest ∧ l1.size = l.size - 1 := by
  have hu : usub l._n 1 = l._n - 1 := by
    unfold usub
    rw [if_pos hn]
  unfold DynamicFreeList.pop
  by_cases hc : usub l.size 1 < l._low_water
  · simp only [if_pos hc, DynamicFreeList.clear_low_water, FreeList.pop, hlist, hu]
    exact ⟨_, rfl, rfl, rfl⟩
  · simp only [if_neg hc, FreeList.pop, hlist, hu]
    exact ⟨_, rfl, rfl, rfl⟩

/-- With a non-empty list `ThreadCache::alloc` returns the head object; the list loses its
head and its size goes down by one. -/
theorem thread_alloc_pop (os : OS) (sc : Nat → SizeClassInfo) (w : World) (tc : ThreadCache)
    (c p : Nat) (rest : List Nat) (hc : c > 0 ∧ c < SizeMap.size_class_size)
    (hlist : (tc._lists c)._list = p :: rest) (hp : p ≠ 0) (hn : 1 ≤ (tc._lists c)._n) :
    ∃ tc1, ThreadCache.alloc os sc w tc c = some (p, w, tc1) ∧
      (tc1._lists c)._list = rest ∧ (tc1._lists c).size = (tc._lists c).size - 1 := by
  obtain ⟨l1, hpop, hl1, hs1⟩ := dyn_pop_some (tc._lists c) p rest hlist hn
  have hne : (tc._lists c).empty = false := by
    simp only [FreeList.empty, hlist, List.isEmpty_cons]
  unfold ThreadCache.alloc
  rw [if_neg (not_not.mpr hc)]
  simp only [hne, Bool.false_eq_true, not_false_eq_true, if_true, hpop, ne_eq, hp]
  refine ⟨_, rfl, ?_, ?_⟩
  · simp only [ThreadCache.setList, if_true]
    exact hl1
  · simp only [ThreadCache.setList, if_true]
    exact hs1

/-- When the Central Cache hands out nothing, `ThreadCache::alloc` on an empty list returns
null and changes nothing in the thread cache. -/
theorem thread_alloc_fetch_none (os : OS) (sc : Nat → SizeClassInfo) (w w1 : World)
    (tc : ThreadCache) (c : Nat) (hc : c > 0 ∧ c < SizeMap.size_class_size)
    (hmove : SizeMap.num_to_move sc c ≤ SizeMap.max_move)
    (hlist : (tc._lists c).empty = true)
    (hcc : CentralCache.alloc os sc w c (SizeMap.num_to_move sc c) = some ([], w1)) :
    ThreadCache.alloc os sc w tc c = some (0, w1, tc) := by
  unfold ThreadCache.alloc
  rw [if_neg (not_not.mpr hc)]
  simp only [hlist, not_true_eq_false, if_false, ThreadCache.fetch_from_central_cache,
    if_neg (not_not.mpr hc), if_neg (not_not.mpr hmove), hcc, List.length_nil, if_true,
    ne_eq]

/-- When the Central Cache hands out `cnt >= 2` objects, `ThreadCache::alloc` on an empty
list returns `batch[0]` and the list holds `batch[1..cnt-1]` in that order with size
`cnt - 1`. -/
theorem thread_alloc_fetch_many (os : OS) (sc : Nat → SizeClassInfo) (w w1 : World)
    (tc : ThreadCache) (c p q : Nat) (rest : List Nat)
    (hc : c > 0 ∧ c < SizeMap.size_class_size)
    (hmove : SizeMap.num_to_move sc c ≤ SizeMap.max_move)
    (hlist : (tc._lists c)._list = []) (hn : (tc._lists c)._n = 0) (hp : p ≠ 0)
    (hcc : CentralCache.alloc os sc w c (SizeMap.num_to_move sc c) =
      some (p :: q :: rest, w1)) :
    ∃ tc1, ThreadCache.alloc os sc w tc c = some (p, w1, tc1) ∧
      (tc1._lists c)._list = q :: rest ∧ (tc1._lists c).size = rest.length + 1 := by
  have hu : usub (rest.length + 1 + 1) 1 = rest.length + 1 := by
    unfold usub
    rw [if_pos (by omega)]
    omega
  have hemp : (tc._lists c).empty = true := by
    simp only [FreeList.empty, hlist, List.isEmpty_nil]
  unfold ThreadCache.alloc
  rw [if_neg (not_not.mpr hc)]
  simp only [hemp, not_true_eq_false, if_false, ThreadCache.fetch_from_central_cache,
    if_neg (not_not.mpr hc), if_neg (not_not.mpr hmove), hcc, List.length_cons, hu,
    List.drop_succ_cons, List.drop_zero, FreeList.push_batch, Nat.add_one_ne_zero,
    lt_irrefl, hlist, hn, List.append_nil, List.headD_cons, ne_eq, hp, zero_add,
    List.take_of_length_le (le_of_eq (List.length_cons q rest)), not_false_eq_true,
    if_true]
  refine ⟨_, rfl, ?_, ?_⟩
  · simp only [ThreadCache.setList, if_true]
    split <;> rfl
  · simp only [ThreadCache.setList, if_true, FreeList.size]
    split <;> rfl

/-- C11 (code defect): when the list of class `c` is empty and `CentralCache::alloc` hands
out exactly one object, `ThreadCache::alloc(c)` does not return that object with the list
left empty: `fetch_from_central_cache` calls `push_batch(batch + 1, 0)`, whose loop bound
`n - 1` wraps around, and the call runs past the array (a fault). -/
theorem C11_fetch_of_one_object_faults (os : OS) (sc : Nat → SizeClassInfo) (w : World)
    (tc : ThreadCache) (c : Nat) (hlist : (tc._lists c).empty = true)
    (hone : (CentralCache.alloc os sc w c (SizeMap.num_to_move sc c)).map
      (fun r => r.1.length) = some 1) :
    ThreadCache.alloc os sc w tc c = none := by
  unfold ThreadCache.alloc
  by_cases hc : ¬ (c > 0 ∧ c < SizeMap.size_class_size)
  · rw [if_pos hc]
  · rw [if_neg hc]
    have hf : ThreadCache.fetch_from_central_cache os sc w tc c = none := by
      unfold ThreadCache.fetch_from_central_cache
      rw [if_neg hc]
      simp only [hlist, not_true_eq_false, if_false]
      by_cases hm : ¬ (SizeMap.num_to_move sc c ≤ SizeMap.max_move)
      · rw [if_pos hm]
      · rw [if_neg hm]
        cases hcc : CentralCache.alloc os sc w c (SizeMap.num_to_move sc c) with
        | none => rfl
        | some r =>
          obtain ⟨batch, w1⟩ := r
          rw [hcc] at hone
          have hl : batch.length = 1 := Option.some.inj hone
          simp only [hl, Nat.add_one_ne_zero, if_false, one_ne_zero]
          have hu : usub 1 1 = 0 := by decide
          simp only [hu, FreeList.push_batch, if_true]
    simp only [hlist, not_true_eq_false, if_false, hf]

/-- Witness for C11: with an operating system that has memory for one region only, one
allocation of class 1 and six of class 84 leave 31 free pages; the next
`CentralCache::alloc(84, batch, 2)` hands out one object and `ThreadCache::alloc(84)`
faults. -/
theorem C11_fetch_of_one_object_faults_witness :
    (ThreadCache.run smallOS demoClasses callsOneLeft
      (World.new, ThreadCache.new, [])).isSome = true ∧
    (stateOneLeft.2.1._lists 84).empty = true ∧
    (CentralCache.alloc smallOS demoClasses stateOneLeft.1 84
        (SizeMap.num_to_move demoClasses 84)).map (fun r => r.1) = some [139717431779328] ∧
    ThreadCache.alloc smallOS demoClasses stateOneLeft.1 stateOneLeft.2.1 84 = none :=
  ⟨by decide, by decide, by decide,
    C11_fetch_of_one_object_faults smallOS demoClasses stateOneLeft.1 stateOneLeft.2.1 84
      (by decide) (by decide)⟩

/-! ## The counters of a span over a sequence of calls -/

/-- The counters of a span with `T` objects of which those in `out` are handed out. -/
theorem span_counters_alloc (s : Span) (out : List Nat) (T k : Nat)
    (ht : s._total = T) (hle : s._allocated ≤ T) (hn : s._list._n = T - s._allocated)
    (hlen : s._list._list.length = s._list._n) (hout : out.length = s._allocated) :
    ∃ objs s1, s.alloc k = some (objs, s1) ∧ objs.length = min k s._list.size ∧
      s1._allocated = s._allocated + min k s._list.size ∧
      s1._total = T ∧ s1._allocated ≤ T ∧ s1._list._n = T - s1._allocated ∧
      s1._list._list.length = s1._list._n ∧ (objs ++ out).length = s1._allocated := by
  have hm : min k s._list._n ≤ s._list._n := Nat.min_le_right _ _
  have hu : usub s._list._n (min k s._list._n) = s._list._n - min k s._list._n := by
    unfold usub
    rw [if_pos hm]
  unfold Span.alloc FreeList.pop_batch
  simp only [FreeList.size]
  rw [if_neg (by omega)]
  refine ⟨_, _, rfl, ?_, rfl, ht, ?_, ?_, ?_, ?_⟩
  · simp only [List.length_take]
    omega
  · show s._allocated + min k s._list._n ≤ T
    omega
  · show usub s._list._n (min k s._list._n) = T - (s._allocated + min k s._list._n)
    rw [hu]
    omega
  · show (s._list._list.drop (min k s._list._n)).length = usub s._list._n (min k s._list._n)
    rw [hu, List.length_drop]
    omega
  · show (s._list._list.take (min k s._list._n) ++ out).length = s._allocated + min k s._list._n
    simp only [List.length_append, List.length_take]
    omega

theorem span_counters_dealloc (s : Span) (out : List Nat) (T p : Nat)
    (ht : s._total = T) (hle : s._allocated ≤ T) (hn : s._list._n = T - s._allocated)
    (hlen : s._list._list.length = s._list._n) (hout : out.length = s._allocated)
    (hp : p ∈ out) :
    (s.dealloc p)._allocated = s._allocated - 1 ∧ 1 ≤ s._allocated ∧
      (s.dealloc p)._total = T ∧ (s.dealloc p)._allocated ≤ T ∧
      (s.dealloc p)._list._n = T - (s.dealloc p)._allocated ∧
      (s.dealloc p)._list._list.length = (s.dealloc p)._list._n ∧
      (out.erase p).length = (s.dealloc p)._allocated := by
  have hpos : 1 ≤ s._allocated := by
    rw [← hout]
    exact List.length_pos_of_mem hp
  have hu : usub s._allocated 1 = s._allocated - 1 := by
    unfold usub
    rw [if_pos hpos]
  refine ⟨hu, hpos, ht, ?_, ?_, ?_, ?_⟩
  · show usub s._allocated 1 ≤ T
    omega
  · show s._list._n + 1 = T - usub s._allocated 1
    omega
  · show (p :: s._list._list).length = s._list._n + 1
    simp only [List.length_cons, hlen]
  · show (out.erase p).length = usub s._allocated 1
    rw [List.length_erase_of_mem hp, hu, hout]

theorem span_run_counters (T : Nat) : ∀ (calls : List SpanCall) (s : Span) (out : List Nat),
    s._total = T → s._allocated ≤ T → s._list._n = T - s._allocated →
    s._list._list.length = s._list._n → out.length = s._allocated →
    Span.Legal calls (s, out) →
    ∃ s1 out1, Span.run calls (s, out) = some (s1, out1) ∧
      s1._total = T ∧ s1._allocated ≤ T ∧ s1._list._n = T - s1._allocated ∧
      s1._list._list.length = s1._list._n ∧ out1.length = s1._allocated := by
  intro calls
  induction calls with
  | nil =>
    intro s out ht hle hn hlen hout _
    exact ⟨s, out, rfl, ht, hle, hn, hlen, hout⟩
  | cons call calls ih =>
    intro s out ht hle hn hlen hout hlegal
    cases call with
    | alloc k =>
      obtain ⟨objs, s1, ha, _, _, ht1, hle1, hn1, hlen1, hout1⟩ :=
        span_counters_alloc s out T k ht hle hn hlen hout
      have hstep : Span.step (s, out) (SpanCall.alloc k) = some (s1, objs ++ out) := by
        simp only [Span.step, ha]
      have hl1 : Span.Legal calls (s1, objs ++ out) := hlegal _ hstep
      obtain ⟨s2, out2, hr, h2⟩ := ih s1 (objs ++ out) ht1 hle1 hn1 hlen1 hout1 hl1
      refine ⟨s2, out2, ?_, h2⟩
      simp only [Span.run, hstep, hr]
    | dealloc p =>
      obtain ⟨hp, hl1⟩ := hlegal
      obtain ⟨_, _, ht1, hle1, hn1, hlen1, hout1⟩ :=
        span_counters_dealloc s out T p ht hle hn hlen hout hp
      obtain ⟨s2, out2, hr, h2⟩ := ih (s.dealloc p) (out.erase p) ht1 hle1 hn1 hlen1 hout1 hl1
      refine ⟨s2, out2, ?_, h2⟩
      simp only [Span.run, Span.step, hr]

theorem span_init_counters (ptr np sz : Nat) (hsz : 1 ≤ sz) :
    ∃ s0, (Span.new ptr np).init_free_list sz = some s0 ∧
      s0._total = np * 8192 / sz ∧ s0._allocated = 0 ∧ s0._list._n = np * 8192 / sz ∧
      s0._list._list.length = s0._list._n := by
  have hbytes : (Span.new ptr np).end_addr - (Span.new ptr np).start_addr = np * 8192 := by
    rw [span_end_addr_eq]
    show (Span.new ptr np).start_addr + np * 8192 - (Span.new ptr np).start_addr = np * 8192
    omega
  obtain ⟨h1, h2⟩ := push_slots_eq sz (np * 8192 / sz) (Span.new ptr np).start_addr
    (Span.new ptr np)._list
  unfold Span.init_free_list
  rw [if_neg (by omega)]
  simp only [hbytes]
  refine ⟨_, rfl, rfl, rfl, ?_, ?_⟩
  · show (Span.push_slots sz (np * 8192 / sz) (Span.new ptr np).start_addr
      (Span.new ptr np)._list)._n = _
    rw [h2]
    show 0 + np * 8192 / sz = _
    omega
  · show (Span.push_slots sz (np * 8192 / sz) (Span.new ptr np).start_addr
      (Span.new ptr np)._list)._list.length = (Span.push_slots sz (np * 8192 / sz)
      (Span.new ptr np).start_addr (Span.new ptr np)._list)._n
    rw [h1, h2]
    show (((List.range (np * 8192 / sz)).map _).reverse ++ []).length = 0 + np * 8192 / sz
    simp only [List.append_nil, List.length_reverse, List.length_map, List.length_range]
    omega

/-- The objects that `Span::init_free_list` links into an empty free list lie in the
span. -/
theorem span_init_slots (u : Span) (sz : Nat) (hsz : 1 ≤ sz) (hl : u._list = FreeList.new)
    (s0 : Span) (h : u.init_free_list sz = some s0) :
    ∀ q ∈ s0._list._list, u.start_addr ≤ q ∧ q + sz ≤ u.end_addr := by
  intro q hq
  unfold Span.init_free_list at h
  rw [if_neg (by omega)] at h
  have e := (Option.some.inj h).symm
  subst e
  obtain ⟨h1, _⟩ := push_slots_eq sz ((u.end_addr - u.start_addr) / sz) u.start_addr u._list
  have hq1 : q ∈ ((List.range ((u.end_addr - u.start_addr) / sz)).map
      (fun i => u.start_addr + i * sz)).reverse ++ u._list._list := by
    rw [← h1]; exact hq
  rw [hl] at hq1
  simp only [FreeList.new, List.append_nil, List.mem_reverse, List.mem_map,
    List.mem_range] at hq1
  obtain ⟨i, hi, rfl⟩ := hq1
  have h2 : (i + 1) * sz ≤ (u.end_addr - u.start_addr) / sz * sz :=
    Nat.mul_le_mul_right sz hi
  have h3 : (u.end_addr - u.start_addr) / sz * sz ≤ u.end_addr - u.start_addr :=
    Nat.div_mul_le_self _ _
  have h4 := span_end_addr_eq u
  rw [Nat.add_mul, Nat.one_mul] at h2
  omega

/-- C15: for a span constructed by `Span(ptr, num_pages)` that does not start at the null
address and ends below `2 ^ 64`, initialised by `init_free_list(object_size)` with
`object_size >= 8` (a free object holds the link to the next one, a pointer of eight bytes,
and `end_addr()` must not wrap), every sequence of `Span::alloc` and
`Span::dealloc` calls in which each `dealloc` returns an object that is handed out and not
yet returned runs without a fault; in the state `(s, out)` it ends in (`out` being the
objects handed out and not returned) `total = num_pages * 8192 / object_size`,
`allocated <= total`, the free-list size is `total - allocated` and is the number of objects
linked in the list, `allocated` is the number of objects in `out`, `empty()` holds iff the
free list holds no object, `full()` holds iff `out` is empty, a following `alloc(dst, k)`
returns `min(k, free-list size)` objects and raises `allocated` by that amount, and a
following `dealloc` of an object of `out` lowers `allocated` by one. The objects that
`init_free_list` links are not null, and the eight bytes of the link of each lie in the span,
below `2 ^ 64`. -/
theorem C15_span_counters (ptr np sz : Nat) (hsz8 : 8 ≤ sz)
    (hlo : 0 < (Span.new ptr np).start_addr) (hhi : (Span.new ptr np).end_addr < SIZE_T)
    (calls : List SpanCall)
    (hlegal : ∀ s0, (Span.new ptr np).init_free_list sz = some s0 →
      Span.Legal calls (s0, [])) :
    ∃ s0 s out, (Span.new ptr np).init_free_list sz = some s0 ∧
      Span.run calls (s0, []) = some (s, out) ∧
      s._total = np * 8192 / sz ∧ s._allocated ≤ s._total ∧
      s._list.size = s._total - s._allocated ∧ s._list._list.length = s._list.size ∧
      out.length = s._allocated ∧
      (s.empty = true ↔ s._list._list = []) ∧ (s.full = true ↔ out = []) ∧
      (∀ k, ∃ objs s1, s.alloc k = some (objs, s1) ∧ objs.length = min k s._list.size ∧
        s1._allocated = s._allocated + min k s._list.size) ∧
      (∀ p ∈ out, (s.dealloc p)._allocated = s._allocated - 1 ∧ 1 ≤ s._allocated) ∧
      (∀ q ∈ s0._list._list, 0 < q ∧ q + 8 ≤ (Span.new ptr np).end_addr ∧ q + 8 < SIZE_T) := by
  have hsz : 1 ≤ sz := by omega
  obtain ⟨s0, hinit, ht0, ha0, hn0, hlen0⟩ := span_init_counters ptr np sz hsz
  obtain ⟨s, out, hrun, ht, hle, hn, hlen, hout⟩ :=
    span_run_counters (np * 8192 / sz) calls s0 [] ht0 (by omega) (by omega) hlen0
      (by rw [ha0]; rfl) (hlegal s0 hinit)
  refine ⟨s0, s, out, hinit, hrun, ht, by omega, by simp only [FreeList.size]; omega, hlen,
    hout, ?_, ?_, ?_, ?_, ?_⟩
  · simp only [Span.empty, beq_iff_eq]
    rw [← List.length_eq_zero, hlen, hn, ht]
    omega
  · simp only [Span.full, beq_iff_eq]
    rw [← List.length_eq_zero, hout]
  · intro k
    obtain ⟨objs, s1, ha, h1, h2, _⟩ := span_counters_alloc s out _ k ht hle hn hlen hout
    exact ⟨objs, s1, ha, h1, h2⟩
  · intro p hp
    obtain ⟨h1, h2, _⟩ := span_counters_dealloc s out _ p ht hle hn hlen hout hp
    exact ⟨h1, h2⟩
  · intro q hq
    have := span_init_slots (Span.new ptr np) sz hsz rfl s0 hinit q hq
    omega

/-- Witness for C15: a one-page span at address 81920 with objects of 2048 bytes; three
objects are taken, one of them is returned and five more are asked for, which empties the
free list. -/
theorem C15_span_counters_witness :
    ∃ s0 s out, (Span.new 81920 1).init_free_list 2048 = some s0 ∧
      Span.run callsSpan (s0, []) = some (s, out) ∧
      s._total = 1 * 8192 / 2048 ∧ s._allocated ≤ s._total ∧
      s._list.size = s._total - s._allocated ∧ s._list._list.length = s._list.size ∧
      out.length = s._allocated ∧
      (s.empty = true ↔ s._list._list = []) ∧ (s.full = true ↔ out = []) ∧
      (∀ k, ∃ objs s1, s.alloc k = some (objs, s1) ∧ objs.length = min k s._list.size ∧
        s1._allocated = s._allocated + min k s._list.size) ∧
      (∀ p ∈ out, (s.dealloc p)._allocated = s._allocated - 1 ∧ 1 ≤ s._allocated) ∧
      (∀ q ∈ s0._list._list, 0 < q ∧ q + 8 ≤ (Span.new 81920 1).end_addr ∧ q + 8 < SIZE_T) :=
  C15_span_counters 81920 1 2048 (by decide) (by decide) (by decide) callsSpan (fun s0 h => by
    have e : s0 = ⟨10, 1, STATUS.IDLE, ⟨[88064, 86016, 83968, 81920], 4⟩, 0, 4⟩ :=
      (Option.some.inj h).symm
    subst e
    intro st1 h1
    have e1 : st1 = (⟨10, 1, STATUS.IDLE, ⟨[81920], 1⟩, 3, 4⟩, [88064, 86016, 83968]) :=
      (Option.some.inj h1).symm
    subst e1
    refine ⟨by decide, ?_⟩
    intro st2 _
    trivial)

/-! ## The counters of the lists of a thread cache -/

theorem counted_setList (tc : ThreadCache) (c : Nat) (l : DynamicFreeList)
    (h : ThreadCache.Counted tc) (hl : l._n = l._list.length) :
    ThreadCache.Counted (tc.setList c l) := by
  intro k
  unfold ThreadCache.setList
  simp only
  split
  · exact hl
  · exact h k

theorem counted_congr (tc tcX : ThreadCache) (hX : tcX._lists = tc._lists)
    (h : ThreadCache.Counted tc) : ThreadCache.Counted tcX := by
  intro k
  rw [hX]
  exact h k

theorem counted_new : ThreadCache.Counted ThreadCache.new := fun _ => rfl

theorem dyn_pop_counted (l : DynamicFreeList) (p : Nat) (l2 : DynamicFreeList)
    (h : l.pop = some (p, l2)) (hc : l._n = l._list.length) :
    l2._n = l2._list.length := by
  have hl := dyn_pop l p l2 h
  obtain ⟨l1, h1, h2, h3⟩ := dyn_pop_some l p l2._list hl
    (by rw [hc, hl]; exact Nat.succ_le_succ (Nat.zero_le _))
  rw [h] at h1
  have e : l2 = l1 := (Prod.mk.inj (Option.some.inj h1)).2
  subst e
  have h4 : l2._n = l._n - 1 := h3
  rw [h4, hc, hl]
  rfl

theorem dyn_pop_batch_counted (l : DynamicFreeList) (k : Nat) (batch : List Nat)
    (l2 : DynamicFreeList) (h : l.pop_batch k = some (batch, l2))
    (hc : l._n = l._list.length) : l2._n = l2._list.length := by
  obtain ⟨hk, _, hl⟩ := dyn_pop_batch l k batch l2 h
  obtain ⟨l1, h1, h2, _⟩ := dyn_pop_batch_low_water l k hk (by omega)
  rw [h] at h1
  have e : l2 = l1 := (Prod.mk.inj (Option.some.inj h1)).2
  subst e
  have h4 : l2._n = l._n - k := h2
  rw [h4, hl, List.length_drop, hc]

theorem return_batches_counted (c bs : Nat) :
    ∀ (fuel : Nat) (w : World) (list : DynamicFreeList) (n : Nat),
      list._n = list._list.length → ∀ w1 list1 n1,
      ThreadCache.return_batches c bs fuel w list n = some (w1, list1, n1) →
      list1._n = list1._list.length := by
  intro fuel
  induction fuel with
  | zero =>
    intro w list n hc w1 list1 n1 hr
    unfold ThreadCache.return_batches at hr
    split at hr
    · cases hr
    · cases hr
      exact hc
  | succ fuel ih =>
    intro w list n hc w1 list1 n1 hr
    unfold ThreadCache.return_batches at hr
    split at hr
    · cases hpb : list.pop_batch bs with
      | none => rw [hpb] at hr; cases hr
      | some r =>
        obtain ⟨batch, lst1⟩ := r
        rw [hpb] at hr
        simp only at hr
        cases hd : CentralCache.dealloc w c batch bs with
        | none => rw [hd] at hr; cases hr
        | some wA =>
          rw [hd] at hr
          exact ih wA lst1 (n - bs) (dyn_pop_batch_counted list bs batch lst1 hpb hc)
            w1 list1 n1 hr
    · cases hr
      exact hc

theorem return_to_central_counted (sc : Nat → SizeClassInfo) (w : World) (tc : ThreadCache)
    (c n : Nat) (h : ThreadCache.Counted tc) (w1 : World) (tc1 : ThreadCache)
    (hr : ThreadCache.return_to_central_cache sc w tc c n = some (w1, tc1)) :
    ThreadCache.Counted tc1 := by
  unfold ThreadCache.return_to_central_cache at hr
  split at hr
  · cases hr
  split at hr
  · cases hr; exact h
  simp only at hr
  split at hr
  · cases hr
  generalize hn2 : (if (tc._lists c).size < n then (tc._lists c).size else n) = n2 at hr
  cases hrb : ThreadCache.return_batches c (SizeMap.num_to_move sc c) n2 w (tc._lists c) n2 with
  | none => rw [hrb] at hr; cases hr
  | some r =>
    obtain ⟨wA, listA, nA⟩ := r
    rw [hrb] at hr
    simp only at hr
    have hA := return_batches_counted c _ n2 w (tc._lists c) n2 (h c) wA listA nA hrb
    by_cases hnA : nA > 0
    · rw [if_pos hnA] at hr
      cases hpb : listA.pop_batch nA with
      | none => rw [hpb] at hr; cases hr
      | some r2 =>
        obtain ⟨batch, list2⟩ := r2
        rw [hpb] at hr
        simp only at hr
        cases hd : CentralCache.dealloc wA c batch nA with
        | none => rw [hd] at hr; cases hr
        | some wB =>
          rw [hd] at hr
          simp only [Option.some.injEq, Prod.mk.injEq] at hr
          obtain ⟨_, hr2⟩ := hr
          subst hr2
          exact counted_setList _ c list2 (counted_congr tc _ rfl h)
            (dyn_pop_batch_counted listA nA batch list2 hpb hA)
    · rw [if_neg hnA] at hr
      simp only [Option.some.injEq, Prod.mk.injEq] at hr
      obtain ⟨_, hr2⟩ := hr
      subst hr2
      exact counted_setList _ c listA (counted_congr tc _ rfl h) hA

theorem list_too_long_counted (sc : Nat → SizeClassInfo) (w : World) (tc : ThreadCache)
    (c : Nat) (h : ThreadCache.Counted tc) (w1 : World) (tc1 : ThreadCache)
    (hr : ThreadCache.list_too_long sc w tc c = some (w1, tc1)) :
    ThreadCache.Counted tc1 := by
  unfold ThreadCache.list_too_long at hr
  split at hr
  · cases hr
  simp only at hr
  cases hrt : ThreadCache.return_to_central_cache sc w tc c
      (min (tc._lists c).size (SizeMap.num_to_move sc c)) with
  | none => rw [hrt] at hr; cases hr
  | some r =>
    obtain ⟨wA, tcA⟩ := r
    rw [hrt] at hr
    simp only at hr
    have hA := return_to_central_counted sc w tc c _ h wA tcA hrt
    split at hr
    · cases hr
      exact counted_setList tcA c _ hA (hA c)
    · split at hr
      · split at hr
        · cases hr
          exact counted_setList tcA c _ hA (hA c)
        · cases hr
          exact counted_setList tcA c _ hA (hA c)
      · cases hr
        exact hA

theorem thread_dealloc_counted (sc : Nat → SizeClassInfo) (w : World) (tc : ThreadCache)
    (c p : Nat) (h : ThreadCache.Counted tc) (w1 : World) (tc1 : ThreadCache)
    (hr : ThreadCache.dealloc sc w tc c p = some (w1, tc1)) :
    ThreadCache.Counted tc1 := by
  unfold ThreadCache.dealloc at hr
  split at hr
  · cases hr
  split at hr
  · cases hr; exact h
  simp only at hr
  have hpush : ThreadCache.Counted (tc.setList c
      { tc._lists c with toFreeList := (tc._lists c).toFreeList.push p }) := by
    refine counted_setList tc c _ h ?_
    show (tc._lists c)._n + 1 = (p :: (tc._lists c)._list).length
    rw [List.length_cons, h c]
  split at hr
  · refine list_too_long_counted sc w _ c ?_ w1 tc1 hr
    exact counted_congr (tc.setList c _) _ rfl hpush
  · cases hr
    exact counted_congr (tc.setList c _) _ rfl hpush

theorem thread_fetch_counted (os : OS) (sc : Nat → SizeClassInfo) (w : World)
    (tc : ThreadCache) (c : Nat) (h : ThreadCache.Counted tc) (p : Nat) (w1 : World)
    (tc1 : ThreadCache)
    (hr : ThreadCache.fetch_from_central_cache os sc w tc c = some (p, w1, tc1)) :
    ThreadCache.Counted tc1 := by
  unfold ThreadCache.fetch_from_central_cache at hr
  split at hr
  · cases hr
  simp only at hr
  split at hr
  · cases hr
  split at hr
  · cases hr
  cases hcc : CentralCache.alloc os sc w c (SizeMap.num_to_move sc c) with
  | none => rw [hcc] at hr; cases hr
  | some r =>
    obtain ⟨batch, wA⟩ := r
    rw [hcc] at hr
    simp only at hr
    split at hr
    · cases hr
      exact h
    · cases hpb : (tc._lists c).toFreeList.push_batch (batch.drop 1) (usub batch.length 1) with
      | none => rw [hpb] at hr; cases hr
      | some f =>
        rw [hpb] at hr
        simp only [Option.some.injEq, Prod.mk.injEq] at hr
        obtain ⟨_, _, hr3⟩ := hr
        subst hr3
        have hf : f._n = f._list.length := by
          unfold FreeList.push_batch at hpb
          split at hpb
          · cases hpb
          split at hpb
          · cases hpb
          · rename_i h1 h2
            cases hpb
            show (tc._lists c)._n + usub batch.length 1 = _
            rw [List.length_append, List.length_take, h c]
            omega
        refine counted_setList _ c _ (counted_congr tc _ rfl h) ?_
        split <;> exact hf

theorem thread_alloc_counted (os : OS) (sc : Nat → SizeClassInfo) (w : World)
    (tc : ThreadCache) (c : Nat) (h : ThreadCache.Counted tc) (p : Nat) (w1 : World)
    (tc1 : ThreadCache) (hr : ThreadCache.alloc os sc w tc c = some (p, w1, tc1)) :
    ThreadCache.Counted tc1 := by
  unfold ThreadCache.alloc at hr
  split at hr
  · cases hr
  simp only at hr
  have hgot : ∀ got : Option (Nat × World × ThreadCache),
      (∀ q wq tcq, got = some (q, wq, tcq) → ThreadCache.Counted tcq) →
      (match got with
        | none => none
        | some (object, w1, tc1) =>
          if object ≠ 0 then
            some (object, w1,
              { tc1 with _total_bytes := usub tc1._total_bytes (SizeMap.size sc c)
                         _stats := tc1._stats.allocated_incr 1 })
          else some (object, w1, tc1)) = some (p, w1, tc1) → ThreadCache.Counted tc1 := by
    intro got hg hm
    cases got with
    | none => cases hm
    | some r =>
      obtain ⟨q, wq, tcq⟩ := r
      simp only at hm
      have hq := hg q wq tcq rfl
      split at hm
      · cases hm
        exact counted_congr tcq _ rfl hq
      · cases hm
        exact hq
  refine hgot _ ?_ hr
  intro q wq tcq hg
  split at hg
  · cases hpop : (tc._lists c).pop with
    | none => rw [hpop] at hg; cases hg
    | some r =>
      obtain ⟨o, l⟩ := r
      rw [hpop] at hg
      simp only [Option.some.injEq, Prod.mk.injEq] at hg
      obtain ⟨_, _, hg3⟩ := hg
      subst hg3
      exact counted_setList tc c l h (dyn_pop_counted _ o l hpop (h c))
  · exact thread_fetch_counted os sc w tc c h q wq tcq hg

theorem thread_run_counted (os : OS) (sc : Nat → SizeClassInfo) (calls : List ThreadCall) :
    ∀ (st : World × ThreadCache × List (Nat × Nat)), ThreadCache.Counted st.2.1 →
      ∀ st1, ThreadCache.run os sc calls st = some st1 → ThreadCache.Counted st1.2.1 := by
  induction calls with
  | nil =>
    intro st h st1 hr
    cases hr
    exact h
  | cons call calls ih =>
    intro st h st1 hr
    unfold ThreadCache.run at hr
    split at hr
    · cases hr
    · rename_i st2 hstep
      refine ih st2 ?_ st1 hr
      cases call with
      | alloc c =>
        change (match ThreadCache.alloc os sc st.1 st.2.1 c with
          | none => none
          | some (p, w1, tc1) => some (w1, tc1, if p = 0 then st.2.2 else (p, c) :: st.2.2)) =
          some st2 at hstep
        cases ha : ThreadCache.alloc os sc st.1 st.2.1 c with
        | none => rw [ha] at hstep; cases hstep
        | some r =>
          obtain ⟨p, w1, tc1⟩ := r
          rw [ha] at hstep
          cases hstep
          exact thread_alloc_counted os sc st.1 st.2.1 c h p w1 tc1 ha
      | dealloc c p =>
        change (if (p, c) ∈ st.2.2 then
            match ThreadCache.dealloc sc st.1 st.2.1 c p with
            | none => none
            | some (w1, tc1) => some (w1, tc1, st.2.2.filter (fun e => decide (e.1 ≠ p)))
          else none) = some st2 at hstep
        split at hstep
        · cases hd : ThreadCache.dealloc sc st.1 st.2.1 c p with
          | none => rw [hd] at hstep; cases hstep
          | some r =>
            obtain ⟨w1, tc1⟩ := r
            rw [hd] at hstep
            cases hstep
            exact thread_dealloc_counted sc st.1 st.2.1 c p h w1 tc1 hd
        · cases hstep

/-! ## Returning cached objects to the Central Cache -/

theorem sa_alloc_total (os : OS) (hos : OS.Sane os) (sa : SystemAlloc) (x : Nat) :
    ∃ r, SystemAlloc.alloc os sa x Page.SIZE = some r := by
  rw [sa_alloc_page]
  by_cases h0 : sa._region.1 ≠ 0
  · rw [if_pos h0]
    by_cases hp : (SystemAlloc.alloc_from_region os sa (2 ^ 21) (2 ^ 21)).1.1 ≠ 0
    · rw [if_pos hp]
      exact ⟨_, rfl⟩
    · rw [if_neg hp]
      obtain ⟨p, a, s, he, _⟩ := alloc_from_new_region_spec os hos
        (SystemAlloc.alloc_from_region os sa (2 ^ 21) (2 ^ 21)).2
      exact ⟨_, he⟩
  · rw [if_neg h0]
    obtain ⟨p, a, s, he, _⟩ := alloc_from_new_region_spec os hos sa
    exact ⟨_, he⟩

/-- `PageHeap::fetch_from_system` returns (a span or null). -/
theorem fetch_total (os : OS) (hos : OS.Sane os) (w : World) (hi : HeapInv os w) (n : Nat) :
    ∃ r w1, PageHeap.fetch_from_system os w n = some (r, w1) := by
  obtain ⟨⟨⟨ptr, actual⟩, sa1⟩, hsa⟩ := sa_alloc_total os hos w.sa ((n * Page.SIZE) % SIZE_T)
  obtain ⟨_, _, _, hptr⟩ := sa_alloc_spec os hos w.sa hi.core.region _ ptr actual sa1 hsa
  unfold PageHeap.fetch_from_system
  rw [hsa]
  simp only
  by_cases hp0 : ptr = 0
  · rw [if_pos hp0]
    exact ⟨_, _, rfl⟩
  · rw [if_neg hp0]
    obtain ⟨hact, _⟩ := hptr hp0
    subst hact
    have hpg : (2 ^ 21 : Nat) % Page.SIZE = 0 := by decide
    rw [if_neg (by rw [hpg]; simp)]
    have hdiv : (2 ^ 21 : Nat) / Page.SIZE = 256 := by decide
    rw [hdiv]
    unfold PageHeap.create_span
    simp only [if_true]
    rw [add_to_list_eq _ (Span.new ptr 256) (by show 1 ≤ 256; omega)]
    exact ⟨_, _, rfl⟩

/-- `PageHeap::carve` returns when the span is registered and has the pages asked for. -/
theorem carve_total (w : World) (hwf : PageMap.WF w.pm) (s : Span) (hs : s ∈ w.pm) (n : Nat)
    (hn : n ≤ s._num_pages) :
    ∃ r w1, PageHeap.carve w s.start_addr n = some (r, w1) := by
  have hnp := hwf.1 s hs
  unfold PageHeap.carve
  rw [(get_eq_some_iff hwf _ s).2 ⟨hs, rfl⟩]
  simp only
  rw [if_neg (by omega), remove_from_list_eq _ _ hnp]
  simp only
  by_cases heq : s._num_pages = n
  · rw [if_pos heq]
    exact ⟨_, _, rfl⟩
  · rw [if_neg heq]
    rw [add_to_list_eq _ { s with _num_pages := s._num_pages - n }
      (by show 1 ≤ s._num_pages - n; omega)]
    simp only
    unfold PageHeap.create_span
    rw [if_neg (by decide)]
    exact ⟨_, _, rfl⟩

/-- `PageHeap::alloc(n)` returns (a span or null) for every request of 1 to 128 pages. -/
theorem alloc_total (os : OS) (hos : OS.Sane os) (w : World) (hi : HeapInv os w) (n : Nat)
    (hn1 : 1 ≤ n) (hn : n ≤ 128) : ∃ r w1, PageHeap.alloc os w n = some (r, w1) := by
  unfold PageHeap.alloc
  simp only
  generalize hpk : (if PageHeap.find_small w.ph (PageHeap._n - n) n = none
      then PageHeap.find_from_large w.ph n
      else PageHeap.find_small w.ph (PageHeap._n - n) n) = picked
  cases picked with
  | none =>
    simp only [if_true]
    obtain ⟨r0, w2, hf⟩ := fetch_total os hos w hi n
    rw [hf]
    obtain ⟨_, h2, h3⟩ := fetch_ok os hos w hi n _ _ hf
    rcases h3 with ⟨hr, _⟩ | ⟨s, hr, hs, _, hnp, _⟩
    · subst hr
      exact ⟨_, _, rfl⟩
    · subst hr
      simp only
      obtain ⟨res, w3, hcarve⟩ := carve_total
        { w2 with ph := { w2.ph with _stats := w2.ph._stats.allocated_incr n } } h2.wf s hs n
        (by omega)
      rw [hcarve]
      exact ⟨_, _, rfl⟩
  | some sp =>
    simp only [reduceCtorEq, if_false]
    obtain ⟨s, hs, hsx, _, hnp⟩ := alloc_pick w hi.core.lists hi.core.wf n sp hpk
    subst hsx
    obtain ⟨res, w3, hcarve⟩ := carve_total
      { w with ph := { w.ph with _stats := w.ph._stats.allocated_incr n } } hi.core.wf s hs n
      (by omega)
    rw [hcarve]
    exact ⟨_, _, rfl⟩

/-! ## The loop of `CentralCache::fetch_objects` returns -/

theorem held_nil (s : Span) : s.held [] = 0 := rfl

theorem sizeMap_n_eq : SizeMap._n = 2169 := by decide

theorem align_none (n : Nat) (h : 262144 < n) : SizeMap.align n = none := by
  have h1 : ¬ n ≤ 1024 := by omega
  have h2 : ¬ n ≤ 262144 := by omega
  simp only [SizeMap.align, SizeMap._large_size, SizeMap._max_size, h1, h2, if_false]

/-- C30: for every byte count `n` up to 262144 `SizeMap::align` returns an index below the
length 2169 of the lookup array; `align` is monotone on these byte counts; two byte counts
up to 1024 get the same index exactly when they round up to the same multiple of 8, two
byte counts in 1025..262144 exactly when they round up to the same multiple of 128; above
262144 the assertion fires and no index is produced. -/
theorem C30_align_buckets :
    SizeMap._n = 2169 ∧
    (∀ n, n ≤ 262144 → ∃ a, SizeMap.align n = some a ∧ a < SizeMap._n) ∧
    (∀ n m, n ≤ m → m ≤ 262144 →
      ∃ a b, SizeMap.align n = some a ∧ SizeMap.align m = some b ∧ a ≤ b) ∧
    (∀ n m, n ≤ 1024 → m ≤ 1024 →
      (SizeMap.align n = SizeMap.align m ↔ (n + 7) / 8 * 8 = (m + 7) / 8 * 8)) ∧
    (∀ n m, 1025 ≤ n → n ≤ 262144 → 1025 ≤ m → m ≤ 262144 →
      (SizeMap.align n = SizeMap.align m ↔ (n + 127) / 128 * 128 = (m + 127) / 128 * 128)) ∧
    (∀ n, 262144 < n → SizeMap.align n = none) := by
  have key : ∀ k, k ≤ 262144 → ∃ a, SizeMap.align k = some a ∧ a < 2169 := by
    intro k hk
    by_cases h1 : k ≤ 1024
    · exact ⟨_, align_eq_small k h1, by omega⟩
    · exact ⟨_, align_eq_large k (by omega) hk, by omega⟩
  refine ⟨sizeMap_n_eq, ?_, ?_, ?_, ?_, align_none⟩
  · intro n hn
    rw [sizeMap_n_eq]
    exact key n hn
  · intro n m hnm hm
    obtain ⟨a, ha, _⟩ := key n (by omega)
    obtain ⟨b, hb, _⟩ := key m hm
    exact ⟨a, b, ha, hb, align_mono n m a b hnm ha hb⟩
  · intro n m hn hm
    rw [align_eq_small n hn, align_eq_small m hm, Option.some.injEq]
    constructor
    · intro h; rw [h]
    · intro h; omega
  · intro n m hn1 hn hm1 hm
    rw [align_eq_large n (by omega) hn, align_eq_large m (by omega) hm, Option.some.injEq]
    constructor
    · intro h; omega
    · intro h; omega

/-- Witness for C30: the largest byte count, the two byte counts at the border of the small
and the large buckets, two byte counts of one small bucket, a byte count of the first large
bucket with one of the next, and the first byte count that is too large. -/
theorem C30_align_buckets_witness :
    (∃ a, SizeMap.align 262144 = some a ∧ a < SizeMap._n) ∧
    (∃ a b, SizeMap.align 1024 = some a ∧ SizeMap.align 1025 = some b ∧ a ≤ b) ∧
    (SizeMap.align 1017 = SizeMap.align 1024 ↔ (1017 + 7) / 8 * 8 = (1024 + 7) / 8 * 8) ∧
    (SizeMap.align 1025 = SizeMap.align 1153 ↔
      (1025 + 127) / 128 * 128 = (1153 + 127) / 128 * 128) ∧
    SizeMap.align 262145 = none :=
  ⟨C30_align_buckets.2.1 262144 (by decide),
    C30_align_buckets.2.2.1 1024 1025 (by decide) (by decide),
    C30_align_buckets.2.2.2.1 1017 1024 (by decide) (by decide),
    C30_align_buckets.2.2.2.2.1 1025 1153 (by decide) (by decide) (by decide) (by decide),
    C30_align_buckets.2.2.2.2.2 262145 (by decide)⟩

/-! ## The free lists of the Page Heap -/

/-- With `ListsOk` a registered IDLE span is on the list that `span_idx` selects, once, and
on no other list. -/
theorem idle_on_one_list (w : World) (hwf : PageMap.WF w.pm)
    (hl : PageHeap.ListsOk w.ph._lists w.pm) (s : Span) (hs : s ∈ w.pm)
    (hidle : s._status = STATUS.IDLE) :
    (∀ i, s.start_addr ∈ w.ph._lists i ↔ i = PageHeap.span_idx s) ∧
    (w.ph._lists (PageHeap.span_idx s)).count s.start_addr = 1 := by
  have hon : s.start_addr ∈ w.ph._lists (PageHeap.span_idx s) :=
    (hl.2 _ _).2 ⟨s, hs, rfl, hidle, rfl⟩
  refine ⟨fun i => ⟨fun hi => ?_, fun hi => hi ▸ hon⟩, ?_⟩
  · exact idleAt_inj hwf ((hl.2 _ _).1 hi) ⟨s, hs, rfl, hidle, rfl⟩
  · exact List.count_eq_one_of_mem (hl.1 _) hon

/-- With `ListsOk` every entry of a list is a registered IDLE span whose page count fits the
index of the list. -/
theorem listed_pages (w : World) (hwf : PageMap.WF w.pm)
    (hl : PageHeap.ListsOk w.ph._lists w.pm) (i x : Nat) (hx : x ∈ w.ph._lists i) :
    ∃ s ∈ w.pm, s.start_addr = x ∧ s._status = STATUS.IDLE ∧
      min s._num_pages 129 - 1 = i ∧ 1 ≤ s._num_pages := by
  obtain ⟨s, hs, hst, hidle, hidx⟩ := (hl.2 _ _).1 hx
  have h1 := hwf.1 s hs
  rw [span_idx_eq s h1] at hidx
  exact ⟨s, hs, hst, hidle, hidx, h1⟩

/-- C26: for an operating system whose successful mappings are non-null, 4096-aligned and
pairwise disjoint, after every sequence of `PageHeap::alloc(n)` (with `n ≥ 1`) and
`PageHeap::dealloc` calls that runs from the empty Page Heap: every entry of the list for
the page count `k` (the list with index `k - 1`, for `1 ≤ k ≤ 128`) is a registered IDLE
span of exactly `k` pages, every entry of the large list (index 128) is a registered IDLE
span of more than 128 pages, the lists with an index above 128 are empty, no list holds a
span twice, and every registered IDLE span is on the list that `span_idx` selects for it,
once, and on no other list. -/
theorem C26_free_list_invariant (os : OS) (hos : OS.Sane os) (calls : List HeapCall)
    (hv : ∀ c ∈ calls, HeapCall.valid c) (w : World) (live : List Nat)
    (h : PageHeap.run os calls (World.new, []) = some (w, live)) :
    (∀ k, 1 ≤ k → k ≤ 128 → ∀ x ∈ w.ph._lists (k - 1),
      ∃ s ∈ w.pm, s.start_addr = x ∧ s._status = STATUS.IDLE ∧ s._num_pages = k) ∧
    (∀ x ∈ w.ph._lists PageHeap._n,
      ∃ s ∈ w.pm, s.start_addr = x ∧ s._status = STATUS.IDLE ∧ 128 < s._num_pages) ∧
    (∀ i, PageHeap._n < i → w.ph._lists i = []) ∧
    (∀ i, (w.ph._lists i).Nodup) ∧
    (∀ s ∈ w.pm, s._status = STATUS.IDLE →
      PageHeap.span_idx s ≤ PageHeap._n ∧
      (∀ i, s.start_addr ∈ w.ph._lists i ↔ i = PageHeap.span_idx s) ∧
      (w.ph._lists (PageHeap.span_idx s)).count s.start_addr = 1) := by
  obtain ⟨hi, _⟩ := run_inv os hos calls (World.new, []) (heapInv_new os)
    (fun x hx => by cases hx) hv (w, live) h
  have hwf := hi.core.wf
  have hl := hi.core.lists
  refine ⟨?_, ?_, ?_, hl.1, ?_⟩
  · intro k hk1 hk x hx
    obtain ⟨s, hs, hst, hidle, hidx, h1⟩ := listed_pages w hwf hl _ x hx
    exact ⟨s, hs, hst, hidle, by omega⟩
  · intro x hx
    obtain ⟨s, hs, hst, hidle, hidx, h1⟩ := listed_pages w hwf hl _ x hx
    rw [pageHeap_n_eq] at hidx
    exact ⟨s, hs, hst, hidle, by omega⟩
  · intro i hgt
    rw [pageHeap_n_eq] at hgt
    apply List.eq_nil_iff_forall_not_mem.2
    intro x hx
    obtain ⟨s, hs, hst, hidle, hidx, h1⟩ := listed_pages w hwf hl _ x hx
    omega
  · intro s hs hidle
    exact ⟨span_idx_le s (hwf.1 s hs), idle_on_one_list w hwf hl s hs hidle⟩

theorem callsOnePage_valid : ∀ c ∈ callsOnePage, HeapCall.valid c := by
  intro c hc
  simp only [callsOnePage, List.mem_cons, List.mem_singleton, List.not_mem_nil, or_false] at hc
  rcases hc with rfl | rfl | rfl <;> simp [HeapCall.valid]

set_option maxRecDepth 100000 in
theorem run_callsOnePage :
    PageHeap.run demoOS callsOnePage (World.new, []) =
      some (heapOnePage,
        ((PageHeap.run demoOS callsOnePage (World.new, [])).getD (World.new, [])).2) :=
  getD_of_isSome (PageHeap.run demoOS callsOnePage (World.new, [])) (World.new, [])
    (by decide)

/-- Witness for C26: two one-page spans are taken from a fresh Page Heap and the first one
is given back; a one-page IDLE span is then on the list with index 0 and a 254-page IDLE
span on the large list. -/
theorem C26_free_list_invariant_witness :
    (∀ k, 1 ≤ k → k ≤ 128 → ∀ x ∈ heapOnePage.ph._lists (k - 1),
      ∃ s ∈ heapOnePage.pm, s.start_addr = x ∧ s._status = STATUS.IDLE ∧ s._num_pages = k) ∧
    (∀ x ∈ heapOnePage.ph._lists PageHeap._n,
      ∃ s ∈ heapOnePage.pm, s.start_addr = x ∧ s._status = STATUS.IDLE ∧
        128 < s._num_pages) ∧
    (∀ i, PageHeap._n < i → heapOnePage.ph._lists i = []) ∧
    (∀ i, (heapOnePage.ph._lists i).Nodup) ∧
    (∀ s ∈ heapOnePage.pm, s._status = STATUS.IDLE →
      PageHeap.span_idx s ≤ PageHeap._n ∧
      (∀ i, s.start_addr ∈ heapOnePage.ph._lists i ↔ i = PageHeap.span_idx s) ∧
      (heapOnePage.ph._lists (PageHeap.span_idx s)).count s.start_addr = 1) :=
  C26_free_list_invariant demoOS demoOS_sane callsOnePage callsOnePage_valid heapOnePage _
    run_callsOnePage

/-! ## `PageHeap::carve` -/

/-- Unlinking a listed IDLE span: afterwards it is on no list, and the other entries of the
lists are as before. -/
theorem unlink_facts (w : World) (hwf : PageMap.WF w.pm)
    (hl : PageHeap.ListsOk w.ph._lists w.pm) (s : Span) (hs : s ∈ w.pm)
    (hidle : s._status = STATUS.IDLE) (L1 : Nat → SpanList)
    (hL1 : L1 = setList w.ph._lists (PageHeap.span_idx s)
      ((w.ph._lists (PageHeap.span_idx s)).remove s.start_addr)) :
    (∀ i, s.start_addr ∉ L1 i) ∧
    (∀ i x, x ≠ s.start_addr → (x ∈ L1 i ↔ x ∈ w.ph._lists i)) ∧
    (∀ i, (L1 i).Nodup) := by
  subst hL1
  have hone := (idle_on_one_list w hwf hl s hs hidle).1
  refine ⟨fun i => ?_, fun i x hx => ?_, fun i => ?_⟩
  · by_cases hi : i = PageHeap.span_idx s
    · subst hi
      rw [setList_same]
      show s.start_addr ∉ (w.ph._lists (PageHeap.span_idx s)).erase s.start_addr
      rw [(hl.1 _).mem_erase_iff]
      exact fun h => h.1 rfl
    · rw [setList_other _ _ _ _ hi]
      exact fun h => hi ((hone i).1 h)
  · by_cases hi : i = PageHeap.span_idx s
    · subst hi
      rw [setList_same]
      show x ∈ (w.ph._lists (PageHeap.span_idx s)).erase s.start_addr ↔ _
      rw [(hl.1 _).mem_erase_iff]
      exact ⟨fun h => h.2, fun h => ⟨hx, h⟩⟩
    · rw [setList_other _ _ _ _ hi]
  · by_cases hi : i = PageHeap.span_idx s
    · subst hi
      rw [setList_same]
      exact (hl.1 _).erase _
    · rw [setList_other _ _ _ _ hi]
      exact hl.1 i

/-- The result of `carve` for a span of exactly `n` pages. -/
theorem carve_exact_eq (w : World) (hwf : PageMap.WF w.pm) (s : Span) (hs : s ∈ w.pm) :
    PageHeap.carve w s.start_addr s._num_pages =
      some (s.start_addr,
        { w with
          ph := ⟨setList w.ph._lists (PageHeap.span_idx s)
            ((w.ph._lists (PageHeap.span_idx s)).remove s.start_addr), w.ph._stats⟩
          pm := PageMap.set w.pm { s with _status := STATUS.USING } }) := by
  have hnp := hwf.1 s hs
  unfold PageHeap.carve
  rw [(get_eq_some_iff hwf _ s).2 ⟨hs, rfl⟩]
  simp only
  rw [if_neg (by omega), remove_from_list_eq _ _ hnp]
  simp only [if_true]

/-- The result of `carve` for a span of more than `n` pages. -/
theorem carve_split_eq (w : World) (hwf : PageMap.WF w.pm) (s : Span) (hs : s ∈ w.pm)
    (n : Nat) (hlt : n < s._num_pages) (s1 : Span)
    (hs1 : s1 = { s with _num_pages := s._num_pages - n }) (u : Span)
    (hu : u = ⟨s._first_page + (s._num_pages - n), n, STATUS.USING, FreeList.new, 0, 0⟩) :
    PageHeap.carve w s.start_addr n =
      some (u.start_addr,
        { w with
          ph := ⟨setList
            (setList w.ph._lists (PageHeap.span_idx s)
              ((w.ph._lists (PageHeap.span_idx s)).remove s.start_addr))
            (PageHeap.span_idx s1)
            ((setList w.ph._lists (PageHeap.span_idx s)
              ((w.ph._lists (PageHeap.span_idx s)).remove s.start_addr)
              (PageHeap.span_idx s1)).prepend s1.start_addr), w.ph._stats⟩
          pm := PageMap.set (PageMap.insert (PageMap.set w.pm s1)
            { u with _status := STATUS.IDLE }) u }) := by
  have hnp := hwf.1 s hs
  subst hs1 hu
  unfold PageHeap.carve
  rw [(get_eq_some_iff hwf _ s).2 ⟨hs, rfl⟩]
  simp only
  rw [if_neg (by omega), remove_from_list_eq _ _ hnp]
  simp only
  rw [if_neg (by omega)]
  rw [add_to_list_eq _ { s with _num_pages := s._num_pages - n }
    (by show 1 ≤ s._num_pages - n; omega)]
  simp only
  unfold PageHeap.create_span
  rw [if_neg (by decide)]
  simp only [Span.new, Span.page_addr, page_ofPtr_start, FreeList.new]
  rfl

set_option maxRecDepth 100000 in
/-- C22: for every Page Heap state whose registered spans are pairwise disjoint and whose
span lists hold exactly the registered IDLE spans, every registered IDLE span `s` (which is
then on its free list) and every `n` with `1 ≤ n ≤ s.num_pages`: `carve(s, n)` returns a
span `r` that is on no list, and leaves every list entry other than `s` in place. If `s`
has exactly `n` pages, `r` is `s` itself, now USING and otherwise unchanged (so `s` is
unlinked). Otherwise `s` is replaced by the IDLE span `s1` with the same first page and
`num_pages - n` pages, registered at the unchanged start address and linked once, on the
list with index `min(num_pages - n, 129) - 1`, and `r` is the new registered USING span `u`
of exactly `n` pages that starts at page `first_page + (num_pages - n)`. All other
registered spans are untouched. Scenario S3: `alloc(3)` then `alloc(5)` on a fresh Page
Heap (first page `P = 17055350528` of the 256 pages mapped) return USING spans at the pages
`P + 253` (3 pages) and `P + 248` (5 pages) and leave one IDLE span at `P` with 248 pages,
on the large list. -/
theorem C22_carve (w : World) (hwf : PageMap.WF w.pm)
    (hl : PageHeap.ListsOk w.ph._lists w.pm) (s : Span) (hs : s ∈ w.pm)
    (hidle : s._status = STATUS.IDLE) (n : Nat) (hn1 : 1 ≤ n) (hn : n ≤ s._num_pages) :
    (∃ r w1, PageHeap.carve w s.start_addr n = some (r, w1) ∧
      w1.sa = w.sa ∧ w1.cc = w.cc ∧
      (∀ i x, x ≠ s.start_addr → (x ∈ w1.ph._lists i ↔ x ∈ w.ph._lists i)) ∧
      (∀ i, r ∉ w1.ph._lists i) ∧
      (s._num_pages = n → r = s.start_addr ∧
        (∀ t, t ∈ w1.pm ↔ t = { s with _status := STATUS.USING } ∨ (t ∈ w.pm ∧ t ≠ s))) ∧
      (n < s._num_pages →
        ∃ s1 u : Span, s1 = { s with _num_pages := s._num_pages - n } ∧
          u = ⟨s._first_page + (s._num_pages - n), n, STATUS.USING, FreeList.new, 0, 0⟩ ∧
          r = u.start_addr ∧ s1.start_addr = s.start_addr ∧
          (∀ i, s.start_addr ∈ w1.ph._lists i ↔ i = min (s._num_pages - n) 129 - 1) ∧
          (w1.ph._lists (min (s._num_pages - n) 129 - 1)).count s.start_addr = 1 ∧
          (∀ t, t ∈ w1.pm ↔ t = u ∨ t = s1 ∨ (t ∈ w.pm ∧ t ≠ s)))) ∧
    stateS3.2 = [Page.start_addr (17055350528 + 248), Page.start_addr (17055350528 + 253)] ∧
    stateS3.1.pm.length = 3 ∧
    (⟨17055350528 + 253, 3, STATUS.USING, FreeList.new, 0, 0⟩ : Span) ∈ stateS3.1.pm ∧
    (⟨17055350528 + 248, 5, STATUS.USING, FreeList.new, 0, 0⟩ : Span) ∈ stateS3.1.pm ∧
    (⟨17055350528, 248, STATUS.IDLE, FreeList.new, 0, 0⟩ : Span) ∈ stateS3.1.pm ∧
    stateS3.1.ph._lists 128 = [Page.start_addr 17055350528] := by
  refine ⟨?_, by decide, by decide, by decide, by decide, by decide, by decide⟩
  have hnp := hwf.1 s hs
  obtain ⟨hu1, hu2, hu3⟩ := unlink_facts w hwf hl s hs hidle _ rfl
  have hsne : ∀ t ∈ w.pm, (t.start_addr ≠ s.start_addr ↔ t ≠ s) := fun t ht =>
    ⟨fun h e => h (e ▸ rfl), fun h e => h (wf_start_inj hwf ht hs e)⟩
  by_cases heq : s._num_pages = n
  · subst heq
    refine ⟨_, _, carve_exact_eq w hwf s hs, rfl, rfl, ?_, ?_, fun _ => ⟨rfl, fun t => ?_⟩,
      fun h => absurd h (lt_irrefl _)⟩
    · exact hu2
    · exact hu1
    · exact mem_set_iff hwf s { s with _status := STATUS.USING } hs rfl t
  · have hlt : n < s._num_pages := by omega
    have hs1np : 1 ≤ ({ s with _num_pages := s._num_pages - n } : Span)._num_pages := by
      show 1 ≤ s._num_pages - n
      omega
    have hidx : PageHeap.span_idx { s with _num_pages := s._num_pages - n } =
        min (s._num_pages - n) 129 - 1 := span_idx_eq _ hs1np
    have hstart : ({ s with _num_pages := s._num_pages - n } : Span).start_addr =
        s.start_addr := rfl
    have hustart : (⟨s._first_page + (s._num_pages - n), n, STATUS.USING, FreeList.new, 0, 0⟩ :
        Span).start_addr = s.start_addr + (s._num_pages - n) * 8192 := by
      rw [span_start_addr_eq, span_start_addr_eq]
      show (s._first_page + (s._num_pages - n)) * 8192 = _
      ring
    have hune : s.start_addr + (s._num_pages - n) * 8192 ≠ s.start_addr := by omega
    refine ⟨_, _, carve_split_eq w hwf s hs n hlt _ rfl _ rfl, rfl, rfl, ?_, ?_,
      fun h => absurd h heq, fun _ => ⟨_, _, rfl, rfl, rfl, rfl, ?_, ?_, ?_⟩⟩
    · -- the other entries
      intro i x hx
      show x ∈ setList _ _ _ i ↔ _
      rw [hstart]
      by_cases hi : i = PageHeap.span_idx { s with _num_pages := s._num_pages - n }
      · rw [hi, setList_same]
        show x ∈ s.start_addr :: _ ↔ _
        rw [List.mem_cons, ← hi]
        exact ⟨fun h => h.elim (fun e => absurd e hx) (fun h => (hu2 i x hx).1 h),
          fun h => Or.inr ((hu2 i x hx).2 h)⟩
      · rw [setList_other _ _ _ _ hi]
        exact hu2 i x hx
    · -- the span returned is on no list
      intro i
      rw [hustart]
      show _ ∉ setList _ _ _ i
      rw [hstart]
      have hold : ∀ j, s.start_addr + (s._num_pages - n) * 8192 ∉ w.ph._lists j := by
        intro j hj
        obtain ⟨t, ht, hts, _, _⟩ := (hl.2 j _).1 hj
        rcases hwf.2 t ht s hs with e | d
        · rw [e] at hts
          omega
        · have h1 := span_end_addr_eq s
          have h2 := span_end_addr_eq t
          have h3 := hwf.1 t ht
          simp only [Span.disjoint] at d
          omega
      by_cases hi : i = PageHeap.span_idx { s with _num_pages := s._num_pages - n }
      · rw [hi, setList_same]
        show _ ∉ s.start_addr :: _
        rw [List.mem_cons, ← hi]
        exact fun h => h.elim hune (fun h => hold i ((hu2 i _ hune).1 h))
      · rw [setList_other _ _ _ _ hi]
        exact fun h => hold i ((hu2 i _ hune).1 h)
    · -- the remainder is on the list for its page count, and on no other
      intro i
      show s.start_addr ∈ setList _ _ _ i ↔ _
      rw [hstart, ← hidx]
      by_cases hi : i = PageHeap.span_idx { s with _num_pages := s._num_pages - n }
      · rw [hi, setList_same]
        exact ⟨fun _ => rfl, fun _ => List.mem_cons_self _ _⟩
      · rw [setList_other _ _ _ _ hi]
        exact ⟨fun h => absurd h (hu1 i), fun h => absurd h hi⟩
    · show (setList _ _ _ _).count s.start_addr = 1
      rw [hstart, ← hidx, setList_same]
      show (s.start_addr :: _).count s.start_addr = 1
      rw [List.count_cons_self, List.count_eq_zero_of_not_mem (hu1 _)]
    · -- the registered spans
      intro t
      rw [mem_set, mem_insert, mem_set]
      have hnewstart : ({ (⟨s._first_page + (s._num_pages - n), n, STATUS.USING, FreeList.new,
          0, 0⟩ : Span) with _status := STATUS.IDLE }).start_addr =
          s.start_addr + (s._num_pages - n) * 8192 := hustart
      rw [hnewstart, hustart, hstart]
      have hfree : ∀ t ∈ w.pm, t ≠ s →
          t.start_addr ≠ s.start_addr + (s._num_pages - n) * 8192 := by
        intro t ht hts e
        rcases hwf.2 t ht s hs with e1 | d
        · exact hts e1
        · have h1 := span_end_addr_eq s
          have h2 := span_end_addr_eq t
          have h3 := hwf.1 t ht
          simp only [Span.disjoint] at d
          omega
      constructor
      · rintro (⟨h, _⟩ | ⟨h | ⟨⟨h, _⟩ | ⟨h1, h2⟩, _⟩, hne⟩)
        · exact Or.inl h
        · exact absurd (by rw [h]; exact hnewstart) hne
        · exact Or.inr (Or.inl h)
        · exact Or.inr (Or.inr ⟨h1, (hsne t h1).1 h2⟩)
      · rintro (h | h | ⟨h1, h2⟩)
        · exact Or.inl ⟨h, _, (mem_insert _ _ _).2 (Or.inl rfl), hnewstart⟩
        · refine Or.inr ⟨Or.inr ⟨Or.inl ⟨h, s, hs, rfl⟩, ?_⟩, ?_⟩
          · rw [h, hstart]; exact hune.symm
          · rw [h, hstart]; exact hune.symm
        · exact Or.inr ⟨Or.inr ⟨Or.inr ⟨h1, (hsne t h1).2 h2⟩, hfree t h1 h2⟩, hfree t h1 h2⟩

theorem callsCarve_valid : ∀ c ∈ callsCarve, HeapCall.valid c := by
  intro c hc
  simp only [callsCarve, List.mem_singleton] at hc
  subst hc
  simp [HeapCall.valid]

set_option maxRecDepth 100000 in
theorem run_callsCarve :
    PageHeap.run demoOS callsCarve (World.new, []) =
      some (heapCarve,
        ((PageHeap.run demoOS callsCarve (World.new, [])).getD (World.new, [])).2) :=
  getD_of_isSome (PageHeap.run demoOS callsCarve (World.new, [])) (World.new, [])
    (by decide)

theorem heapCarve_inv : HeapInv demoOS heapCarve :=
  (run_inv demoOS demoOS_sane callsCarve (World.new, []) (heapInv_new demoOS)
    (fun x hx => by cases hx) callsCarve_valid _ run_callsCarve).1

set_option maxRecDepth 100000 in
theorem spanCarve_mem : spanCarve ∈ heapCarve.pm := by decide

/-- Witness for C22: the second call of scenario S3, `carve` of five pages from the IDLE
span of 253 pages that the first call left. -/
theorem C22_carve_witness :
    (∃ r w1, PageHeap.carve heapCarve spanCarve.start_addr 5 = some (r, w1) ∧
      w1.sa = heapCarve.sa ∧ w1.cc = heapCarve.cc ∧
      (∀ i x, x ≠ spanCarve.start_addr →
        (x ∈ w1.ph._lists i ↔ x ∈ heapCarve.ph._lists i)) ∧
      (∀ i, r ∉ w1.ph._lists i) ∧
      (spanCarve._num_pages = 5 → r = spanCarve.start_addr ∧
        (∀ t, t ∈ w1.pm ↔
          t = { spanCarve with _status := STATUS.USING } ∨ (t ∈ heapCarve.pm ∧ t ≠ spanCarve))) ∧
      (5 < spanCarve._num_pages →
        ∃ s1 u : Span, s1 = { spanCarve with _num_pages := spanCarve._num_pages - 5 } ∧
          u = ⟨spanCarve._first_page + (spanCarve._num_pages - 5), 5, STATUS.USING,
            FreeList.new, 0, 0⟩ ∧
          r = u.start_addr ∧ s1.start_addr = spanCarve.start_addr ∧
          (∀ i, spanCarve.start_addr ∈ w1.ph._lists i ↔
            i = min (spanCarve._num_pages - 5) 129 - 1) ∧
          (w1.ph._lists (min (spanCarve._num_pages - 5) 129 - 1)).count
            spanCarve.start_addr = 1 ∧
          (∀ t, t ∈ w1.pm ↔ t = u ∨ t = s1 ∨ (t ∈ heapCarve.pm ∧ t ≠ spanCarve)))) ∧
    stateS3.2 = [Page.start_addr (17055350528 + 248), Page.start_addr (17055350528 + 253)] ∧
    stateS3.1.pm.length = 3 ∧
    (⟨17055350528 + 253, 3, STATUS.USING, FreeList.new, 0, 0⟩ : Span) ∈ stateS3.1.pm ∧
    (⟨17055350528 + 248, 5, STATUS.USING, FreeList.new, 0, 0⟩ : Span) ∈ stateS3.1.pm ∧
    (⟨17055350528, 248, STATUS.IDLE, FreeList.new, 0, 0⟩ : Span) ∈ stateS3.1.pm ∧
    stateS3.1.ph._lists 128 = [Page.start_addr 17055350528] :=
  C22_carve heapCarve heapCarve_inv.core.wf heapCarve_inv.core.lists spanCarve spanCarve_mem
    rfl 5 (by decide) (by decide)

/-! ## The search of `PageHeap::alloc` -/

set_option maxRecDepth 1000000 in
/-- C23: the search loop of `PageHeap::alloc(n)` starts at the list with index `n`, which
holds the spans of `n + 1` pages, so the list of the `n`-page spans (index `n - 1`) is never
looked at. First scenario: after `alloc(1)`, `alloc(1)` and `dealloc` of the first span, an
IDLE span of one page (page `P + 255`, `P = 17055350528`) is on the list with index 0 and an
IDLE span of 254 pages on the large list; `alloc(1)` then returns the new span at page
`P + 253`, split from the large span, and the one-page span stays IDLE on its list. Second
scenario: after `alloc(128)` an IDLE span of 128 pages is on the list with index 127 and no
other list holds a span; `alloc(128)` then takes another 2 MiB from the System Allocator and
returns a span split from them, and the 128-page span stays on its list. -/
theorem C23_alloc_skips_exact_fit :
    heapOnePage.ph._lists 0 = [Page.start_addr (17055350528 + 255)] ∧
    heapOnePage.ph._lists PageHeap._n = [Page.start_addr 17055350528] ∧
    (⟨17055350528 + 255, 1, STATUS.IDLE, FreeList.new, 0, 0⟩ : Span) ∈ heapOnePage.pm ∧
    (⟨17055350528, 254, STATUS.IDLE, FreeList.new, 0, 0⟩ : Span) ∈ heapOnePage.pm ∧
    (PageHeap.alloc demoOS heapOnePage 1).map
        (fun r => (r.1, r.2.ph._lists 0, r.2.ph._lists PageHeap._n,
          decide ((⟨17055350528 + 255, 1, STATUS.IDLE, FreeList.new, 0, 0⟩ : Span) ∈ r.2.pm),
          decide ((⟨17055350528, 253, STATUS.IDLE, FreeList.new, 0, 0⟩ : Span) ∈ r.2.pm),
          decide ((⟨17055350528 + 253, 1, STATUS.USING, FreeList.new, 0, 0⟩ : Span) ∈ r.2.pm))) =
      some (some (Page.start_addr (17055350528 + 253)), [Page.start_addr (17055350528 + 255)],
        [Page.start_addr 17055350528], true, true, true) ∧
    heapHalf.ph._lists 127 = [Page.start_addr 17055350528] ∧
    (∀ i, i ≤ PageHeap._n → i ≠ 127 → heapHalf.ph._lists i = []) ∧
    (⟨17055350528, 128, STATUS.IDLE, FreeList.new, 0, 0⟩ : Span) ∈ heapHalf.pm ∧
    heapHalf.sa._stats._allocated = 2097152 ∧
    (PageHeap.alloc demoOS heapHalf 128).map
        (fun r => (r.1, r.2.ph._lists 127, r.2.sa._stats._allocated,
          decide ((⟨17055350528, 128, STATUS.IDLE, FreeList.new, 0, 0⟩ : Span) ∈ r.2.pm),
          decide ((⟨17055350528 - 128, 128, STATUS.USING, FreeList.new, 0, 0⟩ : Span) ∈
            r.2.pm))) =
      some (some (Page.start_addr (17055350528 - 128)),
        [Page.start_addr (17055350528 - 256), Page.start_addr 17055350528], 4194304,
        true, true) := by
  refine ⟨by decide, by decide, by decide, by decide, by decide, by decide, ?_, by decide,
    by decide, by decide⟩
  intro i hi hne
  rw [pageHeap_n_eq] at hi
  interval_cases i <;> first | exact absurd rfl hne | decide

/-! ## The quota fields of the lists of the thread cache -/

theorem dyn_pop_quota (l : DynamicFreeList) (p : Nat) (l2 : DynamicFreeList)
    (h : l.pop = some (p, l2)) :
    l2._max_length = l._max_length ∧ l2._length_overages = l._length_overages := by
  unfold DynamicFreeList.pop at h
  simp only at h
  split at h
  · cases h
  · rename_i q f hf
    simp only [Option.some.injEq, Prod.mk.injEq] at h
    obtain ⟨_, h2⟩ := h
    subst h2
    split <;> exact ⟨rfl, rfl⟩

theorem dyn_pop_batch_quota (l : DynamicFreeList) (k : Nat) (batch : List Nat)
    (l2 : DynamicFreeList) (h : l.pop_batch k = some (batch, l2)) :
    l2._max_length = l._max_length ∧ l2._length_overages = l._length_overages := by
  unfold DynamicFreeList.pop_batch at h
  split at h
  · cases h
  · rename_i b f hf
    simp only [Option.some.injEq, Prod.mk.injEq] at h
    obtain ⟨_, h2⟩ := h
    subst h2
    split <;> exact ⟨rfl, rfl⟩

theorem return_batches_quota (c bs : Nat) :
    ∀ (fuel : Nat) (w : World) (list : DynamicFreeList) (n : Nat) (w1 : World)
      (list1 : DynamicFreeList) (n1 : Nat),
      ThreadCache.return_batches c bs fuel w list n = some (w1, list1, n1) →
      list1._max_length = list._max_length ∧
        list1._length_overages = list._length_overages := by
  intro fuel
  induction fuel with
  | zero =>
    intro w list n w1 list1 n1 h
    simp only [ThreadCache.return_batches] at h
    split at h
    · cases h
    · simp only [Option.some.injEq, Prod.mk.injEq] at h
      obtain ⟨_, h2, _⟩ := h
      subst h2
      exact ⟨rfl, rfl⟩
  | succ f ih =>
    intro w list n w1 list1 n1 h
    simp only [ThreadCache.return_batches] at h
    split at h
    · cases hpb : list.pop_batch bs with
      | none => rw [hpb] at h; cases h
      | some r =>
        obtain ⟨batch, l2⟩ := r
        rw [hpb] at h
        simp only at h
        cases hd : CentralCache.dealloc w c batch bs with
        | none => rw [hd] at h; cases h
        | some wA =>
          rw [hd] at h
          simp only at h
          obtain ⟨h1, h2⟩ := ih _ _ _ _ _ _ h
          obtain ⟨h3, h4⟩ := dyn_pop_batch_quota list bs batch l2 hpb
          exact ⟨h1.trans h3, h2.trans h4⟩
    · simp only [Option.some.injEq, Prod.mk.injEq] at h
      obtain ⟨_, h2, _⟩ := h
      subst h2
      exact ⟨rfl, rfl⟩

/-- `return_to_central_cache` leaves the quota fields of the list alone, and the other
lists altogether. -/
theorem return_to_central_quota (sc : Nat → SizeClassInfo) (w : World) (tc : ThreadCache)
    (c n : Nat) (w1 : World) (tc1 : ThreadCache)
    (hr : ThreadCache.return_to_central_cache sc w tc c n = some (w1, tc1)) :
    (tc1._lists c)._max_length = (tc._lists c)._max_length ∧
    (tc1._lists c)._length_overages = (tc._lists c)._length_overages ∧
    (∀ j, j ≠ c → tc1._lists j = tc._lists j) := by
  unfold ThreadCache.return_to_central_cache at hr
  split at hr
  · cases hr
  split at hr
  · simp only [Option.some.injEq, Prod.mk.injEq] at hr
    obtain ⟨_, h2⟩ := hr
    subst h2
    exact ⟨rfl, rfl, fun _ _ => rfl⟩
  simp only at hr
  split at hr
  · cases hr
  split at hr
  · cases hr
  · rename_i wA listA nA hrb
    obtain ⟨hA1, hA2⟩ := return_batches_quota _ _ _ _ _ _ _ _ _ hrb
    split at hr
    · split at hr
      · cases hr
      · rename_i batch list2 hpb
        obtain ⟨hB1, hB2⟩ := dyn_pop_batch_quota _ _ _ _ hpb
        split at hr
        · cases hr
        · simp only [Option.some.injEq, Prod.mk.injEq] at hr
          obtain ⟨_, h2⟩ := hr
          subst h2
          refine ⟨?_, ?_, fun j hj => ?_⟩
          · show (if c = c then list2 else _)._max_length = _
            rw [if_pos rfl, hB1, hA1]
          · show (if c = c then list2 else _)._length_overages = _
            rw [if_pos rfl, hB2, hA2]
          · show (if j = c then list2 else _) = _
            rw [if_neg hj]
    · simp only [Option.some.injEq, Prod.mk.injEq] at hr
      obtain ⟨_, h2⟩ := hr
      subst h2
      refine ⟨?_, ?_, fun j hj => ?_⟩
      · show (if c = c then listA else _)._max_length = _
        rw [if_pos rfl, hA1]
      · show (if c = c then listA else _)._length_overages = _
        rw [if_pos rfl, hA2]
      · show (if j = c then listA else _) = _
        rw [if_neg hj]

/-- What `list_too_long` does after `return_to_central_cache`: the chain and the counter of
the list and all other lists are as `return_to_central_cache` left them, and the quota
fields change as the three branches of the source say. -/
theorem list_too_long_spec (sc : Nat → SizeClassInfo) (w : World) (tc : ThreadCache)
    (c : Nat) (w1 : World) (tc1 : ThreadCache)
    (hr : ThreadCache.list_too_long sc w tc c = some (w1, tc1)) :
    ∃ tcA, ThreadCache.return_to_central_cache sc w tc c
        (min (tc._lists c).size (SizeMap.num_to_move sc c)) = some (w1, tcA) ∧
      (∀ j, j ≠ c → tc1._lists j = tcA._lists j) ∧
      (tc1._lists c).toFreeList = (tcA._lists c).toFreeList ∧
      ((tc._lists c)._max_length < SizeMap.num_to_move sc c →
        (tc1._lists c)._max_length = (tc._lists c)._max_length + 1 ∧
        (tc1._lists c)._length_overages = (tc._lists c)._length_overages) ∧
      ((tc._lists c)._max_length = SizeMap.num_to_move sc c →
        (tc1._lists c)._max_length = (tc._lists c)._max_length ∧
        (tc1._lists c)._length_overages = (tc._lists c)._length_overages) ∧
      (SizeMap.num_to_move sc c < (tc._lists c)._max_length →
        (tc._lists c)._length_overages + 1 ≤ ThreadCache._max_overages →
        (tc1._lists c)._max_length = (tc._lists c)._max_length ∧
        (tc1._lists c)._length_overages = (tc._lists c)._length_overages + 1) ∧
      (SizeMap.num_to_move sc c < (tc._lists c)._max_length →
        ThreadCache._max_overages < (tc._lists c)._length_overages + 1 →
        (tc1._lists c)._max_length = (tc._lists c)._max_length - SizeMap.num_to_move sc c ∧
        (tc1._lists c)._length_overages = 0) := by
  unfold ThreadCache.list_too_long at hr
  split at hr
  · cases hr
  simp only at hr
  cases hrt : ThreadCache.return_to_central_cache sc w tc c
      (min (tc._lists c).size (SizeMap.num_to_move sc c)) with
  | none => rw [hrt] at hr; cases hr
  | some r =>
    obtain ⟨wA, tcA⟩ := r
    rw [hrt] at hr
    simp only at hr
    obtain ⟨hq1, hq2, _⟩ := return_to_central_quota sc w tc c _ wA tcA hrt
    rw [← hq1, ← hq2]
    split at hr
    · rename_i hlt
      simp only [Option.some.injEq, Prod.mk.injEq] at hr
      obtain ⟨h1, h2⟩ := hr
      subst h1 h2
      refine ⟨tcA, rfl, fun j hj => ?_, ?_, fun _ => ?_, fun h => ?_, fun h => ?_, fun h => ?_⟩
      · show (if j = c then _ else tcA._lists j) = _
        rw [if_neg hj]
      · show (if c = c then _ else tcA._lists c).toFreeList = _
        rw [if_pos rfl]
      · simp only [ThreadCache.setList, if_true]
        exact ⟨trivial, trivial⟩
      · omega
      · omega
      · omega
    · rename_i hge
      split at hr
      · rename_i hgt
        split at hr
        · rename_i hov
          simp only [Option.some.injEq, Prod.mk.injEq] at hr
          obtain ⟨h1, h2⟩ := hr
          subst h1 h2
          refine ⟨tcA, rfl, fun j hj => ?_, ?_, fun h => ?_, fun h => ?_, fun _ h => ?_,
            fun _ _ => ?_⟩
          · show (if j = c then _ else tcA._lists j) = _
            rw [if_neg hj]
          · show (if c = c then _ else tcA._lists c).toFreeList = _
            rw [if_pos rfl]
            rfl
          · omega
          · omega
          · exact absurd hov (by show ¬ _ > _; omega)
          · simp only [ThreadCache.setList, if_true, DynamicFreeList.max_length_decr]
            exact ⟨usub_of_le _ _ (by omega), trivial⟩
        · rename_i hov
          simp only [Option.some.injEq, Prod.mk.injEq] at hr
          obtain ⟨h1, h2⟩ := hr
          subst h1 h2
          refine ⟨tcA, rfl, fun j hj => ?_, ?_, fun h => ?_, fun h => ?_, fun _ _ => ?_,
            fun _ h => ?_⟩
          · show (if j = c then _ else tcA._lists j) = _
            rw [if_neg hj]
          · show (if c = c then _ else tcA._lists c).toFreeList = _
            rw [if_pos rfl]
          · omega
          · omega
          · simp only [ThreadCache.setList, if_true]
            exact ⟨trivial, trivial⟩
          · exact absurd h (by show ¬ _ < _; exact fun h2 => hov h2)
      · simp only [Option.some.injEq, Prod.mk.injEq] at hr
        obtain ⟨h1, h2⟩ := hr
        subst h1 h2
        exact ⟨_, rfl, fun _ _ => rfl, rfl, fun h => by omega, fun _ => ⟨rfl, rfl⟩,
          fun h => by omega, fun h => by omega⟩

/-! ## `ThreadCache::list_too_long` -/

theorem return_batches_zero (c bs : Nat) (hbs : 1 ≤ bs) (fuel : Nat) (w : World)
    (list : DynamicFreeList) :
    ThreadCache.return_batches c bs fuel w list 0 = some (w, list, 0) := by
  cases fuel with
  | zero =>
    simp only [ThreadCache.return_batches]
    rw [if_neg (by omega)]
  | succ f =>
    simp only [ThreadCache.return_batches]
    rw [if_neg (by omega)]

/-- A request to return at most one batch, and no more than the list holds, is served by
one `pop_batch` and one call of `CentralCache::dealloc`. -/
theorem return_small_eq (sc : Nat → SizeClassInfo) (w : World) (tc : ThreadCache) (c n : Nat)
    (hc : c > 0 ∧ c < SizeMap.size_class_size)
    (hbs : SizeMap.num_to_move sc c ≤ SizeMap.max_move) (hn1 : 1 ≤ n)
    (hn : n ≤ SizeMap.num_to_move sc c) (hsz : n ≤ (tc._lists c).size)
    (batch : List Nat) (l2 : DynamicFreeList)
    (hpb : (tc._lists c).pop_batch n = some (batch, l2)) (w1 : World)
    (hd : CentralCache.dealloc w c batch n = some w1) :
    ThreadCache.return_to_central_cache sc w tc c n =
      some (w1, ThreadCache.setList
        { tc with _total_bytes := usub tc._total_bytes (n * SizeMap.size sc c)
                  _stats := tc._stats.returned_incr n } c l2) := by
  unfold ThreadCache.return_to_central_cache
  rw [if_neg (not_not.2 hc), if_neg (by omega)]
  simp only [if_neg (not_not.2 hbs)]
  rw [if_neg (by omega : ¬ (tc._lists c).size < n)]
  obtain ⟨f, rfl⟩ : ∃ f, n = f + 1 := ⟨n - 1, by omega⟩
  simp only [ThreadCache.return_batches]
  by_cases hlt : f + 1 < SizeMap.num_to_move sc c
  · rw [if_neg (by omega)]
    simp only
    rw [if_pos (by omega)]
    simp only [hpb, hd]
  · have heq : f + 1 = SizeMap.num_to_move sc c := by omega
    rw [if_pos (by omega), ← heq]
    simp only [hpb, hd]
    rw [Nat.sub_self, return_batches_zero c (f + 1) (by omega)]
    simp only
    rw [if_neg (by omega)]

theorem list_too_long_returns (sc : Nat → SizeClassInfo) (w : World) (tc : ThreadCache)
    (c : Nat) (hc : c > 0 ∧ c < SizeMap.size_class_size) (wA : World) (tcA : ThreadCache)
    (hrt : ThreadCache.return_to_central_cache sc w tc c
      (min (tc._lists c).size (SizeMap.num_to_move sc c)) = some (wA, tcA)) :
    ∃ tc1, ThreadCache.list_too_long sc w tc c = some (wA, tc1) := by
  unfold ThreadCache.list_too_long
  rw [if_neg (not_not.2 hc)]
  simp only [hrt]
  split
  · exact ⟨_, rfl⟩
  · split
    · split
      · exact ⟨_, rfl⟩
      · exact ⟨_, rfl⟩
    · exact ⟨_, rfl⟩

/-- In a state that meets the invariant of the thread cache, `list_too_long` returns: the
`min(size, batch_size)` objects at the head of the list go to `CentralCache::dealloc` in
one call, and the quota fields change as the branches of the source say. -/
theorem list_too_long_total (os : OS) (hos : OS.Sane os) (sc : Nat → SizeClassInfo)
    (hsc : SizeMap.ClassesOk sc) (cls : Nat → Nat) (live : List (Nat × Nat)) (c : Nat)
    (hc : 0 < c ∧ c < SizeMap.size_class_size)
    (hbs : SizeMap.num_to_move sc c ≤ SizeMap.max_move)
    (w : World) (tc : ThreadCache) (h : ThreadInv os sc w tc live cls)
    (hcnt : ThreadCache.Counted tc) :
    ∃ w1 tc1, ThreadCache.list_too_long sc w tc c = some (w1, tc1) ∧
      CentralCache.dealloc w c
        ((tc._lists c)._list.take (min (tc._lists c).size (SizeMap.num_to_move sc c)))
        (min (tc._lists c).size (SizeMap.num_to_move sc c)) = some w1 ∧
      (tc1._lists c)._list =
        (tc._lists c)._list.drop (min (tc._lists c).size (SizeMap.num_to_move sc c)) ∧
      (tc1._lists c).size =
        (tc._lists c).size - min (tc._lists c).size (SizeMap.num_to_move sc c) ∧
      (∀ j, j ≠ c → tc1._lists j = tc._lists j) ∧
      ((tc._lists c)._max_length < SizeMap.num_to_move sc c →
        (tc1._lists c)._max_length = (tc._lists c)._max_length + 1 ∧
        (tc1._lists c)._length_overages = (tc._lists c)._length_overages) ∧
      ((tc._lists c)._max_length = SizeMap.num_to_move sc c →
        (tc1._lists c)._max_length = (tc._lists c)._max_length ∧
        (tc1._lists c)._length_overages = (tc._lists c)._length_overages) ∧
      (SizeMap.num_to_move sc c < (tc._lists c)._max_length →
        (tc._lists c)._length_overages + 1 ≤ ThreadCache._max_overages →
        (tc1._lists c)._max_length = (tc._lists c)._max_length ∧
        (tc1._lists c)._length_overages = (tc._lists c)._length_overages + 1) ∧
      (SizeMap.num_to_move sc c < (tc._lists c)._max_length →
        ThreadCache._max_overages < (tc._lists c)._length_overages + 1 →
        (tc1._lists c)._max_length = (tc._lists c)._max_length - SizeMap.num_to_move sc c ∧
        (tc1._lists c)._length_overages = 0) := by
  have hsz : (tc._lists c).size = (tc._lists c)._list.length := hcnt c
  generalize hk : min (tc._lists c).size (SizeMap.num_to_move sc c) = k
  have hk1 : k ≤ (tc._lists c).size := by omega
  have hk2 : k ≤ SizeMap.num_to_move sc c := by omega
  -- the call of `return_to_central_cache`
  have hA : ∃ wA tcA, ThreadCache.return_to_central_cache sc w tc c k = some (wA, tcA) ∧
      CentralCache.dealloc w c ((tc._lists c)._list.take k) k = some wA ∧
      (tcA._lists c)._list = (tc._lists c)._list.drop k ∧
      (tcA._lists c).size = (tc._lists c).size - k := by
    by_cases h0 : k = 0
    · subst h0
      refine ⟨w, tc, ?_, ?_, rfl, rfl⟩
      · unfold ThreadCache.return_to_central_cache
        rw [if_neg (not_not.2 hc), if_pos rfl]
      · unfold CentralCache.dealloc
        rw [if_neg (not_not.2 hc), if_pos rfl]
    · obtain ⟨l2, hpb, hl2s, _, _⟩ := dyn_pop_batch_low_water (tc._lists c) k (by omega)
        (by show k ≤ (tc._lists c).size; omega)
      obtain ⟨_, _, hl2⟩ := dyn_pop_batch (tc._lists c) k _ l2 hpb
      have hlen : ((tc._lists c)._list.take k).length = k := by
        rw [List.length_take]
        omega
      have htt : ((tc._lists c)._list.take k).take k = (tc._lists c)._list.take k :=
        List.take_of_length_le (by omega)
      obtain ⟨wA, hd⟩ := central_dealloc_returns os hos sc hsc cls c hc
        ((tc._lists c)._list.take k) k (by omega) w _ h.central
        (by rw [htt]; intro p hp; exact Or.inr (List.mem_of_mem_take hp))
        (by rw [htt]; exact (h.lists_nodup c).sublist (List.take_sublist _ _))
      refine ⟨wA, ThreadCache.setList
        { tc with _total_bytes := usub tc._total_bytes (k * SizeMap.size sc c)
                  _stats := tc._stats.returned_incr k } c l2, ?_, hd, ?_, ?_⟩
      · exact return_small_eq sc w tc c k hc hbs (by omega) hk2 hk1 _ l2 hpb wA hd
      · rw [setList_list, if_pos rfl]
        exact hl2
      · show (if c = c then l2 else _).size = _
        rw [if_pos rfl]
        exact hl2s
  obtain ⟨wA, tcA, hrt, hd, hlA, hsA⟩ := hA
  rw [← hk] at hrt
  obtain ⟨tc1, hr⟩ := list_too_long_returns sc w tc c hc wA tcA hrt
  obtain ⟨tcB, hrt2, hother, hfree, hq1, hq2, hq3, hq4⟩ :=
    list_too_long_spec sc w tc c wA tc1 hr
  rw [hrt] at hrt2
  simp only [Option.some.injEq, Prod.mk.injEq, true_and] at hrt2
  subst hrt2
  obtain ⟨_, _, hsame⟩ := return_to_central_quota sc w tc c _ wA tcA hrt
  refine ⟨wA, tc1, hr, hd, ?_, ?_, fun j hj => (hother j hj).trans (hsame j hj),
    hq1, hq2, hq3, hq4⟩
  · show (tc1._lists c).toFreeList._list = _
    rw [hfree]
    exact hlA
  · show (tc1._lists c).toFreeList._n = _
    rw [hfree]
    exact hsA

/-- A `dealloc` that overflows the list pushes the object and calls `list_too_long`. -/
theorem dealloc_overflow_eq (sc : Nat → SizeClassInfo) (w : World) (tc : ThreadCache)
    (c p : Nat) (hc : c > 0 ∧ c < SizeMap.size_class_size) (hp : p ≠ 0)
    (hover : (tc._lists c)._max_length < (tc._lists c).size + 1) :
    ThreadCache.dealloc sc w tc c p =
      ThreadCache.list_too_long sc w
        { (tc.setList c { tc._lists c with toFreeList := (tc._lists c).toFreeList.push p }) with
          _total_bytes := tc._total_bytes + SizeMap.size sc c
          _stats := tc._stats.deallocated_incr 1 } c := by
  unfold ThreadCache.dealloc
  rw [if_neg (not_not.2 hc), if_neg hp]
  simp only
  rw [if_pos (by
    show (tc._lists c)._max_length < (tc._lists c).toFreeList._n + 1
    exact hover)]

/-- C24, as the code has it: in every state reached by Thread Cache calls on a fresh
allocator (for an operating system whose successful mappings are non-null, 4096-aligned and
pairwise disjoint, and a table with `num_to_move(c) ≤ 128`), a `dealloc(c, p)` of a live
object that overflows the list (size after the push greater than `max_length`) returns;
`list_too_long(c)` removes exactly `k = min(size, batch_size)` objects from the head of
the list (`size` counted after the push, so `p` is the first of them) and hands them to
`CentralCache::dealloc` in one call; the other lists are untouched. Then, with the values
before the call: if `max_length < batch_size`, `max_length` grows by one; if
`max_length = batch_size`, neither `max_length` nor `length_overages` changes; if
`max_length > batch_size`, `length_overages` grows by one, unless the new value would
exceed `MAX_OVERAGES = 3`, in which case `max_length` shrinks by `batch_size` and
`length_overages` becomes 0. -/
theorem C24_overflow_adaptation (os : OS) (hos : OS.Sane os) (sc : Nat → SizeClassInfo)
    (hsc : SizeMap.ClassesOk sc) (c : Nat) (hc : 0 < c ∧ c < SizeMap.size_class_size)
    (hbs : SizeMap.num_to_move sc c ≤ SizeMap.max_move) (calls : List ThreadCall)
    (w : World) (tc : ThreadCache) (live : List (Nat × Nat))
    (hrun : ThreadCache.run os sc calls (World.new, ThreadCache.new, []) = some (w, tc, live))
    (p : Nat) (hp : (p, c) ∈ live)
    (hover : (tc._lists c)._max_length < (tc._lists c).size + 1) :
    ∃ w1 tc1, ThreadCache.dealloc sc w tc c p = some (w1, tc1) ∧
      CentralCache.dealloc w c
        ((p :: (tc._lists c)._list).take
          (min ((tc._lists c).size + 1) (SizeMap.num_to_move sc c)))
        (min ((tc._lists c).size + 1) (SizeMap.num_to_move sc c)) = some w1 ∧
      (tc1._lists c)._list = (p :: (tc._lists c)._list).drop
        (min ((tc._lists c).size + 1) (SizeMap.num_to_move sc c)) ∧
      (tc1._lists c).size = (tc._lists c).size + 1 -
        min ((tc._lists c).size + 1) (SizeMap.num_to_move sc c) ∧
      (∀ j, j ≠ c → tc1._lists j = tc._lists j) ∧
      ((tc._lists c)._max_length < SizeMap.num_to_move sc c →
        (tc1._lists c)._max_length = (tc._lists c)._max_length + 1 ∧
        (tc1._lists c)._length_overages = (tc._lists c)._length_overages) ∧
      ((tc._lists c)._max_length = SizeMap.num_to_move sc c →
        (tc1._lists c)._max_length = (tc._lists c)._max_length ∧
        (tc1._lists c)._length_overages = (tc._lists c)._length_overages) ∧
      (SizeMap.num_to_move sc c < (tc._lists c)._max_length →
        (tc._lists c)._length_overages + 1 ≤ ThreadCache._max_overages →
        (tc1._lists c)._max_length = (tc._lists c)._max_length ∧
        (tc1._lists c)._length_overages = (tc._lists c)._length_overages + 1) ∧
      (SizeMap.num_to_move sc c < (tc._lists c)._max_length →
        ThreadCache._max_overages < (tc._lists c)._length_overages + 1 →
        (tc1._lists c)._max_length = (tc._lists c)._max_length - SizeMap.num_to_move sc c ∧
        (tc1._lists c)._length_overages = 0) := by
  obtain ⟨cls, hinv⟩ := thread_run_inv os hos sc hsc calls (World.new, ThreadCache.new, [])
    (fun _ => 0) (threadInv_new os sc _) (w, tc, live) hrun
  have hcnt := thread_run_counted os sc calls (World.new, ThreadCache.new, []) counted_new
    (w, tc, live) hrun
  simp only at hinv hcnt
  have hp0 : p ≠ 0 := out_pos os hos sc hsc w cls _ hinv.central p c (Or.inl hp)
  rw [dealloc_overflow_eq sc w tc c p hc hp0 hover]
  have hinvP : ThreadInv os sc w
      { (tc.setList c { tc._lists c with toFreeList := (tc._lists c).toFreeList.push p }) with
        _total_bytes := tc._total_bytes + SizeMap.size sc c
        _stats := tc._stats.deallocated_incr 1 }
      (live.filter (fun e => decide (e.1 ≠ p))) cls := by
    refine threadInv_same os sc w (tc.setList c _) _ rfl _ cls ?_
    unfold ThreadInv
    refine cache_push os sc w _ _ live cls hinv c p hp ?_ ?_
    · simp only [setList_list, if_pos]
      rfl
    · intro k hk
      simp only [setList_list, if_neg hk]
  have hcntP : ThreadCache.Counted
      { (tc.setList c { tc._lists c with toFreeList := (tc._lists c).toFreeList.push p }) with
        _total_bytes := tc._total_bytes + SizeMap.size sc c
        _stats := tc._stats.deallocated_incr 1 } := by
    refine counted_congr (tc.setList c _) _ rfl (counted_setList tc c _ hcnt ?_)
    show (tc._lists c)._n + 1 = ((tc._lists c)._list).length + 1
    rw [hcnt c]
  obtain ⟨w1, tc1, hr, hd, hl, hs, hother, hq1, hq2, hq3, hq4⟩ :=
    list_too_long_total os hos sc hsc cls _ c hc hbs w _ hinvP hcntP
  have hlc : (ThreadCache.setList tc c
      { tc._lists c with toFreeList := (tc._lists c).toFreeList.push p })._lists c =
      { tc._lists c with toFreeList := (tc._lists c).toFreeList.push p } := by
    show (if c = c then _ else _) = _
    rw [if_pos rfl]
  simp only [hlc] at hd hl hs hq1 hq2 hq3 hq4
  refine ⟨w1, tc1, hr, hd, hl, hs, fun j hj => ?_, hq1, hq2, hq3, hq4⟩
  rw [hother j hj]
  show (if j = c then _ else tc._lists j) = _
  rw [if_neg hj]

/-! ## How the calls of the thread cache change the quota of a list -/

theorem quotaStep_refl (bs : Nat) (l : DynamicFreeList) : DynamicFreeList.QuotaStep bs l l :=
  Or.inl ⟨rfl, rfl⟩

theorem quotaStep_of_eq (bs : Nat) (l l1 : DynamicFreeList)
    (h1 : l1._max_length = l._max_length)
    (h2 : l1._length_overages = l._length_overages) : DynamicFreeList.QuotaStep bs l l1 :=
  Or.inl ⟨h1, h2⟩

/-- `fetch_from_central_cache` changes the quota of the list of its class by slow start or
by a refill step, and leaves the other lists alone. -/
theorem fetch_quota (os : OS) (sc : Nat → SizeClassInfo) (w : World) (tc : ThreadCache)
    (c p : Nat) (w1 : World) (tc1 : ThreadCache)
    (hr : ThreadCache.fetch_from_central_cache os sc w tc c = some (p, w1, tc1)) :
    DynamicFreeList.QuotaStep (SizeMap.num_to_move sc c) (tc._lists c) (tc1._lists c) ∧
    (∀ j, j ≠ c → tc1._lists j = tc._lists j) := by
  unfold ThreadCache.fetch_from_central_cache at hr
  split at hr
  · cases hr
  simp only at hr
  split at hr
  · cases hr
  split at hr
  · cases hr
  split at hr
  · cases hr
  · rename_i batch wA hcc
    split at hr
    · simp only [Option.some.injEq, Prod.mk.injEq] at hr
      obtain ⟨_, _, h3⟩ := hr
      subst h3
      exact ⟨quotaStep_refl _ _, fun _ _ => rfl⟩
    · split at hr
      · cases hr
      · rename_i f hf
        simp only [Option.some.injEq, Prod.mk.injEq] at hr
        obtain ⟨_, _, h3⟩ := hr
        subst h3
        refine ⟨?_, fun j hj => ?_⟩
        · show DynamicFreeList.QuotaStep _ _ (if c = c then _ else _)
          rw [if_pos rfl]
          by_cases hlt : (tc._lists c)._max_length < SizeMap.num_to_move sc c
          · rw [if_pos hlt]
            exact Or.inr (Or.inl ⟨hlt, rfl, rfl⟩)
          · rw [if_neg hlt]
            exact Or.inr (Or.inr (Or.inl ⟨by omega, rfl, rfl⟩))
        · show (if j = c then _ else _) = _
          rw [if_neg hj]

/-- `ThreadCache::alloc` changes the quota of the list of its class by slow start or by a
refill step, if at all, and leaves the quota of the other lists alone. -/
theorem thread_alloc_quota (os : OS) (sc : Nat → SizeClassInfo) (w : World)
    (tc : ThreadCache) (c p : Nat) (w1 : World) (tc1 : ThreadCache)
    (hr : ThreadCache.alloc os sc w tc c = some (p, w1, tc1)) :
    DynamicFreeList.QuotaStep (SizeMap.num_to_move sc c) (tc._lists c) (tc1._lists c) ∧
    (∀ j, j ≠ c → tc1._lists j = tc._lists j) := by
  unfold ThreadCache.alloc at hr
  split at hr
  · cases hr
  simp only at hr
  have key : ∀ (o : Nat) (wA : World) (tcA : ThreadCache),
      (if ¬ (tc._lists c).empty = true then
        match (tc._lists c).pop with
        | none => none
        | some (object, l) => some (object, w, tc.setList c l)
      else ThreadCache.fetch_from_central_cache os sc w tc c) = some (o, wA, tcA) →
      DynamicFreeList.QuotaStep (SizeMap.num_to_move sc c) (tc._lists c) (tcA._lists c) ∧
      (∀ j, j ≠ c → tcA._lists j = tc._lists j) := by
    intro o wA tcA hg
    split at hg
    · split at hg
      · cases hg
      · rename_i q l hpop
        simp only [Option.some.injEq, Prod.mk.injEq] at hg
        obtain ⟨_, _, h3⟩ := hg
        subst h3
        obtain ⟨h1, h2⟩ := dyn_pop_quota _ _ _ hpop
        refine ⟨?_, fun j hj => ?_⟩
        · show DynamicFreeList.QuotaStep _ _ (if c = c then _ else _)
          rw [if_pos rfl]
          exact quotaStep_of_eq _ _ _ h1 h2
        · show (if j = c then _ else _) = _
          rw [if_neg hj]
    · exact fetch_quota os sc w tc c o wA tcA hg
  split at hr
  · cases hr
  · rename_i o wA tcA hg
    have hk := key o wA tcA hg
    split at hr
    · simp only [Option.some.injEq, Prod.mk.injEq] at hr
      obtain ⟨_, _, h3⟩ := hr
      subst h3
      exact hk
    · simp only [Option.some.injEq, Prod.mk.injEq] at hr
      obtain ⟨_, _, h3⟩ := hr
      subst h3
      exact hk

/-- `list_too_long` changes the quota of the list of its class by one of the steps of
`QuotaStep`. -/
theorem list_too_long_quota (sc : Nat → SizeClassInfo) (w : World) (tc : ThreadCache)
    (c : Nat) (w1 : World) (tc1 : ThreadCache)
    (hr : ThreadCache.list_too_long sc w tc c = some (w1, tc1)) :
    DynamicFreeList.QuotaStep (SizeMap.num_to_move sc c) (tc._lists c) (tc1._lists c) ∧
    (∀ j, j ≠ c → tc1._lists j = tc._lists j) := by
  obtain ⟨tcA, hrt, hother, _, hq1, hq2, hq3, hq4⟩ := list_too_long_spec sc w tc c w1 tc1 hr
  obtain ⟨_, _, hsame⟩ := return_to_central_quota sc w tc c _ w1 tcA hrt
  refine ⟨?_, fun j hj => (hother j hj).trans (hsame j hj)⟩
  rcases Nat.lt_trichotomy (tc._lists c)._max_length (SizeMap.num_to_move sc c) with h | h | h
  · exact Or.inr (Or.inl ⟨h, hq1 h⟩)
  · exact Or.inl (hq2 h)
  · by_cases hov : (tc._lists c)._length_overages + 1 ≤ ThreadCache._max_overages
    · exact Or.inr (Or.inr (Or.inr (Or.inl ⟨h, hov, hq3 h hov⟩)))
    · exact Or.inr (Or.inr (Or.inr (Or.inr ⟨h, by omega, hq4 h (by omega)⟩)))

/-- `ThreadCache::dealloc` changes the quota of the list of its class by one of the steps of
`QuotaStep`, if at all, and leaves the other lists alone. -/
theorem thread_dealloc_quota (sc : Nat → SizeClassInfo) (w : World) (tc : ThreadCache)
    (c p : Nat) (w1 : World) (tc1 : ThreadCache)
    (hr : ThreadCache.dealloc sc w tc c p = some (w1, tc1)) :
    DynamicFreeList.QuotaStep (SizeMap.num_to_move sc c) (tc._lists c) (tc1._lists c) ∧
    (∀ j, j ≠ c → tc1._lists j = tc._lists j) := by
  unfold ThreadCache.dealloc at hr
  split at hr
  · cases hr
  split at hr
  · simp only [Option.some.injEq, Prod.mk.injEq] at hr
    obtain ⟨_, h2⟩ := hr
    subst h2
    exact ⟨quotaStep_refl _ _, fun _ _ => rfl⟩
  simp only at hr
  have hlc : (ThreadCache.setList tc c
      { tc._lists c with toFreeList := (tc._lists c).toFreeList.push p })._lists c =
      { tc._lists c with toFreeList := (tc._lists c).toFreeList.push p } := by
    show (if c = c then _ else _) = _
    rw [if_pos rfl]
  have hlj : ∀ j, j ≠ c → (ThreadCache.setList tc c
      { tc._lists c with toFreeList := (tc._lists c).toFreeList.push p })._lists j =
      tc._lists j := by
    intro j hj
    show (if j = c then _ else _) = _
    rw [if_neg hj]
  split at hr
  · obtain ⟨h1, h2⟩ := list_too_long_quota sc w _ c w1 tc1 hr
    refine ⟨?_, fun j hj => (h2 j hj).trans (hlj j hj)⟩
    have h3 : DynamicFreeList.QuotaStep (SizeMap.num_to_move sc c)
        { tc._lists c with toFreeList := (tc._lists c).toFreeList.push p } (tc1._lists c) := by
      rw [← hlc]
      exact h1
    exact h3
  · simp only [Option.some.injEq, Prod.mk.injEq] at hr
    obtain ⟨_, h2⟩ := hr
    subst h2
    refine ⟨?_, hlj⟩
    show DynamicFreeList.QuotaStep _ _ ((ThreadCache.setList tc c _)._lists c)
    rw [hlc]
    exact quotaStep_of_eq _ _ _ rfl rfl

/-- Every call of the thread cache changes the quota of every list by a step of
`QuotaStep` for the batch size of that list. -/
theorem thread_step_quota (os : OS) (sc : Nat → SizeClassInfo)
    (st : World × ThreadCache × List (Nat × Nat)) (call : ThreadCall)
    (st1 : World × ThreadCache × List (Nat × Nat))
    (h : ThreadCache.step os sc st call = some st1) (c : Nat) :
    DynamicFreeList.QuotaStep (SizeMap.num_to_move sc c) (st.2.1._lists c)
      (st1.2.1._lists c) := by
  cases call with
  | alloc k =>
    simp only [ThreadCache.step] at h
    split at h
    · cases h
    · rename_i p w1 tc1 ha
      simp only [Option.some.injEq] at h
      subst h
      obtain ⟨h1, h2⟩ := thread_alloc_quota os sc _ _ k p w1 tc1 ha
      by_cases hk : c = k
      · subst hk; exact h1
      · show DynamicFreeList.QuotaStep _ _ (tc1._lists c)
        rw [h2 c hk]
        exact quotaStep_refl _ _
  | dealloc k p =>
    simp only [ThreadCache.step] at h
    split at h
    · split at h
      · cases h
      · rename_i w1 tc1 hd
        simp only [Option.some.injEq] at h
        subst h
        obtain ⟨h1, h2⟩ := thread_dealloc_quota sc _ _ k p w1 tc1 hd
        by_cases hk : c = k
        · subst hk; exact h1
        · show DynamicFreeList.QuotaStep _ _ (tc1._lists c)
          rw [h2 c hk]
          exact quotaStep_refl _ _
    · cases h

/-- A step of `QuotaStep` keeps the quota in range, for a batch size between 1 and 128. -/
theorem quotaOk_step (bs : Nat) (h1 : 1 ≤ bs) (h2 : bs ≤ 128) (l l1 : DynamicFreeList)
    (hok : DynamicFreeList.QuotaOk bs l) (hst : DynamicFreeList.QuotaStep bs l l1) :
    DynamicFreeList.QuotaOk bs l1 := by
  obtain ⟨ha, hb, hc⟩ := hok
  simp only [ThreadCache._max_list_objects] at hb
  unfold DynamicFreeList.QuotaOk
  simp only [ThreadCache._max_list_objects]
  rcases hst with ⟨e1, _⟩ | ⟨hlt, e1, _⟩ | ⟨hge, e1, _⟩ | ⟨_, _, e1, _⟩ | ⟨hgt, _, e1, _⟩
  · rw [e1]; exact ⟨ha, hb, hc⟩
  · rw [e1]
    refine ⟨by omega, by omega, fun h => ?_⟩
    have : l._max_length + 1 = bs := by omega
    rw [this]
    exact Nat.mod_self bs
  · rw [e1]
    simp only [ThreadCache._max_list_objects]
    generalize ht : min (l._max_length + bs) 8192 = t
    have ht1 : bs ≤ t := by omega
    have ht2 : t ≤ 8192 := by omega
    have hdm := Nat.div_add_mod t bs
    have hml := Nat.mod_lt t (by omega : bs > 0)
    have hq : 1 ≤ t / bs := Nat.div_pos ht1 (by omega)
    have hsub : t - t % bs = bs * (t / bs) := by omega
    have hge2 : bs ≤ bs * (t / bs) := Nat.le_mul_of_pos_right bs hq
    rw [hsub]
    refine ⟨by omega, by omega, fun _ => Nat.mul_mod_right bs _⟩
  · rw [e1]; exact ⟨ha, hb, hc⟩
  · rw [e1]
    have hm := hc (by omega)
    obtain ⟨q, hq⟩ := Nat.dvd_of_mod_eq_zero hm
    have hq2 : 2 ≤ q := by
      by_contra hcon
      have : q = 0 ∨ q = 1 := by omega
      rcases this with rfl | rfl
      · omega
      · omega
    have hsub : l._max_length - bs = bs * (q - 1) := by
      rw [hq, Nat.mul_sub, Nat.mul_one]
    have hge2 : bs ≤ bs * (q - 1) := Nat.le_mul_of_pos_right bs (by omega)
    rw [hsub]
    refine ⟨by omega, ?_, fun _ => Nat.mul_mod_right bs _⟩
    rw [← hsub]
    omega

theorem quotaOk_new (bs : Nat) (h1 : 1 ≤ bs) : DynamicFreeList.QuotaOk bs DynamicFreeList.new := by
  refine ⟨le_refl _, by decide, fun h => ?_⟩
  have : bs = 1 := by
    have h2 : bs ≤ 1 := h
    omega
  subst this
  rfl

/-- The quota of a list stays in range along every sequence of calls. -/
theorem thread_run_quota (os : OS) (sc : Nat → SizeClassInfo) (c : Nat)
    (h1 : 1 ≤ SizeMap.num_to_move sc c) (h2 : SizeMap.num_to_move sc c ≤ 128)
    (calls : List ThreadCall) :
    ∀ (st : World × ThreadCache × List (Nat × Nat)),
      DynamicFreeList.QuotaOk (SizeMap.num_to_move sc c) (st.2.1._lists c) →
      ∀ st1, ThreadCache.run os sc calls st = some st1 →
        DynamicFreeList.QuotaOk (SizeMap.num_to_move sc c) (st1.2.1._lists c) := by
  induction calls with
  | nil =>
    intro st hst st1 h
    simp only [ThreadCache.run, Option.some.injEq] at h
    subst h
    exact hst
  | cons call calls ih =>
    intro st hst st1 h
    simp only [ThreadCache.run] at h
    split at h
    · cases h
    · rename_i st2 hstep
      exact ih st2 (quotaOk_step _ h1 h2 _ _ hst (thread_step_quota os sc st call st2 hstep c))
        st1 h

/-! ## Claims on the quota of the thread-cache lists -/

theorem demoClasses6_classesOk : SizeMap.ClassesOk demoClasses6 := by
  intro c h0 h1
  unfold SizeMap.size SizeMap.pages demoClasses6
  rw [if_neg (by omega)]
  rw [page_SIZE_eq, pageHeap_n_eq]
  rw [size_class_size_eq] at h1
  by_cases h84 : c < 84
  · rw [if_pos h84]
    simp only
    omega
  · rw [if_neg h84]
    simp only
    omega

set_option maxRecDepth 1000000 in
theorem run_stateQuota_30_6 :
    ThreadCache.run demoOS demoClasses6 (callsQuota 30 6) (World.new, ThreadCache.new, []) =
      some ((stateQuota 30 6).1, (stateQuota 30 6).2.1, (stateQuota 30 6).2.2) :=
  getD_of_isSome
    (ThreadCache.run demoOS demoClasses6 (callsQuota 30 6) (World.new, ThreadCache.new, []))
    (World.new, ThreadCache.new, []) (by decide)

set_option maxRecDepth 1000000 in
theorem run_stateQuota_36_12 :
    ThreadCache.run demoOS demoClasses6 (callsQuota 36 12) (World.new, ThreadCache.new, []) =
      some ((stateQuota 36 12).1, (stateQuota 36 12).2.1, (stateQuota 36 12).2.2) :=
  getD_of_isSome
    (ThreadCache.run demoOS demoClasses6 (callsQuota 36 12) (World.new, ThreadCache.new, []))
    (World.new, ThreadCache.new, []) (by decide)

set_option maxRecDepth 1000000 in
/-- Counterexample to C24 as stated: with batches of six objects, after 30 allocations of
class 83 and the return of six of the objects the list holds six objects and `max_length`
is 6, the batch size. The next `dealloc` overflows the list, `list_too_long` returns six
objects to the Central Cache, and `length_overages` is still 0 afterwards, not 1. -/
theorem C24_equal_quota_counterexample :
    SizeMap.num_to_move demoClasses6 83 = 6 ∧
    (stateQuota 30 6).2.1.quota 83 = (6, 0, 6) ∧
    (objectAt 6, 83) ∈ (stateQuota 30 6).2.2 ∧
    (ThreadCache.dealloc demoClasses6 (stateQuota 30 6).1 (stateQuota 30 6).2.1 83
      (objectAt 6)).map (fun r => r.2.quota 83) = some (6, 0, 1) := by
  refine ⟨by decide, by decide, by decide, by decide⟩

set_option maxRecDepth 1000000 in
/-- Witness for C24: after 30 allocations of class 83 and the return of six of the objects,
with batches of six objects, the `dealloc` of a seventh object overflows the list. -/
theorem C24_overflow_adaptation_witness :
    ∃ w1 tc1, ThreadCache.dealloc demoClasses6 (stateQuota 30 6).1 (stateQuota 30 6).2.1 83
        (objectAt 6) = some (w1, tc1) ∧
      CentralCache.dealloc (stateQuota 30 6).1 83
        ((objectAt 6 :: ((stateQuota 30 6).2.1._lists 83)._list).take
          (min (((stateQuota 30 6).2.1._lists 83).size + 1)
            (SizeMap.num_to_move demoClasses6 83)))
        (min (((stateQuota 30 6).2.1._lists 83).size + 1)
          (SizeMap.num_to_move demoClasses6 83)) = some w1 ∧
      (tc1._lists 83)._list = (objectAt 6 :: ((stateQuota 30 6).2.1._lists 83)._list).drop
        (min (((stateQuota 30 6).2.1._lists 83).size + 1)
          (SizeMap.num_to_move demoClasses6 83)) ∧
      (tc1._lists 83).size = ((stateQuota 30 6).2.1._lists 83).size + 1 -
        min (((stateQuota 30 6).2.1._lists 83).size + 1)
          (SizeMap.num_to_move demoClasses6 83) ∧
      (∀ j, j ≠ 83 → tc1._lists j = (stateQuota 30 6).2.1._lists j) ∧
      (((stateQuota 30 6).2.1._lists 83)._max_length < SizeMap.num_to_move demoClasses6 83 →
        (tc1._lists 83)._max_length = ((stateQuota 30 6).2.1._lists 83)._max_length + 1 ∧
        (tc1._lists 83)._length_overages =
          ((stateQuota 30 6).2.1._lists 83)._length_overages) ∧
      (((stateQuota 30 6).2.1._lists 83)._max_length = SizeMap.num_to_move demoClasses6 83 →
        (tc1._lists 83)._max_length = ((stateQuota 30 6).2.1._lists 83)._max_length ∧
        (tc1._lists 83)._length_overages =
          ((stateQuota 30 6).2.1._lists 83)._length_overages) ∧
      (SizeMap.num_to_move demoClasses6 83 < ((stateQuota 30 6).2.1._lists 83)._max_length →
        ((stateQuota 30 6).2.1._lists 83)._length_overages + 1 ≤ ThreadCache._max_overages →
        (tc1._lists 83)._max_length = ((stateQuota 30 6).2.1._lists 83)._max_length ∧
        (tc1._lists 83)._length_overages =
          ((stateQuota 30 6).2.1._lists 83)._length_overages + 1) ∧
      (SizeMap.num_to_move demoClasses6 83 < ((stateQuota 30 6).2.1._lists 83)._max_length →
        ThreadCache._max_overages < ((stateQuota 30 6).2.1._lists 83)._length_overages + 1 →
        (tc1._lists 83)._max_length = ((stateQuota 30 6).2.1._lists 83)._max_length -
          SizeMap.num_to_move demoClasses6 83 ∧
        (tc1._lists 83)._length_overages = 0) :=
  C24_overflow_adaptation demoOS demoOS_sane demoClasses6 demoClasses6_classesOk 83
    (by decide) (by decide) (callsQuota 30 6) (stateQuota 30 6).1 (stateQuota 30 6).2.1
    (stateQuota 30 6).2.2 run_stateQuota_30_6 (objectAt 6) (by decide) (by decide)

/-! ## Consecutive overflows and the range of the quota -/

/-- Consecutive calls of `list_too_long` above the batch size: starting with
`length_overages = j`, the calls that bring the count to at most 3 only count, and the call
after the count has reached 3 shrinks `max_length` and resets the count. -/
theorem triggers_spec (os : OS) (hos : OS.Sane os) (sc : Nat → SizeClassInfo)
    (hsc : SizeMap.ClassesOk sc) (cls : Nat → Nat) (live : List (Nat × Nat)) (c : Nat)
    (hc : 0 < c ∧ c < SizeMap.size_class_size)
    (hbs : SizeMap.num_to_move sc c ≤ SizeMap.max_move) :
    ∀ (k : Nat) (w : World) (tc : ThreadCache) (j : Nat), ThreadInv os sc w tc live cls →
      ThreadCache.Counted tc → (tc._lists c)._length_overages = j → j ≤ 3 → j + k ≤ 4 →
      SizeMap.num_to_move sc c < (tc._lists c)._max_length →
      ∃ wk tck, ThreadCache.triggers sc c k w tc = some (wk, tck) ∧
        (j + k ≤ 3 → (tck._lists c)._max_length = (tc._lists c)._max_length ∧
          (tck._lists c)._length_overages = j + k) ∧
        (j + k = 4 →
          (tck._lists c)._max_length = (tc._lists c)._max_length - SizeMap.num_to_move sc c ∧
          (tck._lists c)._length_overages = 0) := by
  intro k
  induction k with
  | zero =>
    intro w tc j _ _ hj hj3 _ _
    exact ⟨w, tc, rfl, fun _ => ⟨rfl, hj⟩, fun h => by omega⟩
  | succ k ih =>
    intro w tc j hinv hcnt hj hj3 hjk hmax
    obtain ⟨w1, tc1, hr, _, _, _, _, _, _, hq3, hq4⟩ :=
      list_too_long_total os hos sc hsc cls live c hc hbs w tc hinv hcnt
    have hinv1 := list_too_long_ok os hos sc hsc cls live c w tc hinv w1 tc1 hr
    have hcnt1 := list_too_long_counted sc w tc c hcnt w1 tc1 hr
    have hstep : ThreadCache.triggers sc c (k + 1) w tc = ThreadCache.triggers sc c k w1 tc1 := by
      simp only [ThreadCache.triggers, hr]
    rw [hstep]
    by_cases h3 : j + 1 ≤ 3
    · obtain ⟨e1, e2⟩ := hq3 hmax (by rw [hj]; exact h3)
      obtain ⟨wk, tck, hk, ha, hb⟩ := ih w1 tc1 (j + 1) hinv1 hcnt1 (by rw [e2, hj]) h3
        (by omega) (by rw [e1]; exact hmax)
      refine ⟨wk, tck, hk, fun h => ?_, fun h => ?_⟩
      · obtain ⟨a1, a2⟩ := ha (by omega)
        exact ⟨a1.trans e1, by rw [a2]; omega⟩
      · obtain ⟨b1, b2⟩ := hb (by omega)
        exact ⟨by rw [b1, e1], b2⟩
    · have hk0 : k = 0 := by omega
      subst hk0
      obtain ⟨e1, e2⟩ := hq4 hmax (by rw [hj]; show 3 < j + 1; omega)
      exact ⟨w1, tc1, rfl, fun h => by omega, fun _ => ⟨e1, e2⟩⟩

/-- A step of `QuotaStep` keeps `length_overages` at or below `MAX_OVERAGES`. -/
theorem overages_step (bs : Nat) (l l1 : DynamicFreeList) (h : l._length_overages ≤ 3)
    (hst : DynamicFreeList.QuotaStep bs l l1) : l1._length_overages ≤ 3 := by
  simp only [DynamicFreeList.QuotaStep, ThreadCache._max_overages] at hst
  rcases hst with ⟨_, e⟩ | ⟨_, _, e⟩ | ⟨_, _, e⟩ | ⟨_, _, _, e⟩ | ⟨_, _, _, e⟩ <;> omega

theorem thread_run_overages (os : OS) (sc : Nat → SizeClassInfo) (c : Nat)
    (calls : List ThreadCall) :
    ∀ (st : World × ThreadCache × List (Nat × Nat)),
      (st.2.1._lists c)._length_overages ≤ 3 →
      ∀ st1, ThreadCache.run os sc calls st = some st1 →
        (st1.2.1._lists c)._length_overages ≤ 3 := by
  induction calls with
  | nil =>
    intro st hst st1 h
    simp only [ThreadCache.run, Option.some.injEq] at h
    subst h
    exact hst
  | cons call calls ih =>
    intro st hst st1 h
    simp only [ThreadCache.run] at h
    split at h
    · cases h
    · rename_i st2 hstep
      exact ih st2 (overages_step _ _ _ hst (thread_step_quota os sc st call st2 hstep c)) st1 h

/-- C25, as the code has it: in every state reached by Thread Cache calls on a fresh
allocator (for an operating system whose successful mappings are non-null, 4096-aligned and
pairwise disjoint, and a table with `num_to_move(c) ≤ 128`): if the list of class `c` has
`length_overages = 0` and `max_length > batch_size`, then one, two and three consecutive
calls of `list_too_long(c)` leave `max_length` as it is and bring `length_overages` to 1, 2
and 3, and it is the fourth consecutive call that shrinks `max_length` by `batch_size` and
resets `length_overages` to 0 (the source tests `length_overages > MAX_OVERAGES`). In
every such state `length_overages` is at most 3, and no call of `ThreadCache::alloc` or
`ThreadCache::dealloc` decreases `length_overages` of the list, except a call that resets
it from 3 to 0 and shrinks `max_length` by `batch_size` at the same time. -/
theorem C25_shrink_threshold (os : OS) (hos : OS.Sane os) (sc : Nat → SizeClassInfo)
    (hsc : SizeMap.ClassesOk sc) (c : Nat) (hc : 0 < c ∧ c < SizeMap.size_class_size)
    (hbs : SizeMap.num_to_move sc c ≤ SizeMap.max_move) (calls : List ThreadCall)
    (w : World) (tc : ThreadCache) (live : List (Nat × Nat))
    (hrun : ThreadCache.run os sc calls (World.new, ThreadCache.new, []) =
      some (w, tc, live)) :
    ((tc._lists c)._length_overages = 0 →
      SizeMap.num_to_move sc c < (tc._lists c)._max_length →
      (∀ k, k ≤ 3 → ∃ wk tck, ThreadCache.triggers sc c k w tc = some (wk, tck) ∧
        (tck._lists c)._max_length = (tc._lists c)._max_length ∧
        (tck._lists c)._length_overages = k) ∧
      (∃ w4 tc4, ThreadCache.triggers sc c 4 w tc = some (w4, tc4) ∧
        (tc4._lists c)._max_length = (tc._lists c)._max_length - SizeMap.num_to_move sc c ∧
        (tc4._lists c)._length_overages = 0)) ∧
    (tc._lists c)._length_overages ≤ ThreadCache._max_overages ∧
    (∀ call st1, ThreadCache.step os sc (w, tc, live) call = some st1 →
      (tc._lists c)._length_overages ≤ (st1.2.1._lists c)._length_overages ∨
      ((tc._lists c)._length_overages = ThreadCache._max_overages ∧
        SizeMap.num_to_move sc c < (tc._lists c)._max_length ∧
        (st1.2.1._lists c)._length_overages = 0 ∧
        (st1.2.1._lists c)._max_length =
          (tc._lists c)._max_length - SizeMap.num_to_move sc c)) := by
  obtain ⟨cls, hinv⟩ := thread_run_inv os hos sc hsc calls (World.new, ThreadCache.new, [])
    (fun _ => 0) (threadInv_new os sc _) (w, tc, live) hrun
  have hcnt := thread_run_counted os sc calls (World.new, ThreadCache.new, []) counted_new
    (w, tc, live) hrun
  have hov : (tc._lists c)._length_overages ≤ 3 :=
    thread_run_overages os sc c calls (World.new, ThreadCache.new, []) (Nat.zero_le _)
      (w, tc, live) hrun
  simp only at hinv hcnt
  refine ⟨fun h0 hmax => ⟨fun k hk => ?_, ?_⟩, hov, fun call st1 hstep => ?_⟩
  · obtain ⟨wk, tck, hk1, hk2, _⟩ := triggers_spec os hos sc hsc cls live c hc hbs k w tc 0
      hinv hcnt h0 (by omega) (by omega) hmax
    obtain ⟨e1, e2⟩ := hk2 (by omega)
    exact ⟨wk, tck, hk1, e1, by rw [e2]; omega⟩
  · obtain ⟨w4, tc4, hk1, _, hk3⟩ := triggers_spec os hos sc hsc cls live c hc hbs 4 w tc 0
      hinv hcnt h0 (by omega) (by omega) hmax
    obtain ⟨e1, e2⟩ := hk3 rfl
    exact ⟨w4, tc4, hk1, e1, e2⟩
  · have hq := thread_step_quota os sc (w, tc, live) call st1 hstep c
    simp only [DynamicFreeList.QuotaStep, ThreadCache._max_overages] at hq
    simp only [ThreadCache._max_overages]
    rcases hq with ⟨_, e⟩ | ⟨_, _, e⟩ | ⟨_, _, e⟩ | ⟨_, _, _, e⟩ | ⟨h1, h2, h3, h4⟩
    · left; omega
    · left; omega
    · left; omega
    · left; omega
    · right
      exact ⟨by omega, h1, h4, h3⟩

set_option maxRecDepth 1000000 in
/-- Counterexample to C25 as stated: with batches of six objects, after 36 allocations of
class 83 and the return of twelve of the objects the list holds twelve objects, with
`max_length = 12` and `length_overages = 0`. The 13th, 19th and 25th `dealloc` overflow the
list (each leaves seven objects on it). After the third overflow `max_length` is still 12
and `length_overages` is 3; the shrink to 6 and the reset to 0 come with the fourth
overflow, at the 31st `dealloc`. -/
theorem C25_third_trigger_counterexample :
    SizeMap.num_to_move demoClasses6 83 = 6 ∧
    (stateQuota 36 12).2.1.quota 83 = (12, 0, 12) ∧
    (stateQuota 36 13).2.1.quota 83 = (12, 1, 7) ∧
    (stateQuota 36 18).2.1.quota 83 = (12, 1, 12) ∧
    (stateQuota 36 19).2.1.quota 83 = (12, 2, 7) ∧
    (stateQuota 36 24).2.1.quota 83 = (12, 2, 12) ∧
    (stateQuota 36 25).2.1.quota 83 = (12, 3, 7) ∧
    (stateQuota 36 30).2.1.quota 83 = (12, 3, 12) ∧
    (stateQuota 36 31).2.1.quota 83 = (6, 0, 7) ∧
    (ThreadCache.run demoOS demoClasses6 (callsQuota 36 31)
      (World.new, ThreadCache.new, [])).isSome = true := by
  refine ⟨by decide, by decide, by decide, by decide, by decide, by decide, by decide,
    by decide, by decide, by decide⟩

set_option maxRecDepth 1000000 in
/-- Witness for C25: the state after 36 allocations of class 83 and the return of twelve of
the objects, with batches of six objects (`max_length = 12`, `length_overages = 0`). -/
theorem C25_shrink_threshold_witness :
    ((∀ k, k ≤ 3 → ∃ wk tck, ThreadCache.triggers demoClasses6 83 k (stateQuota 36 12).1
          (stateQuota 36 12).2.1 = some (wk, tck) ∧
        (tck._lists 83)._max_length = ((stateQuota 36 12).2.1._lists 83)._max_length ∧
        (tck._lists 83)._length_overages = k) ∧
      (∃ w4 tc4, ThreadCache.triggers demoClasses6 83 4 (stateQuota 36 12).1
          (stateQuota 36 12).2.1 = some (w4, tc4) ∧
        (tc4._lists 83)._max_length = ((stateQuota 36 12).2.1._lists 83)._max_length -
          SizeMap.num_to_move demoClasses6 83 ∧
        (tc4._lists 83)._length_overages = 0)) ∧
    ((stateQuota 36 12).2.1._lists 83)._length_overages ≤ ThreadCache._max_overages ∧
    (∀ call st1, ThreadCache.step demoOS demoClasses6
        ((stateQuota 36 12).1, (stateQuota 36 12).2.1, (stateQuota 36 12).2.2) call =
          some st1 →
      ((stateQuota 36 12).2.1._lists 83)._length_overages ≤
        (st1.2.1._lists 83)._length_overages ∨
      (((stateQuota 36 12).2.1._lists 83)._length_overages = ThreadCache._max_overages ∧
        SizeMap.num_to_move demoClasses6 83 < ((stateQuota 36 12).2.1._lists 83)._max_length ∧
        (st1.2.1._lists 83)._length_overages = 0 ∧
        (st1.2.1._lists 83)._max_length =
          ((stateQuota 36 12).2.1._lists 83)._max_length -
            SizeMap.num_to_move demoClasses6 83)) :=
  ⟨(C25_shrink_threshold demoOS demoOS_sane demoClasses6 demoClasses6_classesOk 83
      (by decide) (by decide) (callsQuota 36 12) (stateQuota 36 12).1 (stateQuota 36 12).2.1
      (stateQuota 36 12).2.2 run_stateQuota_36_12).1 (by decide) (by decide),
    (C25_shrink_threshold demoOS demoOS_sane demoClasses6 demoClasses6_classesOk 83
      (by decide) (by decide) (callsQuota 36 12) (stateQuota 36 12).1 (stateQuota 36 12).2.1
      (stateQuota 36 12).2.2 run_stateQuota_36_12).2.1,
    (C25_shrink_threshold demoOS demoOS_sane demoClasses6 demoClasses6_classesOk 83
      (by decide) (by decide) (callsQuota 36 12) (stateQuota 36 12).1 (stateQuota 36 12).2.1
      (stateQuota 36 12).2.2 run_stateQuota_36_12).2.2⟩

/-- C29: for every size class `c` with `1 ≤ num_to_move(c) ≤ 128` and every sequence of
`ThreadCache::alloc` and `ThreadCache::dealloc` calls that runs on a fresh allocator with a
fresh thread cache: `max_length` of the list of class `c` lies between 1 and 8192, and
whenever it is at least the batch size it is a multiple of the batch size; so when it
exceeds the batch size (the only case in which `list_too_long` shrinks it), the shrink
`max_length_decr(batch_size)` does not wrap around and leaves at least the batch size. -/
theorem C29_quota_invariant (os : OS) (sc : Nat → SizeClassInfo) (c : Nat)
    (h1 : 1 ≤ SizeMap.num_to_move sc c) (h2 : SizeMap.num_to_move sc c ≤ SizeMap.max_move)
    (calls : List ThreadCall) (w : World) (tc : ThreadCache) (live : List (Nat × Nat))
    (hrun : ThreadCache.run os sc calls (World.new, ThreadCache.new, []) =
      some (w, tc, live)) :
    1 ≤ (tc._lists c)._max_length ∧ (tc._lists c)._max_length ≤ 8192 ∧
    (SizeMap.num_to_move sc c ≤ (tc._lists c)._max_length →
      (tc._lists c)._max_length % SizeMap.num_to_move sc c = 0) ∧
    (SizeMap.num_to_move sc c < (tc._lists c)._max_length →
      ((tc._lists c).max_length_decr (SizeMap.num_to_move sc c))._max_length =
        (tc._lists c)._max_length - SizeMap.num_to_move sc c ∧
      SizeMap.num_to_move sc c ≤
        ((tc._lists c).max_length_decr (SizeMap.num_to_move sc c))._max_length) := by
  have hq := thread_run_quota os sc c h1 h2 calls (World.new, ThreadCache.new, [])
    (quotaOk_new _ h1) (w, tc, live) hrun
  obtain ⟨ha, hb, hc⟩ := hq
  simp only [ThreadCache._max_list_objects] at ha hb hc
  have h2b : SizeMap.num_to_move sc c ≤ 128 := h2
  refine ⟨ha, hb, hc, fun hlt => ?_⟩
  have hdecr : ((tc._lists c).max_length_decr (SizeMap.num_to_move sc c))._max_length =
      (tc._lists c)._max_length - SizeMap.num_to_move sc c :=
    usub_of_le _ _ (by omega)
  rw [hdecr]
  refine ⟨rfl, ?_⟩
  have hm := hc (by omega)
  obtain ⟨q, hq⟩ := Nat.dvd_of_mod_eq_zero hm
  have hq2 : 2 ≤ q := by
    by_contra hcon
    have : q = 0 ∨ q = 1 := by omega
    rcases this with rfl | rfl
    · omega
    · omega
  have hsub : (tc._lists c)._max_length - SizeMap.num_to_move sc c =
      SizeMap.num_to_move sc c * (q - 1) := by
    rw [hq, Nat.mul_sub, Nat.mul_one]
  rw [hsub]
  exact Nat.le_mul_of_pos_right _ (by omega)

set_option maxRecDepth 1000000 in
theorem run_stateQuota_36_31 :
    ThreadCache.run demoOS demoClasses6 (callsQuota 36 31) (World.new, ThreadCache.new, []) =
      some ((stateQuota 36 31).1, (stateQuota 36 31).2.1, (stateQuota 36 31).2.2) :=
  getD_of_isSome
    (ThreadCache.run demoOS demoClasses6 (callsQuota 36 31) (World.new, ThreadCache.new, []))
    (World.new, ThreadCache.new, []) (by decide)

/-- Witness for C29: the state after 36 allocations of class 83 and the return of 31 of the
objects, with batches of six objects; `max_length` has grown to 12 and shrunk to 6. -/
theorem C29_quota_invariant_witness :
    1 ≤ ((stateQuota 36 31).2.1._lists 83)._max_length ∧
    ((stateQuota 36 31).2.1._lists 83)._max_length ≤ 8192 ∧
    (SizeMap.num_to_move demoClasses6 83 ≤ ((stateQuota 36 31).2.1._lists 83)._max_length →
      ((stateQuota 36 31).2.1._lists 83)._max_length % SizeMap.num_to_move demoClasses6 83 =
        0) ∧
    (SizeMap.num_to_move demoClasses6 83 < ((stateQuota 36 31).2.1._lists 83)._max_length →
      (((stateQuota 36 31).2.1._lists 83).max_length_decr
          (SizeMap.num_to_move demoClasses6 83))._max_length =
        ((stateQuota 36 31).2.1._lists 83)._max_length -
          SizeMap.num_to_move demoClasses6 83 ∧
      SizeMap.num_to_move demoClasses6 83 ≤
        (((stateQuota 36 31).2.1._lists 83).max_length_decr
          (SizeMap.num_to_move demoClasses6 83))._max_length) :=
  C29_quota_invariant demoOS demoClasses6 83 (by decide) (by decide) (callsQuota 36 31)
    (stateQuota 36 31).1 (stateQuota 36 31).2.1 (stateQuota 36 31).2.2 run_stateQuota_36_31

/-! ## The span lists of the Central Cache -/

theorem links_set_same (m : Links) (a : Nat) (e : Elem) : m.set a e a = e := by
  simp only [Links.set, if_true]

theorem links_set_other (m : Links) (a : Nat) (e : Elem) (k : Nat) (h : k ≠ a) :
    m.set a e k = m k := by
  simp only [Links.set, if_neg h]

theorem getLastD_mem : ∀ (xs : List Nat) (a : Nat), xs.getLastD a ∈ a :: xs := by
  intro xs
  induction xs with
  | nil => intro a; exact List.mem_cons_self _ _
  | cons y ys ih =>
    intro a
    rw [List.getLastD_cons]
    exact List.mem_cons_of_mem _ (ih y)

theorem headD_mem (xs : List Nat) (b : Nat) : xs.headD b ∈ xs ++ [b] := by
  cases xs with
  | nil => exact List.mem_singleton.2 rfl
  | cons y ys => exact List.mem_cons_self _ _

theorem path_append (m : Links) :
    ∀ (xs : List Nat) (a y : Nat) (ys : List Nat) (b : Nat),
      IntrusiveList.Path m a (xs ++ y :: ys) b ↔
        IntrusiveList.Path m a xs y ∧ IntrusiveList.Path m y ys b := by
  intro xs
  induction xs with
  | nil =>
    intro a y ys b
    simp only [List.nil_append, IntrusiveList.Path, and_assoc]
  | cons x xs ih =>
    intro a y ys b
    show (_ ∧ _ ∧ IntrusiveList.Path m x (xs ++ y :: ys) b) ↔ _
    rw [ih x y ys b]
    simp only [IntrusiveList.Path, and_assoc]

theorem path_congr (m m1 : Links) :
    ∀ (xs : List Nat) (a b : Nat), (∀ k ∈ a :: xs, (m1 k)._next = (m k)._next) →
      (∀ k ∈ xs ++ [b], (m1 k)._prev = (m k)._prev) →
      IntrusiveList.Path m a xs b → IntrusiveList.Path m1 a xs b := by
  intro xs
  induction xs with
  | nil =>
    intro a b hn hp h
    simp only [IntrusiveList.Path] at h ⊢
    rw [hn a (List.mem_cons_self _ _), hp b (by simp)]
    exact h
  | cons x xs ih =>
    intro a b hn hp h
    simp only [IntrusiveList.Path] at h ⊢
    obtain ⟨h1, h2, h3⟩ := h
    refine ⟨by rw [hn a (List.mem_cons_self _ _)]; exact h1,
      by rw [hp x (by simp)]; exact h2, ih x b ?_ ?_ h3⟩
    · intro k hk
      exact hn k (List.mem_cons_of_mem _ hk)
    · intro k hk
      exact hp k (by rw [List.cons_append]; exact List.mem_cons_of_mem _ hk)

theorem path_last (m : Links) :
    ∀ (xs : List Nat) (a b : Nat), IntrusiveList.Path m a xs b →
      (m b)._prev = xs.getLastD a := by
  intro xs
  induction xs with
  | nil => intro a b h; exact h.2
  | cons x xs ih =>
    intro a b h
    rw [List.getLastD_cons]
    exact ih x b h.2.2

theorem path_first (m : Links) (xs : List Nat) (a b : Nat)
    (h : IntrusiveList.Path m a xs b) : (m a)._next = xs.headD b := by
  cases xs with
  | nil => exact h.1
  | cons x xs => exact h.1

/-- The path through `xs` can be led to another end `b1` by relinking its last element. -/
theorem path_retarget (m m1 : Links) :
    ∀ (xs : List Nat) (a b b1 : Nat), (a :: xs).Nodup → IntrusiveList.Path m a xs b →
      (∀ k ∈ a :: xs, k ≠ xs.getLastD a → (m1 k)._next = (m k)._next) →
      (m1 (xs.getLastD a))._next = b1 →
      (∀ k ∈ xs, (m1 k)._prev = (m k)._prev) →
      (m1 b1)._prev = xs.getLastD a → IntrusiveList.Path m1 a xs b1 := by
  intro xs
  induction xs with
  | nil =>
    intro a b b1 _ _ _ hl _ hb
    exact ⟨hl, hb⟩
  | cons y ys ih =>
    intro a b b1 hnd h hn hl hp hb
    rw [List.getLastD_cons] at hn hl hb
    obtain ⟨h1, h2, h3⟩ := h
    have hnd2 := (List.nodup_cons.1 hnd)
    have hal : a ≠ ys.getLastD y := fun e => hnd2.1 (e ▸ getLastD_mem ys y)
    refine ⟨by rw [hn a (List.mem_cons_self _ _) hal]; exact h1,
      by rw [hp y (List.mem_cons_self _ _)]; exact h2,
      ih y b b1 hnd2.2 h3 (fun k hk hne => hn k (List.mem_cons_of_mem _ hk) hne) hl
        (fun k hk => hp k (List.mem_cons_of_mem _ hk)) hb⟩

/-- The writes of `Elem::append`. -/
theorem elem_append_facts (m : Links) (d x : Nat) (hd : d ≠ 0) (hx : x ≠ 0)
    (hn0 : (m d)._next ≠ 0) (hxd : x ≠ d) (hxn : x ≠ (m d)._next) :
    ∃ m1, Elem.append m d x = some m1 ∧ (m1 d)._next = x ∧ (m1 x)._prev = d ∧
      (m1 x)._next = (m d)._next ∧ (m1 (m d)._next)._prev = x ∧
      (∀ k, k ≠ d → k ≠ x → (m1 k)._next = (m k)._next) ∧
      (∀ k, k ≠ x → k ≠ (m d)._next → (m1 k)._prev = (m k)._prev) ∧
      (∀ k, k ≠ d → k ≠ x → k ≠ (m d)._next → m1 k = m k) := by
  unfold Elem.append
  rw [if_neg (by rintro (h | h); exact hd h; exact hx h)]
  simp only
  rw [if_neg hn0]
  refine ⟨_, rfl, ?_, ?_, ?_, ?_, ?_, ?_, ?_⟩
  · simp only [Links.set, if_true]
  · simp only [Links.set, if_neg hxd, if_neg hxn, if_true]
  · simp only [Links.set, if_neg hxd, if_neg hxn, if_true]
  · by_cases hnd : (m d)._next = d
    · simp only [Links.set, hnd, if_true]
    · simp only [Links.set, if_neg hnd, if_true]
  · intro k hkd hkx
    by_cases hkn : k = (m d)._next
    · subst hkn
      simp only [Links.set, if_neg hkd, if_true, if_neg (Ne.symm hxn)]
    · simp only [Links.set, if_neg hkd, if_neg hkn, if_neg hkx]
  · intro k hkx hkn
    by_cases hkd : k = d
    · subst hkd
      simp only [Links.set, if_true, if_neg hkn, if_neg hkx]
    · simp only [Links.set, if_neg hkd, if_neg hkn, if_neg hkx]
  · intro k hkd hkx hkn
    simp only [Links.set, if_neg hkd, if_neg hkn, if_neg hkx]

/-- The writes of `Elem::prepend`. -/
theorem elem_prepend_facts (m : Links) (d x : Nat) (hd : d ≠ 0) (hx : x ≠ 0)
    (hp0 : (m d)._prev ≠ 0) (hxd : x ≠ d) (hxp : x ≠ (m d)._prev) :
    ∃ m1, Elem.prepend m d x = some m1 ∧ (m1 d)._prev = x ∧ (m1 x)._next = d ∧
      (m1 x)._prev = (m d)._prev ∧ (m1 (m d)._prev)._next = x ∧
      (∀ k, k ≠ x → k ≠ (m d)._prev → (m1 k)._next = (m k)._next) ∧
      (∀ k, k ≠ d → k ≠ x → (m1 k)._prev = (m k)._prev) ∧
      (∀ k, k ≠ d → k ≠ x → k ≠ (m d)._prev → m1 k = m k) := by
  unfold Elem.prepend
  rw [if_neg (by rintro (h | h); exact hd h; exact hx h)]
  simp only
  rw [if_neg hp0]
  refine ⟨_, rfl, ?_, ?_, ?_, ?_, ?_, ?_, ?_⟩
  · simp only [Links.set, if_true]
  · simp only [Links.set, if_neg hxd, if_neg hxp, if_true]
  · simp only [Links.set, if_neg hxd, if_neg hxp, if_true]
  · by_cases hnd : (m d)._prev = d
    · simp only [Links.set, hnd, if_true]
    · simp only [Links.set, if_neg hnd, if_true]
  · intro k hkx hkn
    by_cases hkd : k = d
    · subst hkd
      simp only [Links.set, if_true, if_neg hkn, if_neg hkx]
    · simp only [Links.set, if_neg hkd, if_neg hkn, if_neg hkx]
  · intro k hkd hkx
    by_cases hkn : k = (m d)._prev
    · subst hkn
      simp only [Links.set, if_neg hkd, if_true, if_neg (Ne.symm hxp)]
    · simp only [Links.set, if_neg hkd, if_neg hkn, if_neg hkx]
  · intro k hkd hkx hkn
    simp only [Links.set, if_neg hkd, if_neg hkn, if_neg hkx]

/-- The writes of `Elem::remove`. -/
theorem elem_remove_facts (m : Links) (x : Nat) (hx : x ≠ 0) (hp0 : (m x)._prev ≠ 0)
    (hn0 : (m x)._next ≠ 0) :
    ∃ m1, Elem.remove m x = some (decide ((m x)._next = (m x)._prev), m1) ∧
      (m1 (m x)._prev)._next = (m x)._next ∧ (m1 (m x)._next)._prev = (m x)._prev ∧
      (∀ k, k ≠ (m x)._prev → (m1 k)._next = (m k)._next) ∧
      (∀ k, k ≠ (m x)._next → (m1 k)._prev = (m k)._prev) ∧
      (∀ k, k ≠ (m x)._prev → k ≠ (m x)._next → m1 k = m k) := by
  unfold Elem.remove
  rw [if_neg hx]
  simp only
  rw [if_neg hp0, if_neg hn0]
  refine ⟨_, rfl, ?_, ?_, ?_, ?_, ?_⟩
  · by_cases hpn : (m x)._prev = (m x)._next
    · simp only [Links.set, hpn, if_true]
    · simp only [Links.set, if_neg hpn, if_true]
  · simp only [Links.set, if_true]
  · intro k hkp
    by_cases hkn : k = (m x)._next
    · subst hkn
      simp only [Links.set, if_true, if_neg hkp]
    · simp only [Links.set, if_neg hkn, if_neg hkp]
  · intro k hkn
    simp only [Links.set, if_neg hkn]
    by_cases hkp : k = (m x)._prev
    · subst hkp
      simp only [if_true]
    · simp only [if_neg hkp]
  · intro k hkp hkn
    simp only [Links.set, if_neg hkn, if_neg hkp]

/-! ## The operations of the intrusive list on the sequence of its elements -/

theorem linked_new (m : Links) (d : Nat) (hd : d ≠ 0) :
    IntrusiveList.Linked (IntrusiveList.new m d) d [] := by
  refine ⟨List.nodup_singleton d, ?_, ?_⟩
  · intro k hk
    rw [List.mem_singleton] at hk
    rw [hk]
    exact hd
  · simp only [IntrusiveList.Path, IntrusiveList.new, links_set_same, and_self]

theorem prepend_linked (m : Links) (d : Nat) (xs : List Nat)
    (hl : IntrusiveList.Linked m d xs) (x : Nat) (hx : x ≠ 0) (hnew : x ∉ d :: xs) :
    ∃ m1, IntrusiveList.prepend m d x = some m1 ∧ IntrusiveList.Linked m1 d (x :: xs) ∧
      IntrusiveList.first m1 d = x ∧ (∀ k, k ∉ d :: x :: xs → m1 k = m k) := by
  obtain ⟨hnd, hnz, hpath⟩ := hl
  have hd : d ≠ 0 := hnz d (List.mem_cons_self _ _)
  have hxd : x ≠ d := fun e => hnew (e ▸ List.mem_cons_self _ _)
  have hfirst := path_first m xs d d hpath
  have hnmem : (m d)._next ∈ d :: xs := by
    rw [hfirst]
    have := headD_mem xs d
    rw [List.mem_append, List.mem_singleton] at this
    rcases this with h | h
    · exact List.mem_cons_of_mem _ h
    · rw [h]; exact List.mem_cons_self _ _
  have hxn : x ≠ (m d)._next := fun e => hnew (e ▸ hnmem)
  obtain ⟨m1, hm1, f1, f2, f3, f4, f5, f6, f7⟩ :=
    elem_append_facts m d x hd hx (hnz _ hnmem) hxd hxn
  have hnd1 : (d :: x :: xs).Nodup := by
    rw [List.nodup_cons] at hnd ⊢
    refine ⟨?_, List.nodup_cons.2 ⟨fun h => hnew (List.mem_cons_of_mem _ h), hnd.2⟩⟩
    intro h
    rcases List.mem_cons.1 h with h | h
    · exact hxd h.symm
    · exact hnd.1 h
  refine ⟨m1, hm1, ⟨hnd1, ?_, ?_⟩, f1, ?_⟩
  · intro k hk
    rcases List.mem_cons.1 hk with h | h
    · rw [h]; exact hd
    · rcases List.mem_cons.1 h with h | h
      · rw [h]; exact hx
      · exact hnz k (List.mem_cons_of_mem _ h)
  · cases xs with
    | nil =>
      have hnext : (m d)._next = d := hfirst
      rw [hnext] at f3 f4
      exact ⟨f1, f2, f3, f4⟩
    | cons y rest =>
      have hnext : (m d)._next = y := hfirst
      rw [hnext] at f3 f4 f6
      obtain ⟨_, _, hrest⟩ := hpath
      have hnd2 := List.nodup_cons.1 hnd
      have hnd3 := List.nodup_cons.1 hnd2.2
      refine ⟨f1, f2, f3, f4, path_congr m m1 rest y d ?_ ?_ hrest⟩
      · intro k hk
        refine f5 k (fun e => hnd2.1 (e ▸ hk)) (fun e => hnew ?_)
        rw [← e]
        exact List.mem_cons_of_mem _ hk
      · intro k hk
        rw [List.mem_append, List.mem_singleton] at hk
        rcases hk with h | h
        · refine f6 k (fun e => hnew ?_) (fun e => hnd3.1 (e ▸ h))
          rw [← e]
          exact List.mem_cons_of_mem _ (List.mem_cons_of_mem _ h)
        · rw [h]
          exact f6 d (Ne.symm hxd) (fun e => hnd2.1 (e ▸ List.mem_cons_self _ _))
  · intro k hk
    refine f7 k (fun e => hk (e ▸ List.mem_cons_self _ _))
      (fun e => hk (e ▸ List.mem_cons_of_mem _ (List.mem_cons_self _ _))) (fun e => hk ?_)
    rw [e]
    rcases List.mem_cons.1 hnmem with h | h
    · rw [h]; exact List.mem_cons_self _ _
    · exact List.mem_cons_of_mem _ (List.mem_cons_of_mem _ h)

theorem append_linked (m : Links) (d : Nat) (xs : List Nat)
    (hl : IntrusiveList.Linked m d xs) (x : Nat) (hx : x ≠ 0) (hnew : x ∉ d :: xs) :
    ∃ m1, IntrusiveList.append m d x = some m1 ∧ IntrusiveList.Linked m1 d (xs ++ [x]) ∧
      IntrusiveList.last m1 d = x ∧ (∀ k, k ∉ d :: x :: xs → m1 k = m k) := by
  obtain ⟨hnd, hnz, hpath⟩ := hl
  have hd : d ≠ 0 := hnz d (List.mem_cons_self _ _)
  have hxd : x ≠ d := fun e => hnew (e ▸ List.mem_cons_self _ _)
  have hlast := path_last m xs d d hpath
  have hpmem : (m d)._prev ∈ d :: xs := by
    rw [hlast]
    exact getLastD_mem xs d
  have hxp : x ≠ (m d)._prev := fun e => hnew (e ▸ hpmem)
  obtain ⟨m1, hm1, f1, f2, f3, f4, f5, f6, f7⟩ :=
    elem_prepend_facts m d x hd hx (hnz _ hpmem) hxd hxp
  have hnd2 := List.nodup_cons.1 hnd
  have hxs : x ∉ xs := fun h => hnew (List.mem_cons_of_mem _ h)
  have hnd1 : (d :: (xs ++ [x])).Nodup := by
    rw [List.nodup_cons]
    refine ⟨?_, ?_⟩
    · rw [List.mem_append, List.mem_singleton]
      rintro (h | h)
      · exact hnd2.1 h
      · exact hxd h.symm
    · rw [List.nodup_append]
      refine ⟨hnd2.2, List.nodup_singleton x, ?_⟩
      intro a ha hax
      rw [List.mem_singleton] at hax
      exact hxs (hax ▸ ha)
  refine ⟨m1, hm1, ⟨hnd1, ?_, ?_⟩, f1, ?_⟩
  · intro k hk
    rcases List.mem_cons.1 hk with h | h
    · rw [h]; exact hd
    · rw [List.mem_append, List.mem_singleton] at h
      rcases h with h | h
      · exact hnz k (List.mem_cons_of_mem _ h)
      · rw [h]; exact hx
  · rw [path_append m1 xs d x [] d]
    refine ⟨?_, f2, f1⟩
    rw [hlast] at f3 f4 f5
    refine path_retarget m m1 xs d d x hnd hpath ?_ f4 ?_ f3
    · intro k hk hne
      exact f5 k (fun e => hnew (e ▸ hk)) hne
    · intro k hk
      exact f6 k (fun e => hnd2.1 (e ▸ hk)) (fun e => hxs (e ▸ hk))
  · intro k hk
    refine f7 k (fun e => hk (e ▸ List.mem_cons_self _ _))
      (fun e => hk (e ▸ List.mem_cons_of_mem _ (List.mem_cons_self _ _))) (fun e => hk ?_)
    rw [e]
    rcases List.mem_cons.1 hpmem with h | h
    · rw [h]; exact List.mem_cons_self _ _
    · exact List.mem_cons_of_mem _ (List.mem_cons_of_mem _ h)

theorem remove_linked (m : Links) (d : Nat) (xs : List Nat)
    (hl : IntrusiveList.Linked m d xs) (x : Nat) (hmem : x ∈ xs) :
    ∃ b m1, IntrusiveList.remove m d x = some (b, m1) ∧
      IntrusiveList.Linked m1 d (xs.erase x) ∧ (b = true ↔ xs.erase x = []) ∧
      (∀ k, k ∉ d :: xs → m1 k = m k) := by
  obtain ⟨hnd, hnz, hpath⟩ := hl
  obtain ⟨l1, l2, rfl⟩ := List.append_of_mem hmem
  have hnd2 := List.nodup_cons.1 hnd
  obtain ⟨hnd3, hnd4, hdisj⟩ := List.nodup_append.1 hnd2.2
  obtain ⟨hx2, hnd5⟩ := List.nodup_cons.1 hnd4
  have hx1 : x ∉ l1 := fun h => hdisj h (List.mem_cons_self _ _)
  have hd1 : d ∉ l1 := fun h => hnd2.1 (List.mem_append_left _ h)
  have hd2 : d ∉ l2 := fun h => hnd2.1 (List.mem_append_right _ (List.mem_cons_of_mem _ h))
  have hxd : x ≠ d := fun e => hnd2.1 (e ▸ hmem)
  have h12 : ∀ k, k ∈ l1 → k ∉ l2 := fun k h1 h2 => hdisj h1 (List.mem_cons_of_mem _ h2)
  have herase : (l1 ++ x :: l2).erase x = l1 ++ l2 := by
    rw [List.erase_append_right _ hx1, List.erase_cons_head]
  rw [herase]
  obtain ⟨hpa, hpb⟩ := (path_append m l1 d x l2 d).1 hpath
  have hprev := path_last m l1 d x hpa
  have hnext := path_first m l2 x d hpb
  have hpmem : (m x)._prev ∈ d :: l1 := by
    rw [hprev]; exact getLastD_mem l1 d
  have hnmem : (m x)._next ∈ l2 ++ [d] := by
    rw [hnext]; exact headD_mem l2 d
  have hp0 : (m x)._prev ≠ 0 := by
    refine hnz _ ?_
    rcases List.mem_cons.1 hpmem with h | h
    · rw [h]; exact List.mem_cons_self _ _
    · exact List.mem_cons_of_mem _ (List.mem_append_left _ h)
  have hn0 : (m x)._next ≠ 0 := by
    refine hnz _ ?_
    rw [List.mem_append, List.mem_singleton] at hnmem
    rcases hnmem with h | h
    · exact List.mem_cons_of_mem _ (List.mem_append_right _ (List.mem_cons_of_mem _ h))
    · rw [h]; exact List.mem_cons_self _ _
  obtain ⟨m1, hm1, r1, r2, r3, r4, r5⟩ :=
    elem_remove_facts m x (hnz x (List.mem_cons_of_mem _ hmem)) hp0 hn0
  have hndA : (d :: l1).Nodup := List.nodup_cons.2 ⟨hd1, hnd3⟩
  have hnd1 : (d :: (l1 ++ l2)).Nodup := by
    rw [List.nodup_cons]
    refine ⟨?_, List.nodup_append.2 ⟨hnd3, hnd5, fun a h1 h2 => h12 a h1 h2⟩⟩
    rw [List.mem_append]
    rintro (h | h)
    · exact hd1 h
    · exact hd2 h
  refine ⟨_, m1, hm1, ⟨hnd1, ?_, ?_⟩, ?_, ?_⟩
  · intro k hk
    refine hnz k ?_
    rcases List.mem_cons.1 hk with h | h
    · rw [h]; exact List.mem_cons_self _ _
    · rw [List.mem_append] at h
      rcases h with h | h
      · exact List.mem_cons_of_mem _ (List.mem_append_left _ h)
      · exact List.mem_cons_of_mem _ (List.mem_append_right _ (List.mem_cons_of_mem _ h))
  · -- the links after the removal
    rw [hprev] at r1 r2 r3
    cases l2 with
    | nil =>
      have hnx : (m x)._next = d := hnext
      rw [hnx] at r1 r2 r4
      rw [List.append_nil]
      refine path_retarget m m1 l1 d x d hndA hpa (fun k _ hne => r3 k hne) r1 ?_ r2
      intro k hk
      exact r4 k (fun e => hd1 (e ▸ hk))
    | cons y rest =>
      have hnx : (m x)._next = y := hnext
      rw [hnx] at r1 r2 r4
      obtain ⟨_, _, hrest⟩ := hpb
      have hy1 : y ∉ l1 := fun h => h12 y h (List.mem_cons_self _ _)
      have hyd : y ≠ d := fun e => hd2 (e ▸ List.mem_cons_self _ _)
      have hndy := List.nodup_cons.1 hnd5
      rw [path_append m1 l1 d y rest d]
      refine ⟨path_retarget m m1 l1 d x y hndA hpa (fun k _ hne => r3 k hne) r1 ?_ r2,
        path_congr m m1 rest y d ?_ ?_ hrest⟩
      · intro k hk
        exact r4 k (fun e => hy1 (e ▸ hk))
      · intro k hk
        refine r3 k (fun e => ?_)
        have hk1 : k ∈ d :: l1 := e ▸ getLastD_mem l1 d
        rcases List.mem_cons.1 hk1 with h | h
        · exact hd2 (h ▸ hk)
        · exact h12 k h hk
      · intro k hk
        rw [List.mem_append, List.mem_singleton] at hk
        rcases hk with h | h
        · exact r4 k (fun e => hndy.1 (e ▸ h))
        · rw [h]; exact r4 d (Ne.symm hyd)
  · -- the value returned
    rw [decide_eq_true_iff, hprev, hnext]
    constructor
    · intro e
      cases l2 with
      | nil =>
        cases l1 with
        | nil => rfl
        | cons z l1' =>
          exfalso
          have h1 : (z :: l1').getLastD d ∈ z :: l1' := by
            rw [List.getLastD_cons]; exact getLastD_mem l1' z
          have e2 : d = (z :: l1').getLastD d := e
          exact hd1 (e2 ▸ h1)
      | cons y rest =>
        exfalso
        have e2 : y = l1.getLastD d := e
        have h1 := getLastD_mem l1 d
        rw [← e2] at h1
        rcases List.mem_cons.1 h1 with h | h
        · exact hd2 (h ▸ List.mem_cons_self _ _)
        · exact h12 y h (List.mem_cons_self _ _)
    · intro e
      obtain ⟨e1, e2⟩ := List.append_eq_nil.1 e
      rw [e1, e2]
      rfl
  · intro k hk
    refine r5 k (fun e => hk ?_) (fun e => hk ?_)
    · rw [e]
      rcases List.mem_cons.1 hpmem with h | h
      · rw [h]; exact List.mem_cons_self _ _
      · exact List.mem_cons_of_mem _ (List.mem_append_left _ h)
    · rw [e]
      rw [List.mem_append, List.mem_singleton] at hnmem
      rcases hnmem with h | h
      · exact List.mem_cons_of_mem _ (List.mem_append_right _ (List.mem_cons_of_mem _ h))
      · rw [h]; exact List.mem_cons_self _ _

theorem size_loop_path (m : Links) (d : Nat) :
    ∀ (xs : List Nat) (a sz fuel : Nat), IntrusiveList.Path m a xs d → d ∉ xs →
      (∀ k ∈ xs, k ≠ 0) → xs.length ≤ fuel →
      IntrusiveList.size_loop m d fuel (m a)._next sz = some (sz + xs.length) ∧
      IntrusiveList.elems m d fuel (m a)._next = some xs := by
  intro xs
  induction xs with
  | nil =>
    intro a sz fuel h _ _ _
    have h1 : (m a)._next = d := h.1
    rw [h1]
    cases fuel with
    | zero => simp only [IntrusiveList.size_loop, IntrusiveList.elems, if_true,
        List.length_nil, Nat.add_zero, and_self]
    | succ f => simp only [IntrusiveList.size_loop, IntrusiveList.elems, if_true,
        List.length_nil, Nat.add_zero, and_self]
  | cons y ys ih =>
    intro a sz fuel h hd hnz hf
    obtain ⟨h1, _, h3⟩ := h
    rw [h1]
    have hyd : y ≠ d := fun e => hd (e ▸ List.mem_cons_self _ _)
    have hy0 : y ≠ 0 := hnz y (List.mem_cons_self _ _)
    cases fuel with
    | zero => simp only [List.length_cons] at hf; omega
    | succ f =>
      obtain ⟨i1, i2⟩ := ih y (sz + 1) f h3 (fun h => hd (List.mem_cons_of_mem _ h))
        (fun k hk => hnz k (List.mem_cons_of_mem _ hk))
        (by simp only [List.length_cons] at hf; omega)
      simp only [IntrusiveList.size_loop, IntrusiveList.elems, if_neg hyd, if_neg hy0, i1, i2,
        List.length_cons, Option.map_some']
      exact ⟨by rw [Nat.add_assoc, Nat.add_comm 1], trivial⟩

theorem observers_linked (m : Links) (d : Nat) (xs : List Nat)
    (hl : IntrusiveList.Linked m d xs) :
    IntrusiveList.empty m d = SpanList.empty xs ∧
    (∀ fuel, xs.length ≤ fuel → IntrusiveList.size m d fuel = some (SpanList.size xs) ∧
      IntrusiveList.toList m d fuel = some xs) ∧
    (xs ≠ [] → SpanList.first xs = some (IntrusiveList.first m d) ∧
      SpanList.last xs = some (IntrusiveList.last m d)) := by
  obtain ⟨hnd, hnz, hpath⟩ := hl
  have hnd2 := List.nodup_cons.1 hnd
  have hfirst := path_first m xs d d hpath
  have hlast := path_last m xs d d hpath
  refine ⟨?_, fun fuel hf => ?_, fun hne => ?_⟩
  · unfold IntrusiveList.empty SpanList.empty
    rw [hfirst]
    cases xs with
    | nil => simp only [List.headD_nil, decide_True, List.isEmpty_nil]
    | cons y ys =>
      have hyd : y ≠ d := fun e => hnd2.1 (e ▸ List.mem_cons_self _ _)
      simp only [List.headD_cons, List.isEmpty_cons, decide_eq_false_iff_not]
      exact hyd
  · obtain ⟨h1, h2⟩ := size_loop_path m d xs d 0 fuel hpath hnd2.1
      (fun k hk => hnz k (List.mem_cons_of_mem _ hk)) hf
    unfold IntrusiveList.size IntrusiveList.toList SpanList.size
    rw [h1, h2, Nat.zero_add]
    exact ⟨rfl, rfl⟩
  · unfold SpanList.first SpanList.last IntrusiveList.first IntrusiveList.last
    rw [hfirst, hlast]
    cases xs with
    | nil => exact absurd rfl hne
    | cons y ys =>
      refine ⟨rfl, ?_⟩
      rw [List.getLast?_cons, List.getLastD_cons, List.getLastD_eq_getLast?]

/-- C28: an `IntrusiveList` is represented by the sequence of the elements that are linked
between its sentinel and the sentinel again (`IntrusiveList.Linked`; this is the sequence
that a traversal from `_dummy._next` along `_next` reaches, `IntrusiveList.toList`). A new
list has the empty sequence. For a list with the sequence `xs`: `prepend(x)` of a non-null
`x` that is neither the sentinel nor in the list returns and yields `x` followed by `xs`,
with `first() = x`; `append(x)` yields `xs` followed by `x`, with `last() = x`;
`remove(x)` of an element of the list yields `xs` without `x`, the others in their order,
and returns `true` exactly when the list is empty afterwards; `empty()` holds exactly when
`xs` is empty, `size()` returns the length of `xs` (the loop ends after that many steps),
and `first()` and `last()` of a non-empty list are the first and last element of `xs`. The
three updates write to no `Elem` other than the sentinel, the elements of the list and
`x`. The right-hand sides are the operations of the sequence model `SpanList`. -/
theorem C28_intrusive_list_sequence (m : Links) (d : Nat) (xs : List Nat)
    (hl : IntrusiveList.Linked m d xs) :
    (∀ (m0 : Links) (dummy : Nat), dummy ≠ 0 →
      IntrusiveList.Linked (IntrusiveList.new m0 dummy) dummy []) ∧
    (∀ x, x ≠ 0 → x ∉ d :: xs →
      ∃ m1, IntrusiveList.prepend m d x = some m1 ∧
        IntrusiveList.Linked m1 d (SpanList.prepend xs x) ∧ IntrusiveList.first m1 d = x ∧
        (∀ k, k ∉ d :: x :: xs → m1 k = m k)) ∧
    (∀ x, x ≠ 0 → x ∉ d :: xs →
      ∃ m1, IntrusiveList.append m d x = some m1 ∧
        IntrusiveList.Linked m1 d (SpanList.append xs x) ∧ IntrusiveList.last m1 d = x ∧
        (∀ k, k ∉ d :: x :: xs → m1 k = m k)) ∧
    (∀ x, x ∈ xs →
      ∃ b m1, IntrusiveList.remove m d x = some (b, m1) ∧
        IntrusiveList.Linked m1 d (SpanList.remove xs x) ∧
        SpanList.remove xs x = xs.filter (fun y => y != x) ∧
        (b = true ↔ SpanList.remove xs x = []) ∧ (∀ k, k ∉ d :: xs → m1 k = m k)) ∧
    IntrusiveList.empty m d = SpanList.empty xs ∧
    (∀ fuel, xs.length ≤ fuel → IntrusiveList.size m d fuel = some (SpanList.size xs) ∧
      IntrusiveList.toList m d fuel = some xs) ∧
    (xs ≠ [] → SpanList.first xs = some (IntrusiveList.first m d) ∧
      SpanList.last xs = some (IntrusiveList.last m d)) := by
  obtain ⟨o1, o2, o3⟩ := observers_linked m d xs hl
  refine ⟨linked_new, prepend_linked m d xs hl, append_linked m d xs hl, fun x hx => ?_,
    o1, o2, o3⟩
  obtain ⟨b, m1, h1, h2, h3, h4⟩ := remove_linked m d xs hl x hx
  exact ⟨b, m1, h1, h2, (List.nodup_cons.1 hl.1).2.erase_eq_filter x, h3, h4⟩

theorem demoLinks_linked : IntrusiveList.Linked demoLinks 100 [8, 16] := by
  refine ⟨by decide, by decide, ?_⟩
  simp only [IntrusiveList.Path]
  decide

/-- Witness for C28: the list with the sentinel at address 100 and the elements at 8 and
16; the element at 24 is prepended or appended, the element at 8 is removed. -/
theorem C28_intrusive_list_sequence_witness :
    IntrusiveList.Linked (IntrusiveList.new demoLinks 200) 200 [] ∧
    (∃ m1, IntrusiveList.prepend demoLinks 100 24 = some m1 ∧
      IntrusiveList.Linked m1 100 (SpanList.prepend [8, 16] 24) ∧
      IntrusiveList.first m1 100 = 24 ∧ (∀ k, k ∉ [100, 24, 8, 16] → m1 k = demoLinks k)) ∧
    (∃ m1, IntrusiveList.append demoLinks 100 24 = some m1 ∧
      IntrusiveList.Linked m1 100 (SpanList.append [8, 16] 24) ∧
      IntrusiveList.last m1 100 = 24 ∧ (∀ k, k ∉ [100, 24, 8, 16] → m1 k = demoLinks k)) ∧
    (∃ b m1, IntrusiveList.remove demoLinks 100 8 = some (b, m1) ∧
      IntrusiveList.Linked m1 100 (SpanList.remove [8, 16] 8) ∧
      SpanList.remove [8, 16] 8 = [8, 16].filter (fun y => y != 8) ∧
      (b = true ↔ SpanList.remove [8, 16] 8 = []) ∧
      (∀ k, k ∉ [100, 8, 16] → m1 k = demoLinks k)) ∧
    IntrusiveList.empty demoLinks 100 = SpanList.empty [8, 16] ∧
    (IntrusiveList.size demoLinks 100 2 = some (SpanList.size [8, 16]) ∧
      IntrusiveList.toList demoLinks 100 2 = some [8, 16]) ∧
    (SpanList.first [8, 16] = some (IntrusiveList.first demoLinks 100) ∧
      SpanList.last [8, 16] = some (IntrusiveList.last demoLinks 100)) :=
  ⟨(C28_intrusive_list_sequence demoLinks 100 [8, 16] demoLinks_linked).1 demoLinks 200
      (by decide),
    (C28_intrusive_list_sequence demoLinks 100 [8, 16] demoLinks_linked).2.1 24
      (by decide) (by decide),
    (C28_intrusive_list_sequence demoLinks 100 [8, 16] demoLinks_linked).2.2.1 24
      (by decide) (by decide),
    (C28_intrusive_list_sequence demoLinks 100 [8, 16] demoLinks_linked).2.2.2.1 8
      (by decide),
    (C28_intrusive_list_sequence demoLinks 100 [8, 16] demoLinks_linked).2.2.2.2.1,
    (C28_intrusive_list_sequence demoLinks 100 [8, 16] demoLinks_linked).2.2.2.2.2.1 2
      (by decide),
    (C28_intrusive_list_sequence demoLinks 100 [8, 16] demoLinks_linked).2.2.2.2.2.2
      (by decide)⟩

/-! ## The order of the mutexes -/

theorem rank_le (m : Mutex) : m.rank ≤ 2 := by
  cases m <;> simp [Mutex.rank]

theorem lock_run_append :
    ∀ (s t : List LockEvent) (held : List Mutex),
      LockEvent.run held (s ++ t) = (LockEvent.run held s).bind (fun h => LockEvent.run h t) := by
  intro s
  induction s with
  | nil => intro t held; rfl
  | cons e es ih =>
    intro t held
    cases e with
    | acquire m =>
      simp only [List.cons_append, LockEvent.run]
      split
      · exact ih t _
      · rfl
    | release m =>
      simp only [List.cons_append, LockEvent.run]
      split
      · exact ih t _
      · rfl

theorem lock_run_acquire (held : List Mutex) (m : Mutex) (es : List LockEvent) :
    LockEvent.run held (LockEvent.acquire m :: es) =
      if ∀ h ∈ held, h.rank < m.rank then LockEvent.run (m :: held) es else none := by
  simp only [LockEvent.run]

theorem lock_run_release (held : List Mutex) (m : Mutex) (es : List LockEvent) :
    LockEvent.run held (LockEvent.release m :: es) =
      if m ∈ held then LockEvent.run (held.erase m) es else none := by
  simp only [LockEvent.run]

/-- A skeleton whose guards are ordered performs only ordered acquisitions, and releases
what it has acquired. -/
theorem ordered_sound (s : Sync) (t : List LockEvent) (ht : Sync.Trace s t) :
    ∀ (lo : Nat) (held : List Mutex), Sync.ordered lo s = true →
      (∀ h ∈ held, h.rank < lo) → LockEvent.run held t = some held := by
  induction ht with
  | skip => intro lo held _ _; rfl
  | seq a b s t _ _ iha ihb =>
    intro lo held ho hh
    simp only [Sync.ordered, Bool.and_eq_true] at ho
    rw [lock_run_append, iha lo held ho.1 hh]
    exact ihb lo held ho.2 hh
  | altLeft a b s _ iha =>
    intro lo held ho hh
    simp only [Sync.ordered, Bool.and_eq_true] at ho
    exact iha lo held ho.1 hh
  | altRight a b t _ ihb =>
    intro lo held ho hh
    simp only [Sync.ordered, Bool.and_eq_true] at ho
    exact ihb lo held ho.2 hh
  | loopDone a => intro lo held _ _; rfl
  | loopStep a s t _ _ iha ihl =>
    intro lo held ho hh
    have ho1 : Sync.ordered lo a = true := by
      simp only [Sync.ordered] at ho
      exact ho
    rw [lock_run_append, iha lo held ho1 hh]
    exact ihl lo held ho hh
  | guard m a s _ iha =>
    intro lo held ho hh
    simp only [Sync.ordered, Bool.and_eq_true, decide_eq_true_eq] at ho
    have hall : ∀ h ∈ held, h.rank < m.rank := fun h hm => lt_of_lt_of_le (hh h hm) ho.1
    have hin : ∀ h ∈ m :: held, h.rank < m.rank + 1 := by
      intro h hm
      rcases List.mem_cons.1 hm with e | e
      · rw [e]; exact Nat.lt_succ_self _
      · exact Nat.lt_succ_of_lt (hall h e)
    rw [List.cons_append, lock_run_acquire, if_pos hall, lock_run_append,
      iha (m.rank + 1) (m :: held) ho.2 hin, Option.some_bind, lock_run_release,
      if_pos (List.mem_cons_self _ _), List.erase_cons_head]
    rfl

theorem destroy_loop_ordered :
    ∀ (cnt i : Nat), Sync.ordered 0 (Locks.ThreadCache.destroy_loop cnt i) = true := by
  intro cnt
  induction cnt with
  | zero => intro i; rfl
  | succ k ih =>
    intro i
    show (Sync.ordered 0 (Sync.alt Sync.skip (Locks.ThreadCache.return_to_central_cache i)) &&
      Sync.ordered 0 (Locks.ThreadCache.destroy_loop k (i + 1))) = true
    rw [ih (i + 1), Bool.and_true]
    rfl

/-- The guards of every entry function are ordered. -/
theorem entries_ordered (c : Nat) : ∀ s ∈ Locks.entries c, Sync.ordered 0 s = true := by
  intro s hs
  simp only [Locks.entries, List.mem_cons, List.mem_singleton, List.not_mem_nil, or_false] at hs
  rcases hs with h | h | h | h | h | h | h | h | h | h | h | h | h
  all_goals (rw [h]; rfl)

theorem program_ordered (calls : List Sync) (h : ∀ s ∈ calls, Sync.ordered 0 s = true) :
    Sync.ordered 0 (Locks.program calls) = true := by
  induction calls with
  | nil => rfl
  | cons s ss ih =>
    simp only [Locks.program, Sync.ordered, Bool.and_eq_true]
    exact ⟨h s (List.mem_cons_self _ _), ih (fun x hx => h x (List.mem_cons_of_mem _ hx))⟩

/-- A thread is in order: it can perform the operations it has yet to perform without
taking a mutex out of order, and it holds no mutex at the end. -/
theorem step_keeps_order (ts ts1 : List LockThread) (hs : Locks.Step ts ts1)
    (h : ∀ th ∈ ts, LockEvent.run th.held th.todo = some []) :
    ∀ th ∈ ts1, LockEvent.run th.held th.todo = some [] := by
  cases hs with
  | acquire pre post held m es hfree hown =>
    intro th hth
    rw [List.mem_append, List.mem_cons] at hth
    rcases hth with e | e | e
    · exact h th (List.mem_append_left _ e)
    · have h1 := h ⟨held, LockEvent.acquire m :: es⟩
        (List.mem_append_right _ (List.mem_cons_self _ _))
      simp only [LockEvent.run] at h1
      split at h1
      · rw [e]; exact h1
      · cases h1
    · exact h th (List.mem_append_right _ (List.mem_cons_of_mem _ e))
  | release pre post held m es =>
    intro th hth
    rw [List.mem_append, List.mem_cons] at hth
    rcases hth with e | e | e
    · exact h th (List.mem_append_left _ e)
    · have h1 := h ⟨held, LockEvent.release m :: es⟩
        (List.mem_append_right _ (List.mem_cons_self _ _))
      simp only [LockEvent.run] at h1
      split at h1
      · rw [e]; exact h1
      · cases h1
    · exact h th (List.mem_append_right _ (List.mem_cons_of_mem _ e))

theorem reach_keeps_order (ts0 ts : List LockThread)
    (hr : Relation.ReflTransGen Locks.Step ts0 ts)
    (h : ∀ th ∈ ts0, LockEvent.run th.held th.todo = some []) :
    ∀ th ∈ ts, LockEvent.run th.held th.todo = some [] := by
  induction hr with
  | refl => exact h
  | tail _ hs ih => exact step_keeps_order _ _ hs ih

/-- A thread that waits for a mutex is not the end of the story: some thread can move. -/
theorem progress_acquire (ts : List LockThread)
    (h : ∀ th ∈ ts, LockEvent.run th.held th.todo = some []) :
    ∀ (n : Nat) (th : LockThread), th ∈ ts → ∀ (m : Mutex) (es : List LockEvent),
      th.todo = LockEvent.acquire m :: es → 2 - m.rank ≤ n → ∃ ts1, Locks.Step ts ts1 := by
  intro n
  induction n with
  | zero =>
    intro th hth m es htodo hn
    by_cases hfree : ∀ u ∈ ts, m ∉ u.held
    · obtain ⟨pre, post, rfl⟩ := List.append_of_mem hth
      obtain ⟨held, todo⟩ := th
      simp only at htodo
      subst htodo
      exact ⟨_, Locks.Step.acquire pre post held m es
        (fun u hu => hfree u (by
          rw [List.mem_append] at hu ⊢
          exact hu.elim Or.inl (fun x => Or.inr (List.mem_cons_of_mem _ x))))
        (hfree _ (List.mem_append_right _ (List.mem_cons_self _ _)))⟩
    · simp only [not_forall, not_not] at hfree
      obtain ⟨u, hu, hm⟩ := hfree
      have hgu := h u hu
      obtain ⟨pre, post, rfl⟩ := List.append_of_mem hu
      obtain ⟨held, todo⟩ := u
      simp only at hm hgu
      cases todo with
      | nil =>
        simp only [LockEvent.run, Option.some.injEq] at hgu
        rw [hgu] at hm
        cases hm
      | cons e es2 =>
        cases e with
        | release m2 => exact ⟨_, Locks.Step.release pre post held m2 es2⟩
        | acquire m2 =>
          simp only [LockEvent.run] at hgu
          split at hgu
          · rename_i hall
            have := hall m hm
            have := rank_le m2
            omega
          · cases hgu
  | succ k ih =>
    intro th hth m es htodo hn
    by_cases hfree : ∀ u ∈ ts, m ∉ u.held
    · obtain ⟨pre, post, rfl⟩ := List.append_of_mem hth
      obtain ⟨held, todo⟩ := th
      simp only at htodo
      subst htodo
      exact ⟨_, Locks.Step.acquire pre post held m es
        (fun u hu => hfree u (by
          rw [List.mem_append] at hu ⊢
          exact hu.elim Or.inl (fun x => Or.inr (List.mem_cons_of_mem _ x))))
        (hfree _ (List.mem_append_right _ (List.mem_cons_self _ _)))⟩
    · simp only [not_forall, not_not] at hfree
      obtain ⟨u, hu, hm⟩ := hfree
      have hgu := h u hu
      cases htu : u.todo with
      | nil =>
        rw [htu] at hgu
        simp only [LockEvent.run, Option.some.injEq] at hgu
        rw [hgu] at hm
        cases hm
      | cons e es2 =>
        cases e with
        | release m2 =>
          obtain ⟨pre, post, rfl⟩ := List.append_of_mem hu
          obtain ⟨held, todo⟩ := u
          simp only at htu
          subst htu
          exact ⟨_, Locks.Step.release pre post held m2 es2⟩
        | acquire m2 =>
          rw [htu] at hgu
          simp only [LockEvent.run] at hgu
          split at hgu
          · rename_i hall
            have := hall m hm
            have := rank_le m2
            exact ih u hu m2 es2 htu (by omega)
          · cases hgu

/-- In a system whose threads are in order, some thread can move unless all are done. -/
theorem progress (ts : List LockThread)
    (h : ∀ th ∈ ts, LockEvent.run th.held th.todo = some []) :
    (∀ th ∈ ts, th.todo = []) ∨ ∃ ts1, Locks.Step ts ts1 := by
  by_cases hdone : ∀ th ∈ ts, th.todo = []
  · exact Or.inl hdone
  · right
    simp only [not_forall] at hdone
    obtain ⟨th, hth, hne⟩ := hdone
    cases htodo : th.todo with
    | nil => exact absurd htodo hne
    | cons e es =>
      cases e with
      | acquire m => exact progress_acquire ts h (2 - m.rank) th hth m es htodo (le_refl _)
      | release m =>
        obtain ⟨pre, post, rfl⟩ := List.append_of_mem hth
        obtain ⟨held, todo⟩ := th
        simp only at htodo
        subst htodo
        exact ⟨_, Locks.Step.release pre post held m es⟩

/-- C21: the mutexes are ranked Central-Cache class lock (0), Page-Heap lock (1), Page-Map
lock (2). For every sequence of calls of the entry functions of the allocator (the public
functions and destructors of the Thread Cache, the Central Cache, the Page Heap and the
Page Map, for any size classes), every sequence of mutex operations that a run of these
calls performs takes a mutex only while all the mutexes the thread holds have a lower rank,
releases only mutexes it holds, and ends with no mutex held. So when any number of threads
each make such calls, in every state the system reaches every thread is still in order,
and either every thread has finished or some thread can perform its next mutex operation:
there is no deadlock. -/
theorem C21_lock_order (calls : List Sync) (hcalls : ∀ s ∈ calls, ∃ c, s ∈ Locks.entries c) :
    (∀ c, (Mutex.central c).rank < Mutex.pageHeap.rank ∧
      Mutex.pageHeap.rank < Mutex.pageMap.rank) ∧
    (∀ t, Sync.Trace (Locks.program calls) t → LockEvent.run [] t = some []) ∧
    (∀ ts0 ts : List LockThread,
      (∀ th ∈ ts0, th.held = [] ∧ ∃ cs : List Sync,
        (∀ s ∈ cs, ∃ c, s ∈ Locks.entries c) ∧ Sync.Trace (Locks.program cs) th.todo) →
      Relation.ReflTransGen Locks.Step ts0 ts →
      (∀ th ∈ ts, LockEvent.run th.held th.todo = some []) ∧
      ((∀ th ∈ ts, th.todo = []) ∨ ∃ ts1, Locks.Step ts ts1)) := by
  have hprog : ∀ cs : List Sync, (∀ s ∈ cs, ∃ c, s ∈ Locks.entries c) →
      ∀ t, Sync.Trace (Locks.program cs) t → LockEvent.run [] t = some [] := by
    intro cs hcs t ht
    refine ordered_sound _ t ht 0 [] (program_ordered cs ?_) (fun h hh => by cases hh)
    intro s hs
    obtain ⟨c, hc⟩ := hcs s hs
    exact entries_ordered c s hc
  refine ⟨fun c => ⟨Nat.zero_lt_one, Nat.lt_succ_self 1⟩, hprog calls hcalls,
    fun ts0 ts h0 hr => ?_⟩
  have hgood : ∀ th ∈ ts, LockEvent.run th.held th.todo = some [] := by
    refine reach_keeps_order ts0 ts hr ?_
    intro th hth
    obtain ⟨hheld, cs, hcs, htr⟩ := h0 th hth
    rw [hheld]
    exact hprog cs hcs _ htr
  exact ⟨hgood, progress ts hgood⟩

theorem demoTrace_ok : Sync.Trace (Locks.program [Locks.ThreadCache.alloc 3]) demoTrace := by
  have hinsert : Sync.Trace Locks.PageMap.insert
      [LockEvent.acquire Mutex.pageMap, LockEvent.release Mutex.pageMap] :=
    Sync.Trace.guard Mutex.pageMap Sync.skip [] Sync.Trace.skip
  have hidle : Sync.Trace Locks.PageHeap.create_span
      [LockEvent.acquire Mutex.pageMap, LockEvent.release Mutex.pageMap] :=
    Sync.Trace.seq _ _ _ [] hinsert (Sync.Trace.altLeft _ _ _ Sync.Trace.skip)
  have husing : Sync.Trace Locks.PageHeap.create_span
      [LockEvent.acquire Mutex.pageMap, LockEvent.release Mutex.pageMap] :=
    Sync.Trace.seq _ _ _ [] hinsert (Sync.Trace.altRight _ _ _ Sync.Trace.skip)
  have hfetch : Sync.Trace Locks.PageHeap.fetch_from_system
      [LockEvent.acquire Mutex.pageMap, LockEvent.release Mutex.pageMap] :=
    Sync.Trace.seq _ _ [] _ Sync.Trace.skip (Sync.Trace.altRight _ _ _ hidle)
  have hcarve : Sync.Trace Locks.PageHeap.carve
      [LockEvent.acquire Mutex.pageMap, LockEvent.release Mutex.pageMap] :=
    Sync.Trace.seq _ _ [] _ Sync.Trace.skip
      (Sync.Trace.altRight _ _ _ (Sync.Trace.seq _ _ [] _ Sync.Trace.skip husing))
  have hheap : Sync.Trace Locks.PageHeap.alloc
      [LockEvent.acquire Mutex.pageHeap,
       LockEvent.acquire Mutex.pageMap, LockEvent.release Mutex.pageMap,
       LockEvent.acquire Mutex.pageMap, LockEvent.release Mutex.pageMap,
       LockEvent.release Mutex.pageHeap] :=
    Sync.Trace.guard Mutex.pageHeap _ _
      (Sync.Trace.seq _ _ [] _ (Sync.Trace.loopDone _)
        (Sync.Trace.seq _ _ [] _ (Sync.Trace.altRight _ _ _ Sync.Trace.skip)
          (Sync.Trace.seq _ _ _ _ (Sync.Trace.altLeft _ _ _ hfetch)
            (Sync.Trace.altRight _ _ _ hcarve))))
  have hpage : Sync.Trace Locks.CentralCache.fetch_from_page_heap
      [LockEvent.acquire Mutex.pageHeap,
       LockEvent.acquire Mutex.pageMap, LockEvent.release Mutex.pageMap,
       LockEvent.acquire Mutex.pageMap, LockEvent.release Mutex.pageMap,
       LockEvent.release Mutex.pageHeap] :=
    Sync.Trace.seq _ _ _ [] (Sync.Trace.loopStep _ _ [] hheap (Sync.Trace.loopDone _))
      (Sync.Trace.loopDone _)
  have hcentral : Sync.Trace (Locks.CentralCache.alloc 3) demoTrace :=
    Sync.Trace.altRight _ _ _ (Sync.Trace.guard (Mutex.central 3) _ _
      (Sync.Trace.seq _ _ [] _ (Sync.Trace.loopDone _) (Sync.Trace.altLeft _ _ _ hpage)))
  exact Sync.Trace.seq _ _ _ [] (Sync.Trace.altRight _ _ _ hcentral) Sync.Trace.skip

theorem demoCalls_entries :
    ∀ s ∈ [Locks.ThreadCache.alloc 3], ∃ c, s ∈ Locks.entries c := by
  intro s hs
  rw [List.mem_singleton] at hs
  exact ⟨3, hs ▸ List.mem_cons_self _ _⟩

/-- Witness for C21: two threads that each run `ThreadCache::alloc(3)` with a refill that
reaches the Page Heap and the Page Map. -/
theorem C21_lock_order_witness :
    LockEvent.run [] demoTrace = some [] ∧
    ((∀ th ∈ [LockThread.mk [] demoTrace, LockThread.mk [] demoTrace],
        LockEvent.run th.held th.todo = some []) ∧
      ((∀ th ∈ [LockThread.mk [] demoTrace, LockThread.mk [] demoTrace], th.todo = []) ∨
        ∃ ts1, Locks.Step [LockThread.mk [] demoTrace, LockThread.mk [] demoTrace] ts1)) :=
  ⟨(C21_lock_order [Locks.ThreadCache.alloc 3] demoCalls_entries).2.1 demoTrace demoTrace_ok,
    (C21_lock_order [Locks.ThreadCache.alloc 3] demoCalls_entries).2.2
      [LockThread.mk [] demoTrace, LockThread.mk [] demoTrace]
      [LockThread.mk [] demoTrace, LockThread.mk [] demoTrace]
      (fun th hth => by
        rw [List.mem_cons, List.mem_singleton] at hth
        rcases hth with e | e
        · exact ⟨by rw [e], [Locks.ThreadCache.alloc 3], demoCalls_entries,
            by rw [e]; exact demoTrace_ok⟩
        · exact ⟨by rw [e], [Locks.ThreadCache.alloc 3], demoCalls_entries,
            by rw [e]; exact demoTrace_ok⟩)
      Relation.ReflTransGen.refl⟩

/-! ## `Span::init_free_list` and the span objects that `PageHeap::alloc` returns -/

/-- `Span::init_free_list` on any span: the counters are set from the bytes of the span,
and the slots are pushed in front of whatever the free list holds. -/
theorem init_free_list_eq (s : Span) (sz : Nat) (hsz : 1 ≤ sz) :
    ∃ s1, s.init_free_list sz = some s1 ∧ s1._allocated = 0 ∧
      s1._total = s._num_pages * Page.SIZE / sz ∧
      s1._first_page = s._first_page ∧ s1._num_pages = s._num_pages ∧
      s1._status = s._status ∧
      s1._list.size = s._list.size + s1._total ∧
      s1._list._list =
        ((List.range s1._total).map (fun i => s.start_addr + i * sz)).reverse ++
          s._list._list := by
  have hbytes : s.end_addr - s.start_addr = s._num_pages * Page.SIZE := by
    rw [span_end_addr_eq, page_SIZE_eq]; omega
  obtain ⟨h1, h2⟩ := push_slots_eq sz ((s.end_addr - s.start_addr) / sz) s.start_addr s._list
  unfold Span.init_free_list
  rw [if_neg (by omega)]
  refine ⟨_, rfl, rfl, ?_, rfl, rfl, rfl, ?_, ?_⟩
  · show (s.end_addr - s.start_addr) / sz = _
    rw [hbytes]
  · exact h2
  · exact h1

/-- `Span::init_free_list` on a span whose free list is empty. -/
theorem init_free_list_fresh (u : Span) (sz : Nat) (hsz : 1 ≤ sz)
    (hl : u._list = FreeList.new) :
    ∃ s1, u.init_free_list sz = some s1 ∧ s1._allocated = 0 ∧
      s1._total = u._num_pages * Page.SIZE / sz ∧ s1._list.size = s1._total ∧
      s1._list._list.Nodup ∧
      (∀ p, p ∈ s1._list._list ↔ ∃ i, i < s1._total ∧ p = u.start_addr + i * sz) ∧
      (∀ p ∈ s1._list._list, u.start_addr ≤ p ∧ p + sz ≤ u.end_addr) ∧
      (∀ p ∈ s1._list._list, ∀ q ∈ s1._list._list, p ≠ q → p + sz ≤ q ∨ q + sz ≤ p) := by
  obtain ⟨s1, he, ha, ht, hf, hn, _, hs, hlist⟩ := init_free_list_eq u sz hsz
  have hlist1 : s1._list._list =
      ((List.range s1._total).map (fun i => u.start_addr + i * sz)).reverse := by
    rw [hlist, hl]; simp [FreeList.new]
  have hmem : ∀ p, p ∈ s1._list._list ↔ ∃ i, i < s1._total ∧ p = u.start_addr + i * sz := by
    intro p
    rw [hlist1]
    simp only [List.mem_reverse, List.mem_map, List.mem_range]
    constructor
    · rintro ⟨i, hi, rfl⟩; exact ⟨i, hi, rfl⟩
    · rintro ⟨i, hi, rfl⟩; exact ⟨i, hi, rfl⟩
  have hstart : s1.start_addr = u.start_addr := by
    rw [span_start_addr_eq, span_start_addr_eq, hf]
  have hend : s1.end_addr = u.end_addr := by
    rw [span_end_addr_eq, span_end_addr_eq, hstart, hn]
  have hfit : s1._total * sz ≤ s1._num_pages * Page.SIZE := by
    rw [ht, hn]; exact Nat.div_mul_le_self _ _
  have hslot : ∀ p, p ∈ s1._list._list → s1.slot sz p := by
    intro p hp
    obtain ⟨i, hi, rfl⟩ := (hmem p).1 hp
    exact ⟨i, hi, by rw [hstart]⟩
  refine ⟨s1, he, ha, ht, ?_, ?_, hmem, ?_, ?_⟩
  · rw [hs, hl]; simp [FreeList.new, FreeList.size]
  · rw [hlist1, List.nodup_reverse]
    refine List.Nodup.map_on ?_ (List.nodup_range _)
    intro i _ j _ hij
    exact slot_inj u sz hsz i j hij
  · intro p hp
    have := slot_contains s1 sz hfit p (hslot p hp)
    rw [hstart, hend] at this
    exact this
  · intro p hp q hq hpq
    exact slot_apart s1 sz p q (hslot p hp) (hslot q hq) hpq

set_option maxRecDepth 1000000 in
/-- The calls `callsReuse` return, and leave the state `stateReuse`. -/
theorem run_callsReuse :
    CentralCache.run demoOS demoClasses callsReuse (World.new, []) = some stateReuse :=
  getD_of_isSome (CentralCache.run demoOS demoClasses callsReuse (World.new, []))
    (World.new, []) (by decide)

set_option maxRecDepth 1000000 in
/-- C31: `Span::init_free_list(size_obj)` sets `_allocated = 0` and
`_total = span bytes / size_obj` and pushes the slots `start_addr + i * size_obj`, `i < _total`,
in front of whatever the free list of the span object holds; it does not empty the list. For
a request of at most 128 pages `PageHeap::alloc` returns, and the span it returns is a newly
constructed object with an empty free list, so that `init_free_list` leaves free-list
size = `_total`, the list holding exactly the slots, which are pairwise non-overlapping and
inside the span. A request of more than 128 pages can be served by an exact-size carve that
hands out an existing span object. After `callsReuse` (a state meeting the Page Heap
invariant) `PageHeap::alloc(256)` returns the span object `spanReuse`, which was initialised
for class 83, went back to the Page Heap and absorbed its left neighbour: its free list
holds twelve objects, and `init_free_list(262144)` makes that 20 entries for `_total = 8`.
With the table `demoClasses256`, whose class 84 has spans of 256 pages, the Central Cache
itself receives this span: after one allocation of class 84 the span has `_allocated = 1`,
`_total = 8` and 19 free-list entries, and eight more allocations hand out, besides the seven
remaining slots, the old object `objectAt 0` of class 83, which lies inside the slot
handed out first, leaving `_allocated = 9` above `_total = 8`. -/
theorem C31_init_free_list_keeps_old_objects :
    (∀ (s : Span) (sz : Nat), 1 ≤ sz →
      ∃ s1, s.init_free_list sz = some s1 ∧ s1._allocated = 0 ∧
        s1._total = s._num_pages * Page.SIZE / sz ∧
        s1._list.size = s._list.size + s1._total ∧
        s1._list._list =
          ((List.range s1._total).map (fun i => s.start_addr + i * sz)).reverse ++
            s._list._list) ∧
    (∀ (os : OS) (w : World) (n : Nat), OS.Sane os → HeapInv os w → 1 ≤ n → n ≤ 128 →
      ∃ r w1, PageHeap.alloc os w n = some (r, w1) ∧
        ∀ a, r = some a → ∃ u ∈ w1.pm, u.start_addr = a ∧ u._num_pages = n ∧
          u._list = FreeList.new ∧
          ∀ sz, 1 ≤ sz → ∃ s1, u.init_free_list sz = some s1 ∧ s1._allocated = 0 ∧
            s1._total = n * Page.SIZE / sz ∧ s1._list.size = s1._total ∧
            s1._list._list.Nodup ∧
            (∀ p, p ∈ s1._list._list ↔ ∃ i, i < s1._total ∧ p = u.start_addr + i * sz) ∧
            (∀ p ∈ s1._list._list, u.start_addr ≤ p ∧ p + sz ≤ u.end_addr) ∧
            (∀ p ∈ s1._list._list, ∀ q ∈ s1._list._list, p ≠ q →
              p + sz ≤ q ∨ q + sz ≤ p)) ∧
    CentralCache.run demoOS demoClasses callsReuse (World.new, []) = some stateReuse ∧
    HeapInv demoOS stateReuse.1 ∧
    stateReuse.2 = [] ∧
    (PageHeap.alloc demoOS stateReuse.1 256).map (fun r => (r.1, r.2.pm)) =
      some (some spanReuse.start_addr, [spanReuse]) ∧
    spanReuse._list.size = 12 ∧
    (spanReuse.init_free_list 262144).map (fun s => (s._allocated, s._total, s._list.size)) =
      some (0, 8, 20) ∧
    (CentralCache.run demoOS demoClasses256 callsStale1 (World.new, [])).map
        (fun st => st.1.counters) = some [(spanReuse.start_addr, 256, 1, 8, 19)] ∧
    (CentralCache.run demoOS demoClasses256 callsStale1 (World.new, [])).map Prod.snd =
      some [(spanReuse.start_addr + 7 * 262144, 84)] ∧
    (CentralCache.run demoOS demoClasses256 callsStale (World.new, [])).map
        (fun st => st.1.counters) = some [(spanReuse.start_addr, 256, 9, 8, 11)] ∧
    (CentralCache.run demoOS demoClasses256 callsStale (World.new, [])).map
        (fun st => st.2.map Prod.fst) =
      some ((List.range 7).map (fun i => spanReuse.start_addr + (6 - i) * 262144) ++
        [objectAt 0, spanReuse.start_addr + 7 * 262144]) ∧
    spanReuse.start_addr + 7 * 262144 ≤ objectAt 0 ∧
    objectAt 0 + 664 ≤ spanReuse.start_addr + 7 * 262144 + 262144 := by
  refine ⟨?_, ?_, run_callsReuse, ?_, by decide, by decide, by decide, by decide, by decide,
    by decide, by decide, by decide, by decide, by decide⟩
  · intro s sz hsz
    obtain ⟨s1, he, ha, ht, _, _, _, hs, hl⟩ := init_free_list_eq s sz hsz
    exact ⟨s1, he, ha, ht, hs, hl⟩
  · intro os w n hos hi hn1 hn
    obtain ⟨r, w1, h⟩ := alloc_total os hos w hi n hn1 hn
    refine ⟨r, w1, h, ?_⟩
    intro a hr
    obtain ⟨_, _, hcase⟩ := alloc_ok os hos w hi n hn1 r w1 h
    rcases hcase with ⟨hnone, _⟩ | ⟨u, hu, hmem, _, hpages, hfresh, _⟩
    · rw [hnone] at hr; cases hr
    · rw [hu] at hr
      refine ⟨u, hmem, (Option.some.inj hr), hpages, (hfresh hn).1, ?_⟩
      intro sz hsz
      have := init_free_list_fresh u sz hsz (hfresh hn).1
      rw [hpages] at this
      exact this
  · obtain ⟨cls1, hinv⟩ := central_run_inv demoOS demoOS_sane demoClasses demoClasses_classesOk
      callsReuse (World.new, []) (fun _ => 0)
      (centralInv_new demoOS demoClasses _ _ (fun p c hpc => by cases hpc)) stateReuse
      run_callsReuse
    exact hinv.heap

/-- Witness for C31: `init_free_list` for objects of 262144 bytes on the span `spanReuse`,
and a request of one page to a fresh Page Heap on `demoOS`. -/
theorem C31_init_free_list_keeps_old_objects_witness :
    (∃ s1, spanReuse.init_free_list 262144 = some s1 ∧ s1._allocated = 0 ∧
        s1._total = spanReuse._num_pages * Page.SIZE / 262144 ∧
        s1._list.size = spanReuse._list.size + s1._total ∧
        s1._list._list =
          ((List.range s1._total).map (fun i => spanReuse.start_addr + i * 262144)).reverse ++
            spanReuse._list._list) ∧
    (∃ r w1, PageHeap.alloc demoOS World.new 1 = some (r, w1) ∧
        ∀ a, r = some a → ∃ u ∈ w1.pm, u.start_addr = a ∧ u._num_pages = 1 ∧
          u._list = FreeList.new ∧
          ∀ sz, 1 ≤ sz → ∃ s1, u.init_free_list sz = some s1 ∧ s1._allocated = 0 ∧
            s1._total = 1 * Page.SIZE / sz ∧ s1._list.size = s1._total ∧
            s1._list._list.Nodup ∧
            (∀ p, p ∈ s1._list._list ↔ ∃ i, i < s1._total ∧ p = u.start_addr + i * sz) ∧
            (∀ p ∈ s1._list._list, u.start_addr ≤ p ∧ p + sz ≤ u.end_addr) ∧
            (∀ p ∈ s1._list._list, ∀ q ∈ s1._list._list, p ≠ q →
              p + sz ≤ q ∨ q + sz ≤ p)) :=
  ⟨C31_init_free_list_keeps_old_objects.1 spanReuse 262144 (by decide),
    C31_init_free_list_keeps_old_objects.2.1 demoOS World.new 1 demoOS_sane
      (heapInv_new demoOS) (by decide) (by decide)⟩

end MemoryPool
